import Mathlib

/-!
# SearchServer: a shallow embedding of the indexing and retrieval engine

The development follows `search_server.h`, `search_server.cpp`,
`string_processing.{h,cpp}` and `concurrent_map.h`, and the collaborators
`remove_duplicates.cpp`, `request_queue.{h,cpp}` and `paginator.h`.

Modelling conventions.

* `std::string` and `std::string_view` are lists of characters, compared by value
  (`Str`).  A byte `b` of the program is the character with code `b`; the order on
  `Str` is the lexicographic order on codes, as `std::char_traits<char>` compares.
* A key of `word_to_document_freqs_` is a `std::string_view` into the stored text of a
  document.  `SearchServer` holds the key with the characters it had when it was
  inserted; `ViewIndex` adds the document into whose text every key points, and so tells
  the keys whose text is still stored (`KeysLive`) from those that point into a text that
  `RemoveDocument` has erased (`Dangling`).  What the program reads behind a dangling key
  is not modelled.
* `int` is `Int`; the program does no arithmetic on document ids, and the sum in
  `ComputeAverageRating` is assumed to fit.  `ComputeAverageRatingInt32` is the same
  computation with every result reduced to 32 bits.
* `double` is an arbitrary linearly ordered field `F` with exact arithmetic, and
  `std::log` is a parameter `log : F → F`.  The rounding of the term frequencies is
  modelled apart: `AddDocumentWith` takes the arithmetic as a parameter
  (`DoubleArith`), and `Binary64` is the arithmetic of IEEE 754 binary64 with rounding
  to nearest, ties to even.
* `std::sort` is the insertion sort `stdSort`.  Where the order of equivalent elements
  matters the sort is a parameter of which only what the standard says is assumed
  (`SortsBy`).
* `std::map` and `std::set` are association lists kept in ascending key order
  (`OrdMap`, `OrdSet`); iteration is list order.  `std::unordered_map` is the same
  structure, since the program never iterates over it.
* A C++ exception is a value of `Exception`; a method that mutates the server
  before it throws returns the state it leaves behind next to the outcome.
* Parallel algorithms (`std::execution::par`) are executed in iteration order in
  `FindAllDocumentsPar`, `MatchDocumentPar` and `RemoveDocumentPar`.  In
  `FindAllDocumentsParWith` the threads of the two `for_each` interleave as a schedule
  says (`LockedMap.forEach`).
* The mutexes of `ConcurrentMap` are modelled apart from its contents, by `LockedMap`:
  threads that interleave step by step, a `std::lock_guard` taking its mutex in one
  step when the mutex is free and keeping it until the critical section ends.
-/

/-! ## Part I. Definitions -/

/-- Exceptions raised by the program: `std::invalid_argument` by the server itself,
`std::out_of_range` by `std::map::at`. -/
inductive Exception where
  | invalid_argument
  | out_of_range
deriving DecidableEq, Repr

/-- A `std::string` (or `std::string_view`) by value. -/
abbrev Str := List Char

/-- A `std::map<K, V>`: the entries in ascending key order. -/
abbrev OrdMap (K V : Type) := List (K × V)

/-- A `std::set<K>`: the elements in ascending order. -/
abbrev OrdSet (K : Type) := List K

namespace OrdMap

variable {K V : Type}

/-- The value stored under `k`, as `std::map::find` gives it. -/
def find [LinearOrder K] : OrdMap K V → K → Option V
  | [], _ => none
  | (k', v) :: rest, k => if k' = k then some v else find rest k

/-- The number of entries under `k` (0 or 1), `std::map::count`. -/
def count [LinearOrder K] (m : OrdMap K V) (k : K) : Nat :=
  if (m.find k).isSome then 1 else 0

/-- Store `v` under `k`, replacing the value of an existing entry and keeping the
keys in ascending order (`m[k] = v`). -/
def assign [LinearOrder K] : OrdMap K V → K → V → OrdMap K V
  | [], k, v => [(k, v)]
  | (k', v') :: rest, k, v =>
    if k < k' then (k, v) :: (k', v') :: rest
    else if k = k' then (k, v) :: rest
    else (k', v') :: assign rest k v

/-- `std::map::emplace`: insert unless the key is already present. -/
def emplace [LinearOrder K] (m : OrdMap K V) (k : K) (v : V) : OrdMap K V :=
  if (m.find k).isSome then m else m.assign k v

/-- Apply `f` to the value referenced by `m[k]`; `operator[]` first inserts the
value-initialised `dflt` when `k` is absent. -/
def modify [LinearOrder K] (m : OrdMap K V) (k : K) (dflt : V) (f : V → V) : OrdMap K V :=
  m.assign k (f ((m.find k).getD dflt))

/-- `std::map::erase(key)`. -/
def erase [LinearOrder K] (m : OrdMap K V) (k : K) : OrdMap K V :=
  m.filter (fun e => decide (e.1 ≠ k))

/-- `std::map::at`: throws `std::out_of_range` for a missing key. -/
def at_ [LinearOrder K] (m : OrdMap K V) (k : K) : Except Exception V :=
  match m.find k with
  | some v => .ok v
  | none => .error .out_of_range

/-- `std::map::size`. -/
def size (m : OrdMap K V) : Nat := m.length

/-- The keys in iteration order. -/
def keys (m : OrdMap K V) : List K := m.map Prod.fst

/-- Well-formedness: the keys are strictly ascending. -/
def WF [LT K] (m : OrdMap K V) : Prop := m.keys.Pairwise (· < ·)

end OrdMap

namespace OrdSet

variable {K : Type}

/-- `std::set::insert`. -/
def insert [LinearOrder K] : OrdSet K → K → OrdSet K
  | [], k => [k]
  | k' :: rest, k =>
    if k < k' then k :: k' :: rest
    else if k = k' then k' :: rest
    else k' :: insert rest k

/-- `std::set::erase(key)`. -/
def erase [LinearOrder K] (s : OrdSet K) (k : K) : OrdSet K :=
  s.filter (fun e => decide (e ≠ k))

/-- `std::set::count`. -/
def count [LinearOrder K] (s : OrdSet K) (k : K) : Nat :=
  if k ∈ s then 1 else 0

/-- Well-formedness: the elements are strictly ascending. -/
def WF [LT K] (s : OrdSet K) : Prop := s.Pairwise (· < ·)

end OrdSet

/-! ### string_processing -/

/-- `SplitIntoWords`: the loop cuts the text at every space and pushes each slice,
empty ones included; the slice after the last space (the whole text when there is
no space) is pushed before the loop breaks.  This is the result of the loop as a
function of the text; `SplitIntoWordsLoop` below is the loop itself. -/
def SplitIntoWords : Str → List Str
  | [] => [[]]
  | c :: rest =>
    if c = ' ' then [] :: SplitIntoWords rest
    else
      match SplitIntoWords rest with
      | [] => [[c]]
      | w :: ws => (c :: w) :: ws

/-- `str.find(' ')`: the position of the first space, `none` for `npos`. -/
def findSpace : Str → Option Nat
  | [] => none
  | c :: rest => if c = ' ' then some 0 else (findSpace rest).map (fun i => i + 1)

/-- The `while (true)` loop of `SplitIntoWords`, one iteration per unit of fuel.  With a
space at `space` the iteration pushes `str.substr(0, space)` and removes `space + 1`
characters.  Without a space `space` is `npos`, which is -1 as `int64_t`: the iteration
pushes `str.substr(0, npos)`, the whole rest, removes `space + 1 = 0` characters and
leaves the loop. -/
def SplitIntoWordsLoop : Nat → Str → List Str → Option (List Str)
  | 0, _, _ => none
  | fuel + 1, str, result =>
    match findSpace str with
    | some space => SplitIntoWordsLoop fuel (str.drop (space + 1)) (result ++ [str.take space])
    | none => some (result ++ [str])

/-- `MakeUniqueNonEmptyStrings`: the set of the non-empty strings of a container. -/
def MakeUniqueNonEmptyStrings (strings : List Str) : OrdSet Str :=
  strings.foldl (fun non_empty_strings str =>
    if !str.isEmpty then non_empty_strings.insert str else non_empty_strings) []

/-! ### document.h

`document.h` is not among the sources; the constructor call
`Document(id, relevance, rating)` and the four statuses are taken from their uses. -/

/-- Modelled from the spec: the status tag of `document.h`, "one of Actual,
Irrelevant, Banned, Removed". -/
inductive DocumentStatus where
  | ACTUAL
  | IRRELEVANT
  | BANNED
  | REMOVED
deriving DecidableEq, Repr

/-- Modelled from the spec: the result record of `document.h`, built in the order
`(document_id, relevance, rating)` by `FindAllDocuments`. -/
structure Document (F : Type) where
  id : Int
  relevance : F
  rating : Int
deriving DecidableEq, Repr

/-! ### concurrent_map.h -/

/-- `ConcurrentMap<int, V>`: the maps of the vector of buckets; the mutexes of the
buckets are in `LockedMap`. -/
structure ConcurrentMap (V : Type) where
  maps_ : List (OrdMap Int V)

namespace ConcurrentMap

variable {V : Type}

/-- The constructor: `bucket_count` empty buckets. -/
def create (bucket_count : Nat) : ConcurrentMap V :=
  ⟨List.replicate bucket_count []⟩

/-- `GetBucket`: the index `static_cast<uint64_t>(key) % maps_.size()`. -/
def GetBucket (cm : ConcurrentMap V) (key : Int) : Nat :=
  (key % 2 ^ 64).toNat % cm.maps_.length

/-- `operator[]` followed by an update of `ref_to_value` through the `Access`. -/
def access (cm : ConcurrentMap V) (key : Int) (dflt : V) (f : V → V) : ConcurrentMap V :=
  ⟨cm.maps_.modify (fun bucket => OrdMap.modify bucket key dflt f) (cm.GetBucket key)⟩

/-- `Erase`. -/
def Erase (cm : ConcurrentMap V) (key : Int) : ConcurrentMap V :=
  ⟨cm.maps_.modify (fun bucket => OrdMap.erase bucket key) (cm.GetBucket key)⟩

/-- `BuildOrdinaryMap`: every entry of every bucket is assigned into one map. -/
def BuildOrdinaryMap (cm : ConcurrentMap V) : OrdMap Int V :=
  cm.maps_.foldl (fun ordinary_map bucket =>
    bucket.foldl (fun acc e => OrdMap.assign acc e.1 e.2) ordinary_map) []

end ConcurrentMap

/-! ### search_server -/

/-- `MAX_RESULT_DOCUMENT_COUNT`. -/
def MAX_RESULT_DOCUMENT_COUNT : Nat := 5

/-- `SearchServer::DocumentData`. -/
structure DocumentData where
  rating : Int
  status : DocumentStatus
  text : Str
deriving DecidableEq, Repr

/-- `SearchServer::QueryWord`. -/
structure QueryWord where
  data : Str
  is_minus : Bool
  is_stop : Bool
deriving DecidableEq, Repr

/-- `SearchServer::Query`. -/
structure Query where
  plus_words : OrdSet Str
  minus_words : OrdSet Str
deriving DecidableEq, Repr

/-- The data members of `SearchServer`. -/
structure SearchServer (F : Type) where
  stop_words_ : OrdSet Str
  word_to_document_freqs_ : OrdMap Str (OrdMap Int F)
  document_to_word_freqs_ : OrdMap Int (OrdMap Str F)
  documents_ : OrdMap Int DocumentData
  document_ids_ : OrdSet Int

/-- `std::sort` inserts one element into an already sorted range: the element goes
before the first one that the comparator does not put before it. -/
def sortInsert {α : Type} (comp : α → α → Bool) (x : α) : List α → List α
  | [] => [x]
  | y :: ys => if comp y x then y :: sortInsert comp x ys else x :: y :: ys

/-- `std::sort(first, last, comp)`.  The standard leaves the order of equivalent
elements open; the model is the stable insertion sort. -/
def stdSort {α : Type} (comp : α → α → Bool) : List α → List α
  | [] => []
  | x :: xs => sortInsert comp x (stdSort comp xs)

namespace SearchServer

variable {F : Type} [LinearOrderedField F]

/-- `IsValidWord`: no character `c` with `c >= 0 && c < 32`. -/
def IsValidWord (word : Str) : Bool :=
  !word.any (fun c => decide (0 ≤ c.toNat) && decide (c.toNat < 32))

/-- The constructor from a container of stop words. -/
def create (stop_words : List Str) : Except Exception (SearchServer F) :=
  let stop_words_ := MakeUniqueNonEmptyStrings stop_words
  if !stop_words_.all IsValidWord then .error .invalid_argument
  else .ok ⟨stop_words_, [], [], [], []⟩

/-- The constructors from a string of stop words. -/
def createFromText (stop_words_text : Str) : Except Exception (SearchServer F) :=
  create (SplitIntoWords stop_words_text)

/-- `IsStopWord`. -/
def IsStopWord (s : SearchServer F) (word : Str) : Bool :=
  decide (OrdSet.count s.stop_words_ word > 0)

/-- `SplitIntoWordsNoStop`: throws on the first invalid word, drops stop words. -/
def SplitIntoWordsNoStop (s : SearchServer F) (text : Str) : Except Exception (List Str) :=
  (SplitIntoWords text).foldlM (fun words word =>
    if !IsValidWord word then .error .invalid_argument
    else if !s.IsStopWord word then .ok (words ++ [word])
    else .ok words) []

/-- `ComputeAverageRating`: integer division truncates toward zero. -/
def ComputeAverageRating (ratings : List Int) : Int :=
  if ratings.isEmpty then 0
  else
    let rating_sum := ratings.foldl (fun rating_sum rating => rating_sum + rating) 0
    Int.tdiv rating_sum (ratings.length : Int)

/-- The value that a 32-bit `int` takes when an arithmetic result is reduced modulo
`2 ^ 32` to the range of `int`, as the two's-complement targets do. -/
def wrapInt32 (x : Int) : Int := (x + 2147483648) % 4294967296 - 2147483648

/-- `ComputeAverageRating` with the width of `int` made explicit: every
`rating_sum += rating` and the cast of `ratings.size()` are reduced to 32 bits. -/
def ComputeAverageRatingInt32 (ratings : List Int) : Int :=
  if ratings.isEmpty then 0
  else
    let rating_sum := ratings.foldl (fun rating_sum rating => wrapInt32 (rating_sum + rating)) 0
    wrapInt32 (Int.tdiv rating_sum (wrapInt32 (ratings.length : Int)))

/-- The body of the loop of `AddDocument` for one word: both
`word_to_document_freqs_[word][document_id]` and
`document_to_word_freqs_[document_id][word]` grow by `inv_word_count`. -/
def addWord (document_id : Int) (inv_word_count : F)
    (maps : OrdMap Str (OrdMap Int F) × OrdMap Int (OrdMap Str F)) (word : Str) :
    OrdMap Str (OrdMap Int F) × OrdMap Int (OrdMap Str F) :=
  (maps.1.modify word [] (fun docs => docs.modify document_id 0 (fun x => x + inv_word_count)),
   maps.2.modify document_id [] (fun freqs => freqs.modify word 0 (fun x => x + inv_word_count)))

/-- `AddDocument`.  The outcome comes with the state the call leaves behind: the
entry of `documents_` is emplaced before the text is split, so it stays when
`SplitIntoWordsNoStop` throws.  The arithmetic is that of the field, and the keys of
the postings are held by value; `AddDocumentWith` has the arithmetic as a parameter,
and `ViewIndex.AddDocument` adds the texts that the keys point into. -/
def AddDocument (s : SearchServer F) (document_id : Int) (document : Str)
    (status : DocumentStatus) (ratings : List Int) : Except Exception Unit × SearchServer F :=
  if document_id < 0 then (.error .invalid_argument, s)
  else if s.documents_.count document_id > 0 then (.error .invalid_argument, s)
  else
    let s1 : SearchServer F :=
      { s with documents_ :=
          s.documents_.emplace document_id ⟨ComputeAverageRating ratings, status, document⟩ }
    match s1.SplitIntoWordsNoStop document with
    | .error e => (.error e, s1)
    | .ok words =>
      let inv_word_count : F := 1 / (words.length : F)
      let maps := words.foldl (addWord document_id inv_word_count)
        (s1.word_to_document_freqs_, s1.document_to_word_freqs_)
      (.ok (), { s1 with
        word_to_document_freqs_ := maps.1
        document_to_word_freqs_ := maps.2
        document_ids_ := s1.document_ids_.insert document_id })

/-- `GetDocumentCount`. -/
def GetDocumentCount (s : SearchServer F) : Nat := s.documents_.size

/-- `GetWordFrequencies`. -/
def GetWordFrequencies (s : SearchServer F) (document_id : Int) : OrdMap Str F :=
  match s.document_to_word_freqs_.find document_id with
  | some freqs => freqs
  | none => []

/-- `RemoveDocument(std::execution::seq, id)`, with the keys of the postings held by
value; `ViewIndex.RemoveDocument` adds the texts that the keys point into. -/
def RemoveDocument (s : SearchServer F) (document_id : Int) : SearchServer F :=
  let found := s.GetWordFrequencies document_id
  if !found.isEmpty then
    { s with
      word_to_document_freqs_ := found.foldl (fun postings e =>
        postings.modify e.1 [] (fun docs => docs.erase document_id)) s.word_to_document_freqs_
      document_to_word_freqs_ := s.document_to_word_freqs_.erase document_id
      document_ids_ := s.document_ids_.erase document_id
      documents_ := s.documents_.erase document_id }
  else s

/-- `RemoveDocument(std::execution::par, id)`, the `for_each` run in order, with the
keys of the postings held by value; `ViewIndex.RemoveDocumentPar` adds the texts that
the keys point into. -/
def RemoveDocumentPar (s : SearchServer F) (document_id : Int) : SearchServer F :=
  let found := s.GetWordFrequencies document_id
  if !found.isEmpty then
    { s with
      word_to_document_freqs_ := found.foldl (fun postings word_freq =>
        postings.modify word_freq.1 [] (fun docs => docs.erase document_id))
        s.word_to_document_freqs_
      document_to_word_freqs_ := s.document_to_word_freqs_.erase document_id
      document_ids_ := s.document_ids_.erase document_id
      documents_ := s.documents_.erase document_id }
  else s

/-- `ParseQueryWord`. -/
def ParseQueryWord (s : SearchServer F) (text : Str) : Except Exception QueryWord :=
  if text.isEmpty then .error .invalid_argument
  else
    let is_minus : Bool := decide (text.head? = some '-')
    let text : Str := if is_minus then text.tail else text
    if text.isEmpty then .error .invalid_argument
    else if text.head? = some '-' then .error .invalid_argument
    else if !IsValidWord text then .error .invalid_argument
    else .ok ⟨text, is_minus, s.IsStopWord text⟩

/-- `ParseQuery`. -/
def ParseQuery (s : SearchServer F) (text : Str) : Except Exception Query :=
  (SplitIntoWords text).foldlM (fun (query : Query) word =>
    match s.ParseQueryWord word with
    | .error e => .error e
    | .ok query_word =>
      if !query_word.is_stop then
        if query_word.is_minus then
          .ok { query with minus_words := query.minus_words.insert query_word.data }
        else
          .ok { query with plus_words := query.plus_words.insert query_word.data }
      else .ok query) ⟨[], []⟩

/-- `ComputeWordInverseDocumentFreq`. -/
def ComputeWordInverseDocumentFreq (log : F → F) (s : SearchServer F) (word : Str) :
    Except Exception F :=
  match s.word_to_document_freqs_.at_ word with
  | .error e => .error e
  | .ok docs => .ok (log ((s.GetDocumentCount : F) * 1 / (docs.size : F)))

/-- The inner loop of the plus-word pass: one posting `(document_id, term_freq)`. -/
def scorePosting (s : SearchServer F) (document_predicate : Int → DocumentStatus → Int → Bool)
    (inverse_document_freq : F) (document_to_relevance : OrdMap Int F) (posting : Int × F) :
    Except Exception (OrdMap Int F) :=
  match s.documents_.at_ posting.1 with
  | .error e => .error e
  | .ok data =>
    if document_predicate posting.1 data.status data.rating then
      .ok (document_to_relevance.modify posting.1 0
        (fun x => x + posting.2 * inverse_document_freq))
    else .ok document_to_relevance

/-- The body of the plus-word loop of the sequential `FindAllDocuments`. -/
def scoreWord (log : F → F) (s : SearchServer F)
    (document_predicate : Int → DocumentStatus → Int → Bool)
    (document_to_relevance : OrdMap Int F) (word : Str) : Except Exception (OrdMap Int F) :=
  match s.word_to_document_freqs_.find word with
  | none => .ok document_to_relevance
  | some found_documents =>
    match ComputeWordInverseDocumentFreq log s word with
    | .error e => .error e
    | .ok inverse_document_freq =>
      found_documents.foldlM (scorePosting s document_predicate inverse_document_freq)
        document_to_relevance

/-- The body of the minus-word loop of the sequential `FindAllDocuments`. -/
def dropWord (s : SearchServer F) (document_to_relevance : OrdMap Int F) (word : Str) :
    OrdMap Int F :=
  match s.word_to_document_freqs_.find word with
  | none => document_to_relevance
  | some found_documents =>
    found_documents.foldl (fun rel posting => OrdMap.erase rel posting.1) document_to_relevance

/-- The last loop of `FindAllDocuments`: one `Document` per entry of the map. -/
def collectDocuments (s : SearchServer F) (document_to_relevance : OrdMap Int F) :
    Except Exception (List (Document F)) :=
  document_to_relevance.foldlM (fun matched_documents e =>
    match s.documents_.at_ e.1 with
    | .error err => .error err
    | .ok data => .ok (matched_documents ++ [⟨e.1, e.2, data.rating⟩])) []

/-- `FindAllDocuments(std::execution::seq, query, document_predicate)`. -/
def FindAllDocuments (log : F → F) (s : SearchServer F) (query : Query)
    (document_predicate : Int → DocumentStatus → Int → Bool) :
    Except Exception (List (Document F)) :=
  match query.plus_words.foldlM (scoreWord log s document_predicate) [] with
  | .error e => .error e
  | .ok scored =>
    collectDocuments s (query.minus_words.foldl (dropWord s) scored)

/-- The inner loop of the parallel plus-word pass, through `ConcurrentMap::Access`. -/
def scorePostingPar (s : SearchServer F) (document_predicate : Int → DocumentStatus → Int → Bool)
    (inverse_document_freq : F) (document_to_relevance : ConcurrentMap F) (posting : Int × F) :
    Except Exception (ConcurrentMap F) :=
  match s.documents_.at_ posting.1 with
  | .error e => .error e
  | .ok data =>
    if document_predicate posting.1 data.status data.rating then
      .ok (document_to_relevance.access posting.1 0
        (fun x => x + posting.2 * inverse_document_freq))
    else .ok document_to_relevance

/-- The functor of the first `for_each` of the parallel `FindAllDocuments`. -/
def scoreWordPar (log : F → F) (s : SearchServer F)
    (document_predicate : Int → DocumentStatus → Int → Bool)
    (document_to_relevance : ConcurrentMap F) (word : Str) : Except Exception (ConcurrentMap F) :=
  match s.word_to_document_freqs_.find word with
  | none => .ok document_to_relevance
  | some found_documents =>
    match ComputeWordInverseDocumentFreq log s word with
    | .error e => .error e
    | .ok inverse_document_freq =>
      found_documents.foldlM (scorePostingPar s document_predicate inverse_document_freq)
        document_to_relevance

/-- The functor of the second `for_each` of the parallel `FindAllDocuments`. -/
def dropWordPar (s : SearchServer F) (document_to_relevance : ConcurrentMap F) (word : Str) :
    ConcurrentMap F :=
  match s.word_to_document_freqs_.find word with
  | none => document_to_relevance
  | some found_documents =>
    found_documents.foldl (fun rel posting => rel.Erase posting.1) document_to_relevance

/-- `FindAllDocuments(std::execution::par, query, document_predicate)`, with the two
`for_each` run in iteration order.  An exception that escapes a parallel algorithm
ends the program; the model returns it, and `documents_.at` throws nothing on a
consistent index.  `FindAllDocumentsParWith` runs the threads of the two `for_each`
under schedules. -/
def FindAllDocumentsPar (log : F → F) (s : SearchServer F) (query : Query)
    (document_predicate : Int → DocumentStatus → Int → Bool) :
    Except Exception (List (Document F)) :=
  match query.plus_words.foldlM (scoreWordPar log s document_predicate)
      (ConcurrentMap.create 64) with
  | .error e => .error e
  | .ok scored =>
    collectDocuments s (query.minus_words.foldl (dropWordPar s) scored).BuildOrdinaryMap

/-- The comparator given to `std::sort` by `FindTopDocuments`. -/
def documentBefore (lhs rhs : Document F) : Bool :=
  if |lhs.relevance - rhs.relevance| < 1 / 1000000 then decide (lhs.rating > rhs.rating)
  else decide (lhs.relevance > rhs.relevance)

/-- The tail of `FindTopDocuments`: sort, then `resize` when there are more than
`MAX_RESULT_DOCUMENT_COUNT` documents. -/
def sortAndTruncate (matched_documents : List (Document F)) : List (Document F) :=
  let matched_documents := stdSort documentBefore matched_documents
  if matched_documents.length > MAX_RESULT_DOCUMENT_COUNT then
    matched_documents.take MAX_RESULT_DOCUMENT_COUNT
  else matched_documents

/-- `FindTopDocuments(std::execution::seq, raw_query, document_predicate)`. -/
def FindTopDocuments (log : F → F) (s : SearchServer F) (raw_query : Str)
    (document_predicate : Int → DocumentStatus → Int → Bool) :
    Except Exception (List (Document F)) :=
  match s.ParseQuery raw_query with
  | .error e => .error e
  | .ok query =>
    match FindAllDocuments log s query document_predicate with
    | .error e => .error e
    | .ok matched_documents => .ok (sortAndTruncate matched_documents)

/-- `FindTopDocuments(std::execution::par, raw_query, document_predicate)`, the
`for_each` run in iteration order and the sort that of the sequential version;
`FindTopDocumentsParWith` has the schedules and the sort as parameters. -/
def FindTopDocumentsPar (log : F → F) (s : SearchServer F) (raw_query : Str)
    (document_predicate : Int → DocumentStatus → Int → Bool) :
    Except Exception (List (Document F)) :=
  match s.ParseQuery raw_query with
  | .error e => .error e
  | .ok query =>
    match FindAllDocumentsPar log s query document_predicate with
    | .error e => .error e
    | .ok matched_documents => .ok (sortAndTruncate matched_documents)

/-- The predicate of the overloads that take a status. -/
def statusPredicate (status : DocumentStatus) : Int → DocumentStatus → Int → Bool :=
  fun _ document_status _ => decide (document_status = status)

/-- `FindTopDocuments(raw_query, status)`, which forwards to the sequential version. -/
def FindTopDocumentsByStatus (log : F → F) (s : SearchServer F) (raw_query : Str)
    (status : DocumentStatus) : Except Exception (List (Document F)) :=
  FindTopDocuments log s raw_query (statusPredicate status)

/-- `FindTopDocuments(raw_query)`: the default argument of the overload that takes a
status is `DocumentStatus::ACTUAL`. -/
def FindTopDocumentsDefault (log : F → F) (s : SearchServer F) (raw_query : Str) :
    Except Exception (List (Document F)) :=
  FindTopDocumentsByStatus log s raw_query .ACTUAL

/-- The word test of `MatchDocument`: the word is a key of the postings and the
document is among its postings. -/
def wordInDocument (s : SearchServer F) (document_id : Int) (word : Str) : Bool :=
  match s.word_to_document_freqs_.find word with
  | none => false
  | some found_documents => decide (found_documents.count document_id > 0)

/-- The first loop of the sequential `MatchDocument`. -/
def matchPlus (s : SearchServer F) (document_id : Int) (plus_words : List Str) : List Str :=
  plus_words.foldl (fun matched_words word =>
    match s.word_to_document_freqs_.find word with
    | none => matched_words
    | some found_documents =>
      if found_documents.count document_id > 0 then matched_words ++ [word]
      else matched_words) []

/-- The second loop of the sequential `MatchDocument`: the first minus-word found in
the document clears the result and leaves the loop. -/
def matchMinus (s : SearchServer F) (document_id : Int) :
    List Str → List Str → List Str
  | [], matched_words => matched_words
  | word :: rest, matched_words =>
    match s.word_to_document_freqs_.find word with
    | none => matchMinus s document_id rest matched_words
    | some found_documents =>
      if found_documents.count document_id > 0 then []
      else matchMinus s document_id rest matched_words

/-- `MatchDocument(std::execution::seq, raw_query, document_id)`. -/
def MatchDocument (s : SearchServer F) (raw_query : Str) (document_id : Int) :
    Except Exception (List Str × DocumentStatus) :=
  match s.ParseQuery raw_query with
  | .error e => .error e
  | .ok query =>
    let matched_words := matchMinus s document_id query.minus_words
      (matchPlus s document_id query.plus_words)
    match s.documents_.at_ document_id with
    | .error e => .error e
    | .ok data => .ok (matched_words, data.status)

/-- `MatchDocument(std::execution::par, raw_query, document_id)`, with `any_of` and
`copy_if` run in iteration order. -/
def MatchDocumentPar (s : SearchServer F) (raw_query : Str) (document_id : Int) :
    Except Exception (List Str × DocumentStatus) :=
  match s.ParseQuery raw_query with
  | .error e => .error e
  | .ok query =>
    if query.minus_words.any (wordInDocument s document_id) then
      match s.documents_.at_ document_id with
      | .error e => .error e
      | .ok data => .ok ([], data.status)
    else
      match s.documents_.at_ document_id with
      | .error e => .error e
      | .ok data => .ok (query.plus_words.filter (wordInDocument s document_id), data.status)

/-- The states reached from a constructed server by calls of `AddDocument` that
return normally and by calls of `RemoveDocument`. -/
inductive Reachable : SearchServer F → Prop where
  | init (stop_words : List Str) (s : SearchServer F) :
      create stop_words = .ok s → Reachable s
  | add (s : SearchServer F) (document_id : Int) (document : Str) (status : DocumentStatus)
      (ratings : List Int) (s' : SearchServer F) :
      Reachable s → AddDocument s document_id document status ratings = (.ok (), s') →
      Reachable s'
  | remove (s : SearchServer F) (document_id : Int) :
      Reachable s → Reachable (RemoveDocument s document_id)
  | removePar (s : SearchServer F) (document_id : Int) :
      Reachable s → Reachable (RemoveDocumentPar s document_id)

/-- The states reached from a constructed server by any calls of `AddDocument`,
whether they return normally or throw, and of `RemoveDocument`. -/
inductive ReachableAny : SearchServer F → Prop where
  | init (stop_words : List Str) (s : SearchServer F) :
      create stop_words = .ok s → ReachableAny s
  | add (s : SearchServer F) (document_id : Int) (document : Str) (status : DocumentStatus)
      (ratings : List Int) :
      ReachableAny s → ReachableAny (AddDocument s document_id document status ratings).2
  | remove (s : SearchServer F) (document_id : Int) :
      ReachableAny s → ReachableAny (RemoveDocument s document_id)
  | removePar (s : SearchServer F) (document_id : Int) :
      ReachableAny s → ReachableAny (RemoveDocumentPar s document_id)

end SearchServer

/-! ### Two-level maps -/

namespace OrdMap

variable {K₁ K₂ V : Type} [LinearOrder K₁] [LinearOrder K₂]

/-- The value under `k₂` in the inner map stored under `k₁`. -/
def find2 (m : OrdMap K₁ (OrdMap K₂ V)) (k₁ : K₁) (k₂ : K₂) : Option V :=
  (m.find k₁).bind (fun inner => inner.find k₂)

/-- Every inner map is well formed. -/
def InnerWF (m : OrdMap K₁ (OrdMap K₂ V)) : Prop :=
  ∀ k inner, m.find k = some inner → inner.WF

end OrdMap

/-! ### Specification vocabulary -/

namespace SearchServer

variable {F : Type} [LinearOrderedField F]

/-- The words of a text that are not stop words, in order and with repetitions. -/
def nonStopWords (s : SearchServer F) (text : Str) : List Str :=
  (SplitIntoWords text).filter (fun w => !s.IsStopWord w)

/-- The term frequency of `w` in a list of words: occurrences over length, for the
words that occur. -/
def termFreq (words : List Str) (w : Str) : Option F :=
  if w ∈ words then some ((words.count w : F) / (words.length : F)) else none

/-- The consistency of the index: the maps are ordered, the document id set is the
key set of the metadata, postings and forward index mirror each other, and the
forward entry of a document holds the term frequencies of its text. -/
structure Inv (s : SearchServer F) : Prop where
  wf_documents : s.documents_.WF
  ids_eq : s.document_ids_ = s.documents_.keys
  wf_postings : s.word_to_document_freqs_.WF
  inner_postings : s.word_to_document_freqs_.InnerWF
  wf_forward : s.document_to_word_freqs_.WF
  inner_forward : s.document_to_word_freqs_.InnerWF
  consistent : ∀ w id, OrdMap.find2 s.word_to_document_freqs_ w id =
    OrdMap.find2 s.document_to_word_freqs_ id w
  forward_none : ∀ id, s.documents_.find id = none → s.document_to_word_freqs_.find id = none
  forward_some : ∀ id data, s.documents_.find id = some data →
    ∀ w, OrdMap.find2 s.document_to_word_freqs_ id w = termFreq (s.nonStopWords data.text) w

/-- The shape of a parsed query: two ordered sets without stop words. -/
structure QueryOK (s : SearchServer F) (q : Query) : Prop where
  wf_plus : OrdSet.WF q.plus_words
  wf_minus : OrdSet.WF q.minus_words
  plus_nonstop : ∀ w ∈ q.plus_words, s.IsStopWord w = false
  minus_nonstop : ∀ w ∈ q.minus_words, s.IsStopWord w = false

/-- The document predicate applied to the stored status and rating of `id`; false
for an id without metadata. -/
def predOf (s : SearchServer F) (document_predicate : Int → DocumentStatus → Int → Bool)
    (id : Int) : Bool :=
  match s.documents_.find id with
  | some data => document_predicate id data.status data.rating
  | none => false

/-- The inverse document frequency that the program computes for a word: the
logarithm of the document count over the size of the posting map of the word. -/
def idfOf (log : F → F) (s : SearchServer F) (w : Str) : F :=
  log ((s.GetDocumentCount : F) * 1 / ((((s.word_to_document_freqs_.find w).getD []).size : Nat) : F))

/-- The products `tf * idf` of the words of `ws` that have a posting for `id`, in the
order of `ws`. -/
def contribs (log : F → F) (s : SearchServer F) (ws : List Str) (id : Int) : List F :=
  ws.filterMap (fun w =>
    (OrdMap.find2 s.word_to_document_freqs_ w id).map (fun tf => tf * idfOf log s w))

/-- The plus-word step of `FindAllDocuments` when no lookup throws. -/
def scoreWordPure (log : F → F) (s : SearchServer F)
    (document_predicate : Int → DocumentStatus → Int → Bool)
    (rel : OrdMap Int F) (w : Str) : OrdMap Int F :=
  match s.word_to_document_freqs_.find w with
  | none => rel
  | some docs =>
    docs.foldl (fun rel e =>
      if predOf s document_predicate e.1 then rel.modify e.1 0 (fun x => x + e.2 * idfOf log s w)
      else rel) rel

/-- The relevance map of `FindAllDocuments` after both loops, when no lookup throws. -/
def relevanceMap (log : F → F) (s : SearchServer F) (query : Query)
    (document_predicate : Int → DocumentStatus → Int → Bool) : OrdMap Int F :=
  query.minus_words.foldl (dropWord s)
    (query.plus_words.foldl (scoreWordPure log s document_predicate) [])

/-- The stored rating of a document; 0 for an id without metadata. -/
def ratingOf (s : SearchServer F) (id : Int) : Int :=
  match s.documents_.find id with
  | some data => data.rating
  | none => 0

/-- A batch of `AddDocument` calls `(id, text, status, ratings)`, each made on the
state that the previous one leaves. -/
def addAll (s : SearchServer F) (docs : List (Int × Str × DocumentStatus × List Int)) :
    SearchServer F :=
  docs.foldl (fun s d => (s.AddDocument d.1 d.2.1 d.2.2.1 d.2.2.2).2) s

/-- The metadata that a batch of successful `AddDocument` calls stores. -/
def addAllDocuments (documents : OrdMap Int DocumentData)
    (docs : List (Int × Str × DocumentStatus × List Int)) : OrdMap Int DocumentData :=
  docs.foldl (fun m d => m.assign d.1 ⟨ComputeAverageRating d.2.2.2, d.2.2.1, d.2.1⟩) documents

/-- The number of documents whose text has the slice `w`. -/
def documentFrequency (s : SearchServer F) (w : Str) : Nat :=
  (s.documents_.filter (fun e => decide (w ∈ SplitIntoWords e.2.text))).length

/-- The term frequency stored for `w` in the forward entry of `id`; 0 when there is
none. -/
def storedTermFreq (s : SearchServer F) (w : Str) (id : Int) : F :=
  ((s.GetWordFrequencies id).find w).getD 0

/-- A query slice without its leading `-`, when it has one: what `ParseQueryWord`
examines after `remove_prefix(1)`. -/
def stripMinus (w : Str) : Str := if w.head? = some '-' then w.tail else w

/-- The slices that the query parser is specified to reject: with one leading `-`
stripped, the slice is empty, begins with another `-`, or contains a byte below 32. -/
def RejectedSlice (w : Str) : Prop :=
  stripMinus w = [] ∨ (stripMinus w).head? = some '-' ∨ ∃ c ∈ stripMinus w, c.toNat < 32

instance : DecidablePred RejectedSlice := fun w => by
  unfold RejectedSlice; infer_instance

/-- The non-stop plus-terms of a query string: its slices without a leading `-` that
are not stop words, in order and with repetitions. -/
def plusTerms (s : SearchServer F) (raw_query : Str) : List Str :=
  (SplitIntoWords raw_query).filter (fun w => decide (w.head? ≠ some '-') && !s.IsStopWord w)

/-- The non-stop minus-terms of a query string: its slices with a leading `-`, without
that `-`, that are not stop words, in order and with repetitions. -/
def minusTerms (s : SearchServer F) (raw_query : Str) : List Str :=
  (((SplitIntoWords raw_query).filter (fun w => decide (w.head? = some '-'))).map
    List.tail).filter (fun w => !s.IsStopWord w)

/-- Two relevances that the comparator of `FindTopDocuments` treats as a tie. -/
def closeRelevance (a b : Document F) : Prop :=
  |a.relevance - b.relevance| < 1 / 1000000

/-- The relevance of a text for a query, from the text alone: the sum over the
plus-terms that are slices of the text of the term frequency among the non-stop tokens
times the logarithm of the number of documents over the document frequency. -/
def textRelevance (log : F → F) (s : SearchServer F) (query : Query) (text : Str) : F :=
  ((query.plus_words.filter (fun w => decide (w ∈ SplitIntoWords text))).map
    (fun w => ((s.nonStopWords text).count w : F) / ((s.nonStopWords text).length : F) *
      log ((s.documents_.length : F) / (documentFrequency s w : F)))).sum

end SearchServer

/-! ### Vocabulary for the sharded map -/

namespace ConcurrentMap

variable {V : Type}

/-- The value under a key, looked up in the bucket that `GetBucket` selects. -/
def find (cm : ConcurrentMap V) (k : Int) : Option V :=
  (cm.maps_[cm.GetBucket k]?).bind (fun bucket => OrdMap.find bucket k)

/-- The representation invariant: there is a bucket, every bucket is ordered, and
every key lies in the bucket that `GetBucket` selects for it. -/
def WF (cm : ConcurrentMap V) : Prop :=
  0 < cm.maps_.length ∧
    ∀ i bucket, cm.maps_[i]? = some bucket →
      OrdMap.WF bucket ∧ ∀ k ∈ OrdMap.keys bucket, cm.GetBucket k = i

/-- A sharded map and an ordinary map that hold the same entries. -/
def Sim (cm : ConcurrentMap V) (m : OrdMap Int V) : Prop :=
  cm.WF ∧ OrdMap.WF m ∧ ∀ k, OrdMap.find m k = cm.find k

/-- The outcomes of a step on a sharded map and on an ordinary map agree: the same
exception, or maps that hold the same entries. -/
def SimE : Except Exception (ConcurrentMap V) → Except Exception (OrdMap Int V) → Prop
  | .ok cm, .ok m => Sim cm m
  | .error e, .error e' => e = e'
  | _, _ => False

end ConcurrentMap

/-- One operation on a map with integer keys: an update of the value under a key
through `operator[]`, or the erasure of a key. -/
inductive MapOp (V : Type) where
  | update (key : Int) (f : V → V)
  | erase (key : Int)

namespace ConcurrentMap

variable {V : Type}

/-- An operation applied to a `ConcurrentMap`: `operator[]` with an update of
`ref_to_value`, or `Erase`; `dflt` is the value-initialised `Value`. -/
def applyOp (dflt : V) (cm : ConcurrentMap V) : MapOp V → ConcurrentMap V
  | .update key f => cm.access key dflt f
  | .erase key => cm.Erase key

end ConcurrentMap

namespace OrdMap

variable {V : Type}

/-- The same operation applied to a single `std::map`: `operator[]` with an update of
the referenced value, or `erase`. -/
def applyOp (dflt : V) (m : OrdMap Int V) : MapOp V → OrdMap Int V
  | .update key f => m.modify key dflt f
  | .erase key => m.erase key

end OrdMap

/-! ### remove_duplicates.cpp -/

namespace RemoveDuplicates

variable {F : Type} [LinearOrderedField F]

/-- The set `temp` that `RemoveDuplicates` builds for one document: the keys of
`GetWordFrequencies(document_id)`, inserted one by one through the `std::inserter`. -/
def temp (search_server : SearchServer F) (document_id : Int) : OrdSet Str :=
  (search_server.GetWordFrequencies document_id).foldl
    (fun temp key_value => OrdSet.insert temp key_value.1) []

/-- The body of the first loop of `RemoveDuplicates`, on the pair of `duplicates` and
`originals`: a word set seen for the first time is emplaced with the id, any other id
is pushed to `duplicates`. -/
def scan (search_server : SearchServer F) (acc : List Int × OrdMap (OrdSet Str) Int)
    (document_id : Int) : List Int × OrdMap (OrdSet Str) Int :=
  if acc.2.count (temp search_server document_id) < 1 then
    (acc.1, acc.2.emplace (temp search_server document_id) document_id)
  else (acc.1 ++ [document_id], acc.2)

/-- The vector `duplicates` after the first loop, which iterates over the server, that
is over `document_ids_` in ascending order. -/
def duplicates (search_server : SearchServer F) : List Int :=
  (search_server.document_ids_.foldl (scan search_server) ([], [])).1

end RemoveDuplicates

/-- `RemoveDuplicates`: the second loop calls `RemoveDocument(id)` for every id of
`duplicates`; the overload without a policy forwards to the parallel one.  The lines
written to `std::cout` name the ids of `RemoveDuplicates.duplicates`, in order. -/
def RemoveDuplicates {F : Type} [LinearOrderedField F] (search_server : SearchServer F) :
    SearchServer F :=
  (RemoveDuplicates.duplicates search_server).foldl
    (fun server id => server.RemoveDocumentPar id) search_server

/-! ### request_queue -/

/-- `RequestQueue::QueryResult`. -/
structure QueryResult (F : Type) where
  is_empty : Bool
  found_docs : List (Document F)

/-- `RequestQueue`: the deque `requests_`, front first, and the counter
`no_result_requests_`.  The reference `search_server_` is an argument of the calls,
with the state that the server has at the call. -/
structure RequestQueue (F : Type) where
  requests_ : List (QueryResult F)
  no_result_requests_ : Int

namespace RequestQueue

variable {F : Type} [LinearOrderedField F]

/-- `sec_in_day_`. -/
def sec_in_day_ : Nat := 1440

/-- The constructor: no requests, counter 0. -/
def create : RequestQueue F := ⟨[], 0⟩

/-- The second `if` of `AddFindRequest`: with more than `sec_in_day_` requests the
front is popped, and the counter decremented when the front had no result. -/
def dropFront (rq : RequestQueue F) : RequestQueue F :=
  if rq.requests_.length > sec_in_day_ then
    match rq.requests_ with
    | [] => rq
    | front :: rest =>
      ⟨rest, if front.is_empty then rq.no_result_requests_ - 1 else rq.no_result_requests_⟩
  else rq

/-- `AddFindRequest(raw_query, document_predicate)`: the outcome and the queue after
the call.  When `FindTopDocuments` throws, nothing has been pushed. -/
def AddFindRequest (log : F → F) (rq : RequestQueue F) (search_server_ : SearchServer F)
    (raw_query : Str) (document_predicate : Int → DocumentStatus → Int → Bool) :
    Except Exception (List (Document F)) × RequestQueue F :=
  match SearchServer.FindTopDocuments log search_server_ raw_query document_predicate with
  | .error e => (.error e, rq)
  | .ok found_docs =>
    if found_docs.isEmpty then
      (.ok found_docs,
        dropFront ⟨rq.requests_ ++ [⟨true, found_docs⟩], rq.no_result_requests_ + 1⟩)
    else
      (.ok found_docs, dropFront ⟨rq.requests_ ++ [⟨false, found_docs⟩], rq.no_result_requests_⟩)

/-- `AddFindRequest(raw_query, status)`. -/
def AddFindRequestByStatus (log : F → F) (rq : RequestQueue F) (search_server_ : SearchServer F)
    (raw_query : Str) (status : DocumentStatus) :
    Except Exception (List (Document F)) × RequestQueue F :=
  AddFindRequest log rq search_server_ raw_query
    (fun _ document_status _ => decide (document_status = status))

/-- `AddFindRequest(raw_query)`. -/
def AddFindRequestDefault (log : F → F) (rq : RequestQueue F) (search_server_ : SearchServer F)
    (raw_query : Str) : Except Exception (List (Document F)) × RequestQueue F :=
  AddFindRequestByStatus log rq search_server_ raw_query .ACTUAL

/-- `GetNoResultRequests`. -/
def GetNoResultRequests (rq : RequestQueue F) : Int := rq.no_result_requests_

/-- A series of `AddFindRequest` calls `(server, raw_query, document_predicate)`, each
made on the queue that the previous one leaves. -/
def addRequests (log : F → F) (rq : RequestQueue F)
    (calls : List (SearchServer F × Str × (Int → DocumentStatus → Int → Bool))) :
    RequestQueue F :=
  calls.foldl (fun rq call => (AddFindRequest log rq call.1 call.2.1 call.2.2).2) rq

/-- The results of the calls of a series that return, in the order of the calls. -/
def returned (log : F → F)
    (calls : List (SearchServer F × Str × (Int → DocumentStatus → Int → Bool))) :
    List (List (Document F)) :=
  calls.filterMap (fun call =>
    match SearchServer.FindTopDocuments log call.1 call.2.1 call.2.2 with
    | .error _ => none
    | .ok found_docs => some found_docs)

end RequestQueue

/-! ### paginator.h -/

/-- `IteratorRange` over a random-access range: an iterator is the position it points
to. -/
structure IteratorRange where
  first_ : Nat
  last_ : Nat
  size_ : Nat

namespace IteratorRange

/-- The constructor: `size_` is `distance(first_, last_)`. -/
def create (first last : Nat) : IteratorRange := ⟨first, last, last - first⟩

/-- The elements that a range over the container `c` visits from `begin()` to
`end()`. -/
def elements {α : Type} (c : List α) (r : IteratorRange) : List α :=
  (c.drop r.first_).take (r.last_ - r.first_)

end IteratorRange

namespace Paginator

/-- The loop of the constructor of `Paginator`, with the variables `left` and `begin`
and the vector `pages_`; every test of the loop condition takes one unit of `fuel`,
and the loop that has not ended when the fuel is spent gives `none`. -/
def loop : Nat → Nat → Nat → Nat → List IteratorRange → Option (List IteratorRange)
  | 0, _, _, _, _ => none
  | fuel + 1, left, first, page_size, pages_ =>
    if left > 0 then
      loop fuel (left - min page_size left) (first + min page_size left) page_size
        (pages_ ++ [IteratorRange.create first (first + min page_size left)])
    else some pages_

/-- The constructor `Paginator(begin, end, page_size)`: `left` starts as
`distance(begin, end)`. -/
def create (fuel : Nat) (first last page_size : Nat) : Option (List IteratorRange) :=
  loop fuel (last - first) first page_size []

/-- The pages that the constructor is to produce for `n` elements from position
`first` on: page `i` runs from `first + i * page_size` to
`first + min ((i + 1) * page_size) n`, and there are `n / page_size` pages, rounded
up. -/
def pages (first n page_size : Nat) : List IteratorRange :=
  (List.range ((n + page_size - 1) / page_size)).map (fun i =>
    IteratorRange.create (first + i * page_size) (first + min ((i + 1) * page_size) n))

end Paginator

/-- `Paginate(c, page_size)`. -/
def Paginate {α : Type} (fuel : Nat) (c : List α) (page_size : Nat) :
    Option (List IteratorRange) :=
  Paginator.create fuel 0 c.length page_size

/-! ### The mutexes of the sharded map -/

/-- The key of an operation. -/
def MapOp.key {V : Type} : MapOp V → Int
  | .update key _ => key
  | .erase key => key

/-- A call that a thread makes on a `ConcurrentMap`: `operator[]` with an update of
`ref_to_value` in one full expression, so that the `Access` is a temporary, or `Erase`
(both `op`), or `BuildOrdinaryMap`. -/
inductive MapCall (V : Type) where
  | op (o : MapOp V)
  | build

/-- Where a thread stands.  `idle`: between two calls.  `held o`: inside `Access` or
`Erase`, the `lock_guard` of the bucket of the key is constructed.  `buildNext i m`: in
`BuildOrdinaryMap` before the iteration for bucket `i`, with `ordinary_map = m` and no
guard alive.  `buildHeld i m`: in that iteration, `values_guard` constructed. -/
inductive ThreadPc (V : Type) where
  | idle
  | held (o : MapOp V)
  | buildNext (i : Nat) (ordinary_map : OrdMap Int V)
  | buildHeld (i : Nat) (ordinary_map : OrdMap Int V)

/-- A thread: where it stands, the calls it still has to make, and the maps that its
`BuildOrdinaryMap` calls have returned. -/
structure Thread (V : Type) where
  pc : ThreadPc V
  calls : List (MapCall V)
  built : List (OrdMap Int V)

/-- A `ConcurrentMap` with its mutexes and the threads that work on it: `mutexes[i]`
is the thread that owns `maps_[i].mutex`, if any. -/
structure LockedMap (V : Type) where
  mutexes : List (Option Nat)
  cm : ConcurrentMap V
  threads : List (Thread V)

namespace Thread

variable {V : Type}

/-- The thread has made all its calls. -/
def finished : Thread V → Bool
  | ⟨.idle, [], _⟩ => true
  | _ => false

/-- The bucket whose guard the thread has alive, if any. -/
def holding (cm : ConcurrentMap V) (th : Thread V) : Option Nat :=
  match th.pc with
  | .held o => some (cm.GetBucket o.key)
  | .buildHeld i _ => some i
  | _ => none

/-- The number of steps that a call takes on a map of `n` buckets. -/
def callCost (n : Nat) : MapCall V → Nat
  | .op _ => 2
  | .build => 2 * n + 2

/-- The number of steps that the thread has left on a map of `n` buckets. -/
def cost (n : Nat) (th : Thread V) : Nat :=
  (match th.pc with
    | .idle => 0
    | .held _ => 1
    | .buildNext i _ => 2 * (n - i) + 1
    | .buildHeld i _ => 2 * (n - i)) + (th.calls.map (callCost n)).sum

end Thread

namespace LockedMap

variable {V : Type}

/-- The start: every mutex free, every thread idle with its calls ahead. -/
def init (cm : ConcurrentMap V) (programs : List (List (MapCall V))) : LockedMap V :=
  ⟨List.replicate cm.maps_.length none, cm, programs.map (fun calls => ⟨.idle, calls, []⟩)⟩

/-- One step of thread `t`; `none` when `t` is no thread, has finished, or waits for a
mutex that another thread owns.  The construction of a `lock_guard` is one step, which
takes the mutex when it is free; the rest of the critical section, up to the
destruction of the guard, is the next step of the thread. -/
def step (dflt : V) (st : LockedMap V) (t : Nat) : Option (LockedMap V) :=
  match st.threads[t]? with
  | none => none
  | some th =>
    match th.pc with
    | .idle =>
      match th.calls with
      | [] => none
      | .op o :: rest =>
        if st.mutexes[st.cm.GetBucket o.key]? = some none then
          some ⟨st.mutexes.set (st.cm.GetBucket o.key) (some t), st.cm,
            st.threads.set t ⟨.held o, rest, th.built⟩⟩
        else none
      | .build :: rest =>
        some ⟨st.mutexes, st.cm, st.threads.set t ⟨.buildNext 0 [], rest, th.built⟩⟩
    | .held o =>
      some ⟨st.mutexes.set (st.cm.GetBucket o.key) none, st.cm.applyOp dflt o,
        st.threads.set t ⟨.idle, th.calls, th.built⟩⟩
    | .buildNext i ordinary_map =>
      if i < st.cm.maps_.length then
        if st.mutexes[i]? = some none then
          some ⟨st.mutexes.set i (some t), st.cm,
            st.threads.set t ⟨.buildHeld i ordinary_map, th.calls, th.built⟩⟩
        else none
      else
        some ⟨st.mutexes, st.cm, st.threads.set t ⟨.idle, th.calls, th.built ++ [ordinary_map]⟩⟩
    | .buildHeld i ordinary_map =>
      some ⟨st.mutexes.set i none, st.cm,
        st.threads.set t ⟨.buildNext (i + 1)
          (((st.cm.maps_[i]?).getD []).foldl (fun acc e => OrdMap.assign acc e.1 e.2)
            ordinary_map), th.calls, th.built⟩⟩

/-- An interleaving: the threads step in the order of `schedule`; `none` when the
schedule picks a thread that cannot step. -/
def run (dflt : V) (st : LockedMap V) : List Nat → Option (LockedMap V)
  | [] => some st
  | t :: schedule =>
    match step dflt st t with
    | none => none
    | some st' => run dflt st' schedule

/-- Thread `t` owns the mutex of bucket `b`. -/
def Holds (st : LockedMap V) (t b : Nat) : Prop := st.mutexes[b]? = some (some t)

/-- The mutexes agree with the threads: every bucket has its mutex, and a thread owns
the mutex of a bucket exactly when it has the guard of that bucket alive. -/
def Consistent (st : LockedMap V) : Prop :=
  st.mutexes.length = st.cm.maps_.length ∧
    ∀ b t, Holds st t b ↔ ∃ th, st.threads[t]? = some th ∧ th.holding st.cm = some b

/-- Thread `t` is at the construction of a `lock_guard`: its next step takes a
mutex. -/
def atLock (st : LockedMap V) (t : Nat) : Bool :=
  match st.threads[t]? with
  | none => false
  | some th =>
    match th.pc, th.calls with
    | .idle, .op _ :: _ => true
    | .buildNext i _, _ => decide (i < st.cm.maps_.length)
    | _, _ => false

/-- Every thread has made all its calls. -/
def finished (st : LockedMap V) : Bool := st.threads.all Thread.finished

/-- The number of steps that the threads have left. -/
def cost (st : LockedMap V) : Nat :=
  (st.threads.map (Thread.cost st.cm.maps_.length)).sum

end LockedMap

/-! ### The calls of the parallel ranking on the sharded map -/

namespace SearchServer

variable {F : Type} [LinearOrderedField F]

/-- The operations on `document_to_relevance` that the functor of the first `for_each`
of the parallel `FindAllDocuments` makes for one plus-word when no lookup throws: for
every posting of the word whose document the predicate accepts, an update through
`operator[]` that adds the product of term frequency and inverse document
frequency. -/
def plusWordOps (log : F → F) (s : SearchServer F)
    (document_predicate : Int → DocumentStatus → Int → Bool) (word : Str) : List (MapOp F) :=
  match s.word_to_document_freqs_.find word with
  | none => []
  | some found_documents =>
    (found_documents.filter (fun posting => predOf s document_predicate posting.1)).map
      (fun posting => .update posting.1 (fun x => x + posting.2 * idfOf log s word))

/-- The operations that the functor of the second `for_each` makes for one minus-word:
an `Erase` for every posting of the word. -/
def minusWordOps (s : SearchServer F) (word : Str) : List (MapOp F) :=
  match s.word_to_document_freqs_.find word with
  | none => []
  | some found_documents => found_documents.map (fun posting => .erase posting.1)

/-- The threads of the first `for_each` when every plus-word has a thread of its
own. -/
def plusPrograms (log : F → F) (s : SearchServer F) (query : Query)
    (document_predicate : Int → DocumentStatus → Int → Bool) : List (List (MapCall F)) :=
  query.plus_words.map (fun word =>
    (plusWordOps log s document_predicate word).map MapCall.op)

/-- The threads of the second `for_each` when every minus-word has a thread of its
own. -/
def minusPrograms (s : SearchServer F) (query : Query) : List (List (MapCall F)) :=
  query.minus_words.map (fun word => (minusWordOps s word).map MapCall.op)

end SearchServer

/-! ### The keys of the postings as views into the stored texts -/

/-- The index together with the storage that the keys of `word_to_document_freqs_`
point into.  In the program such a key is a `std::string_view` into the member `text`
of an entry of `documents_` (the comment on that member says that every field with a
`std::string_view` depends on it).  `server` holds every key with the characters it had
when it was inserted, and `key_owner` maps every key to the document into whose text
it points; `none` stands for a `std::string` that no longer exists.  The program reads
the characters of `server` behind a key as long as the text that the key points into is
stored; what it reads behind a key whose text has been erased is not determined by the
source. -/
structure ViewIndex (F : Type) where
  server : SearchServer F
  key_owner : OrdMap Str (Option Int)

namespace ViewIndex

variable {F : Type} [LinearOrderedField F]

/-- The constructor: no key yet. -/
def create (stop_words : List Str) : Except Exception (ViewIndex F) :=
  match SearchServer.create stop_words with
  | .error e => .error e
  | .ok s => .ok ⟨s, []⟩

/-- `AddDocument`: the words are views into `it->second.text`, the text of the new
entry of `documents_`, so a word that `word_to_document_freqs_[word]` inserts as a new
key points into the text of `document_id`.  A key that is already there stays with the
view it has. -/
def AddDocument (v : ViewIndex F) (document_id : Int) (document : Str)
    (status : DocumentStatus) (ratings : List Int) : Except Exception Unit × ViewIndex F :=
  ((v.server.AddDocument document_id document status ratings).1,
    ⟨(v.server.AddDocument document_id document status ratings).2,
      match (v.server.AddDocument document_id document status ratings).1,
        v.server.SplitIntoWordsNoStop document with
      | .ok (), .ok words =>
        words.foldl (fun owners word => owners.emplace word (some document_id)) v.key_owner
      | _, _ => v.key_owner⟩)

/-- The owners once texts have been erased: a key whose owner is no entry of
`documents` any more points to no `std::string`, and it does so for good, also when the
id of the owner is given to a new document later. -/
def releaseOwners (documents : OrdMap Int DocumentData) (owners : OrdMap Str (Option Int)) :
    OrdMap Str (Option Int) :=
  owners.map (fun e =>
    (e.1, e.2.bind (fun document_id =>
      if (documents.find document_id).isSome then some document_id else none)))

/-- `RemoveDocument(std::execution::seq, id)`: `word_to_document_freqs_[string(word)]`
keeps the key of every word; where the lookup finds no key it inserts the view of the
temporary `std::string`.  The entry of `documents_` is erased and its text with it,
while the keys that point into the text stay. -/
def RemoveDocument (v : ViewIndex F) (document_id : Int) : ViewIndex F :=
  ⟨v.server.RemoveDocument document_id,
    releaseOwners (v.server.RemoveDocument document_id).documents_
      ((v.server.GetWordFrequencies document_id).foldl
        (fun owners e => owners.emplace e.1 none) v.key_owner)⟩

/-- `RemoveDocument(std::execution::par, id)`, to which `RemoveDocument(id)` forwards:
where `word_to_document_freqs_[word_freq.first]` finds no key it inserts the key of
the forward index, a view into the text of the document that is being erased. -/
def RemoveDocumentPar (v : ViewIndex F) (document_id : Int) : ViewIndex F :=
  ⟨v.server.RemoveDocumentPar document_id,
    releaseOwners (v.server.RemoveDocumentPar document_id).documents_
      ((v.server.GetWordFrequencies document_id).foldl
        (fun owners word_freq => owners.emplace word_freq.1 (some document_id)) v.key_owner)⟩

/-- Whether the storage that a view points into is still there: the text of a document
is, as long as the document is an entry of `documents_`. -/
def ownerStored (v : ViewIndex F) : Option Int → Bool
  | none => false
  | some document_id => (v.server.documents_.find document_id).isSome

/-- Every key of the postings points into a stored text. -/
def KeysLive (v : ViewIndex F) : Prop := ∀ e ∈ v.key_owner, v.ownerStored e.2 = true

instance (v : ViewIndex F) : Decidable v.KeysLive := by
  unfold KeysLive
  infer_instance

/-- The key `word` of the postings points into storage that has been released. -/
def Dangling (v : ViewIndex F) (word : Str) : Prop :=
  ∃ owner, v.key_owner.find word = some owner ∧ v.ownerStored owner = false

/-- Whether `word` is a key of the postings that points into a stored text. -/
def liveKey (v : ViewIndex F) (word : Str) : Bool :=
  match v.key_owner.find word with
  | some owner => v.ownerStored owner
  | none => false

/-- The states reached from a constructed server by calls of `AddDocument` that return
normally and by calls of `RemoveDocument`, every call being made in a state in which
all keys of the postings point into stored texts: up to such a state no lookup has
read released storage, so the program has computed what `server` holds.  A state
reached in this way can itself have keys that dangle, after the removal of a document
whose text some key points into. -/
inductive LiveReach : ViewIndex F → Prop where
  | init (stop_words : List Str) (v : ViewIndex F) :
      create stop_words = .ok v → LiveReach v
  | add (v : ViewIndex F) (document_id : Int) (document : Str) (status : DocumentStatus)
      (ratings : List Int) :
      LiveReach v → v.KeysLive → (v.AddDocument document_id document status ratings).1 = .ok () →
      LiveReach (v.AddDocument document_id document status ratings).2
  | remove (v : ViewIndex F) (document_id : Int) :
      LiveReach v → v.KeysLive → LiveReach (v.RemoveDocument document_id)
  | removePar (v : ViewIndex F) (document_id : Int) :
      LiveReach v → v.KeysLive → LiveReach (v.RemoveDocumentPar document_id)

/-- The same with the calls of `AddDocument` that throw: the states reached from a
constructed server by any calls of `AddDocument` and `RemoveDocument`, every call being
made in a state in which all keys of the postings point into stored texts. -/
inductive LiveReachAny : ViewIndex F → Prop where
  | init (stop_words : List Str) (v : ViewIndex F) :
      create stop_words = .ok v → LiveReachAny v
  | add (v : ViewIndex F) (document_id : Int) (document : Str) (status : DocumentStatus)
      (ratings : List Int) :
      LiveReachAny v → v.KeysLive →
      LiveReachAny (v.AddDocument document_id document status ratings).2
  | remove (v : ViewIndex F) (document_id : Int) :
      LiveReachAny v → v.KeysLive → LiveReachAny (v.RemoveDocument document_id)
  | removePar (v : ViewIndex F) (document_id : Int) :
      LiveReachAny v → v.KeysLive → LiveReachAny (v.RemoveDocumentPar document_id)

end ViewIndex

namespace SearchServer

variable {F : Type} [LinearOrderedField F]

/-- The server `s'` is `s` with further entries of the metadata: the stop words, the
postings, the forward index and the document id set are those of `s`, and every entry
of `documents_` of `s` is an entry of `documents_` of `s'`.  An `AddDocument` that
throws for a control byte leaves such a further entry. -/
structure WithRejected (s s' : SearchServer F) : Prop where
  stop_words : s'.stop_words_ = s.stop_words_
  postings : s'.word_to_document_freqs_ = s.word_to_document_freqs_
  forward : s'.document_to_word_freqs_ = s.document_to_word_freqs_
  ids : s'.document_ids_ = s.document_ids_
  wf_documents : s'.documents_.WF
  documents : ∀ id data, s.documents_.find id = some data → s'.documents_.find id = some data

/-- The number of live documents, those of the document id set, whose text has the
slice `w`. -/
def liveDocumentFrequency (s : SearchServer F) (w : Str) : Nat :=
  (s.documents_.filter (fun e =>
    decide (e.1 ∈ s.document_ids_) && decide (w ∈ SplitIntoWords e.2.text))).length

end SearchServer

/-! ### The arithmetic of `double` in `AddDocument` -/

/-- The operations on `double` that `AddDocument` performs: the value-initialised
frequency `0.0`, the literal `1.0`, the conversion of `words.size()`, `/` and `+=`. -/
structure DoubleArith (D : Type) where
  zero : D
  one : D
  ofNat : Nat → D
  add : D → D → D
  div : D → D → D

/-- The arithmetic without rounding, in a field. -/
def DoubleArith.exact (F : Type) [LinearOrderedField F] : DoubleArith F :=
  ⟨0, 1, fun n => (n : F), fun x y => x + y, fun x y => x / y⟩

/-- A `double` that is not negative, in the format binary64 of IEEE 754: a finite value
is a multiple of `2 ^ (-1074)`, held as the number of these units, so `1.0` is
`finite (2 ^ 1074)`; among the finite values the representable ones are those with at
most 53 significant bits.  Negative values and NaN do not occur in `AddDocument`. -/
inductive Binary64 where
  | finite (units : Nat)
  | infinity
deriving DecidableEq, Repr

namespace Binary64

/-- The position of the leading bit of `n` for `0 < n < 2 ^ 4096` (0 for `n = 0`). -/
def exponent (n : Nat) : Nat :=
  [2048, 1024, 512, 256, 128, 64, 32, 16, 8, 4, 2, 1].foldl
    (fun e k => if 1 <<< (e + k) ≤ n then e + k else e) 0

/-- The distance between neighbouring representable values at `n` units: one unit
below `2 ^ 53` units, and `2 ^ (e - 52)` units for a value with leading bit `e`. -/
def ulp (n : Nat) : Nat := 1 <<< (exponent n - 52)

/-- The quotient `p / q`, in units, rounded to the nearest representable value, to the
one with the even significand when it lies in the middle of two. -/
def roundQuot (p q : Nat) : Nat :=
  let u := ulp (p / q)
  let m := p / (q * u)
  let r := p % (q * u)
  if 2 * r < q * u then m * u
  else if 2 * r > q * u then (m + 1) * u
  else if m % 2 = 0 then m * u else (m + 1) * u

/-- The largest finite value, `(2 ^ 53 - 1) * 2 ^ 971`, in units. -/
def maxUnits : Nat := (1 <<< 53 - 1) <<< 2045

/-- A rounded result: infinity when it exceeds the largest finite value. -/
def ofUnits (n : Nat) : Binary64 := if n ≤ maxUnits then .finite n else .infinity

/-- The conversion of an unsigned integer. -/
def ofNat (n : Nat) : Binary64 := ofUnits (roundQuot (n <<< 1074) 1)

/-- The sum, rounded. -/
def add : Binary64 → Binary64 → Binary64
  | .finite a, .finite b => ofUnits (roundQuot (a + b) 1)
  | _, _ => .infinity

/-- The quotient, rounded; a finite value divided by zero is infinity (the program
divides `1.0` only). -/
def div : Binary64 → Binary64 → Binary64
  | .finite a, .finite b => if b = 0 then .infinity else ofUnits (roundQuot (a <<< 1074) b)
  | .finite _, .infinity => .finite 0
  | .infinity, _ => .infinity

/-- The arithmetic of `double`. -/
def arith : DoubleArith Binary64 := ⟨.finite 0, ofNat 1, ofNat, add, div⟩

/-- The order of the finite values and infinity. -/
def lt : Binary64 → Binary64 → Bool
  | .finite a, .finite b => decide (a < b)
  | .finite _, .infinity => true
  | .infinity, _ => false

end Binary64

namespace SearchServer

/-- The body of the loop of `AddDocument` for one word, in the arithmetic `A`. -/
def addWordWith {D : Type} (A : DoubleArith D) (document_id : Int) (inv_word_count : D)
    (maps : OrdMap Str (OrdMap Int D) × OrdMap Int (OrdMap Str D)) (word : Str) :
    OrdMap Str (OrdMap Int D) × OrdMap Int (OrdMap Str D) :=
  (maps.1.modify word []
    (fun docs => docs.modify document_id A.zero (fun x => A.add x inv_word_count)),
   maps.2.modify document_id []
    (fun freqs => freqs.modify word A.zero (fun x => A.add x inv_word_count)))

/-- `AddDocument` in the arithmetic `A`: `inv_word_count` is `1.0 / words.size()`, and
every occurrence of a word adds it to the two frequencies of the word. -/
def AddDocumentWith {D : Type} (A : DoubleArith D) (s : SearchServer D) (document_id : Int)
    (document : Str) (status : DocumentStatus) (ratings : List Int) :
    Except Exception Unit × SearchServer D :=
  if document_id < 0 then (.error .invalid_argument, s)
  else if s.documents_.count document_id > 0 then (.error .invalid_argument, s)
  else
    let s1 : SearchServer D :=
      { s with documents_ :=
          s.documents_.emplace document_id ⟨ComputeAverageRating ratings, status, document⟩ }
    match s1.SplitIntoWordsNoStop document with
    | .error e => (.error e, s1)
    | .ok words =>
      let inv_word_count : D := A.div A.one (A.ofNat words.length)
      let maps := words.foldl (addWordWith A document_id inv_word_count)
        (s1.word_to_document_freqs_, s1.document_to_word_freqs_)
      (.ok (), { s1 with
        word_to_document_freqs_ := maps.1
        document_to_word_freqs_ := maps.2
        document_ids_ := s1.document_ids_.insert document_id })

/-- The frequency that `AddDocument` stores for a word with `count` occurrences among
`size` words: `inv_word_count` added `count` times to `0.0`. -/
def storedFrequency {D : Type} (A : DoubleArith D) (count size : Nat) : D :=
  (fun x => A.add x (A.div A.one (A.ofNat size)))^[count] A.zero

end SearchServer

/-! ### `std::sort` as the standard specifies it, and the schedules of `for_each` -/

/-- The operations among the calls of a thread, in the order of the calls. -/
def MapCall.ops {V : Type} (calls : List (MapCall V)) : List (MapOp V) :=
  calls.filterMap (fun call =>
    match call with
    | .op o => some o
    | .build => none)

namespace LockedMap

variable {V : Type}

end LockedMap

namespace SearchServer

variable {F : Type} [LinearOrderedField F]

/-- The tail of `FindTopDocuments` with `sort` in the place of `std::sort`. -/
def sortAndTruncateWith (sort : List (Document F) → List (Document F))
    (matched_documents : List (Document F)) : List (Document F) :=
  let matched_documents := sort matched_documents
  if matched_documents.length > MAX_RESULT_DOCUMENT_COUNT then
    matched_documents.take MAX_RESULT_DOCUMENT_COUNT
  else matched_documents

/-- `FindTopDocuments(std::execution::seq, raw_query, document_predicate)` with `sort`
in the place of `std::sort`. -/
def FindTopDocumentsWith (sort : List (Document F) → List (Document F)) (log : F → F)
    (s : SearchServer F) (raw_query : Str)
    (document_predicate : Int → DocumentStatus → Int → Bool) :
    Except Exception (List (Document F)) :=
  match s.ParseQuery raw_query with
  | .error e => .error e
  | .ok query =>
    match FindAllDocuments log s query document_predicate with
    | .error e => .error e
    | .ok matched_documents => .ok (sortAndTruncateWith sort matched_documents)

end SearchServer

/-! ### Servers of the unit tests -/

namespace Examples

variable (F : Type) [LinearOrderedField F]

/-- A server constructed without stop words. -/
def emptyServer : SearchServer F := ⟨[], [], [], [], []⟩

/-- A server constructed with the stop words `in the`. -/
def stopServer : SearchServer F := ⟨["in".toList, "the".toList], [], [], [], []⟩

/-- The server of `TestMinusWords`: documents 0 and 1, no stop words. -/
def minusWordsServer : SearchServer F :=
  (emptyServer F).addAll
    [(0, "cat in the city".toList, .ACTUAL, [1, 2, 3]),
     (1, "dog in the village".toList, .ACTUAL, [1, 2, 3])]

/-- The server with stop words `in the` after `AddDocument(1, "in the", ACTUAL, {})`:
its only document has no indexed word. -/
def stopOnlyServer : SearchServer F :=
  (stopServer F).addAll [(1, "in the".toList, .ACTUAL, [])]

/-- The server with stop words `in the` after
`AddDocument(42, "cat in the city", ACTUAL, {1, 2, 3})`. -/
def catServer : SearchServer F :=
  (stopServer F).addAll [(42, "cat in the city".toList, .ACTUAL, [1, 2, 3])]

/-- The server of `TestMatchDocument`: the text `cat in the city` under the ids 1 to 4
with the four statuses, no stop words. -/
def matchServer : SearchServer F :=
  (emptyServer F).addAll
    [(1, "cat in the city".toList, .ACTUAL, [1, 2, 3]),
     (2, "cat in the city".toList, .BANNED, [1, 2, 3]),
     (3, "cat in the city".toList, .IRRELEVANT, [1, 2, 3]),
     (4, "cat in the city".toList, .REMOVED, [1, 2, 3])]

/-- A server constructed with the stop words of `TestRelevanceValue`. -/
def cyrillicStopServer : SearchServer F :=
  ⟨["в".toList, "и".toList, "на".toList], [], [], [], []⟩

/-- The server of `TestRelevanceValue`. -/
def relevanceServer : SearchServer F :=
  (cyrillicStopServer F).addAll
    [(0, "белый кот и модный ошейник".toList, .ACTUAL, [8, -3]),
     (1, "пушистый кот пушистый хвост".toList, .ACTUAL, [7, 2, 7]),
     (2, "ухоженный пёс выразительные глаза".toList, .ACTUAL, [0])]

/-- The server of `TestRating`: five documents with the same text. -/
def ratingServer : SearchServer F :=
  (emptyServer F).addAll
    [(1, "cat in the city".toList, .ACTUAL, [1, 2, 3]),
     (2, "cat in the city".toList, .ACTUAL, [1, 2, 3, 4, 5]),
     (3, "cat in the city".toList, .ACTUAL, [5, 10, 15]),
     (4, "cat in the city".toList, .ACTUAL, [-5, -10, -15]),
     (5, "cat in the city".toList, .ACTUAL, [-1, -3, -5])]

/-- A server with the stop words `in the` and five documents: 2 has the words of 1,
and 3 and 4 are made of stop words only. -/
def duplicatesServer : SearchServer F :=
  (stopServer F).addAll
    [(1, "cat in the city".toList, .ACTUAL, [1]),
     (2, "city cat cat".toList, .ACTUAL, [2]),
     (3, "in the".toList, .ACTUAL, [3]),
     (4, "the".toList, .ACTUAL, [4]),
     (5, "dog".toList, .ACTUAL, [5])]

/-- Two requests on the server with the document 42, `cat in the city`: the query
`cat` finds the document, the query `dog` finds nothing. -/
def twoRequests : List (SearchServer F × Str × (Int → DocumentStatus → Int → Bool)) :=
  [(catServer F, "cat".toList, SearchServer.statusPredicate .ACTUAL),
   (catServer F, "dog".toList, SearchServer.statusPredicate .ACTUAL)]

/-- The two requests followed by the malformed query `--cat`. -/
def threeRequests : List (SearchServer F × Str × (Int → DocumentStatus → Int → Bool)) :=
  twoRequests F ++ [(catServer F, "--cat".toList, SearchServer.statusPredicate .ACTUAL)]

/-- Three threads on a map of three buckets: the first updates the keys 1 and 4 and
erases 1, the second calls `BuildOrdinaryMap`, the third updates the key 4. -/
def threePrograms : List (List (MapCall Int)) :=
  [[.op (.update 1 (fun x => x + 1)), .op (.update 4 (fun x => x + 10)), .op (.erase 1)],
   [.build],
   [.op (.update 4 (fun x => x + 5))]]

/-- `SearchServer("")`, `AddDocument(1, "alpha beta gamma delta epsilon", ACTUAL, {1})`,
`AddDocument(2, "alpha beta", ACTUAL, {2})`. -/
def twoAlpha : ViewIndex F :=
  ((⟨emptyServer F, []⟩ : ViewIndex F).AddDocument 1 "alpha beta gamma delta epsilon".toList
    .ACTUAL [1]).2.AddDocument 2 "alpha beta".toList .ACTUAL [2] |>.2

/-- The same calls followed by `RemoveDocument(1)`. -/
def alphaRemoved : ViewIndex F := (twoAlpha F).RemoveDocumentPar 1

/-- `SearchServer("")`, `AddDocument(1, "cat", ACTUAL, {1})`,
`AddDocument(2, "cat", ACTUAL, {2})`, `RemoveDocument(1)`. -/
def catRemoved : ViewIndex F :=
  (((⟨emptyServer F, []⟩ : ViewIndex F).AddDocument 1 "cat".toList .ACTUAL [1]).2.AddDocument
    2 "cat".toList .ACTUAL [2]).2.RemoveDocumentPar 1

/-- `SearchServer("the")`, `AddDocument(1, "cat", ACTUAL, {1})`, `RemoveDocument(1)`. -/
def stopCatRemoved : ViewIndex F :=
  ((⟨⟨["the".toList], [], [], [], []⟩, []⟩ : ViewIndex F).AddDocument
    1 "cat".toList .ACTUAL [1]).2.RemoveDocumentPar 1

/-- `SearchServer("")`, `AddDocument(0, "beta", ACTUAL, {1})`. -/
def betaIndex : ViewIndex F :=
  ((⟨emptyServer F, []⟩ : ViewIndex F).AddDocument 0 "beta".toList .ACTUAL [1]).2

/-- The same server after `AddDocument(1, "alpha beta gamma delta epsilon", ACTUAL, {2})`
and `RemoveDocument(1)`. -/
def betaRoundTrip : ViewIndex F :=
  ((betaIndex F).AddDocument 1 "alpha beta gamma delta epsilon".toList
    .ACTUAL [2]).2.RemoveDocumentPar 1

/-- `SearchServer("")`, `AddDocument(1, "cat", ACTUAL, {1})`,
`AddDocument(2, "dog", ACTUAL, {2})` and `AddDocument(3, ...)` with a text that holds
the byte 1, which throws. -/
def rejectedAddServer : SearchServer F :=
  ((emptyServer F).addAll
    [(1, "cat".toList, .ACTUAL, [1]), (2, "dog".toList, .ACTUAL, [2])]).AddDocument
    3 ['b', 'i', 'r', 'd', Char.ofNat 1] .ACTUAL [3] |>.2

/-- The server without stop words, in the arithmetic of `double`, after
`AddDocument(1, "a a a b c", ACTUAL, {})`. -/
def threeOfFive : SearchServer Binary64 :=
  (SearchServer.AddDocumentWith Binary64.arith ⟨[], [], [], [], []⟩ 1 "a a a b c".toList
    .ACTUAL []).2

/-- The server without stop words, in the arithmetic of `double`, after
`AddDocument(1, "a a a a a a a a a", ACTUAL, {})` with nine words `a`. -/
def nineWords : SearchServer Binary64 :=
  (SearchServer.AddDocumentWith Binary64.arith ⟨[], [], [], [], []⟩ 1
    "a a a a a a a a a".toList .ACTUAL []).2

/-- The server of `TestMinusWords` with the owners of its keys: `SearchServer("")`,
`AddDocument(0, "cat in the city", ACTUAL, {1, 2, 3})`,
`AddDocument(1, "dog in the village", ACTUAL, {1, 2, 3})`. -/
def minusWordsIndex : ViewIndex F :=
  ((⟨emptyServer F, []⟩ : ViewIndex F).AddDocument 0 "cat in the city".toList .ACTUAL
    [1, 2, 3]).2.AddDocument 1 "dog in the village".toList .ACTUAL [1, 2, 3] |>.2

/-- The server with the stop words `in the` and the owners of its keys, which are
none. -/
def stopIndex : ViewIndex F := ⟨stopServer F, []⟩

/-- `SearchServer("")`, `AddDocument(1, "cat", ACTUAL, {1})`,
`AddDocument(2, "dog", ACTUAL, {2})` and `AddDocument(3, ...)` with a text that holds
the byte 1, which throws, with the owners of the keys. -/
def rejectedAddIndex : ViewIndex F :=
  (((⟨emptyServer F, []⟩ : ViewIndex F).AddDocument 1 "cat".toList .ACTUAL [1]).2.AddDocument
    2 "dog".toList .ACTUAL [2]).2.AddDocument 3 ['b', 'i', 'r', 'd', Char.ofNat 1] .ACTUAL [3]
    |>.2

/-- The server of `TestRelevanceValue` with the owners of its keys. -/
def relevanceIndex : ViewIndex F :=
  (((⟨cyrillicStopServer F, []⟩ : ViewIndex F).AddDocument
    0 "белый кот и модный ошейник".toList .ACTUAL [8, -3]).2.AddDocument
    1 "пушистый кот пушистый хвост".toList .ACTUAL [7, 2, 7]).2.AddDocument
    2 "ухоженный пёс выразительные глаза".toList .ACTUAL [0] |>.2

end Examples
/-! ## Part II. Lemmas -/

set_option linter.unusedSectionVars false


namespace OrdMap

variable {K V : Type}

section Find
variable [LinearOrder K]

@[simp] lemma find_nil (k : K) : find ([] : OrdMap K V) k = none := rfl

lemma find_cons (k' : K) (v : V) (rest : OrdMap K V) (k : K) :
    find ((k', v) :: rest) k = if k' = k then some v else find rest k := rfl

lemma find_erase (m : OrdMap K V) (k k' : K) :
    (m.erase k).find k' = if k' = k then none else m.find k' := by
  induction m with
  | nil => simp [erase]
  | cons e rest ih =>
    obtain ⟨a, b⟩ := e
    unfold erase at ih ⊢
    by_cases ha : a = k
    · subst ha
      simp only [List.filter_cons, ne_eq, not_true_eq_false, decide_False, Bool.false_eq_true,
        if_false, ih, find_cons]
      by_cases h : k' = a
      · simp [h]
      · have h2 : ¬ a = k' := fun e => h e.symm
        simp [h, h2]
    · simp only [List.filter_cons, ne_eq, ha, not_false_eq_true, decide_True, if_true, find_cons, ih]
      by_cases h : a = k'
      · subst h; simp [ha]
      · simp [h]

lemma find_some_mem {m : OrdMap K V} {k : K} {v : V} (h : m.find k = some v) : (k, v) ∈ m := by
  induction m with
  | nil => simp at h
  | cons e rest ih =>
    obtain ⟨a, b⟩ := e
    rw [find_cons] at h
    by_cases ha : a = k
    · simp only [ha, if_true, Option.some.injEq] at h
      subst ha; subst h; simp
    · simp only [ha, if_false] at h
      exact List.mem_cons_of_mem _ (ih h)

lemma find_isSome_iff_mem_keys (m : OrdMap K V) (k : K) :
    (m.find k).isSome ↔ k ∈ m.keys := by
  induction m with
  | nil => simp [keys]
  | cons e rest ih =>
    obtain ⟨a, b⟩ := e
    rw [find_cons]
    by_cases ha : a = k
    · simp [ha, keys]
    · have : ¬ k = a := fun e => ha e.symm
      simp only [ha, if_false, ih, keys, List.map_cons, List.mem_cons, this, false_or]

lemma find_eq_none_iff (m : OrdMap K V) (k : K) : m.find k = none ↔ k ∉ m.keys := by
  rw [← find_isSome_iff_mem_keys]; cases m.find k <;> simp

lemma keys_erase (m : OrdMap K V) (k : K) : (m.erase k).keys = m.keys.filter (fun a => decide (a ≠ k)) := by
  induction m with
  | nil => rfl
  | cons e rest ih =>
    unfold erase keys at *
    by_cases h : e.1 = k
    · simp only [List.filter_cons, ne_eq, h, not_true_eq_false, decide_False, Bool.false_eq_true,
        if_false, List.map_cons, ih]
    · simp only [List.filter_cons, ne_eq, h, not_false_eq_true, decide_True, if_true,
        List.map_cons, ih]

end Find

section Order
variable [LinearOrder K]

lemma find_assign (m : OrdMap K V) (k : K) (v : V) (k' : K) :
    (m.assign k v).find k' = if k = k' then some v else m.find k' := by
  induction m with
  | nil => simp [assign, find_cons]
  | cons e rest ih =>
    obtain ⟨a, b⟩ := e
    unfold assign
    by_cases h1 : k < a
    · simp [h1, find_cons]
    · by_cases h2 : k = a
      · subst h2
        simp only [lt_self_iff_false, if_false, if_true, find_cons]
        by_cases h : k = k' <;> simp [h]
      · simp only [h1, h2, if_false, find_cons, ih]
        by_cases h : a = k'
        · subst h; simp [h2]
        · simp [h]

lemma find_modify (m : OrdMap K V) (k : K) (d : V) (f : V → V) (k' : K) :
    (m.modify k d f).find k' = if k = k' then some (f ((m.find k).getD d)) else m.find k' := by
  unfold modify; rw [find_assign]

lemma find_emplace_of_none {m : OrdMap K V} {k : K} (hk : m.find k = none) (v : V) (k' : K) :
    (m.emplace k v).find k' = if k = k' then some v else m.find k' := by
  unfold emplace
  simp [hk, find_assign]

lemma mem_keys_assign (m : OrdMap K V) (k : K) (v : V) (k' : K) :
    k' ∈ (m.assign k v).keys ↔ k' = k ∨ k' ∈ m.keys := by
  rw [← find_isSome_iff_mem_keys, ← find_isSome_iff_mem_keys, find_assign]
  by_cases h : k = k'
  · simp [h]
  · have : ¬ k' = k := fun e => h e.symm
    simp [h, this]

lemma WF_nil : WF ([] : OrdMap K V) := List.Pairwise.nil

lemma WF_cons_iff (e : K × V) (m : OrdMap K V) :
    WF (e :: m) ↔ (∀ k ∈ m.keys, e.1 < k) ∧ WF m := by
  unfold WF keys; simp [List.pairwise_cons]

lemma WF_assign {m : OrdMap K V} (h : m.WF) (k : K) (v : V) : (m.assign k v).WF := by
  induction m with
  | nil => simp [assign, WF, keys]
  | cons e rest ih =>
    obtain ⟨a, b⟩ := e
    rw [WF_cons_iff] at h
    unfold assign
    by_cases h1 : k < a
    · simp only [h1, if_true]
      rw [WF_cons_iff]
      refine ⟨?_, (WF_cons_iff _ _).2 h⟩
      intro x hx
      simp only [keys, List.map_cons, List.mem_cons] at hx
      rcases hx with hx | hx
      · subst hx; exact h1
      · exact lt_trans h1 (h.1 x hx)
    · by_cases h2 : k = a
      · subst h2
        simp only [lt_self_iff_false, if_false, if_true]
        exact (WF_cons_iff _ _).2 h
      · simp only [h1, h2, if_false]
        rw [WF_cons_iff]
        refine ⟨?_, ih h.2⟩
        intro x hx
        rw [mem_keys_assign] at hx
        rcases hx with hx | hx
        · subst hx
          exact lt_of_le_of_ne (not_lt.1 h1) (fun e => h2 e.symm)
        · exact h.1 x hx

lemma WF_modify {m : OrdMap K V} (h : m.WF) (k : K) (d : V) (f : V → V) : (m.modify k d f).WF :=
  WF_assign h _ _

lemma WF_emplace {m : OrdMap K V} (h : m.WF) (k : K) (v : V) : (m.emplace k v).WF := by
  unfold emplace; split
  · exact h
  · exact WF_assign h _ _

lemma WF_erase {m : OrdMap K V} (h : m.WF) (k : K) : (m.erase k).WF := by
  unfold WF at *; rw [keys_erase]; exact h.filter _

lemma WF_nodup {m : OrdMap K V} (h : m.WF) : m.keys.Nodup :=
  h.imp (fun hab => ne_of_lt hab)

lemma mem_iff_find {m : OrdMap K V} (h : m.WF) (k : K) (v : V) :
    (k, v) ∈ m ↔ m.find k = some v := by
  refine ⟨?_, find_some_mem⟩
  induction m with
  | nil => simp
  | cons e rest ih =>
    obtain ⟨a, b⟩ := e
    rw [WF_cons_iff] at h
    intro hm
    rw [find_cons]
    rcases List.mem_cons.1 hm with hm | hm
    · simp only [Prod.mk.injEq] at hm
      simp [hm.1, hm.2]
    · have hk : k ∈ keys rest := List.mem_map.2 ⟨(k, v), hm, rfl⟩
      have : a ≠ k := ne_of_lt (h.1 k hk)
      simp [this, ih h.2 hm]

/-- Two well-formed maps with the same lookups are the same list. -/
lemma ext_of_WF {m₁ m₂ : OrdMap K V} (h₁ : m₁.WF) (h₂ : m₂.WF)
    (h : ∀ k, m₁.find k = m₂.find k) : m₁ = m₂ := by
  have hperm : List.Perm m₁ m₂ := by
    rw [List.perm_ext_iff_of_nodup]
    · rintro ⟨k, v⟩
      rw [mem_iff_find h₁, mem_iff_find h₂, h]
    · exact (List.Nodup.of_map Prod.fst (WF_nodup h₁))
    · exact (List.Nodup.of_map Prod.fst (WF_nodup h₂))
  have s₁ : m₁.Sorted (fun a b => a.1 < b.1) := by
    unfold WF keys at h₁; exact (List.pairwise_map.1 h₁)
  have s₂ : m₂.Sorted (fun a b => a.1 < b.1) := by
    unfold WF keys at h₂; exact (List.pairwise_map.1 h₂)
  haveI : IsAntisymm (K × V) (fun a b => a.1 < b.1) :=
    ⟨fun a b hab hba => absurd hab (lt_asymm hba)⟩
  exact List.eq_of_perm_of_sorted hperm s₁ s₂

end Order
end OrdMap


namespace OrdSet

variable {K : Type} [LinearOrder K]

lemma set_mem_insert (s : OrdSet K) (k k' : K) : k' ∈ s.insert k ↔ k' = k ∨ k' ∈ s := by
  induction s with
  | nil => simp [insert]
  | cons a rest ih =>
    unfold insert
    by_cases h1 : k < a
    · simp [h1]
    · by_cases h2 : k = a
      · subst h2; simp
      · simp only [h1, h2, if_false, List.mem_cons, ih]
        tauto

lemma set_WF_insert {s : OrdSet K} (h : s.WF) (k : K) : (s.insert k).WF := by
  induction s with
  | nil => simp [insert, WF]
  | cons a rest ih =>
    unfold WF at h ih ⊢
    rw [List.pairwise_cons] at h
    unfold insert
    by_cases h1 : k < a
    · simp only [h1, if_true, List.pairwise_cons]
      refine ⟨?_, h⟩
      intro x hx
      rcases List.mem_cons.1 hx with hx | hx
      · subst hx; exact h1
      · exact lt_trans h1 (h.1 x hx)
    · by_cases h2 : k = a
      · subst h2
        simp only [lt_self_iff_false, if_false, if_true, List.pairwise_cons]
        exact h
      · simp only [h1, h2, if_false, List.pairwise_cons]
        refine ⟨?_, ih h.2⟩
        intro x hx
        rw [set_mem_insert] at hx
        rcases hx with hx | hx
        · subst hx
          exact lt_of_le_of_ne (not_lt.1 h1) (fun e => h2 e.symm)
        · exact h.1 x hx

lemma set_mem_erase (s : OrdSet K) (k k' : K) : k' ∈ s.erase k ↔ k' ≠ k ∧ k' ∈ s := by
  unfold erase; simp [List.mem_filter, and_comm]

lemma set_WF_erase {s : OrdSet K} (h : s.WF) (k : K) : (s.erase k).WF := by
  unfold WF erase at *; exact h.filter _

/-- Two strictly ascending lists with the same elements are equal. -/
lemma set_ext_of_WF {s₁ s₂ : OrdSet K} (h₁ : s₁.WF) (h₂ : s₂.WF) (h : ∀ k, k ∈ s₁ ↔ k ∈ s₂) :
    s₁ = s₂ := by
  have hperm : List.Perm s₁ s₂ := by
    rw [List.perm_ext_iff_of_nodup (h₁.imp (fun hab => ne_of_lt hab))
      (h₂.imp (fun hab => ne_of_lt hab))]
    exact h
  exact List.eq_of_perm_of_sorted hperm h₁ h₂

/-- Inserting a key into the key list of a map follows `assign`. -/
lemma insert_keys {V : Type} (m : OrdMap K V) (k : K) (v : V) :
    (m.assign k v).keys = OrdSet.insert m.keys k := by
  induction m with
  | nil => rfl
  | cons e rest ih =>
    obtain ⟨a, b⟩ := e
    have ih2 : List.map Prod.fst (OrdMap.assign rest k v) = OrdSet.insert (List.map Prod.fst rest) k := ih
    simp only [OrdMap.assign, OrdMap.keys, List.map_cons, OrdSet.insert]
    by_cases h1 : k < a
    · simp [h1]
    · by_cases h2 : k = a
      · subst h2; simp
      · simp only [List.map_cons, h1, h2, if_false, List.cons.injEq, true_and]
        exact ih2

lemma erase_keys {V : Type} (m : OrdMap K V) (k : K) :
    (m.erase k).keys = OrdSet.erase m.keys k := by
  rw [OrdMap.keys_erase]; rfl

end OrdSet

namespace OrdMap

variable {K₁ K₂ V : Type} [LinearOrder K₁] [LinearOrder K₂]

lemma find2_nil (k₁ : K₁) (k₂ : K₂) : find2 ([] : OrdMap K₁ (OrdMap K₂ V)) k₁ k₂ = none := rfl

lemma find2_modify_modify (m : OrdMap K₁ (OrdMap K₂ V)) (k₁ : K₁) (k₂ : K₂) (d : V) (f : V → V)
    (a : K₁) (b : K₂) :
    find2 (m.modify k₁ [] (fun inner => inner.modify k₂ d f)) a b =
      if a = k₁ ∧ b = k₂ then some (f ((find2 m k₁ k₂).getD d)) else find2 m a b := by
  unfold find2
  rw [find_modify]
  by_cases h1 : k₁ = a
  · subst h1
    simp only [if_true, Option.bind_some, find_modify, true_and]
    by_cases h2 : k₂ = b
    · subst h2
      cases h : m.find k₁ <;> simp [find_modify]
    · have : ¬ b = k₂ := fun e => h2 e.symm
      cases h : m.find k₁ <;> simp [h2, this, find_modify]
  · have : ¬ a = k₁ := fun e => h1 e.symm
    simp [h1, this]

lemma find2_modify_erase (m : OrdMap K₁ (OrdMap K₂ V)) (k₁ : K₁) (k₂ : K₂) (a : K₁) (b : K₂) :
    find2 (m.modify k₁ [] (fun inner => inner.erase k₂)) a b =
      if a = k₁ ∧ b = k₂ then none else find2 m a b := by
  unfold find2
  rw [find_modify]
  by_cases h1 : k₁ = a
  · subst h1
    simp only [if_true, Option.bind_some, find_erase, true_and]
    by_cases h2 : b = k₂
    · simp [h2, find_erase]
    · cases h : m.find k₁ <;> simp [h2, find_erase]
  · have : ¬ a = k₁ := fun e => h1 e.symm
    simp [h1, this]

lemma find2_erase (m : OrdMap K₁ (OrdMap K₂ V)) (k : K₁) (a : K₁) (b : K₂) :
    find2 (m.erase k) a b = if a = k then none else find2 m a b := by
  unfold find2; rw [find_erase]; by_cases h : a = k <;> simp [h]

lemma InnerWF_nil : InnerWF ([] : OrdMap K₁ (OrdMap K₂ V)) := by
  intro k inner h; simp at h

lemma InnerWF_modify {m : OrdMap K₁ (OrdMap K₂ V)} (h : m.InnerWF) (k₁ : K₁)
    (f : OrdMap K₂ V → OrdMap K₂ V) (hf : ∀ inner, inner.WF → (f inner).WF) :
    (m.modify k₁ [] f).InnerWF := by
  intro k inner hk
  rw [find_modify] at hk
  by_cases h1 : k₁ = k
  · simp only [h1, if_true, Option.some.injEq] at hk
    subst hk
    apply hf
    cases hm : m.find k with
    | none => exact WF_nil
    | some x => exact h k x hm
  · simp only [h1, if_false] at hk
    exact h k inner hk

lemma InnerWF_erase {m : OrdMap K₁ (OrdMap K₂ V)} (h : m.InnerWF) (k₁ : K₁) :
    (m.erase k₁).InnerWF := by
  intro k inner hk
  rw [find_erase] at hk
  by_cases h1 : k = k₁
  · simp [h1] at hk
  · simp only [h1, if_false] at hk
    exact h k inner hk

end OrdMap


/-! ### Splitting -/

lemma SplitIntoWords_ne_nil (t : Str) : SplitIntoWords t ≠ [] := by
  cases t with
  | nil => simp [SplitIntoWords]
  | cons c rest =>
    unfold SplitIntoWords
    by_cases h : c = ' '
    · simp [h]
    · simp only [h, if_false]
      split <;> simp

lemma SplitIntoWords_cons_space (rest : Str) :
    SplitIntoWords (' ' :: rest) = [] :: SplitIntoWords rest := by
  simp [SplitIntoWords]

lemma SplitIntoWords_cons_char {c : Char} (h : c ≠ ' ') (rest : Str) :
    ∃ w ws, SplitIntoWords rest = w :: ws ∧ SplitIntoWords (c :: rest) = (c :: w) :: ws := by
  cases hs : SplitIntoWords rest with
  | nil => exact absurd hs (SplitIntoWords_ne_nil rest)
  | cons w ws =>
    refine ⟨w, ws, rfl, ?_⟩
    rw [SplitIntoWords]
    simp [h, hs]

namespace SearchServer

variable {F : Type} [LinearOrderedField F]

lemma IsValidWord_nil : IsValidWord [] = true := rfl

lemma IsValidWord_cons (c : Char) (w : Str) :
    IsValidWord (c :: w) = (decide (32 ≤ c.toNat) && IsValidWord w) := by
  unfold IsValidWord
  by_cases h : c.toNat < 32
  · have : ¬ 32 ≤ c.toNat := by omega
    simp [h, this]
  · have : 32 ≤ c.toNat := by omega
    simp [h, this]

lemma IsValidWord_iff (w : Str) : IsValidWord w = true ↔ ∀ c ∈ w, 32 ≤ c.toNat := by
  induction w with
  | nil => simp [IsValidWord_nil]
  | cons c w ih => simp [IsValidWord_cons, ih]

/-- Every slice is valid exactly when the text has no character below 32. -/
lemma all_valid_SplitIntoWords (t : Str) :
    (∀ w ∈ SplitIntoWords t, IsValidWord w = true) ↔ ∀ c ∈ t, 32 ≤ c.toNat := by
  induction t with
  | nil => simp [SplitIntoWords, IsValidWord_nil]
  | cons c rest ih =>
    by_cases h : c = ' '
    · subst h
      rw [SplitIntoWords_cons_space]
      simp only [List.mem_cons, forall_eq_or_imp, IsValidWord_nil, true_and, ih]
      constructor
      · intro h2; exact ⟨by decide, h2⟩
      · intro h2; exact h2.2
    · obtain ⟨w, ws, h1, h2⟩ := SplitIntoWords_cons_char h rest
      rw [h2]
      rw [h1] at ih
      simp only [List.mem_cons, forall_eq_or_imp, IsValidWord_cons, Bool.and_eq_true,
        decide_eq_true_eq] at ih ⊢
      rw [← ih]
      tauto

/-- The loop of `SplitIntoWordsNoStop`, started with `acc`. -/
lemma noStop_loop (s : SearchServer F) (l : List Str) (acc : List Str) :
    l.foldlM (fun words word =>
      if !IsValidWord word then (Except.error Exception.invalid_argument : Except Exception (List Str))
      else if !s.IsStopWord word then .ok (words ++ [word])
      else .ok words) acc =
    if ∀ w ∈ l, IsValidWord w = true then
      .ok (acc ++ l.filter (fun w => !s.IsStopWord w))
    else .error .invalid_argument := by
  induction l generalizing acc with
  | nil => simp [pure, Except.pure]
  | cons w ws ih =>
    rw [List.foldlM_cons]
    by_cases hv : IsValidWord w = true
    · by_cases hs : s.IsStopWord w = true
      · simp only [hv, hs, Bool.not_true, Bool.false_eq_true, if_false, List.mem_cons,
          forall_eq_or_imp, true_and, List.filter_cons]
        exact ih acc
      · simp only [Bool.not_eq_true] at hs
        simp only [hv, hs, Bool.not_true, Bool.not_false, Bool.false_eq_true, if_false, if_true,
          List.mem_cons, forall_eq_or_imp, true_and, List.filter_cons]
        have := ih (acc ++ [w])
        simp only [List.append_assoc, List.singleton_append] at this
        exact this
    · simp only [Bool.not_eq_true] at hv
      simp [hv]
      rfl

lemma SplitIntoWordsNoStop_eq (s : SearchServer F) (text : Str) :
    s.SplitIntoWordsNoStop text =
      if ∀ c ∈ text, 32 ≤ c.toNat then .ok (s.nonStopWords text)
      else .error .invalid_argument := by
  unfold SplitIntoWordsNoStop
  rw [noStop_loop]
  simp only [all_valid_SplitIntoWords, List.nil_append, nonStopWords]

lemma count_pos_iff {K V : Type} [LinearOrder K] (m : OrdMap K V) (k : K) :
    m.count k > 0 ↔ m.find k ≠ none := by
  unfold OrdMap.count
  cases m.find k <;> simp

/-- `AddDocument` by cases on its three checks. -/
lemma AddDocument_eq (s : SearchServer F) (id : Int) (text : Str) (status : DocumentStatus)
    (ratings : List Int) :
    s.AddDocument id text status ratings =
      if id < 0 then (.error .invalid_argument, s)
      else if s.documents_.find id ≠ none then (.error .invalid_argument, s)
      else if ∀ c ∈ text, 32 ≤ c.toNat then
        (.ok (), { s with
          documents_ := s.documents_.assign id ⟨ComputeAverageRating ratings, status, text⟩
          word_to_document_freqs_ := ((s.nonStopWords text).foldl
            (addWord id (1 / ((s.nonStopWords text).length : F)))
            (s.word_to_document_freqs_, s.document_to_word_freqs_)).1
          document_to_word_freqs_ := ((s.nonStopWords text).foldl
            (addWord id (1 / ((s.nonStopWords text).length : F)))
            (s.word_to_document_freqs_, s.document_to_word_freqs_)).2
          document_ids_ := s.document_ids_.insert id })
      else (.error .invalid_argument, { s with
          documents_ := s.documents_.assign id ⟨ComputeAverageRating ratings, status, text⟩ }) := by
  unfold AddDocument
  by_cases h1 : id < 0
  · rw [if_pos h1, if_pos h1]
  · rw [if_neg h1, if_neg h1]
    by_cases h2 : s.documents_.count id > 0
    · rw [if_pos h2, if_pos ((count_pos_iff _ _).1 h2)]
    · have h3 : s.documents_.find id = none := by
        by_contra hc; exact h2 ((count_pos_iff _ _).2 hc)
      rw [if_neg h2, if_neg (by simp [h3])]
      have he : ∀ d, s.documents_.emplace id d = s.documents_.assign id d := by
        intro d; unfold OrdMap.emplace; simp [h3]
      simp only [he, SplitIntoWordsNoStop_eq]
      by_cases h4 : ∀ c ∈ text, 32 ≤ c.toNat
      · rw [if_pos h4, if_pos h4]
        rfl
      · rw [if_neg h4, if_neg h4]

/-- `AddDocument` returns normally exactly on its three preconditions. -/
lemma AddDocument_ok_iff (s : SearchServer F) (id : Int) (text : Str) (status : DocumentStatus)
    (ratings : List Int) :
    (s.AddDocument id text status ratings).1 = .ok () ↔
      0 ≤ id ∧ s.documents_.find id = none ∧ ∀ c ∈ text, 32 ≤ c.toNat := by
  rw [AddDocument_eq]
  by_cases h1 : id < 0
  · rw [if_pos h1]
    constructor
    · intro h; cases h
    · intro h; omega
  · rw [if_neg h1]
    by_cases h2 : s.documents_.find id ≠ none
    · rw [if_pos h2]
      constructor
      · intro h; cases h
      · intro h; exact absurd h.2.1 h2
    · rw [if_neg h2]
      by_cases h4 : ∀ c ∈ text, 32 ≤ c.toNat
      · rw [if_pos h4]
        simp only [true_iff]
        exact ⟨by omega, by simpa using h2, h4⟩
      · rw [if_neg h4]
        constructor
        · intro h; cases h
        · intro h; exact absurd h.2.2 h4

/-- Every failure of `AddDocument` is `invalid_argument`. -/
lemma AddDocument_error (s : SearchServer F) (id : Int) (text : Str) (status : DocumentStatus)
    (ratings : List Int) (h : (s.AddDocument id text status ratings).1 ≠ .ok ()) :
    (s.AddDocument id text status ratings).1 = .error .invalid_argument := by
  rw [AddDocument_eq] at h ⊢
  by_cases h1 : id < 0
  · rw [if_pos h1]
  · rw [if_neg h1] at h ⊢
    by_cases h2 : s.documents_.find id ≠ none
    · rw [if_pos h2]
    · rw [if_neg h2] at h ⊢
      by_cases h4 : ∀ c ∈ text, 32 ≤ c.toNat
      · rw [if_pos h4] at h; exact absurd rfl h
      · rw [if_neg h4]

end SearchServer


/-- A type has one lawful boolean equality. -/
lemma lawful_beq_unique {α : Type} (i₁ i₂ : BEq α) (h₁ : @LawfulBEq α i₁) (h₂ : @LawfulBEq α i₂) :
    i₁ = i₂ := by
  obtain ⟨f⟩ := i₁
  obtain ⟨g⟩ := i₂
  congr
  funext a b
  by_cases h : a = b
  · subst h
    have e₁ : f a a = true := @LawfulBEq.rfl α ⟨f⟩ h₁ a
    have e₂ : g a a = true := @LawfulBEq.rfl α ⟨g⟩ h₂ a
    rw [e₁, e₂]
  · have hf : f a b = false := by
      cases hfab : f a b with
      | false => rfl
      | true => exact absurd (@LawfulBEq.eq_of_beq α ⟨f⟩ h₁ a b hfab) h
    have hg : g a b = false := by
      cases hgab : g a b with
      | false => rfl
      | true => exact absurd (@LawfulBEq.eq_of_beq α ⟨g⟩ h₂ a b hgab) h
    rw [hf, hg]

namespace OrdMap

variable {K₁ K₂ : Type} [LinearOrder K₁] [LinearOrder K₂] {F : Type} [LinearOrderedField F]

/-- A run of `m[k₁][k₂] += x` over a list of key pairs adds `x` once per occurrence. -/
lemma find2_foldl_add (l : List (K₁ × K₂)) (x : F) (m : OrdMap K₁ (OrdMap K₂ F)) (a : K₁) (b : K₂) :
    find2 (l.foldl (fun acc p => acc.modify p.1 [] (fun inner => inner.modify p.2 0
      (fun y => y + x))) m) a b =
      if (a, b) ∈ l then some ((find2 m a b).getD 0 + (l.count (a, b) : F) * x)
      else find2 m a b := by
  induction l generalizing m with
  | nil => simp
  | cons p ps ih =>
    rw [List.foldl_cons, ih, find2_modify_modify]
    by_cases hp : (a, b) = p
    · subst hp
      simp only [and_self, if_true, Option.getD_some, List.mem_cons, true_or,
        List.count_cons_self]
      by_cases hm : (a, b) ∈ ps
      · simp only [hm, if_true, Option.some.injEq]
        push_cast; ring
      · simp only [hm, if_false, List.count_eq_zero_of_not_mem hm]
        simp
    · have h2 : ¬ (a = p.1 ∧ b = p.2) := by
        intro h; apply hp; ext <;> simp [h.1, h.2]
      have h3 : ¬ p = (a, b) := fun e => hp e.symm
      have h4 : (p == (a, b)) = false := by simpa using h3
      simp only [h2, if_false, List.mem_cons, hp, false_or, List.count_cons, h4]
      simp

lemma WF_foldl_modify {V : Type} (l : List (K₁ × K₂)) (g : K₂ → OrdMap K₂ V → OrdMap K₂ V)
    (m : OrdMap K₁ (OrdMap K₂ V)) (h : m.WF) :
    (l.foldl (fun acc p => acc.modify p.1 [] (g p.2)) m).WF := by
  induction l generalizing m with
  | nil => exact h
  | cons p ps ih => exact ih _ (WF_modify h _ _ _)

lemma InnerWF_foldl_modify {V : Type} (l : List (K₁ × K₂)) (g : K₂ → OrdMap K₂ V → OrdMap K₂ V)
    (hg : ∀ k inner, inner.WF → (g k inner).WF)
    (m : OrdMap K₁ (OrdMap K₂ V)) (h : m.InnerWF) :
    (l.foldl (fun acc p => acc.modify p.1 [] (g p.2)) m).InnerWF := by
  induction l generalizing m with
  | nil => exact h
  | cons p ps ih => exact ih _ (InnerWF_modify h _ _ (hg _))

lemma find_foldl_modify_of_not_mem {V : Type} (l : List (K₁ × K₂))
    (g : K₂ → OrdMap K₂ V → OrdMap K₂ V) (m : OrdMap K₁ (OrdMap K₂ V)) (a : K₁)
    (ha : ∀ p ∈ l, p.1 ≠ a) :
    (l.foldl (fun acc p => acc.modify p.1 [] (g p.2)) m).find a = m.find a := by
  induction l generalizing m with
  | nil => rfl
  | cons p ps ih =>
    rw [List.foldl_cons, ih _ (fun q hq => ha q (List.mem_cons_of_mem _ hq)), find_modify]
    simp [ha p (List.mem_cons_self _ _)]

/-- A run of `m[k₁].erase(k₂)` over a list of key pairs removes exactly those cells. -/
lemma find2_foldl_erase {V : Type} (l : List (K₁ × K₂)) (m : OrdMap K₁ (OrdMap K₂ V))
    (a : K₁) (b : K₂) :
    find2 (l.foldl (fun acc p => acc.modify p.1 [] (fun inner => inner.erase p.2)) m) a b =
      if (a, b) ∈ l then none else find2 m a b := by
  induction l generalizing m with
  | nil => simp
  | cons p ps ih =>
    rw [List.foldl_cons, ih, find2_modify_erase]
    by_cases hp : (a, b) = p
    · subst hp; simp
    · have h2 : ¬ (a = p.1 ∧ b = p.2) := by
        intro h; apply hp; ext <;> simp [h.1, h.2]
      simp [h2, hp]

lemma find2_eq_none_of_find {V : Type} {m : OrdMap K₁ (OrdMap K₂ V)} {a : K₁}
    (h : m.find a = none) (b : K₂) : find2 m a b = none := by
  unfold find2; rw [h]; rfl

end OrdMap

namespace SearchServer

variable {F : Type} [LinearOrderedField F]

/-- The loop of `AddDocument` treats the two maps independently. -/
lemma foldl_addWord (id : Int) (x : F) (words : List Str)
    (p : OrdMap Str (OrdMap Int F)) (f : OrdMap Int (OrdMap Str F)) :
    words.foldl (addWord id x) (p, f) =
      ((words.map (fun w => (w, id))).foldl (fun acc q => acc.modify q.1 []
          (fun inner => inner.modify q.2 0 (fun y => y + x))) p,
       (words.map (fun w => (id, w))).foldl (fun acc q => acc.modify q.1 []
          (fun inner => inner.modify q.2 0 (fun y => y + x))) f) := by
  induction words generalizing p f with
  | nil => rfl
  | cons w ws ih =>
    rw [List.foldl_cons, List.map_cons, List.map_cons, List.foldl_cons, List.foldl_cons]
    exact ih _ _

lemma mem_map_pair_left (words : List Str) (id : Int) (a : Str) (b : Int) :
    (a, b) ∈ words.map (fun w => (w, id)) ↔ b = id ∧ a ∈ words := by
  simp only [List.mem_map, Prod.mk.injEq]
  constructor
  · rintro ⟨w, hw, h1, h2⟩; subst h1; exact ⟨h2.symm, hw⟩
  · rintro ⟨h1, h2⟩; exact ⟨a, h2, rfl, h1.symm⟩

lemma mem_map_pair_right (words : List Str) (id : Int) (a : Int) (b : Str) :
    (a, b) ∈ words.map (fun w => (id, w)) ↔ a = id ∧ b ∈ words := by
  simp only [List.mem_map, Prod.mk.injEq]
  constructor
  · rintro ⟨w, hw, h1, h2⟩; subst h2; exact ⟨h1.symm, hw⟩
  · rintro ⟨h1, h2⟩; exact ⟨b, h2, h1.symm, rfl⟩

lemma count_map_pair_left {K₁ K₂ : Type} [LinearOrder K₁] [LinearOrder K₂] (words : List K₁)
    (id : K₂) (a : K₁) :
    (words.map (fun w => (w, id))).count (a, id) = words.count a := by
  induction words with
  | nil => rfl
  | cons w ws ih =>
    rw [List.map_cons, List.count_cons, List.count_cons, ih]
    by_cases h : w = a <;> simp [h]

lemma count_map_pair_right {K₁ K₂ : Type} [LinearOrder K₁] [LinearOrder K₂] (words : List K₂)
    (id : K₁) (b : K₂) :
    (words.map (fun w => (id, w))).count (id, b) = words.count b := by
  induction words with
  | nil => rfl
  | cons w ws ih =>
    rw [List.map_cons, List.count_cons, List.count_cons, ih]
    by_cases h : w = b <;> simp [h]

/-- The postings after the loop of `AddDocument`. -/
lemma find2_postings_add (id : Int) (x : F) (words : List Str)
    (p : OrdMap Str (OrdMap Int F)) (f : OrdMap Int (OrdMap Str F)) (a : Str) (b : Int) :
    OrdMap.find2 (words.foldl (addWord id x) (p, f)).1 a b =
      if b = id ∧ a ∈ words then some ((OrdMap.find2 p a id).getD 0 + (words.count a : F) * x)
      else OrdMap.find2 p a b := by
  rw [foldl_addWord]
  simp only
  rw [OrdMap.find2_foldl_add]
  simp only [mem_map_pair_left]
  by_cases h : b = id ∧ a ∈ words
  · obtain ⟨h1, h2⟩ := h
    subst h1
    rw [if_pos ⟨rfl, h2⟩, if_pos ⟨rfl, h2⟩, count_map_pair_left]
    congr 5
    apply lawful_beq_unique <;> infer_instance
  · simp [h]

/-- The forward index after the loop of `AddDocument`. -/
lemma find2_forward_add (id : Int) (x : F) (words : List Str)
    (p : OrdMap Str (OrdMap Int F)) (f : OrdMap Int (OrdMap Str F)) (a : Int) (b : Str) :
    OrdMap.find2 (words.foldl (addWord id x) (p, f)).2 a b =
      if a = id ∧ b ∈ words then some ((OrdMap.find2 f id b).getD 0 + (words.count b : F) * x)
      else OrdMap.find2 f a b := by
  rw [foldl_addWord]
  simp only
  rw [OrdMap.find2_foldl_add]
  simp only [mem_map_pair_right]
  by_cases h : a = id ∧ b ∈ words
  · obtain ⟨h1, h2⟩ := h
    subst h1
    rw [if_pos ⟨rfl, h2⟩, if_pos ⟨rfl, h2⟩, count_map_pair_right]
    congr 5
    apply lawful_beq_unique <;> infer_instance
  · simp [h]

end SearchServer


namespace SearchServer

variable {F : Type} [LinearOrderedField F]

lemma find2_forward_eq (s : SearchServer F) (id : Int) (w : Str) :
    OrdMap.find2 s.document_to_word_freqs_ id w = (s.GetWordFrequencies id).find w := by
  unfold OrdMap.find2 GetWordFrequencies
  cases s.document_to_word_freqs_.find id <;> rfl

lemma Inv_create {stop_words : List Str} {s : SearchServer F}
    (h : create stop_words = .ok s) : Inv s := by
  unfold create at h
  simp only at h
  split at h
  · cases h
  · cases h
    exact
      { wf_documents := OrdMap.WF_nil
        ids_eq := rfl
        wf_postings := OrdMap.WF_nil
        inner_postings := OrdMap.InnerWF_nil
        wf_forward := OrdMap.WF_nil
        inner_forward := OrdMap.InnerWF_nil
        consistent := fun _ _ => rfl
        forward_none := fun _ _ => rfl
        forward_some := fun _ _ h => by simp at h }

lemma termFreq_eq (words : List Str) (w : Str) (hw : w ∈ words) :
    (some ((none : Option F).getD 0 + (words.count w : F) * (1 / (words.length : F)))) =
      termFreq words w := by
  unfold termFreq
  rw [if_pos hw, Option.getD_none, zero_add, mul_one_div]

/-- The state that a successful `AddDocument` produces keeps the index consistent. -/
lemma Inv_add {s : SearchServer F} (hs : Inv s) {id : Int} {text : Str} {status : DocumentStatus}
    {ratings : List Int} {s' : SearchServer F}
    (h : s.AddDocument id text status ratings = (.ok (), s')) : Inv s' := by
  rw [AddDocument_eq] at h
  by_cases h1 : id < 0
  · rw [if_pos h1] at h; cases h
  rw [if_neg h1] at h
  by_cases h2 : s.documents_.find id ≠ none
  · rw [if_pos h2] at h; cases h
  rw [if_neg h2] at h
  by_cases h4 : ∀ c ∈ text, 32 ≤ c.toNat
  swap
  · rw [if_neg h4] at h; cases h
  rw [if_pos h4] at h
  have h3 : s.documents_.find id = none := by simpa using h2
  have hf0 : s.document_to_word_freqs_.find id = none := hs.forward_none id h3
  simp only [Prod.mk.injEq, true_and] at h
  subst h
  refine
    { wf_documents := OrdMap.WF_assign hs.wf_documents _ _
      ids_eq := ?_
      wf_postings := ?_
      inner_postings := ?_
      wf_forward := ?_
      inner_forward := ?_
      consistent := ?_
      forward_none := ?_
      forward_some := ?_ }
  · show OrdSet.insert s.document_ids_ id = _
    rw [hs.ids_eq, OrdSet.insert_keys]
  · show OrdMap.WF (Prod.fst (List.foldl _ _ _))
    rw [foldl_addWord]
    exact OrdMap.WF_foldl_modify _ (fun k inner => inner.modify k 0 _) _ hs.wf_postings
  · show OrdMap.InnerWF (Prod.fst (List.foldl _ _ _))
    rw [foldl_addWord]
    exact OrdMap.InnerWF_foldl_modify _ (fun k inner => inner.modify k 0 _)
      (fun k inner hi => OrdMap.WF_modify hi _ _ _) _ hs.inner_postings
  · show OrdMap.WF (Prod.snd (List.foldl _ _ _))
    rw [foldl_addWord]
    exact OrdMap.WF_foldl_modify _ (fun k inner => inner.modify k 0 _) _ hs.wf_forward
  · show OrdMap.InnerWF (Prod.snd (List.foldl _ _ _))
    rw [foldl_addWord]
    exact OrdMap.InnerWF_foldl_modify _ (fun k inner => inner.modify k 0 _)
      (fun k inner hi => OrdMap.WF_modify hi _ _ _) _ hs.inner_forward
  · intro w i
    show OrdMap.find2 (Prod.fst (List.foldl _ _ _)) w i = OrdMap.find2 (Prod.snd (List.foldl _ _ _)) i w
    rw [find2_postings_add, find2_forward_add, hs.consistent w id, hs.consistent w i]
  · intro i hi
    show OrdMap.find (Prod.snd (List.foldl _ _ _)) i = none
    have hi2 : s.documents_.find i = none ∧ id ≠ i := by
      have : OrdMap.find (s.documents_.assign id ⟨ComputeAverageRating ratings, status, text⟩) i
          = none := hi
      rw [OrdMap.find_assign] at this
      by_cases e : id = i
      · simp [e] at this
      · simp only [e, if_false] at this; exact ⟨this, e⟩
    rw [foldl_addWord]
    simp only
    rw [OrdMap.find_foldl_modify_of_not_mem _ (fun k inner => inner.modify k 0 _)]
    · exact hs.forward_none i hi2.1
    · intro p hp
      simp only [List.mem_map] at hp
      obtain ⟨w, _, rfl⟩ := hp
      exact hi2.2
  · intro i data hi w
    show OrdMap.find2 (Prod.snd (List.foldl _ _ _)) i w = termFreq (s.nonStopWords data.text) w
    have hi' : OrdMap.find (s.documents_.assign id ⟨ComputeAverageRating ratings, status, text⟩) i
        = some data := hi
    rw [OrdMap.find_assign] at hi'
    rw [find2_forward_add]
    by_cases e : id = i
    · subst e
      simp only [if_true, Option.some.injEq] at hi'
      subst hi'
      simp only [true_and]
      rw [OrdMap.find2_eq_none_of_find hf0]
      by_cases hw : w ∈ s.nonStopWords text
      · rw [if_pos hw]; exact termFreq_eq _ _ hw
      · rw [if_neg hw]; unfold termFreq; rw [if_neg hw]
    · have e' : ¬ i = id := fun x => e x.symm
      simp only [e, if_false] at hi'
      simp only [e', false_and, if_false]
      exact hs.forward_some i data hi' w

lemma RemoveDocumentPar_eq (s : SearchServer F) (id : Int) :
    s.RemoveDocumentPar id = s.RemoveDocument id := rfl

/-- `RemoveDocument` by cases on the emptiness test, with the loop over the found
frequencies written over key pairs. -/
lemma RemoveDocument_eq (s : SearchServer F) (id : Int) :
    s.RemoveDocument id =
      if s.GetWordFrequencies id = [] then s
      else { s with
        word_to_document_freqs_ :=
          ((s.GetWordFrequencies id).map (fun e => (e.1, id))).foldl
            (fun acc p => acc.modify p.1 [] (fun inner => inner.erase p.2))
            s.word_to_document_freqs_
        document_to_word_freqs_ := s.document_to_word_freqs_.erase id
        document_ids_ := s.document_ids_.erase id
        documents_ := s.documents_.erase id } := by
  unfold RemoveDocument
  simp only
  by_cases h : s.GetWordFrequencies id = []
  · simp [h]
  · have h' : (s.GetWordFrequencies id).isEmpty = false := by
      cases hg : s.GetWordFrequencies id with
      | nil => exact absurd hg h
      | cons a b => rfl
    rw [if_neg h]
    simp only [h', Bool.not_false, if_true, List.foldl_map]

lemma find_eq_none_of_nil {K V : Type} [LinearOrder K] (k : K) :
    OrdMap.find ([] : OrdMap K V) k = none := rfl

/-- `RemoveDocument` keeps the index consistent. -/
lemma Inv_remove {s : SearchServer F} (hs : Inv s) (id : Int) : Inv (s.RemoveDocument id) := by
  rw [RemoveDocument_eq]
  by_cases h : s.GetWordFrequencies id = []
  · rw [if_pos h]; exact hs
  rw [if_neg h]
  have hmem : ∀ (a : Str) (b : Int),
      (a, b) ∈ (s.GetWordFrequencies id).map (fun e => (e.1, id)) ↔
        b = id ∧ a ∈ (s.GetWordFrequencies id).keys := by
    intro a b
    simp only [List.mem_map, Prod.mk.injEq, OrdMap.keys]
    constructor
    · rintro ⟨e, he, h1, h2⟩; exact ⟨h2.symm, e, he, h1⟩
    · rintro ⟨h1, e, he, h2⟩; exact ⟨e, he, h2, h1.symm⟩
  refine
    { wf_documents := OrdMap.WF_erase hs.wf_documents _
      ids_eq := ?_
      wf_postings := OrdMap.WF_foldl_modify _ (fun k inner => inner.erase k) _ hs.wf_postings
      inner_postings := OrdMap.InnerWF_foldl_modify _ (fun k inner => inner.erase k)
        (fun k inner hi => OrdMap.WF_erase hi _) _ hs.inner_postings
      wf_forward := OrdMap.WF_erase hs.wf_forward _
      inner_forward := OrdMap.InnerWF_erase hs.inner_forward _
      consistent := ?_
      forward_none := ?_
      forward_some := ?_ }
  · show OrdSet.erase s.document_ids_ id = _
    rw [hs.ids_eq, OrdSet.erase_keys]
  · intro w i
    show OrdMap.find2 (List.foldl _ _ _) w i = OrdMap.find2 (s.document_to_word_freqs_.erase id) i w
    rw [OrdMap.find2_foldl_erase, OrdMap.find2_erase]
    have hm := hmem w i
    by_cases hi : i = id
    · subst hi
      rw [if_pos rfl]
      by_cases hw : w ∈ (s.GetWordFrequencies i).keys
      · rw [if_pos (hm.2 ⟨rfl, hw⟩)]
      · rw [if_neg (fun hc => hw (hm.1 hc).2), hs.consistent, find2_forward_eq]
        exact (OrdMap.find_eq_none_iff _ _).2 hw
    · rw [if_neg hi, if_neg (fun hc => hi (hm.1 hc).1)]
      exact hs.consistent w i
  · intro i hi
    show OrdMap.find (s.document_to_word_freqs_.erase id) i = none
    have hi' : OrdMap.find (s.documents_.erase id) i = none := hi
    rw [OrdMap.find_erase] at hi' ⊢
    by_cases e : i = id
    · simp [e]
    · simp only [e, if_false] at hi' ⊢
      exact hs.forward_none i hi'
  · intro i data hi w
    show OrdMap.find2 (s.document_to_word_freqs_.erase id) i w = termFreq (s.nonStopWords data.text) w
    have hi' : OrdMap.find (s.documents_.erase id) i = some data := hi
    rw [OrdMap.find_erase] at hi'
    rw [OrdMap.find2_erase]
    by_cases e : i = id
    · simp [e] at hi'
    · simp only [e, if_false] at hi' ⊢
      exact hs.forward_some i data hi' w

/-- Every reachable state is consistent. -/
lemma Reachable.inv {s : SearchServer F} (h : Reachable s) : Inv s := by
  induction h with
  | init stop_words s h => exact Inv_create h
  | add s id text status ratings s' _ h ih => exact Inv_add ih h
  | remove s id _ ih => exact Inv_remove ih id
  | removePar s id _ ih => rw [RemoveDocumentPar_eq]; exact Inv_remove ih id

end SearchServer


/-! ### Loops that may throw -/

/-- A property kept by every step that returns is kept by a loop that returns. -/
lemma foldlM_except_inv {σ α ε : Type} (P : σ → Prop) (f : σ → α → Except ε σ)
    (hstep : ∀ a x b, P a → f a x = .ok b → P b) (l : List α) (init r : σ)
    (h0 : P init) (h : l.foldlM f init = .ok r) : P r := by
  induction l generalizing init with
  | nil =>
    simp only [List.foldlM_nil, pure, Except.pure, Except.ok.injEq] at h
    subst h; exact h0
  | cons x xs ih =>
    rw [List.foldlM_cons] at h
    cases hx : f init x with
    | error e => rw [hx] at h; cases h
    | ok b =>
      rw [hx] at h
      exact ih b (hstep init x b h0 hx) h

/-- A loop whose steps all return is a pure fold. -/
lemma foldlM_except_ok {σ α ε : Type} (f : σ → α → Except ε σ) (g : σ → α → σ) (l : List α)
    (hstep : ∀ a, ∀ x ∈ l, f a x = .ok (g a x)) (init : σ) :
    l.foldlM f init = .ok (l.foldl g init) := by
  induction l generalizing init with
  | nil => rfl
  | cons x xs ih =>
    rw [List.foldlM_cons, hstep init x (List.mem_cons_self _ _)]
    exact ih (fun a y hy => hstep a y (List.mem_cons_of_mem _ hy)) (g init x)

namespace SearchServer

variable {F : Type} [LinearOrderedField F]

/-! ### Parsed queries -/

lemma ParseQueryWord_is_stop {s : SearchServer F} {text : Str} {qw : QueryWord}
    (h : s.ParseQueryWord text = .ok qw) : qw.is_stop = s.IsStopWord qw.data := by
  unfold ParseQueryWord at h
  by_cases h0 : text.isEmpty = true
  · simp [h0] at h
  · by_cases hm : text.head? = some '-'
    · simp only [h0, hm, decide_True, if_true, Bool.false_eq_true, if_false] at h
      split_ifs at h
      cases h; rfl
    · simp only [h0, hm, decide_False, Bool.false_eq_true, if_false] at h
      split_ifs at h
      cases h; rfl

lemma ParseQuery_ok {s : SearchServer F} {raw : Str} {q : Query}
    (h : s.ParseQuery raw = .ok q) : QueryOK s q := by
  unfold ParseQuery at h
  have h0 : QueryOK s ⟨[], []⟩ :=
    ⟨List.Pairwise.nil, List.Pairwise.nil, fun w hw => by simp at hw, fun w hw => by simp at hw⟩
  refine foldlM_except_inv (QueryOK s) _ ?_ _ _ q h0 h
  intro a x b ha hb
  cases hx : s.ParseQueryWord x with
  | error e => simp only [hx] at hb; cases hb
  | ok qw =>
    simp only [hx] at hb
    have hstop := ParseQueryWord_is_stop hx
    by_cases h1 : qw.is_stop = true
    · simp only [h1, Bool.not_true, Bool.false_eq_true, if_false, Except.ok.injEq] at hb
      subst hb; exact ha
    · simp only [Bool.not_eq_true] at h1
      simp only [h1, Bool.not_false, if_true] at hb
      rw [h1] at hstop
      by_cases h2 : qw.is_minus = true
      · simp only [h2, if_true, Except.ok.injEq] at hb
        subst hb
        refine ⟨ha.wf_plus, OrdSet.set_WF_insert ha.wf_minus _, ha.plus_nonstop, ?_⟩
        intro w hw
        rcases (OrdSet.set_mem_insert _ _ _).1 hw with hw | hw
        · subst hw; exact hstop.symm
        · exact ha.minus_nonstop w hw
      · simp only [h2, Bool.false_eq_true, if_false, Except.ok.injEq] at hb
        subst hb
        refine ⟨OrdSet.set_WF_insert ha.wf_plus _, ha.wf_minus, ?_, ha.minus_nonstop⟩
        intro w hw
        rcases (OrdSet.set_mem_insert _ _ _).1 hw with hw | hw
        · subst hw; exact hstop.symm
        · exact ha.plus_nonstop w hw

/-! ### Postings and texts -/

lemma termFreq_ne_none (words : List Str) (w : Str) :
    (termFreq words w : Option F) ≠ none ↔ w ∈ words := by
  unfold termFreq; by_cases h : w ∈ words <;> simp [h]

lemma mem_nonStopWords (s : SearchServer F) (text : Str) (w : Str) :
    w ∈ s.nonStopWords text ↔ w ∈ SplitIntoWords text ∧ s.IsStopWord w = false := by
  unfold nonStopWords; simp [List.mem_filter]

/-- The postings of a consistent index are the term frequencies of the texts. -/
lemma Inv.postings_eq {s : SearchServer F} (hs : Inv s) (w : Str) (id : Int) :
    OrdMap.find2 s.word_to_document_freqs_ w id =
      match s.documents_.find id with
      | some data => termFreq (s.nonStopWords data.text) w
      | none => none := by
  rw [hs.consistent]
  cases hd : s.documents_.find id with
  | none => exact OrdMap.find2_eq_none_of_find (hs.forward_none id hd) w
  | some data => exact hs.forward_some id data hd w

lemma Inv.postings_some {s : SearchServer F} (hs : Inv s) {w : Str} {id : Int} {tf : F}
    (h : OrdMap.find2 s.word_to_document_freqs_ w id = some tf) :
    ∃ data, s.documents_.find id = some data ∧ w ∈ s.nonStopWords data.text ∧
      tf = ((s.nonStopWords data.text).count w : F) / ((s.nonStopWords data.text).length : F) := by
  rw [hs.postings_eq] at h
  cases hd : s.documents_.find id with
  | none => rw [hd] at h; cases h
  | some data =>
    rw [hd] at h
    simp only [termFreq] at h
    by_cases hw : w ∈ s.nonStopWords data.text
    · rw [if_pos hw] at h
      exact ⟨data, rfl, hw, (Option.some.inj h).symm⟩
    · rw [if_neg hw] at h; cases h

/-- Whether a posting of `w` exists for `id`, in terms of the text of the document. -/
lemma Inv.postings_isSome {s : SearchServer F} (hs : Inv s) {w : Str} (hw : s.IsStopWord w = false)
    (id : Int) :
    OrdMap.find2 s.word_to_document_freqs_ w id ≠ none ↔
      ∃ data, s.documents_.find id = some data ∧ w ∈ SplitIntoWords data.text := by
  rw [hs.postings_eq]
  cases hd : s.documents_.find id with
  | none => simp
  | some data =>
    simp only [termFreq_ne_none, mem_nonStopWords, hw, and_true, Option.some.injEq, exists_eq_left']

end SearchServer


namespace OrdMap

variable {K V : Type} [LinearOrder K]

lemma not_mem_keys_of_WF_cons {a : K} {v : V} {rest : OrdMap K V} (h : WF ((a, v) :: rest)) :
    rest.find a = none := by
  rw [find_eq_none_iff]
  intro hm
  exact lt_irrefl _ (((WF_cons_iff _ _).1 h).1 a hm)

/-- A loop over the entries of a well-formed map that updates the cell of each
selected key touches every key once. -/
lemma find_foldl_modify_entries {W : Type} (docs : OrdMap K W) (hd : docs.WF) (p : K → Bool)
    (d : V) (g : W → V → V) (rel : OrdMap K V) (k : K) :
    (docs.foldl (fun rel e => if p e.1 then rel.modify e.1 d (g e.2) else rel) rel).find k =
      match docs.find k with
      | some x => if p k then some (g x ((rel.find k).getD d)) else rel.find k
      | none => rel.find k := by
  induction docs generalizing rel with
  | nil => rfl
  | cons e rest ih =>
    obtain ⟨a, x⟩ := e
    rw [List.foldl_cons, ih ((WF_cons_iff _ _).1 hd).2, find_cons]
    by_cases hak : a = k
    · subst hak
      rw [not_mem_keys_of_WF_cons hd]
      simp only [if_true]
      by_cases hp : p a = true
      · simp [hp, find_modify]
      · simp [hp]
    · simp only [hak, if_false]
      have : (if p a = true then rel.modify a d (g x) else rel).find k = rel.find k := by
        by_cases hp : p a = true
        · simp [hp, find_modify, hak]
        · simp [hp]
      rw [this]

lemma WF_foldl_modify_entries {W : Type} (docs : OrdMap K W) (p : K → Bool)
    (d : V) (g : W → V → V) (rel : OrdMap K V) (h : rel.WF) :
    (docs.foldl (fun rel e => if p e.1 then rel.modify e.1 d (g e.2) else rel) rel).WF := by
  induction docs generalizing rel with
  | nil => exact h
  | cons e rest ih =>
    rw [List.foldl_cons]
    apply ih
    by_cases hp : p e.1 = true
    · simp only [hp, if_true]; exact WF_modify h _ _ _
    · simp only [hp]; exact h

/-- A loop that erases the keys of a map from another one. -/
lemma find_foldl_erase_entries {W : Type} (docs : OrdMap K W) (rel : OrdMap K V) (k : K) :
    (docs.foldl (fun rel e => OrdMap.erase rel e.1) rel).find k =
      if k ∈ docs.keys then none else rel.find k := by
  induction docs generalizing rel with
  | nil => simp [keys]
  | cons e rest ih =>
    rw [List.foldl_cons, ih, find_erase]
    by_cases h1 : k ∈ keys rest
    · have : k ∈ keys (e :: rest) := List.mem_cons_of_mem _ h1
      rw [if_pos h1, if_pos this]
    · rw [if_neg h1]
      by_cases h2 : k = e.1
      · have : k ∈ keys (e :: rest) := by rw [h2]; exact List.mem_cons_self _ _
        rw [if_pos h2, if_pos this]
      · have : k ∉ keys (e :: rest) := by
          intro hc
          rcases List.mem_cons.1 hc with hc | hc
          · exact h2 hc
          · exact h1 hc
        rw [if_neg h2, if_neg this]

lemma WF_foldl_erase_entries {W : Type} (docs : OrdMap K W) (rel : OrdMap K V) (h : rel.WF) :
    (docs.foldl (fun rel e => OrdMap.erase rel e.1) rel).WF := by
  induction docs generalizing rel with
  | nil => exact h
  | cons e rest ih => rw [List.foldl_cons]; exact ih _ (WF_erase h _)

lemma find2_eq_of_find {K₂ : Type} [LinearOrder K₂] {m : OrdMap K (OrdMap K₂ V)} {a : K}
    {inner : OrdMap K₂ V} (h : m.find a = some inner) (b : K₂) : find2 m a b = inner.find b := by
  unfold find2; rw [h]; rfl

end OrdMap

namespace SearchServer

variable {F : Type} [LinearOrderedField F]

lemma at_eq_ok {K V : Type} [LinearOrder K] {m : OrdMap K V} {k : K} {v : V}
    (h : m.find k = some v) : m.at_ k = .ok v := by
  unfold OrdMap.at_; rw [h]

lemma predOf_eq {s : SearchServer F} {pred : Int → DocumentStatus → Int → Bool} {id : Int}
    {data : DocumentData} (h : s.documents_.find id = some data) :
    predOf s pred id = pred id data.status data.rating := by
  unfold predOf; rw [h]

/-- On a consistent index the plus-word step throws nothing. -/
lemma scoreWord_eq {s : SearchServer F} (hs : Inv s) (log : F → F)
    (pred : Int → DocumentStatus → Int → Bool) (rel : OrdMap Int F) (w : Str) :
    scoreWord log s pred rel w = .ok (scoreWordPure log s pred rel w) := by
  unfold scoreWord scoreWordPure
  cases hf : s.word_to_document_freqs_.find w with
  | none => rfl
  | some docs =>
    simp only
    have hidf : ComputeWordInverseDocumentFreq log s w = .ok (idfOf log s w) := by
      unfold ComputeWordInverseDocumentFreq idfOf
      rw [at_eq_ok hf, hf]
      rfl
    rw [hidf]
    simp only
    apply foldlM_except_ok
    intro a e he
    have hfind : docs.find e.1 = some e.2 :=
      (OrdMap.mem_iff_find (hs.inner_postings w docs hf) e.1 e.2).1 he
    have h2 : OrdMap.find2 s.word_to_document_freqs_ w e.1 = some e.2 := by
      rw [OrdMap.find2_eq_of_find hf]; exact hfind
    obtain ⟨data, hdata, _, _⟩ := hs.postings_some h2
    unfold scorePosting
    rw [at_eq_ok hdata, predOf_eq hdata]
    simp only
    split_ifs <;> rfl

lemma find_scoreWordPure {s : SearchServer F} (hs : Inv s) (log : F → F)
    (pred : Int → DocumentStatus → Int → Bool) (rel : OrdMap Int F) (w : Str) (id : Int) :
    (scoreWordPure log s pred rel w).find id =
      match OrdMap.find2 s.word_to_document_freqs_ w id with
      | some tf =>
        if predOf s pred id then some ((rel.find id).getD 0 + tf * idfOf log s w)
        else rel.find id
      | none => rel.find id := by
  unfold scoreWordPure
  cases hf : s.word_to_document_freqs_.find w with
  | none => rw [OrdMap.find2_eq_none_of_find hf]
  | some docs =>
    rw [OrdMap.find2_eq_of_find hf]
    exact OrdMap.find_foldl_modify_entries docs (hs.inner_postings w docs hf)
      (predOf s pred) 0 (fun tf x => x + tf * idfOf log s w) rel id

lemma WF_scoreWordPure (log : F → F) (s : SearchServer F)
    (pred : Int → DocumentStatus → Int → Bool) (rel : OrdMap Int F) (h : rel.WF) (w : Str) :
    (scoreWordPure log s pred rel w).WF := by
  unfold scoreWordPure
  cases s.word_to_document_freqs_.find w with
  | none => exact h
  | some docs =>
    exact OrdMap.WF_foldl_modify_entries docs (predOf s pred) 0
      (fun tf x => x + tf * idfOf log s w) rel h

lemma contribs_cons (log : F → F) (s : SearchServer F) (w : Str) (ws : List Str) (id : Int) :
    contribs log s (w :: ws) id =
      match OrdMap.find2 s.word_to_document_freqs_ w id with
      | some tf => (tf * idfOf log s w) :: contribs log s ws id
      | none => contribs log s ws id := by
  unfold contribs
  rw [List.filterMap_cons]
  cases OrdMap.find2 s.word_to_document_freqs_ w id <;> rfl

/-- The relevance map after the plus-word loop. -/
lemma find_foldl_scoreWordPure {s : SearchServer F} (hs : Inv s) (log : F → F)
    (pred : Int → DocumentStatus → Int → Bool) (ws : List Str) (rel : OrdMap Int F) (id : Int) :
    (ws.foldl (scoreWordPure log s pred) rel).find id =
      if predOf s pred id = true ∧ contribs log s ws id ≠ [] then
        some ((rel.find id).getD 0 + (contribs log s ws id).sum)
      else rel.find id := by
  induction ws generalizing rel with
  | nil => simp [contribs]
  | cons w ws ih =>
    rw [List.foldl_cons, ih, find_scoreWordPure hs, contribs_cons]
    cases hw : OrdMap.find2 s.word_to_document_freqs_ w id with
    | none => rfl
    | some tf =>
      by_cases hp : predOf s pred id = true
      · simp only [hp, if_true, true_and, Option.getD_some, ne_eq, List.cons_ne_nil,
          not_false_eq_true, List.sum_cons]
        by_cases hc : contribs log s ws id = []
        · simp [hc]
        · simp only [hc, not_false_eq_true, if_true, Option.some.injEq]
          ring
      · simp [hp]

lemma WF_foldl_scoreWordPure (log : F → F) (s : SearchServer F)
    (pred : Int → DocumentStatus → Int → Bool) (ws : List Str) (rel : OrdMap Int F) (h : rel.WF) :
    (ws.foldl (scoreWordPure log s pred) rel).WF := by
  induction ws generalizing rel with
  | nil => exact h
  | cons w ws ih => exact ih _ (WF_scoreWordPure log s pred rel h w)

lemma contribs_ne_nil (log : F → F) (s : SearchServer F) (ws : List Str) (id : Int) :
    contribs log s ws id ≠ [] ↔ ∃ w ∈ ws, OrdMap.find2 s.word_to_document_freqs_ w id ≠ none := by
  induction ws with
  | nil => simp [contribs]
  | cons w ws ih =>
    rw [contribs_cons]
    cases hw : OrdMap.find2 s.word_to_document_freqs_ w id with
    | none =>
      simp only [ih, List.mem_cons, exists_eq_or_imp, hw, ne_eq, not_true_eq_false, false_or]
    | some tf =>
      simp only [ne_eq, List.cons_ne_nil, not_false_eq_true, List.mem_cons, exists_eq_or_imp, hw,
        Option.some_ne_none, true_or]

/-- The minus-word step in terms of lookups. -/
lemma find_dropWord (s : SearchServer F) (rel : OrdMap Int F) (w : Str) (id : Int) :
    (dropWord s rel w).find id =
      if OrdMap.find2 s.word_to_document_freqs_ w id ≠ none then none else rel.find id := by
  unfold dropWord
  cases hf : s.word_to_document_freqs_.find w with
  | none => simp [OrdMap.find2_eq_none_of_find hf]
  | some docs =>
    simp only
    rw [OrdMap.find_foldl_erase_entries, OrdMap.find2_eq_of_find hf]
    by_cases hk : id ∈ docs.keys
    · rw [if_pos hk, if_pos ((OrdMap.find_eq_none_iff _ _).not.2 (not_not.2 hk))]
    · rw [if_neg hk, if_neg (not_not.2 ((OrdMap.find_eq_none_iff _ _).2 hk))]

lemma WF_dropWord (s : SearchServer F) (rel : OrdMap Int F) (h : rel.WF) (w : Str) :
    (dropWord s rel w).WF := by
  unfold dropWord
  cases s.word_to_document_freqs_.find w with
  | none => exact h
  | some docs => exact OrdMap.WF_foldl_erase_entries docs rel h

lemma find_foldl_dropWord (s : SearchServer F) (ws : List Str) (rel : OrdMap Int F) (id : Int) :
    (ws.foldl (dropWord s) rel).find id =
      if ∃ w ∈ ws, OrdMap.find2 s.word_to_document_freqs_ w id ≠ none then none
      else rel.find id := by
  induction ws generalizing rel with
  | nil => simp
  | cons w ws ih =>
    rw [List.foldl_cons, ih, find_dropWord]
    by_cases h1 : ∃ w ∈ ws, OrdMap.find2 s.word_to_document_freqs_ w id ≠ none
    · have : ∃ x ∈ w :: ws, OrdMap.find2 s.word_to_document_freqs_ x id ≠ none := by
        obtain ⟨x, hx, hx2⟩ := h1
        exact ⟨x, List.mem_cons_of_mem _ hx, hx2⟩
      rw [if_pos h1, if_pos this]
    · rw [if_neg h1]
      by_cases h2 : OrdMap.find2 s.word_to_document_freqs_ w id ≠ none
      · have : ∃ x ∈ w :: ws, OrdMap.find2 s.word_to_document_freqs_ x id ≠ none :=
          ⟨w, List.mem_cons_self _ _, h2⟩
        rw [if_pos h2, if_pos this]
      · have : ¬ ∃ x ∈ w :: ws, OrdMap.find2 s.word_to_document_freqs_ x id ≠ none := by
          rintro ⟨x, hx, hx2⟩
          rcases List.mem_cons.1 hx with hx | hx
          · subst hx; exact h2 hx2
          · exact h1 ⟨x, hx, hx2⟩
        rw [if_neg h2, if_neg this]

lemma WF_foldl_dropWord (s : SearchServer F) (ws : List Str) (rel : OrdMap Int F) (h : rel.WF) :
    (ws.foldl (dropWord s) rel).WF := by
  induction ws generalizing rel with
  | nil => exact h
  | cons w ws ih => exact ih _ (WF_dropWord s rel h w)

end SearchServer


namespace SearchServer

variable {F : Type} [LinearOrderedField F]

lemma predOf_true_iff (s : SearchServer F) (pred : Int → DocumentStatus → Int → Bool) (id : Int) :
    predOf s pred id = true ↔
      ∃ data, s.documents_.find id = some data ∧ pred id data.status data.rating = true := by
  unfold predOf
  cases s.documents_.find id with
  | none => simp
  | some data => simp

/-- The relevance map after both loops of `FindAllDocuments`. -/
lemma find_relevanceMap {s : SearchServer F} (hs : Inv s) (log : F → F) (q : Query)
    (pred : Int → DocumentStatus → Int → Bool) (id : Int) :
    (relevanceMap log s q pred).find id =
      if ∃ w ∈ q.minus_words, OrdMap.find2 s.word_to_document_freqs_ w id ≠ none then none
      else if predOf s pred id = true ∧ contribs log s q.plus_words id ≠ [] then
        some (contribs log s q.plus_words id).sum
      else none := by
  unfold relevanceMap
  rw [find_foldl_dropWord, find_foldl_scoreWordPure hs]
  simp

lemma WF_relevanceMap (log : F → F) (s : SearchServer F) (q : Query)
    (pred : Int → DocumentStatus → Int → Bool) : (relevanceMap log s q pred).WF :=
  WF_foldl_dropWord s _ _ (WF_foldl_scoreWordPure log s pred _ _ OrdMap.WF_nil)

/-- The last loop of `FindAllDocuments`, started with `acc`. -/
lemma collect_loop (s : SearchServer F) (l : OrdMap Int F)
    (hl : ∀ e ∈ l, s.documents_.find e.1 ≠ none) (acc : List (Document F)) :
    List.foldlM (fun (matched_documents : List (Document F)) (e : Int × F) =>
      match s.documents_.at_ e.1 with
      | .error err => (Except.error err : Except Exception (List (Document F)))
      | .ok data => .ok (matched_documents ++ [(⟨e.1, e.2, data.rating⟩ : Document F)])) acc l =
    .ok (acc ++ l.map (fun e => (⟨e.1, e.2, ratingOf s e.1⟩ : Document F))) := by
  induction l generalizing acc with
  | nil => simp [pure, Except.pure]
  | cons e rest ih =>
    rw [List.foldlM_cons]
    cases hd : s.documents_.find e.1 with
    | none => exact absurd hd (hl e (List.mem_cons_self _ _))
    | some data =>
      rw [at_eq_ok hd]
      simp only [Except.bind, bind]
      rw [ih (fun x hx => hl x (List.mem_cons_of_mem _ hx))]
      simp [ratingOf, hd]

/-- On a consistent index `FindAllDocuments` returns one document per entry of the
relevance map, in key order. -/
lemma FindAllDocuments_eq {s : SearchServer F} (hs : Inv s) (log : F → F) (q : Query)
    (pred : Int → DocumentStatus → Int → Bool) :
    FindAllDocuments log s q pred =
      .ok ((relevanceMap log s q pred).map (fun e => ⟨e.1, e.2, ratingOf s e.1⟩)) := by
  unfold FindAllDocuments
  rw [foldlM_except_ok (scoreWord log s pred) (scoreWordPure log s pred) q.plus_words
    (fun a x _ => scoreWord_eq hs log pred a x)]
  simp only
  unfold collectDocuments
  have := collect_loop s (relevanceMap log s q pred) ?_ []
  · simpa [relevanceMap] using this
  · intro e he
    have hf : (relevanceMap log s q pred).find e.1 = some e.2 :=
      (OrdMap.mem_iff_find (WF_relevanceMap log s q pred) e.1 e.2).1 he
    rw [find_relevanceMap hs] at hf
    split_ifs at hf with h1 h2
    obtain ⟨data, hdata, _⟩ := (predOf_true_iff s pred e.1).1 h2.1
    rw [hdata]; simp

/-- Membership in the result of `FindAllDocuments`, by lookups. -/
lemma mem_FindAllDocuments (s : SearchServer F) (log : F → F) (q : Query)
    (pred : Int → DocumentStatus → Int → Bool) (doc : Document F) :
    doc ∈ (relevanceMap log s q pred).map (fun e => (⟨e.1, e.2, ratingOf s e.1⟩ : Document F)) ↔
      (relevanceMap log s q pred).find doc.id = some doc.relevance ∧
        doc.rating = ratingOf s doc.id := by
  simp only [List.mem_map, Prod.exists]
  constructor
  · rintro ⟨a, b, hab, rfl⟩
    exact ⟨(OrdMap.mem_iff_find (WF_relevanceMap log s q pred) a b).1 hab, rfl⟩
  · rintro ⟨h1, h2⟩
    refine ⟨doc.id, doc.relevance,
      (OrdMap.mem_iff_find (WF_relevanceMap log s q pred) _ _).2 h1, ?_⟩
    cases doc
    simp only at h2
    simp [h2]

end SearchServer


namespace SearchServer

variable {F : Type} [LinearOrderedField F]

/-- A successful `AddDocument` written as a step between reachable states. -/
lemma Reachable.add_ok {s : SearchServer F} (hs : Reachable s) {id : Int} {text : Str}
    (status : DocumentStatus) (ratings : List Int) (h1 : 0 ≤ id)
    (h2 : s.documents_.find id = none) (h3 : ∀ c ∈ text, 32 ≤ c.toNat) :
    Reachable (s.AddDocument id text status ratings).2 := by
  refine Reachable.add s id text status ratings _ hs ?_
  have := (AddDocument_ok_iff s id text status ratings).2 ⟨h1, h2, h3⟩
  exact Prod.ext this rfl

/-- Which ids `FindAllDocuments` returns, on a consistent index. -/
lemma FindAllDocuments_ids {s : SearchServer F} (hs : Inv s) (log : F → F) {q : Query}
    (hq : QueryOK s q) (pred : Int → DocumentStatus → Int → Bool) (id : Int) :
    id ∈ (relevanceMap log s q pred).keys ↔
      ∃ data, s.documents_.find id = some data ∧
        (∃ w ∈ q.plus_words, w ∈ SplitIntoWords data.text) ∧
        pred id data.status data.rating = true ∧
        (∀ w ∈ q.minus_words, w ∉ SplitIntoWords data.text) := by
  have key : ((relevanceMap log s q pred).find id).isSome = true ↔
      ¬ (∃ w ∈ q.minus_words, OrdMap.find2 s.word_to_document_freqs_ w id ≠ none) ∧
        (predOf s pred id = true ∧ contribs log s q.plus_words id ≠ []) := by
    rw [find_relevanceMap hs]
    split_ifs with h1 h2
    · simp [h1]
    · simp [h1, h2]
    · simp only [Option.isSome_none, Bool.false_eq_true, false_iff]
      intro h3; exact h2 h3.2
  rw [← OrdMap.find_isSome_iff_mem_keys, key, contribs_ne_nil]
  have hplus : (∃ w ∈ q.plus_words, OrdMap.find2 s.word_to_document_freqs_ w id ≠ none) ↔
      ∃ data, s.documents_.find id = some data ∧
        ∃ w ∈ q.plus_words, w ∈ SplitIntoWords data.text := by
    constructor
    · rintro ⟨w, hw, h⟩
      obtain ⟨data, hd, hin⟩ := (hs.postings_isSome (hq.plus_nonstop w hw) id).1 h
      exact ⟨data, hd, w, hw, hin⟩
    · rintro ⟨data, hd, w, hw, hin⟩
      exact ⟨w, hw, (hs.postings_isSome (hq.plus_nonstop w hw) id).2 ⟨data, hd, hin⟩⟩
  have hminus : (∃ w ∈ q.minus_words, OrdMap.find2 s.word_to_document_freqs_ w id ≠ none) ↔
      ∃ data, s.documents_.find id = some data ∧
        ∃ w ∈ q.minus_words, w ∈ SplitIntoWords data.text := by
    constructor
    · rintro ⟨w, hw, h⟩
      obtain ⟨data, hd, hin⟩ := (hs.postings_isSome (hq.minus_nonstop w hw) id).1 h
      exact ⟨data, hd, w, hw, hin⟩
    · rintro ⟨data, hd, w, hw, hin⟩
      exact ⟨w, hw, (hs.postings_isSome (hq.minus_nonstop w hw) id).2 ⟨data, hd, hin⟩⟩
  rw [hplus, hminus, predOf_true_iff]
  cases hd : s.documents_.find id with
  | none => simp
  | some data =>
    simp only [Option.some.injEq, exists_eq_left']
    constructor
    · rintro ⟨h1, h2, h3⟩
      exact ⟨h3, h2, fun w hw hin => h1 ⟨w, hw, hin⟩⟩
    · rintro ⟨h1, h2, h3⟩
      refine ⟨?_, h2, h1⟩
      rintro ⟨w, hw, hin⟩
      exact h3 w hw hin

lemma map_id_result (log : F → F) (s : SearchServer F) (q : Query)
    (pred : Int → DocumentStatus → Int → Bool) :
    ((relevanceMap log s q pred).map
      (fun e => (⟨e.1, e.2, ratingOf s e.1⟩ : Document F))).map (fun d => d.id) =
      (relevanceMap log s q pred).keys := by
  rw [List.map_map]; rfl

end SearchServer


/-! ### The sort -/

section Sorting

variable {α : Type}

lemma sortInsert_perm (comp : α → α → Bool) (x : α) (l : List α) :
    List.Perm (sortInsert comp x l) (x :: l) := by
  induction l with
  | nil => exact List.Perm.refl _
  | cons y ys ih =>
    unfold sortInsert
    by_cases h : comp y x = true
    · rw [if_pos h]
      exact (List.Perm.cons y ih).trans (List.Perm.swap x y ys)
    · rw [if_neg h]

lemma stdSort_perm (comp : α → α → Bool) (l : List α) : List.Perm (stdSort comp l) l := by
  induction l with
  | nil => exact List.Perm.refl _
  | cons x xs ih =>
    unfold stdSort
    exact (sortInsert_perm comp x _).trans (List.Perm.cons x ih)

lemma stdSort_length (comp : α → α → Bool) (l : List α) : (stdSort comp l).length = l.length :=
  (stdSort_perm comp l).length_eq

lemma mem_stdSort (comp : α → α → Bool) (l : List α) (a : α) : a ∈ stdSort comp l ↔ a ∈ l :=
  (stdSort_perm comp l).mem_iff

end Sorting

namespace SearchServer

variable {F : Type} [LinearOrderedField F]

/-- The tail of `FindTopDocuments` keeps the first `min 5 n` sorted documents. -/
lemma sortAndTruncate_eq (l : List (Document F)) :
    sortAndTruncate l = (stdSort documentBefore l).take (min 5 l.length) := by
  unfold sortAndTruncate MAX_RESULT_DOCUMENT_COUNT
  simp only [stdSort_length]
  by_cases h : l.length > 5
  · rw [if_pos h, min_eq_left (le_of_lt h)]
  · rw [if_neg h, min_eq_right (not_lt.1 h)]
    rw [← stdSort_length documentBefore l, List.take_length]

lemma mem_of_mem_sortAndTruncate {l : List (Document F)} {d : Document F}
    (h : d ∈ sortAndTruncate l) : d ∈ l := by
  rw [sortAndTruncate_eq] at h
  exact (mem_stdSort _ _ _).1 (List.mem_of_mem_take h)

/-- On a consistent index `FindTopDocuments` returns for every query that parses. -/
lemma FindTopDocuments_eq {s : SearchServer F} (hs : Inv s) (log : F → F) {raw : Str} {q : Query}
    (hq : s.ParseQuery raw = .ok q) (pred : Int → DocumentStatus → Int → Bool) :
    FindTopDocuments log s raw pred =
      .ok (sortAndTruncate ((relevanceMap log s q pred).map
        (fun e => (⟨e.1, e.2, ratingOf s e.1⟩ : Document F)))) := by
  unfold FindTopDocuments
  rw [hq]
  simp only
  rw [FindAllDocuments_eq hs]

end SearchServer


namespace SearchServer

variable {F : Type} [LinearOrderedField F]

/-- The state of a successful `AddDocument`. -/
lemma AddDocument_ok_state {s s' : SearchServer F} {id : Int} {text : Str}
    {status : DocumentStatus} {ratings : List Int}
    (h : s.AddDocument id text status ratings = (.ok (), s')) :
    s'.stop_words_ = s.stop_words_ ∧
    s'.documents_ = s.documents_.assign id ⟨ComputeAverageRating ratings, status, text⟩ ∧
    s'.document_ids_ = s.document_ids_.insert id ∧
    s.documents_.find id = none := by
  rw [AddDocument_eq] at h
  by_cases h1 : id < 0
  · rw [if_pos h1] at h; cases h
  rw [if_neg h1] at h
  by_cases h2 : s.documents_.find id ≠ none
  · rw [if_pos h2] at h; cases h
  rw [if_neg h2] at h
  by_cases h4 : ∀ c ∈ text, 32 ≤ c.toNat
  swap
  · rw [if_neg h4] at h; cases h
  rw [if_pos h4] at h
  simp only [Prod.mk.injEq, true_and] at h
  subst h
  exact ⟨rfl, rfl, rfl, by simpa using h2⟩

lemma nonStopWords_congr {s s' : SearchServer F} (h : s'.stop_words_ = s.stop_words_)
    (text : Str) : s'.nonStopWords text = s.nonStopWords text := by
  unfold nonStopWords IsStopWord; rw [h]

lemma GetWordFrequencies_WF {s : SearchServer F} (hs : Inv s) (id : Int) :
    (s.GetWordFrequencies id).WF := by
  unfold GetWordFrequencies
  cases h : s.document_to_word_freqs_.find id with
  | none => exact OrdMap.WF_nil
  | some freqs => exact hs.inner_forward id freqs h

/-- `ParseQuery` reads nothing of the server but its stop words. -/
lemma ParseQuery_congr {s s' : SearchServer F} (h : s'.stop_words_ = s.stop_words_)
    (raw : Str) : s'.ParseQuery raw = s.ParseQuery raw := by
  unfold ParseQuery ParseQueryWord IsStopWord; rw [h]

/-- A batch of `AddDocument` calls with valid texts and fresh, distinct, non-negative
ids succeeds call by call; it keeps the stop words and stores the metadata. -/
lemma addAll_spec (docs : List (Int × Str × DocumentStatus × List Int)) (s : SearchServer F)
    (hs : Reachable s)
    (hvalid : ∀ d ∈ docs, 0 ≤ d.1 ∧ ∀ c ∈ d.2.1, 32 ≤ c.toNat)
    (hnodup : (docs.map (fun d => d.1)).Nodup)
    (hfresh : ∀ d ∈ docs, s.documents_.find d.1 = none) :
    Reachable (s.addAll docs) ∧ (s.addAll docs).stop_words_ = s.stop_words_ ∧
      (s.addAll docs).documents_ = addAllDocuments s.documents_ docs := by
  induction docs generalizing s with
  | nil => exact ⟨hs, rfl, rfl⟩
  | cons d ds ih =>
    have hd := hvalid d (List.mem_cons_self _ _)
    have hok : (s.AddDocument d.1 d.2.1 d.2.2.1 d.2.2.2).1 = .ok () :=
      (AddDocument_ok_iff _ _ _ _ _).2 ⟨hd.1, hfresh d (List.mem_cons_self _ _), hd.2⟩
    have hadd : s.AddDocument d.1 d.2.1 d.2.2.1 d.2.2.2 =
        (.ok (), (s.AddDocument d.1 d.2.1 d.2.2.1 d.2.2.2).2) := Prod.ext hok rfl
    obtain ⟨hstop, hdocs, _, _⟩ := AddDocument_ok_state hadd
    rw [List.map_cons, List.nodup_cons] at hnodup
    have := ih (s.AddDocument d.1 d.2.1 d.2.2.1 d.2.2.2).2
      (Reachable.add s _ _ _ _ _ hs hadd)
      (fun x hx => hvalid x (List.mem_cons_of_mem _ hx)) hnodup.2
      (by
        intro x hx
        rw [hdocs, OrdMap.find_assign]
        have hne : ¬ d.1 = x.1 := by
          intro e
          exact hnodup.1 (List.mem_map.2 ⟨x, hx, e.symm⟩)
        rw [if_neg hne]
        exact hfresh x (List.mem_cons_of_mem _ hx))
    refine ⟨this.1, this.2.1.trans hstop, ?_⟩
    rw [show s.addAll (d :: ds) = (s.AddDocument d.1 d.2.1 d.2.2.1 d.2.2.2).2.addAll ds from rfl,
      this.2.2, hdocs]
    rfl

end SearchServer

namespace Examples

open SearchServer

variable {F : Type} [LinearOrderedField F]

lemma emptyServer_reachable : Reachable (emptyServer F) :=
  Reachable.init [] _ rfl

lemma stopServer_reachable : Reachable (stopServer F) :=
  Reachable.init ["in".toList, "the".toList] _ rfl

lemma minusWordsServer_spec :
    Reachable (minusWordsServer F) ∧ (minusWordsServer F).stop_words_ = [] ∧
      (minusWordsServer F).documents_ =
        [(0, ⟨2, .ACTUAL, "cat in the city".toList⟩),
         (1, ⟨2, .ACTUAL, "dog in the village".toList⟩)] :=
  addAll_spec _ _ emptyServer_reachable (by decide) (by decide) (fun _ _ => rfl)

lemma minusWordsServer_reachable : Reachable (minusWordsServer F) := minusWordsServer_spec.1

lemma stopOnlyServer_spec :
    Reachable (stopOnlyServer F) ∧
      (stopOnlyServer F).stop_words_ = ["in".toList, "the".toList] ∧
      (stopOnlyServer F).documents_ = [(1, ⟨0, .ACTUAL, "in the".toList⟩)] :=
  addAll_spec _ _ stopServer_reachable (by decide) (by decide) (fun _ _ => rfl)

lemma stopOnlyServer_reachable : Reachable (stopOnlyServer F) := stopOnlyServer_spec.1

lemma catServer_spec :
    Reachable (catServer F) ∧ (catServer F).stop_words_ = ["in".toList, "the".toList] ∧
      (catServer F).documents_ = [(42, ⟨2, .ACTUAL, "cat in the city".toList⟩)] :=
  addAll_spec _ _ stopServer_reachable (by decide) (by decide) (fun _ _ => rfl)

lemma catServer_reachable : Reachable (catServer F) := catServer_spec.1

lemma matchServer_spec :
    Reachable (matchServer F) ∧ (matchServer F).stop_words_ = [] ∧
      (matchServer F).documents_ =
        [(1, ⟨2, .ACTUAL, "cat in the city".toList⟩), (2, ⟨2, .BANNED, "cat in the city".toList⟩),
         (3, ⟨2, .IRRELEVANT, "cat in the city".toList⟩),
         (4, ⟨2, .REMOVED, "cat in the city".toList⟩)] :=
  addAll_spec _ _ emptyServer_reachable (by decide) (by decide) (fun _ _ => rfl)

lemma matchServer_reachable : Reachable (matchServer F) := matchServer_spec.1

lemma cyrillicStopServer_reachable : Reachable (cyrillicStopServer F) :=
  Reachable.init ["и".toList, "в".toList, "на".toList] _ rfl

lemma relevanceServer_spec :
    Reachable (relevanceServer F) ∧
      (relevanceServer F).stop_words_ = ["в".toList, "и".toList, "на".toList] ∧
      (relevanceServer F).documents_ =
        [(0, ⟨2, .ACTUAL, "белый кот и модный ошейник".toList⟩),
         (1, ⟨5, .ACTUAL, "пушистый кот пушистый хвост".toList⟩),
         (2, ⟨0, .ACTUAL, "ухоженный пёс выразительные глаза".toList⟩)] :=
  addAll_spec _ _ cyrillicStopServer_reachable (by decide) (by decide) (fun _ _ => rfl)

end Examples


namespace ConcurrentMap

variable {V : Type}

lemma GetBucket_lt (cm : ConcurrentMap V) (h : 0 < cm.maps_.length) (k : Int) :
    cm.GetBucket k < cm.maps_.length := Nat.mod_lt _ h

lemma GetBucket_congr {cm cm' : ConcurrentMap V} (h : cm'.maps_.length = cm.maps_.length)
    (k : Int) : cm'.GetBucket k = cm.GetBucket k := by
  unfold GetBucket; rw [h]

lemma create_WF (n : Nat) (hn : 0 < n) : (create n : ConcurrentMap V).WF := by
  refine ⟨by simp [create, hn], ?_⟩
  intro i bucket hb
  have : bucket = [] := by
    have hmem := List.getElem?_mem hb
    simp only [create, List.mem_replicate] at hmem
    exact hmem.2
  subst this
  exact ⟨OrdMap.WF_nil, fun k hk => by simp [OrdMap.keys] at hk⟩

lemma find_create (n : Nat) (k : Int) : (create n : ConcurrentMap V).find k = none := by
  unfold find
  cases h : (create n : ConcurrentMap V).maps_[(create n : ConcurrentMap V).GetBucket k]? with
  | none => rfl
  | some bucket =>
    have hmem := List.getElem?_mem h
    simp only [create, List.mem_replicate] at hmem
    rw [hmem.2]; rfl

/-- A change of the bucket of `key` that keeps the keys of the bucket, up to `key`
itself, keeps the representation invariant. -/
lemma WF_modify_bucket {cm : ConcurrentMap V} (h : cm.WF) (key : Int)
    (g : OrdMap Int V → OrdMap Int V) (hg : ∀ b, OrdMap.WF b → OrdMap.WF (g b))
    (hkeys : ∀ b k, k ∈ OrdMap.keys (g b) → k = key ∨ k ∈ OrdMap.keys b) :
    (⟨cm.maps_.modify g (cm.GetBucket key)⟩ : ConcurrentMap V).WF := by
  have hlen : (⟨cm.maps_.modify g (cm.GetBucket key)⟩ : ConcurrentMap V).maps_.length =
      cm.maps_.length := List.length_modify _ _ _
  refine ⟨by rw [hlen]; exact h.1, ?_⟩
  intro i bucket hb
  simp only [List.getElem?_modify] at hb
  cases hi : cm.maps_[i]? with
  | none => rw [hi] at hb; cases hb
  | some b =>
    rw [hi] at hb
    simp only [Option.map_eq_map, Option.map_some', Option.some.injEq] at hb
    obtain ⟨hwf, hk⟩ := h.2 i b hi
    by_cases hidx : cm.GetBucket key = i
    · rw [if_pos hidx] at hb
      subst hb
      refine ⟨hg b hwf, fun k hkm => ?_⟩
      rw [GetBucket_congr hlen]
      rcases hkeys b k hkm with e | e
      · rw [e]; exact hidx
      · exact hk k e
    · rw [if_neg hidx] at hb
      subst hb
      exact ⟨hwf, fun k hkm => by rw [GetBucket_congr hlen]; exact hk k hkm⟩

/-- Lookups after a change of the bucket of `key` that acts on `key` only. -/
lemma find_modify_bucket (cm : ConcurrentMap V) (key : Int)
    (g : OrdMap Int V → OrdMap Int V) (k : Int)
    (hother : ∀ b, k ≠ key → OrdMap.find (g b) k = OrdMap.find b k) :
    (⟨cm.maps_.modify g (cm.GetBucket key)⟩ : ConcurrentMap V).find k =
      if k = key then
        (cm.maps_[cm.GetBucket key]?).bind (fun b => OrdMap.find (g b) key)
      else cm.find k := by
  have hlen : (⟨cm.maps_.modify g (cm.GetBucket key)⟩ : ConcurrentMap V).maps_.length =
      cm.maps_.length := List.length_modify _ _ _
  unfold find
  rw [GetBucket_congr hlen]
  simp only [List.getElem?_modify]
  by_cases hk : k = key
  · subst hk
    rw [if_pos rfl]
    cases cm.maps_[cm.GetBucket k]? <;> simp
  · rw [if_neg hk]
    cases hb : cm.maps_[cm.GetBucket k]? with
    | none => rfl
    | some b =>
      simp only [Option.map_eq_map, Option.map_some', Option.bind_some]
      by_cases hidx : cm.GetBucket key = cm.GetBucket k
      · rw [if_pos hidx]; exact hother b hk
      · rw [if_neg hidx]

lemma exists_bucket {cm : ConcurrentMap V} (h : cm.WF) (k : Int) :
    ∃ b, cm.maps_[cm.GetBucket k]? = some b := by
  have hlt := GetBucket_lt cm h.1 k
  exact ⟨cm.maps_[cm.GetBucket k], List.getElem?_eq_getElem hlt⟩

lemma access_WF {cm : ConcurrentMap V} (h : cm.WF) (key : Int) (d : V) (f : V → V) :
    (cm.access key d f).WF := by
  unfold access
  apply WF_modify_bucket h key _ (fun b hb => OrdMap.WF_modify hb _ _ _)
  intro b k hk
  unfold OrdMap.modify at hk
  exact (OrdMap.mem_keys_assign _ _ _ _).1 hk

lemma find_access {cm : ConcurrentMap V} (h : cm.WF) (key : Int) (d : V) (f : V → V) (k : Int) :
    (cm.access key d f).find k =
      if key = k then some (f ((cm.find key).getD d)) else cm.find k := by
  unfold access
  rw [find_modify_bucket cm key _ k (fun b hk => by
    rw [OrdMap.find_modify, if_neg (fun e => hk e.symm)])]
  by_cases hk : k = key
  · subst hk
    rw [if_pos rfl, if_pos rfl]
    obtain ⟨b, hb⟩ := exists_bucket h k
    unfold find
    rw [hb]
    simp only [Option.bind_some, OrdMap.find_modify, if_true, Option.some_bind]
  · rw [if_neg hk, if_neg (fun e => hk e.symm)]

lemma Erase_WF {cm : ConcurrentMap V} (h : cm.WF) (key : Int) : (cm.Erase key).WF := by
  unfold Erase
  apply WF_modify_bucket h key _ (fun b hb => OrdMap.WF_erase hb _)
  intro b k hk
  rw [OrdMap.keys_erase] at hk
  exact Or.inr (List.mem_of_mem_filter hk)

lemma find_Erase {cm : ConcurrentMap V} (h : cm.WF) (key : Int) (k : Int) :
    (cm.Erase key).find k = if k = key then none else cm.find k := by
  unfold Erase
  rw [find_modify_bucket cm key _ k (fun b hk => by rw [OrdMap.find_erase, if_neg hk])]
  by_cases hk : k = key
  · subst hk
    rw [if_pos rfl, if_pos rfl]
    obtain ⟨b, hb⟩ := exists_bucket h k
    rw [hb]
    simp only [Option.bind_some, OrdMap.find_erase, if_true, Option.some_bind]
  · rw [if_neg hk, if_neg hk]

/-- Assigning the entries of a well-formed bucket into a map. -/
lemma find_foldl_assign (bucket : OrdMap Int V) (hb : OrdMap.WF bucket) (acc : OrdMap Int V)
    (k : Int) :
    OrdMap.find (bucket.foldl (fun acc e => OrdMap.assign acc e.1 e.2) acc) k =
      if k ∈ OrdMap.keys bucket then OrdMap.find bucket k else OrdMap.find acc k := by
  induction bucket generalizing acc with
  | nil => simp [OrdMap.keys]
  | cons e rest ih =>
    obtain ⟨a, v⟩ := e
    rw [List.foldl_cons, ih ((OrdMap.WF_cons_iff _ _).1 hb).2, OrdMap.find_cons]
    have hnone : OrdMap.find rest a = none := OrdMap.not_mem_keys_of_WF_cons hb
    by_cases hak : a = k
    · subst hak
      have h1 : a ∉ OrdMap.keys rest := (OrdMap.find_eq_none_iff _ _).1 hnone
      have h2 : a ∈ OrdMap.keys ((a, v) :: rest) := List.mem_cons_self _ _
      rw [if_neg h1, if_pos h2, if_pos rfl, OrdMap.find_assign, if_pos rfl]
    · rw [if_neg hak]
      by_cases hkm : k ∈ OrdMap.keys rest
      · have h2 : k ∈ OrdMap.keys ((a, v) :: rest) := List.mem_cons_of_mem _ hkm
        rw [if_pos hkm, if_pos h2]
      · have h2 : k ∉ OrdMap.keys ((a, v) :: rest) := by
          intro hc
          rcases List.mem_cons.1 hc with e | e
          · exact hak e.symm
          · exact hkm e
        rw [if_neg hkm, if_neg h2, OrdMap.find_assign, if_neg hak]

lemma WF_foldl_assign (bucket : OrdMap Int V) (acc : OrdMap Int V) (h : OrdMap.WF acc) :
    OrdMap.WF (bucket.foldl (fun acc e => OrdMap.assign acc e.1 e.2) acc) := by
  induction bucket generalizing acc with
  | nil => exact h
  | cons e rest ih => rw [List.foldl_cons]; exact ih _ (OrdMap.WF_assign h _ _)

/-- The scan of `BuildOrdinaryMap` over the buckets from position `n` on, when every
key of bucket `n + i` has the index `n + i`. -/
lemma find_build_loop (ix : Int → Nat) (buckets : List (OrdMap Int V)) (n : Nat)
    (hb : ∀ i bucket, buckets[i]? = some bucket →
      OrdMap.WF bucket ∧ ∀ k ∈ OrdMap.keys bucket, ix k = n + i)
    (acc : OrdMap Int V) (k : Int) :
    OrdMap.find (buckets.foldl (fun ordinary_map bucket =>
      bucket.foldl (fun acc e => OrdMap.assign acc e.1 e.2) ordinary_map) acc) k =
      if n ≤ ix k then
        match buckets[ix k - n]? with
        | some bucket => if k ∈ OrdMap.keys bucket then OrdMap.find bucket k else OrdMap.find acc k
        | none => OrdMap.find acc k
      else OrdMap.find acc k := by
  induction buckets generalizing n acc with
  | nil => simp
  | cons b bs ih =>
    rw [List.foldl_cons]
    have hb0 := hb 0 b (by simp)
    have hbs : ∀ i bucket, bs[i]? = some bucket →
        OrdMap.WF bucket ∧ ∀ k ∈ OrdMap.keys bucket, ix k = (n + 1) + i := by
      intro i bucket hi
      have := hb (i + 1) bucket (by simpa using hi)
      exact ⟨this.1, fun k hk => by rw [this.2 k hk]; omega⟩
    rw [ih (n + 1) hbs, find_foldl_assign b hb0.1]
    by_cases hlt : n + 1 ≤ ix k
    · have hn : n ≤ ix k := by omega
      have hnot : k ∉ OrdMap.keys b := by
        intro hc
        have := hb0.2 k hc
        omega
      rw [if_pos hlt, if_pos hn, if_neg hnot]
      have hidx : ix k - n = (ix k - (n + 1)) + 1 := by omega
      rw [hidx, List.getElem?_cons_succ]
    · rw [if_neg hlt]
      by_cases hn : n ≤ ix k
      · have hidx : ix k - n = 0 := by omega
        rw [if_pos hn, hidx]
        simp
      · have hnot : k ∉ OrdMap.keys b := by
          intro hc
          have := hb0.2 k hc
          omega
        rw [if_neg hn, if_neg hnot]

lemma WF_build_loop (buckets : List (OrdMap Int V)) (acc : OrdMap Int V) (h : OrdMap.WF acc) :
    OrdMap.WF (buckets.foldl (fun ordinary_map bucket =>
      bucket.foldl (fun acc e => OrdMap.assign acc e.1 e.2) ordinary_map) acc) := by
  induction buckets generalizing acc with
  | nil => exact h
  | cons b bs ih => rw [List.foldl_cons]; exact ih _ (WF_foldl_assign b acc h)

lemma BuildOrdinaryMap_WF (cm : ConcurrentMap V) : OrdMap.WF cm.BuildOrdinaryMap :=
  WF_build_loop _ _ OrdMap.WF_nil

/-- `BuildOrdinaryMap` holds exactly the entries of the buckets. -/
lemma find_BuildOrdinaryMap {cm : ConcurrentMap V} (h : cm.WF) (k : Int) :
    OrdMap.find cm.BuildOrdinaryMap k = cm.find k := by
  unfold BuildOrdinaryMap
  rw [find_build_loop cm.GetBucket cm.maps_ 0 (fun i bucket hi => by
    have := h.2 i bucket hi
    exact ⟨this.1, fun k hk => by rw [this.2 k hk]; omega⟩)]
  simp only [Nat.zero_le, if_true, Nat.sub_zero]
  unfold find
  cases hb : cm.maps_[cm.GetBucket k]? with
  | none => rfl
  | some bucket =>
    simp only [Option.bind_some, Option.some_bind]
    by_cases hk : k ∈ OrdMap.keys bucket
    · rw [if_pos hk]
    · rw [if_neg hk]
      exact ((OrdMap.find_eq_none_iff _ _).2 hk).symm

/-- A sharded map and an ordinary map with the same entries give the same snapshot. -/
lemma Sim.build_eq {cm : ConcurrentMap V} {m : OrdMap Int V} (h : Sim cm m) :
    cm.BuildOrdinaryMap = m := by
  apply OrdMap.ext_of_WF (BuildOrdinaryMap_WF cm) h.2.1
  intro k
  rw [find_BuildOrdinaryMap h.1, h.2.2 k]

lemma Sim.create (n : Nat) (hn : 0 < n) : Sim (create n : ConcurrentMap V) [] :=
  ⟨create_WF n hn, OrdMap.WF_nil, fun k => by rw [find_create]; rfl⟩

lemma Sim.access {cm : ConcurrentMap V} {m : OrdMap Int V} (h : Sim cm m) (key : Int) (d : V)
    (f : V → V) : Sim (cm.access key d f) (OrdMap.modify m key d f) := by
  refine ⟨access_WF h.1 _ _ _, OrdMap.WF_modify h.2.1 _ _ _, fun k => ?_⟩
  rw [OrdMap.find_modify, find_access h.1, h.2.2 key, h.2.2 k]

lemma Sim.erase {cm : ConcurrentMap V} {m : OrdMap Int V} (h : Sim cm m) (key : Int) :
    Sim (cm.Erase key) (OrdMap.erase m key) := by
  refine ⟨Erase_WF h.1 _, OrdMap.WF_erase h.2.1 _, fun k => ?_⟩
  rw [OrdMap.find_erase, find_Erase h.1, h.2.2 k]

/-- Two loops whose steps agree end in outcomes that agree. -/
lemma SimE_foldlM {α : Type} (f : ConcurrentMap V → α → Except Exception (ConcurrentMap V))
    (g : OrdMap Int V → α → Except Exception (OrdMap Int V))
    (hstep : ∀ cm m x, Sim cm m → SimE (f cm x) (g m x)) (l : List α)
    (cm : ConcurrentMap V) (m : OrdMap Int V) (h : Sim cm m) :
    SimE (l.foldlM f cm) (l.foldlM g m) := by
  induction l generalizing cm m with
  | nil => exact h
  | cons x xs ih =>
    rw [List.foldlM_cons, List.foldlM_cons]
    have hs := hstep cm m x h
    cases hf : f cm x with
    | error e =>
      cases hg : g m x with
      | error e' =>
        rw [hf, hg] at hs
        have : e = e' := hs
        subst this
        exact rfl
      | ok m' => rw [hf, hg] at hs; exact hs.elim
    | ok cm' =>
      cases hg : g m x with
      | error e' => rw [hf, hg] at hs; exact hs.elim
      | ok m' =>
        rw [hf, hg] at hs
        exact ih cm' m' hs

end ConcurrentMap


namespace SearchServer

variable {F : Type} [LinearOrderedField F]

/-- The posting map of a word lists the documents whose text has the word. -/
lemma size_postings {s : SearchServer F} (hs : Inv s) {w : Str} (hw : s.IsStopWord w = false)
    {docs : OrdMap Int F} (hf : s.word_to_document_freqs_.find w = some docs) :
    docs.size = documentFrequency s w := by
  have hkeys : docs.keys =
      OrdMap.keys (s.documents_.filter (fun e => decide (w ∈ SplitIntoWords e.2.text))) := by
    apply OrdSet.set_ext_of_WF (hs.inner_postings w docs hf)
    · exact List.Pairwise.sublist (List.Sublist.map _ (List.filter_sublist _)) hs.wf_documents
    · intro id
      rw [← OrdMap.find_isSome_iff_mem_keys, Option.isSome_iff_ne_none,
        ← OrdMap.find2_eq_of_find hf, hs.postings_isSome hw]
      simp only [OrdMap.keys, List.mem_map, List.mem_filter, decide_eq_true_eq, Prod.exists,
        exists_and_right, exists_eq_right]
      constructor
      · rintro ⟨data, hd, hin⟩
        exact ⟨data, (OrdMap.mem_iff_find hs.wf_documents id data).2 hd, hin⟩
      · rintro ⟨data, hd, hin⟩
        exact ⟨data, (OrdMap.mem_iff_find hs.wf_documents id data).1 hd, hin⟩
  unfold documentFrequency OrdMap.size
  have h1 : docs.length = docs.keys.length := by unfold OrdMap.keys; rw [List.length_map]
  rw [h1, hkeys]
  unfold OrdMap.keys; rw [List.length_map]

/-- The products `tf * idf` of a document, written over the plus-terms that are
slices of its text. -/
lemma contribs_eq {s : SearchServer F} (hs : Inv s) (log : F → F) {id : Int}
    {data : DocumentData} (hd : s.documents_.find id = some data) (ws : List Str)
    (hws : ∀ w ∈ ws, s.IsStopWord w = false) :
    contribs log s ws id =
      (ws.filter (fun w => decide (w ∈ SplitIntoWords data.text))).map
        (fun w => storedTermFreq s w id *
          log ((s.documents_.length : F) / (documentFrequency s w : F))) := by
  induction ws with
  | nil => rfl
  | cons w ws ih =>
    have hw := hws w (List.mem_cons_self _ _)
    rw [contribs_cons, ih (fun x hx => hws x (List.mem_cons_of_mem _ hx)), List.filter_cons]
    have hiff := hs.postings_isSome hw id
    by_cases hin : w ∈ SplitIntoWords data.text
    · have hne : OrdMap.find2 s.word_to_document_freqs_ w id ≠ none := hiff.2 ⟨data, hd, hin⟩
      cases hfind : OrdMap.find2 s.word_to_document_freqs_ w id with
      | none => exact absurd hfind hne
      | some tf =>
        simp only [hin, decide_True, if_true, List.map_cons, List.cons.injEq, and_true]
        have htf : storedTermFreq s w id = tf := by
          unfold storedTermFreq
          rw [← find2_forward_eq, ← hs.consistent, hfind]; rfl
        have hidf : idfOf log s w =
            log ((s.documents_.length : F) / (documentFrequency s w : F)) := by
          cases hp : s.word_to_document_freqs_.find w with
          | none => rw [OrdMap.find2_eq_none_of_find hp] at hfind; cases hfind
          | some docs =>
            unfold idfOf GetDocumentCount
            rw [hp, Option.getD_some, size_postings hs hw hp, mul_one]
            rfl
        rw [htf, hidf]
    · have hnone : OrdMap.find2 s.word_to_document_freqs_ w id = none := by
        by_contra hc
        obtain ⟨data', hd', hin'⟩ := hiff.1 hc
        rw [hd] at hd'; cases hd'
        exact hin hin'
      rw [hnone]
      simp [hin]

/-- The stored term frequency of a word of the text of a live document. -/
lemma storedTermFreq_eq {s : SearchServer F} (hs : Inv s) {id : Int} {data : DocumentData}
    (hd : s.documents_.find id = some data) {w : Str} (hw : w ∈ s.nonStopWords data.text) :
    storedTermFreq s w id =
      ((s.nonStopWords data.text).count w : F) / ((s.nonStopWords data.text).length : F) := by
  unfold storedTermFreq
  rw [← find2_forward_eq, hs.forward_some id data hd w]
  unfold termFreq
  rw [if_pos hw]
  rfl

/-- The sum of the products `tf * idf` of a live document is the relevance of its
text. -/
lemma contribs_sum_eq {s : SearchServer F} (hs : Inv s) (log : F → F) {q : Query}
    (hq : QueryOK s q) {id : Int} {data : DocumentData}
    (hd : s.documents_.find id = some data) :
    (contribs log s q.plus_words id).sum = textRelevance log s q data.text := by
  rw [contribs_eq hs log hd q.plus_words hq.plus_nonstop]
  unfold textRelevance
  congr 1
  apply List.map_congr_left
  intro w hw
  have hw' := List.mem_filter.1 hw
  rw [storedTermFreq_eq hs hd ((mem_nonStopWords s data.text w).2
    ⟨by simpa using hw'.2, hq.plus_nonstop w hw'.1⟩)]

/-- A live document that contains a plus-term and no minus-term and that the
predicate accepts is in the relevance map, with the relevance of its text. -/
lemma find_relevanceMap_of_match {s : SearchServer F} (hs : Inv s) (log : F → F) {q : Query}
    (hq : QueryOK s q) (pred : Int → DocumentStatus → Int → Bool) {id : Int}
    {data : DocumentData} (hd : s.documents_.find id = some data)
    (hpred : pred id data.status data.rating = true)
    (hplus : ∃ w ∈ q.plus_words, w ∈ SplitIntoWords data.text)
    (hminus : ∀ w ∈ q.minus_words, w ∉ SplitIntoWords data.text) :
    (relevanceMap log s q pred).find id = some (textRelevance log s q data.text) := by
  rw [find_relevanceMap hs]
  have h1 : ¬ ∃ w ∈ q.minus_words, OrdMap.find2 s.word_to_document_freqs_ w id ≠ none := by
    rintro ⟨w, hw, hne⟩
    obtain ⟨data', hd', hin⟩ := (hs.postings_isSome (hq.minus_nonstop w hw) id).1 hne
    rw [hd] at hd'; cases hd'
    exact hminus w hw hin
  have h2 : predOf s pred id = true ∧ contribs log s q.plus_words id ≠ [] := by
    refine ⟨by rw [predOf_eq hd]; exact hpred, ?_⟩
    rw [contribs_ne_nil]
    obtain ⟨w, hw, hin⟩ := hplus
    exact ⟨w, hw, (hs.postings_isSome (hq.plus_nonstop w hw) id).2 ⟨data, hd, hin⟩⟩
  rw [if_neg h1, if_pos h2, contribs_sum_eq hs log hq hd]

/-- Every document that `FindAllDocuments` returns is live and has the relevance of
its text and its stored rating. -/
lemma relevance_of_mem {s : SearchServer F} (hs : Inv s) (log : F → F) {q : Query}
    (hq : QueryOK s q) (pred : Int → DocumentStatus → Int → Bool) {d : Document F}
    (hd : d ∈ (relevanceMap log s q pred).map
      (fun e => (⟨e.1, e.2, ratingOf s e.1⟩ : Document F))) :
    ∃ data, s.documents_.find d.id = some data ∧ d.rating = data.rating ∧
      d.relevance = textRelevance log s q data.text := by
  obtain ⟨hrel, hrating⟩ := (mem_FindAllDocuments s log q pred d).1 hd
  rw [find_relevanceMap hs] at hrel
  split_ifs at hrel with h1 h2
  obtain ⟨data, hdata, _⟩ := (predOf_true_iff s pred d.id).1 h2.1
  refine ⟨data, hdata, ?_, ?_⟩
  · rw [hrating]; unfold ratingOf; rw [hdata]
  · rw [← contribs_sum_eq hs log hq hdata]
    exact (Option.some.inj hrel).symm

/-- With at most five matches the result holds the matches, reordered. -/
lemma mem_sortAndTruncate_of_le {l : List (Document F)} (h : l.length ≤ 5) (d : Document F) :
    d ∈ sortAndTruncate l ↔ d ∈ l := by
  rw [sortAndTruncate_eq, min_eq_right h, ← stdSort_length documentBefore l, List.take_length,
    mem_stdSort]

end SearchServer

namespace Examples

open SearchServer

variable {F : Type} [LinearOrderedField F]

lemma ratingServer_spec :
    Reachable (ratingServer F) ∧ (ratingServer F).stop_words_ = [] ∧
      (ratingServer F).documents_ =
        [(1, ⟨2, .ACTUAL, "cat in the city".toList⟩), (2, ⟨3, .ACTUAL, "cat in the city".toList⟩),
         (3, ⟨10, .ACTUAL, "cat in the city".toList⟩),
         (4, ⟨-10, .ACTUAL, "cat in the city".toList⟩),
         (5, ⟨-3, .ACTUAL, "cat in the city".toList⟩)] :=
  addAll_spec _ _ emptyServer_reachable (by decide) (by decide) (fun _ _ => rfl)

end Examples


namespace SearchServer

variable {F : Type} [LinearOrderedField F]

/-- A state reached by successful calls is a state reached by any calls. -/
lemma Reachable.any {s : SearchServer F} (h : Reachable s) : ReachableAny s := by
  induction h with
  | init stop_words s h => exact ReachableAny.init stop_words s h
  | add s id text status ratings s' _ h ih =>
    have := ReachableAny.add s id text status ratings ih
    rw [h] at this
    exact this
  | remove s id _ ih => exact ReachableAny.remove s id ih
  | removePar s id _ ih => exact ReachableAny.removePar s id ih

/-- Whatever `AddDocument` does, it leaves the forward entries of the other ids alone,
creates none for its own id unless it returns normally, and then has put the id into
the document id set. -/
lemma AddDocument_forward (s : SearchServer F) (id : Int) (text : Str) (status : DocumentStatus)
    (ratings : List Int) (k : Int)
    (h : (s.AddDocument id text status ratings).2.document_to_word_freqs_.find k ≠ none) :
    s.document_to_word_freqs_.find k ≠ none ∨
      k ∈ (s.AddDocument id text status ratings).2.document_ids_ := by
  rw [AddDocument_eq] at h ⊢
  by_cases h1 : id < 0
  · rw [if_pos h1] at h ⊢; exact Or.inl h
  rw [if_neg h1] at h ⊢
  by_cases h2 : s.documents_.find id ≠ none
  · rw [if_pos h2] at h ⊢; exact Or.inl h
  rw [if_neg h2] at h ⊢
  by_cases h4 : ∀ c ∈ text, 32 ≤ c.toNat
  · rw [if_pos h4] at h ⊢
    by_cases hk : k = id
    · right
      show k ∈ OrdSet.insert s.document_ids_ id
      rw [OrdSet.set_mem_insert]; exact Or.inl hk
    · left
      have h' : OrdMap.find (Prod.snd (List.foldl (addWord id
          (1 / ((s.nonStopWords text).length : F)))
          (s.word_to_document_freqs_, s.document_to_word_freqs_) (s.nonStopWords text))) k
          ≠ none := h
      rw [foldl_addWord] at h'
      simp only at h'
      rw [OrdMap.find_foldl_modify_of_not_mem _ (fun k inner => inner.modify k 0 _)] at h'
      · exact h'
      · intro p hp
        simp only [List.mem_map] at hp
        obtain ⟨w, _, rfl⟩ := hp
        exact fun e => hk e.symm
  · rw [if_neg h4] at h ⊢; exact Or.inl h

lemma AddDocument_ids_mono (s : SearchServer F) (id : Int) (text : Str) (status : DocumentStatus)
    (ratings : List Int) (k : Int) (h : k ∈ s.document_ids_) :
    k ∈ (s.AddDocument id text status ratings).2.document_ids_ := by
  rw [AddDocument_eq]
  split_ifs
  · exact h
  · exact h
  · show k ∈ OrdSet.insert s.document_ids_ id
    rw [OrdSet.set_mem_insert]; exact Or.inr h
  · exact h

/-- In every state the program can reach, only ids of the document id set have a
forward entry. -/
lemma ReachableAny.forward_subset {s : SearchServer F} (h : ReachableAny s) (k : Int)
    (hk : s.document_to_word_freqs_.find k ≠ none) : k ∈ s.document_ids_ := by
  induction h generalizing k with
  | init stop_words s h =>
    unfold create at h
    simp only at h
    split at h
    · cases h
    · cases h; exact absurd rfl hk
  | add s id text status ratings _ ih =>
    rcases AddDocument_forward s id text status ratings k hk with h1 | h1
    · exact AddDocument_ids_mono s id text status ratings k (ih k h1)
    · exact h1
  | remove s id _ ih =>
    rw [RemoveDocument_eq] at hk ⊢
    by_cases he : s.GetWordFrequencies id = []
    · rw [if_pos he] at hk ⊢; exact ih k hk
    · rw [if_neg he] at hk ⊢
      have hk' : OrdMap.find (s.document_to_word_freqs_.erase id) k ≠ none := hk
      rw [OrdMap.find_erase] at hk'
      by_cases e : k = id
      · rw [if_pos e] at hk'; exact absurd rfl hk'
      · rw [if_neg e] at hk'
        show k ∈ OrdSet.erase s.document_ids_ id
        rw [OrdSet.set_mem_erase]
        exact ⟨e, ih k hk'⟩
  | removePar s id _ ih =>
    rw [RemoveDocumentPar_eq, RemoveDocument_eq] at hk ⊢
    by_cases he : s.GetWordFrequencies id = []
    · rw [if_pos he] at hk ⊢; exact ih k hk
    · rw [if_neg he] at hk ⊢
      have hk' : OrdMap.find (s.document_to_word_freqs_.erase id) k ≠ none := hk
      rw [OrdMap.find_erase] at hk'
      by_cases e : k = id
      · rw [if_pos e] at hk'; exact absurd rfl hk'
      · rw [if_neg e] at hk'
        show k ∈ OrdSet.erase s.document_ids_ id
        rw [OrdSet.set_mem_erase]
        exact ⟨e, ih k hk'⟩

end SearchServer


/-! ### The comparator of `FindTopDocuments` -/

namespace SearchServer

variable {F : Type} [LinearOrderedField F]

lemma closeRelevance_comm (a b : Document F) : closeRelevance a b ↔ closeRelevance b a := by
  unfold closeRelevance; rw [abs_sub_comm]

lemma documentBefore_iff (a b : Document F) :
    documentBefore a b = true ↔
      (closeRelevance a b ∧ a.rating > b.rating) ∨
        (¬ closeRelevance a b ∧ a.relevance > b.relevance) := by
  unfold documentBefore closeRelevance
  by_cases h : |a.relevance - b.relevance| < 1 / 1000000
  · rw [if_pos h, decide_eq_true_eq]
    constructor
    · intro hr; exact Or.inl ⟨h, hr⟩
    · rintro (⟨_, hr⟩ | ⟨hn, _⟩)
      · exact hr
      · exact absurd h hn
  · rw [if_neg h, decide_eq_true_eq]
    constructor
    · intro hr; exact Or.inr ⟨h, hr⟩
    · rintro (⟨hn, _⟩ | ⟨_, hr⟩)
      · exact absurd hn h
      · exact hr

/-- The comparator never puts two documents before each other. -/
lemma documentBefore_asymm (a b : Document F) (h : documentBefore a b = true) :
    ¬ documentBefore b a = true := by
  rw [documentBefore_iff] at h ⊢
  rw [closeRelevance_comm b a]
  rintro (⟨h1, h2⟩ | ⟨h1, h2⟩)
  · rcases h with ⟨_, h4⟩ | ⟨h3, _⟩
    · omega
    · exact h3 h1
  · rcases h with ⟨h3, _⟩ | ⟨_, h4⟩
    · exact h1 h3
    · exact lt_asymm h2 h4

end SearchServer


namespace OrdMap

variable {K V : Type} [LinearOrder K]

/-- Erasing a key that was just assigned gives the map back when the key was new. -/
lemma erase_assign_of_none {m : OrdMap K V} (h : m.WF) {k : K} (hk : m.find k = none) (v : V) :
    (m.assign k v).erase k = m := by
  apply ext_of_WF (WF_erase (WF_assign h k v) k) h
  intro a
  rw [find_erase, find_assign]
  by_cases e : a = k
  · rw [if_pos e, e, hk]
  · rw [if_neg e, if_neg (fun hc => e hc.symm)]

variable {K₁ K₂ : Type} [LinearOrder K₁] [LinearOrder K₂]

/-- The keys after a run of `m[p.1]` accesses: the old keys and the keys accessed. -/
lemma isSome_find_foldl_modify {W : Type} (l : List (K₁ × K₂))
    (g : K₂ → OrdMap K₂ W → OrdMap K₂ W) (m : OrdMap K₁ (OrdMap K₂ W)) (a : K₁) :
    ((l.foldl (fun acc p => acc.modify p.1 [] (g p.2)) m).find a).isSome ↔
      (∃ p ∈ l, p.1 = a) ∨ (m.find a).isSome := by
  induction l generalizing m with
  | nil => simp
  | cons p rest ih =>
    rw [List.foldl_cons, ih, find_modify]
    by_cases e : p.1 = a
    · simp [e]
    · rw [if_neg e]
      constructor
      · rintro (⟨q, hq, hqa⟩ | h)
        · exact Or.inl ⟨q, List.mem_cons_of_mem _ hq, hqa⟩
        · exact Or.inr h
      · rintro (⟨q, hq, hqa⟩ | h)
        · rcases List.mem_cons.1 hq with rfl | hq
          · exact absurd hqa e
          · exact Or.inl ⟨q, hq, hqa⟩
        · exact Or.inr h

/-- An inner map is determined by the two-level lookups under its key. -/
lemma find_eq_of_find2 {W : Type} {m m' : OrdMap K₁ (OrdMap K₂ W)} (hm : m.InnerWF)
    (hm' : m'.InnerWF) {a : K₁} {inner inner' : OrdMap K₂ W} (h : m.find a = some inner)
    (h' : m'.find a = some inner') (h2 : ∀ b, find2 m a b = find2 m' a b) : inner = inner' := by
  apply ext_of_WF (hm a inner h) (hm' a inner' h')
  intro b
  rw [← find2_eq_of_find h b, ← find2_eq_of_find h' b]
  exact h2 b

end OrdMap


namespace SearchServer

variable {F : Type} [LinearOrderedField F]

/-- Two servers with the same five data members are the same server. -/
lemma eq_of_members {s t : SearchServer F} (h1 : s.stop_words_ = t.stop_words_)
    (h2 : s.word_to_document_freqs_ = t.word_to_document_freqs_)
    (h3 : s.document_to_word_freqs_ = t.document_to_word_freqs_)
    (h4 : s.documents_ = t.documents_) (h5 : s.document_ids_ = t.document_ids_) : s = t := by
  cases s; cases t
  simp only at h1 h2 h3 h4 h5
  subst h1 h2 h3 h4 h5
  rfl

/-- The forward entries of the other documents are not touched by `AddDocument`. -/
lemma AddDocument_forward_other (s : SearchServer F) (id : Int) (text : Str)
    (status : DocumentStatus) (ratings : List Int) {k : Int} (hk : k ≠ id) :
    (s.AddDocument id text status ratings).2.document_to_word_freqs_.find k =
      s.document_to_word_freqs_.find k := by
  rw [AddDocument_eq]
  split_ifs
  · rfl
  · rfl
  · show OrdMap.find (Prod.snd (List.foldl _ _ _)) k = _
    rw [foldl_addWord]
    exact OrdMap.find_foldl_modify_of_not_mem _
      (fun w inner => inner.modify w 0 (fun y => y + 1 / ((s.nonStopWords text).length : F)))
      _ k (fun p hp => by
        obtain ⟨w, _, rfl⟩ := List.mem_map.1 hp
        exact fun hc => hk hc.symm)
  · rfl

/-- The two indexes that a successful `AddDocument` leaves. -/
lemma AddDocument_ok_maps {s s' : SearchServer F} {id : Int} {text : Str}
    {status : DocumentStatus} {ratings : List Int}
    (h : s.AddDocument id text status ratings = (.ok (), s')) :
    s'.word_to_document_freqs_ = ((s.nonStopWords text).foldl
        (addWord id (1 / ((s.nonStopWords text).length : F)))
        (s.word_to_document_freqs_, s.document_to_word_freqs_)).1 ∧
    s'.document_to_word_freqs_ = ((s.nonStopWords text).foldl
        (addWord id (1 / ((s.nonStopWords text).length : F)))
        (s.word_to_document_freqs_, s.document_to_word_freqs_)).2 := by
  rw [AddDocument_eq] at h
  by_cases h1 : id < 0
  · rw [if_pos h1] at h; cases h
  rw [if_neg h1] at h
  by_cases h2 : s.documents_.find id ≠ none
  · rw [if_pos h2] at h; cases h
  rw [if_neg h2] at h
  by_cases h4 : ∀ c ∈ text, 32 ≤ c.toNat
  swap
  · rw [if_neg h4] at h; cases h
  rw [if_pos h4] at h
  simp only [Prod.mk.injEq, true_and] at h
  subst h
  exact ⟨rfl, rfl⟩

/-- The keys of the postings after a successful `AddDocument`: the old keys and the
non-stop words of the text. -/
lemma AddDocument_postings_keys {s s' : SearchServer F} {id : Int} {text : Str}
    {status : DocumentStatus} {ratings : List Int}
    (h : s.AddDocument id text status ratings = (.ok (), s')) (w : Str) :
    (s'.word_to_document_freqs_.find w).isSome ↔
      w ∈ s.nonStopWords text ∨ (s.word_to_document_freqs_.find w).isSome := by
  rw [(AddDocument_ok_maps h).1, foldl_addWord]
  rw [OrdMap.isSome_find_foldl_modify _
    (fun d inner => inner.modify d 0 (fun y => y + 1 / ((s.nonStopWords text).length : F)))]
  constructor
  · rintro (⟨p, hp, rfl⟩ | h)
    · obtain ⟨w, hw, rfl⟩ := List.mem_map.1 hp
      exact Or.inl hw
    · exact Or.inr h
  · rintro (hw | h)
    · exact Or.inl ⟨(w, id), List.mem_map.2 ⟨w, hw, rfl⟩, rfl⟩
    · exact Or.inr h

/-- The keys of the postings after `RemoveDocument`: `operator[]` adds the words of
the removed forward entry to the old keys. -/
lemma RemoveDocument_postings_keys (s : SearchServer F) (id : Int) (w : Str) :
    ((s.RemoveDocument id).word_to_document_freqs_.find w).isSome ↔
      w ∈ (s.GetWordFrequencies id).keys ∨ (s.word_to_document_freqs_.find w).isSome := by
  rw [RemoveDocument_eq]
  by_cases h : s.GetWordFrequencies id = []
  · rw [if_pos h, h]
    simp [OrdMap.keys]
  · rw [if_neg h]
    show (OrdMap.find (List.foldl _ _ _) w).isSome ↔ _
    rw [OrdMap.isSome_find_foldl_modify _ (fun d inner => inner.erase d)]
    constructor
    · rintro (⟨p, hp, rfl⟩ | h)
      · obtain ⟨e, he, rfl⟩ := List.mem_map.1 hp
        exact Or.inl (List.mem_map.2 ⟨e, he, rfl⟩)
      · exact Or.inr h
    · rintro (hw | h)
      · obtain ⟨e, he, rfl⟩ := List.mem_map.1 hw
        exact Or.inl ⟨(e.1, id), List.mem_map.2 ⟨e, he, rfl⟩, rfl⟩
      · exact Or.inr h

/-- The keys of the forward entry of a document are the non-stop words of its text. -/
lemma Inv.forward_keys {s : SearchServer F} (hs : Inv s) {id : Int} {data : DocumentData}
    (hd : s.documents_.find id = some data) (w : Str) :
    w ∈ (s.GetWordFrequencies id).keys ↔ w ∈ s.nonStopWords data.text := by
  rw [← OrdMap.find_isSome_iff_mem_keys, ← find2_forward_eq, hs.forward_some id data hd w,
    ← termFreq_ne_none (F := F), Option.isSome_iff_ne_none]

/-- `AddDocument` of a new id whose text has a non-stop word, followed by
`RemoveDocument` of the id: the stop words, the metadata, the id set and the forward
index are the ones before the two calls, and the posting map under a word is the one
before, except that a word of the text that was no key is now a key with an empty
posting map. -/
lemma add_then_remove {s : SearchServer F} (hs : Inv s) {id : Int} {text : Str}
    (status : DocumentStatus) (ratings : List Int) (h1 : 0 ≤ id)
    (h2 : s.documents_.find id = none) (h3 : ∀ c ∈ text, 32 ≤ c.toNat)
    (h4 : s.nonStopWords text ≠ []) :
    Inv ((s.AddDocument id text status ratings).2.RemoveDocument id) ∧
    ((s.AddDocument id text status ratings).2.RemoveDocument id).stop_words_ = s.stop_words_ ∧
    ((s.AddDocument id text status ratings).2.RemoveDocument id).documents_ = s.documents_ ∧
    ((s.AddDocument id text status ratings).2.RemoveDocument id).document_ids_ =
      s.document_ids_ ∧
    ((s.AddDocument id text status ratings).2.RemoveDocument id).document_to_word_freqs_ =
      s.document_to_word_freqs_ ∧
    ∀ w, ((s.AddDocument id text status ratings).2.RemoveDocument id).word_to_document_freqs_.find
        w =
      if w ∈ s.nonStopWords text then some ((s.word_to_document_freqs_.find w).getD [])
      else s.word_to_document_freqs_.find w := by
  have hok : (s.AddDocument id text status ratings).1 = .ok () :=
    (AddDocument_ok_iff _ _ _ _ _).2 ⟨h1, h2, h3⟩
  have hadd : s.AddDocument id text status ratings =
      (.ok (), (s.AddDocument id text status ratings).2) := Prod.ext hok rfl
  generalize (s.AddDocument id text status ratings).2 = sa at hadd
  have hinva : Inv sa := Inv_add hs hadd
  obtain ⟨hstopa, hdocsa, _, _⟩ := AddDocument_ok_state hadd
  have hfinda : sa.documents_.find id = some ⟨ComputeAverageRating ratings, status, text⟩ := by
    rw [hdocsa, OrdMap.find_assign, if_pos rfl]
  have hkeysa : ∀ w, w ∈ (sa.GetWordFrequencies id).keys ↔ w ∈ s.nonStopWords text := by
    intro w
    rw [hinva.forward_keys hfinda w, nonStopWords_congr hstopa]
  have hne : sa.GetWordFrequencies id ≠ [] := by
    intro hc
    obtain ⟨w, hw⟩ := List.exists_mem_of_ne_nil _ h4
    have := (hkeysa w).2 hw
    rw [hc] at this
    simp [OrdMap.keys] at this
  have hinv' : Inv (sa.RemoveDocument id) := Inv_remove hinva id
  have hstop : (sa.RemoveDocument id).stop_words_ = s.stop_words_ := by
    rw [RemoveDocument_eq, if_neg hne]; exact hstopa
  have hdocs : (sa.RemoveDocument id).documents_ = s.documents_ := by
    rw [RemoveDocument_eq, if_neg hne]
    show sa.documents_.erase id = _
    rw [hdocsa]
    exact OrdMap.erase_assign_of_none hs.wf_documents h2 _
  have hids : (sa.RemoveDocument id).document_ids_ = s.document_ids_ := by
    rw [hinv'.ids_eq, hdocs, hs.ids_eq]
  have hfwd : (sa.RemoveDocument id).document_to_word_freqs_ = s.document_to_word_freqs_ := by
    apply OrdMap.ext_of_WF hinv'.wf_forward hs.wf_forward
    intro k
    rw [RemoveDocument_eq, if_neg hne]
    show (sa.document_to_word_freqs_.erase id).find k = _
    rw [OrdMap.find_erase]
    by_cases e : k = id
    · rw [if_pos e, e, hs.forward_none id h2]
    · rw [if_neg e]
      have := AddDocument_forward_other s id text status ratings e
      rw [hadd] at this
      exact this
  refine ⟨hinv', hstop, hdocs, hids, hfwd, fun w => ?_⟩
  have hkeys : ((sa.RemoveDocument id).word_to_document_freqs_.find w).isSome ↔
      w ∈ s.nonStopWords text ∨ (s.word_to_document_freqs_.find w).isSome := by
    rw [RemoveDocument_postings_keys, AddDocument_postings_keys hadd, hkeysa]
    tauto
  have h2eq : ∀ d, OrdMap.find2 (sa.RemoveDocument id).word_to_document_freqs_ w d =
      OrdMap.find2 s.word_to_document_freqs_ w d := by
    intro d
    rw [hinv'.postings_eq, hs.postings_eq, hdocs]
    cases s.documents_.find d with
    | none => rfl
    | some data => simp only [nonStopWords_congr hstop]
  have htarget : ∀ inner', (sa.RemoveDocument id).word_to_document_freqs_.find w = some inner' →
      inner' = (s.word_to_document_freqs_.find w).getD [] := by
    intro inner' hi
    have hwf : ((s.word_to_document_freqs_.find w).getD []).WF := by
      cases hf : s.word_to_document_freqs_.find w with
      | none => exact OrdMap.WF_nil
      | some inner => exact hs.inner_postings w inner hf
    apply OrdMap.ext_of_WF (hinv'.inner_postings w inner' hi) hwf
    intro d
    rw [← OrdMap.find2_eq_of_find hi d, h2eq d]
    cases hf : s.word_to_document_freqs_.find w with
    | none => exact OrdMap.find2_eq_none_of_find hf d
    | some inner => exact OrdMap.find2_eq_of_find hf d
  cases hr : (sa.RemoveDocument id).word_to_document_freqs_.find w with
  | some inner' =>
    rw [htarget inner' hr]
    by_cases hw : w ∈ s.nonStopWords text
    · rw [if_pos hw]
    · rw [if_neg hw]
      have : (s.word_to_document_freqs_.find w).isSome := by
        have := hkeys.1 (by rw [hr]; rfl)
        tauto
      obtain ⟨inner, hinner⟩ := Option.isSome_iff_exists.1 this
      rw [hinner]; rfl
  | none =>
    have hn : ¬ (w ∈ s.nonStopWords text ∨ (s.word_to_document_freqs_.find w).isSome) := by
      intro hc
      have := hkeys.2 hc
      rw [hr] at this
      exact absurd this (by simp)
    rw [if_neg (fun hc => hn (Or.inl hc))]
    cases hf : s.word_to_document_freqs_.find w with
    | none => rfl
    | some inner => exact absurd (Or.inr (by rw [hf]; rfl)) hn

end SearchServer


namespace OrdMap

variable {K₁ K₂ V : Type} [LinearOrder K₁] [LinearOrder K₂]

/-- A two-level lookup finds a value exactly when the outer key has an inner map that
holds the value under the inner key. -/
lemma find2_eq_some_iff (m : OrdMap K₁ (OrdMap K₂ V)) (a : K₁) (b : K₂) (v : V) :
    find2 m a b = some v ↔ ∃ inner, m.find a = some inner ∧ inner.find b = some v := by
  unfold find2
  cases m.find a <;> simp

/-- No inner map has the key `b` exactly when every two-level lookup of `b` fails. -/
lemma find2_eq_none_iff (m : OrdMap K₁ (OrdMap K₂ V)) (b : K₂) :
    (∀ a, find2 m a b = none) ↔ ∀ a inner, m.find a = some inner → b ∉ inner.keys := by
  constructor
  · intro h a inner ha
    rw [← find_eq_none_iff, ← find2_eq_of_find ha b]
    exact h a
  · intro h a
    cases ha : m.find a with
    | none => exact find2_eq_none_of_find ha b
    | some inner =>
      rw [find2_eq_of_find ha b, find_eq_none_iff]
      exact h a inner ha

end OrdMap

namespace SearchServer

variable {F : Type} [LinearOrderedField F]

lemma IsStopWord_iff (s : SearchServer F) (w : Str) :
    s.IsStopWord w = true ↔ w ∈ s.stop_words_ := by
  unfold IsStopWord OrdSet.count
  split_ifs with h <;> simp [h]

/-- The stop words are the same after `AddDocument`, whatever its outcome. -/
lemma AddDocument_stop_words (s : SearchServer F) (id : Int) (text : Str)
    (status : DocumentStatus) (ratings : List Int) :
    (s.AddDocument id text status ratings).2.stop_words_ = s.stop_words_ := by
  rw [AddDocument_eq]
  split_ifs <;> rfl

/-- The stop words are the same after `RemoveDocument`. -/
lemma RemoveDocument_stop_words (s : SearchServer F) (id : Int) :
    (s.RemoveDocument id).stop_words_ = s.stop_words_ := by
  rw [RemoveDocument_eq]
  split_ifs <;> rfl

/-- `AddDocument`, whatever its outcome, indexes no stop word. -/
lemma AddDocument_no_stop (s : SearchServer F) (id : Int) (text : Str)
    (status : DocumentStatus) (ratings : List Int) {w : Str} (hw : w ∈ s.stop_words_)
    (h1 : s.word_to_document_freqs_.find w = none)
    (h2 : ∀ k, OrdMap.find2 s.document_to_word_freqs_ k w = none) :
    (s.AddDocument id text status ratings).2.word_to_document_freqs_.find w = none ∧
    ∀ k, OrdMap.find2 (s.AddDocument id text status ratings).2.document_to_word_freqs_ k w =
      none := by
  have hnot : w ∉ s.nonStopWords text := by
    intro hc
    have := ((mem_nonStopWords s text w).1 hc).2
    rw [(IsStopWord_iff s w).2 hw] at this
    cases this
  rw [AddDocument_eq]
  split_ifs
  · exact ⟨h1, h2⟩
  · exact ⟨h1, h2⟩
  · constructor
    · show OrdMap.find (Prod.fst (List.foldl _ _ _)) w = none
      rw [foldl_addWord]
      rw [OrdMap.find_foldl_modify_of_not_mem _
        (fun d inner => inner.modify d 0 (fun y => y + 1 / ((s.nonStopWords text).length : F)))]
      · exact h1
      · intro p hp
        obtain ⟨a, ha, rfl⟩ := List.mem_map.1 hp
        exact fun hc => hnot (hc ▸ ha)
    · intro k
      show OrdMap.find2 (Prod.snd (List.foldl _ _ _)) k w = none
      rw [find2_forward_add, if_neg (fun hc => hnot hc.2)]
      exact h2 k
  · exact ⟨h1, h2⟩

/-- `RemoveDocument` indexes no stop word: the keys that `operator[]` touches are
words of the forward entry. -/
lemma RemoveDocument_no_stop (s : SearchServer F) (id : Int) {w : Str}
    (h1 : s.word_to_document_freqs_.find w = none)
    (h2 : ∀ k, OrdMap.find2 s.document_to_word_freqs_ k w = none) :
    (s.RemoveDocument id).word_to_document_freqs_.find w = none ∧
    ∀ k, OrdMap.find2 (s.RemoveDocument id).document_to_word_freqs_ k w = none := by
  rw [RemoveDocument_eq]
  split_ifs
  · exact ⟨h1, h2⟩
  · constructor
    · show OrdMap.find (List.foldl _ _ _) w = none
      rw [OrdMap.find_foldl_modify_of_not_mem _ (fun d inner => inner.erase d)]
      · exact h1
      · intro p hp
        obtain ⟨e, he, rfl⟩ := List.mem_map.1 hp
        intro hc
        have hk : w ∈ (s.GetWordFrequencies id).keys := List.mem_map.2 ⟨e, he, hc⟩
        rw [← OrdMap.find_isSome_iff_mem_keys, ← find2_forward_eq, h2 id] at hk
        cases hk
    · intro k
      show OrdMap.find2 (s.document_to_word_freqs_.erase id) k w = none
      rw [OrdMap.find2_erase]
      split_ifs
      · rfl
      · exact h2 k

/-- With the keys of the postings held by value: in every state reached by calls of
`AddDocument` and `RemoveDocument`, no stop word is a key of the postings or a word of a
forward entry. -/
lemma ReachableAny.no_stop {s : SearchServer F} (h : ReachableAny s) {w : Str}
    (hw : w ∈ s.stop_words_) :
    s.word_to_document_freqs_.find w = none ∧
    ∀ k, OrdMap.find2 s.document_to_word_freqs_ k w = none := by
  induction h with
  | init stop_words s h =>
    unfold create at h
    simp only at h
    split at h
    · cases h
    · cases h; exact ⟨rfl, fun _ => rfl⟩
  | add s id text status ratings _ ih =>
    rw [AddDocument_stop_words] at hw
    exact AddDocument_no_stop s id text status ratings hw (ih hw).1 (ih hw).2
  | remove s id _ ih =>
    rw [RemoveDocument_stop_words] at hw
    exact RemoveDocument_no_stop s id (ih hw).1 (ih hw).2
  | removePar s id _ ih =>
    rw [RemoveDocumentPar_eq] at hw ⊢
    rw [RemoveDocument_stop_words] at hw
    exact RemoveDocument_no_stop s id (ih hw).1 (ih hw).2

/-- In a state reached by successful calls, no forward entry is empty. -/
lemma Reachable.forward_nonempty {s : SearchServer F} (h : Reachable s) (k : Int)
    (m : OrdMap Str F) (hm : s.document_to_word_freqs_.find k = some m) : m ≠ [] := by
  induction h generalizing k m with
  | init stop_words s h =>
    unfold create at h
    simp only at h
    split at h
    · cases h
    · cases h; cases hm
  | add s id text status ratings s' hs hadd ih =>
    have hother := AddDocument_forward_other s id text status ratings (k := k)
    rw [hadd] at hother
    by_cases e : k = id
    · subst e
      intro hnil
      subst hnil
      have hinv' := Inv_add hs.inv hadd
      obtain ⟨hstop, hdocs, _, hnone⟩ := AddDocument_ok_state hadd
      have hfind : s'.documents_.find k = some ⟨ComputeAverageRating ratings, status, text⟩ := by
        rw [hdocs, OrdMap.find_assign, if_pos rfl]
      have hg : s'.GetWordFrequencies k = [] := by
        unfold GetWordFrequencies; rw [hm]
      have hwords : s.nonStopWords text = [] := by
        rw [List.eq_nil_iff_forall_not_mem]
        intro w hw
        have := (hinv'.forward_keys hfind w).2 (by rw [nonStopWords_congr hstop]; exact hw)
        rw [hg] at this
        simp [OrdMap.keys] at this
      have hsame := (AddDocument_ok_maps hadd).2
      rw [hwords] at hsame
      have : s'.document_to_word_freqs_ = s.document_to_word_freqs_ := hsame
      rw [this, hs.inv.forward_none k hnone] at hm
      cases hm
    · rw [hother e] at hm
      exact ih k m hm
  | remove s id _ ih =>
    rw [RemoveDocument_eq] at hm
    split_ifs at hm
    · exact ih k m hm
    · have hm' : (s.document_to_word_freqs_.erase id).find k = some m := hm
      rw [OrdMap.find_erase] at hm'
      split_ifs at hm'
      exact ih k m hm'
  | removePar s id _ ih =>
    rw [RemoveDocumentPar_eq, RemoveDocument_eq] at hm
    split_ifs at hm
    · exact ih k m hm
    · have hm' : (s.document_to_word_freqs_.erase id).find k = some m := hm
      rw [OrdMap.find_erase] at hm'
      split_ifs at hm'
      exact ih k m hm'

end SearchServer


/-- A property of the exception of every step that throws holds for the exception of a
loop that throws. -/
lemma foldlM_except_error {σ α ε : Type} (P : ε → Prop) (f : σ → α → Except ε σ)
    (hstep : ∀ a x e, f a x = .error e → P e) (l : List α) (init : σ) (e : ε)
    (h : l.foldlM f init = .error e) : P e := by
  induction l generalizing init with
  | nil => simp only [List.foldlM_nil, pure, Except.pure] at h; cases h
  | cons x xs ih =>
    rw [List.foldlM_cons] at h
    cases hx : f init x with
    | error e' =>
      rw [hx] at h
      have : e' = e := by
        simp only [bind, Except.bind] at h
        exact Except.error.inj h
      exact this ▸ hstep init x e' hx
    | ok b =>
      rw [hx] at h
      exact ih b h

namespace OrdSet

variable {K : Type} [LinearOrder K]

/-- The set built by inserting the elements of a list one after the other. -/
lemma mem_foldl_insert (l : List K) (acc : OrdSet K) (k : K) :
    k ∈ l.foldl OrdSet.insert acc ↔ k ∈ acc ∨ k ∈ l := by
  induction l generalizing acc with
  | nil => simp
  | cons x xs ih =>
    rw [List.foldl_cons, ih, set_mem_insert, List.mem_cons]
    tauto

lemma WF_foldl_insert (l : List K) {acc : OrdSet K} (h : OrdSet.WF acc) :
    OrdSet.WF (l.foldl OrdSet.insert acc) := by
  induction l generalizing acc with
  | nil => exact h
  | cons x xs ih => exact ih (set_WF_insert h x)

end OrdSet

namespace SearchServer

variable {F : Type} [LinearOrderedField F]

lemma IsValidWord_eq_false_iff (w : Str) : IsValidWord w = false ↔ ∃ c ∈ w, c.toNat < 32 := by
  rw [← Bool.not_eq_true, IsValidWord_iff]
  push_neg
  rfl

/-- `ParseQueryWord` throws `invalid_argument` on the rejected slices and returns the
stripped slice, the minus flag and the stop flag on the others. -/
lemma ParseQueryWord_cases (s : SearchServer F) (w : Str) :
    (RejectedSlice w ∧ s.ParseQueryWord w = .error .invalid_argument) ∨
    (¬ RejectedSlice w ∧ s.ParseQueryWord w =
      .ok ⟨stripMinus w, decide (w.head? = some '-'), s.IsStopWord (stripMinus w)⟩) := by
  have hstrip : (if decide (w.head? = some '-') = true then w.tail else w) = stripMinus w := by
    unfold stripMinus
    by_cases h : w.head? = some '-' <;> simp [h]
  unfold ParseQueryWord
  simp only [hstrip]
  by_cases h0 : w = []
  · left
    subst h0
    exact ⟨Or.inl rfl, rfl⟩
  · have h0' : w.isEmpty = false := by
      cases w with
      | nil => exact absurd rfl h0
      | cons a b => rfl
    rw [h0']
    simp only [Bool.false_eq_true, if_false]
    by_cases h1 : stripMinus w = []
    · left
      refine ⟨Or.inl h1, ?_⟩
      rw [h1]; rfl
    · have h1' : (stripMinus w).isEmpty = false := by
        cases hw : stripMinus w with
        | nil => exact absurd hw h1
        | cons a b => rfl
      rw [h1']
      simp only [Bool.false_eq_true, if_false]
      by_cases h2 : (stripMinus w).head? = some '-'
      · left
        exact ⟨Or.inr (Or.inl h2), by rw [if_pos h2]⟩
      · rw [if_neg h2]
        by_cases h3 : IsValidWord (stripMinus w) = true
        · right
          refine ⟨?_, by simp [h3]⟩
          rintro (h | h | h)
          · exact h1 h
          · exact h2 h
          · have := (IsValidWord_eq_false_iff _).2 h
            rw [h3] at this; cases this
        · left
          have h3' : IsValidWord (stripMinus w) = false := by simpa using h3
          exact ⟨Or.inr (Or.inr ((IsValidWord_eq_false_iff _).1 h3')), by simp [h3']⟩

/-- The loop of `ParseQuery` from any set pair: it throws `invalid_argument` when a
slice is rejected, and otherwise inserts the non-stop plus-terms and minus-terms. -/
lemma parse_loop (s : SearchServer F) (l : List Str) (acc : Query) :
    l.foldlM (fun (query : Query) word =>
      match s.ParseQueryWord word with
      | .error e => (Except.error e : Except Exception Query)
      | .ok query_word =>
        if !query_word.is_stop then
          if query_word.is_minus then
            .ok { query with minus_words := query.minus_words.insert query_word.data }
          else
            .ok { query with plus_words := query.plus_words.insert query_word.data }
        else .ok query) acc =
    if ∃ w ∈ l, RejectedSlice w then .error .invalid_argument
    else .ok
      ⟨(l.filter (fun w => decide (w.head? ≠ some '-') && !s.IsStopWord w)).foldl
          OrdSet.insert acc.plus_words,
        (((l.filter (fun w => decide (w.head? = some '-'))).map List.tail).filter
          (fun w => !s.IsStopWord w)).foldl OrdSet.insert acc.minus_words⟩ := by
  induction l generalizing acc with
  | nil => simp [pure, Except.pure]
  | cons w rest ih =>
    rw [List.foldlM_cons]
    rcases ParseQueryWord_cases s w with ⟨hr, he⟩ | ⟨hr, he⟩
    · rw [he, if_pos ⟨w, List.mem_cons_self _ _, hr⟩]
      rfl
    · rw [he]
      have hex : (∃ x ∈ w :: rest, RejectedSlice x) ↔ ∃ x ∈ rest, RejectedSlice x := by
        constructor
        · rintro ⟨x, hx, hrx⟩
          rcases List.mem_cons.1 hx with rfl | hx
          · exact absurd hrx hr
          · exact ⟨x, hx, hrx⟩
        · rintro ⟨x, hx, hrx⟩
          exact ⟨x, List.mem_cons_of_mem _ hx, hrx⟩
      simp only [hex]
      by_cases hm : w.head? = some '-'
      · have hs' : stripMinus w = w.tail := by unfold stripMinus; rw [if_pos hm]
        by_cases hst : s.IsStopWord w.tail = true
        · simp only [hs', hst, hm, decide_True, Bool.not_true, Bool.false_eq_true, if_false,
            bind, Except.bind]
          rw [ih]
          simp [List.filter_cons, hm, hst]
        · have hst' : s.IsStopWord w.tail = false := by simpa using hst
          simp only [hs', hst', hm, decide_True, Bool.not_false, if_true, bind, Except.bind]
          rw [ih]
          simp [List.filter_cons, hm, hst']
      · have hs' : stripMinus w = w := by unfold stripMinus; rw [if_neg hm]
        by_cases hst : s.IsStopWord w = true
        · simp only [hs', hst, hm, decide_False, Bool.not_true, Bool.false_eq_true, if_false,
            bind, Except.bind]
          rw [ih]
          simp [List.filter_cons, hm, hst]
        · have hst' : s.IsStopWord w = false := by simpa using hst
          simp only [hs', hst', hm, decide_False, Bool.not_false, if_true,
            Bool.false_eq_true, if_false, bind, Except.bind]
          rw [ih]
          simp [List.filter_cons, hm, hst']

/-- `ParseQuery` in closed form. -/
lemma ParseQuery_eq (s : SearchServer F) (raw_query : Str) :
    s.ParseQuery raw_query =
      if ∃ w ∈ SplitIntoWords raw_query, RejectedSlice w then .error .invalid_argument
      else .ok ⟨(plusTerms s raw_query).foldl OrdSet.insert [],
        (minusTerms s raw_query).foldl OrdSet.insert []⟩ := by
  unfold ParseQuery plusTerms minusTerms
  exact parse_loop s (SplitIntoWords raw_query) ⟨[], []⟩

/-- `ParseQuery` throws nothing but `invalid_argument`. -/
lemma ParseQuery_error {s : SearchServer F} {raw_query : Str} {e : Exception}
    (h : s.ParseQuery raw_query = .error e) : e = .invalid_argument := by
  rw [ParseQuery_eq] at h
  split_ifs at h
  exact (Except.error.inj h).symm

lemma ParseQuery_error_iff (s : SearchServer F) (raw_query : Str) :
    s.ParseQuery raw_query = .error .invalid_argument ↔
      ∃ w ∈ SplitIntoWords raw_query, RejectedSlice w := by
  rw [ParseQuery_eq]
  split_ifs with h
  · exact ⟨fun _ => h, fun _ => rfl⟩
  · exact ⟨fun hc => (by cases hc), fun hc => absurd hc h⟩

end SearchServer


namespace SearchServer

variable {F : Type} [LinearOrderedField F]

/-- `std::map::at` throws nothing but `out_of_range`. -/
lemma at_error {K V : Type} [LinearOrder K] {m : OrdMap K V} {k : K} {e : Exception}
    (h : m.at_ k = .error e) : e = .out_of_range := by
  unfold OrdMap.at_ at h
  cases hf : m.find k with
  | none => rw [hf] at h; exact (Except.error.inj h).symm
  | some v => rw [hf] at h; cases h

/-- `FindAllDocuments` throws nothing but the `out_of_range` of `std::map::at`. -/
lemma FindAllDocuments_error {log : F → F} {s : SearchServer F} {q : Query}
    {pred : Int → DocumentStatus → Int → Bool} {e : Exception}
    (h : FindAllDocuments log s q pred = .error e) : e = .out_of_range := by
  unfold FindAllDocuments at h
  cases hp : q.plus_words.foldlM (scoreWord log s pred) [] with
  | error e' =>
    rw [hp] at h
    have he : e' = e := Except.error.inj h
    subst he
    refine foldlM_except_error (fun e => e = Exception.out_of_range) _ ?_ _ _ _ hp
    intro rel w e hw
    unfold scoreWord at hw
    cases hf : s.word_to_document_freqs_.find w with
    | none => rw [hf] at hw; cases hw
    | some docs =>
      rw [hf] at hw
      simp only at hw
      cases hi : ComputeWordInverseDocumentFreq log s w with
      | error e'' =>
        rw [hi] at hw
        have he : e'' = e := Except.error.inj hw
        subst he
        unfold ComputeWordInverseDocumentFreq at hi
        cases ha : s.word_to_document_freqs_.at_ w with
        | error e3 =>
          rw [ha] at hi
          have he : e3 = e'' := Except.error.inj hi
          subst he
          exact at_error ha
        | ok v => rw [ha] at hi; cases hi
      | ok idf =>
        rw [hi] at hw
        simp only at hw
        refine foldlM_except_error (fun e => e = Exception.out_of_range) _ ?_ _ _ _ hw
        intro rel' posting e' hposting
        unfold scorePosting at hposting
        cases ha : s.documents_.at_ posting.1 with
        | error e3 =>
          rw [ha] at hposting
          have he : e3 = e' := Except.error.inj hposting
          subst he
          exact at_error ha
        | ok data =>
          rw [ha] at hposting
          simp only at hposting
          split_ifs at hposting
  | ok scored =>
    rw [hp] at h
    simp only at h
    unfold collectDocuments at h
    refine foldlM_except_error (fun e => e = Exception.out_of_range) _ ?_ _ _ _ h
    intro acc x e' hx
    cases ha : s.documents_.at_ x.1 with
    | error e3 =>
      rw [ha] at hx
      have he : e3 = e' := Except.error.inj hx
      subst he
      exact at_error ha
    | ok data => rw [ha] at hx; cases hx

/-- `FindTopDocuments` throws `invalid_argument` exactly when `ParseQuery` does. -/
lemma FindTopDocuments_invalid_iff (log : F → F) (s : SearchServer F) (raw_query : Str)
    (pred : Int → DocumentStatus → Int → Bool) :
    FindTopDocuments log s raw_query pred = .error .invalid_argument ↔
      s.ParseQuery raw_query = .error .invalid_argument := by
  unfold FindTopDocuments
  cases hq : s.ParseQuery raw_query with
  | error e => simp
  | ok q =>
    simp only
    cases ha : FindAllDocuments log s q pred with
    | error e =>
      have := FindAllDocuments_error ha
      subst this
      simp
    | ok all => simp

/-- `MatchDocument` throws `invalid_argument` exactly when `ParseQuery` does. -/
lemma MatchDocument_invalid_iff (s : SearchServer F) (raw_query : Str) (id : Int) :
    MatchDocument s raw_query id = .error .invalid_argument ↔
      s.ParseQuery raw_query = .error .invalid_argument := by
  unfold MatchDocument
  cases hq : s.ParseQuery raw_query with
  | error e => simp
  | ok q =>
    simp only
    cases ha : s.documents_.at_ id with
    | error e =>
      have := at_error ha
      subst this
      simp
    | ok data => simp

lemma IsStopWord_congr {s s' : SearchServer F} (h : s'.stop_words_ = s.stop_words_) (w : Str) :
    s'.IsStopWord w = s.IsStopWord w := by
  unfold IsStopWord; rw [h]

end SearchServer


namespace SearchServer

variable {F : Type} [LinearOrderedField F]

/-! ### The average rating -/

lemma wrapInt32_of_fits {x : Int} (h1 : -2147483648 ≤ x) (h2 : x < 2147483648) :
    wrapInt32 x = x := by
  unfold wrapInt32; omega

lemma wrapInt32_add (a b : Int) : wrapInt32 (wrapInt32 a + b) = wrapInt32 (a + b) := by
  unfold wrapInt32; omega

/-- The wrapped running sum is the wrapped sum. -/
lemma foldl_wrapInt32 (l : List Int) (acc : Int) :
    l.foldl (fun rating_sum rating => wrapInt32 (rating_sum + rating)) (wrapInt32 acc) =
      wrapInt32 (acc + l.sum) := by
  induction l generalizing acc with
  | nil => simp
  | cons r rest ih =>
    rw [List.foldl_cons, wrapInt32_add, ih, List.sum_cons, add_assoc]

/-- Division that truncates toward zero, by the sign of the dividend. -/
lemma tdiv_cases (a : Int) {b : Int} (hb : 0 < b) :
    (0 ≤ a → Int.tdiv a b = a / b) ∧ (a < 0 → Int.tdiv a b = -((-a) / b)) := by
  constructor
  · intro ha
    exact Int.tdiv_eq_ediv ha hb.le
  · intro ha
    have h := Int.neg_tdiv (-a) b
    rw [neg_neg] at h
    rw [h, Int.tdiv_eq_ediv (by omega) hb.le]

/-- The truncated quotient by a positive number is no larger in magnitude than the
dividend. -/
lemma tdiv_bounds (a : Int) {b : Int} (hb : 0 < b) :
    -|a| ≤ Int.tdiv a b ∧ Int.tdiv a b ≤ |a| := by
  rcases le_or_lt 0 a with ha | ha
  · rw [(tdiv_cases a hb).1 ha, abs_of_nonneg ha]
    have h1 := Int.ediv_nonneg ha hb.le
    have h2 := Int.ediv_le_self b ha
    constructor <;> omega
  · rw [(tdiv_cases a hb).2 ha, abs_of_neg ha]
    have h1 := Int.ediv_nonneg (a := -a) (by omega) hb.le
    have h2 := Int.ediv_le_self (a := -a) b (by omega)
    constructor <;> omega

lemma ComputeAverageRating_eq {ratings : List Int} (h : ratings ≠ []) :
    ComputeAverageRating ratings = Int.tdiv ratings.sum (ratings.length : Int) := by
  unfold ComputeAverageRating
  have : ratings.isEmpty = false := by
    cases ratings with
    | nil => exact absurd rfl h
    | cons a b => rfl
  simp only [this, Bool.false_eq_true, if_false]
  rw [List.sum_eq_foldl]

/-- When the number of ratings and their sum fit in an `int`, the 32-bit computation
gives the exact truncated quotient, whatever the running sum does on the way. -/
lemma ComputeAverageRatingInt32_eq {ratings : List Int} (hlen : ratings.length < 2147483648)
    (h1 : -2147483648 ≤ ratings.sum) (h2 : ratings.sum < 2147483648) :
    ComputeAverageRatingInt32 ratings = ComputeAverageRating ratings := by
  cases hr : ratings with
  | nil => rfl
  | cons a b =>
    rw [← hr]
    have hne : ratings ≠ [] := by rw [hr]; simp
    rw [ComputeAverageRating_eq hne]
    unfold ComputeAverageRatingInt32
    have : ratings.isEmpty = false := by rw [hr]; rfl
    simp only [this, Bool.false_eq_true, if_false]
    have h0 : (0 : Int) = wrapInt32 0 := by decide
    have hsum : ratings.foldl (fun rating_sum rating => wrapInt32 (rating_sum + rating)) 0 =
        ratings.sum := by
      conv_lhs => rw [h0]
      rw [foldl_wrapInt32, zero_add, wrapInt32_of_fits h1 h2]
    have hpos : (0 : Int) < (ratings.length : Int) := by
      rw [hr]; simp only [List.length_cons]; omega
    have hl : wrapInt32 (ratings.length : Int) = (ratings.length : Int) :=
      wrapInt32_of_fits (by omega) (by omega)
    rw [hsum, hl]
    have hb := tdiv_bounds ratings.sum hpos
    have habs : |ratings.sum| ≤ 2147483648 := by
      rw [abs_le]; constructor <;> omega
    have hlt : Int.tdiv ratings.sum (ratings.length : Int) < 2147483648 := by
      rcases le_or_lt 0 ratings.sum with ha | ha
      · rw [abs_of_nonneg ha] at hb; omega
      · have := (tdiv_cases ratings.sum hpos).2 ha
        have h3 := Int.ediv_nonneg (a := -ratings.sum) (by omega) hpos.le
        omega
    exact wrapInt32_of_fits (by omega) hlt

/-- The rating of a reported document is the rating stored in the metadata. -/
lemma reported_rating {s : SearchServer F} (hs : Inv s) (log : F → F) {raw_query : Str}
    {pred : Int → DocumentStatus → Int → Bool} {top : List (Document F)}
    (h : FindTopDocuments log s raw_query pred = .ok top) {d : Document F} (hd : d ∈ top) :
    ∃ data, s.documents_.find d.id = some data ∧ d.rating = data.rating := by
  cases hq : s.ParseQuery raw_query with
  | error e =>
    unfold FindTopDocuments at h
    rw [hq] at h
    cases h
  | ok q =>
    rw [FindTopDocuments_eq hs log hq pred] at h
    have ht := Except.ok.inj h
    rw [← ht] at hd
    obtain ⟨data, hdata, hr, _⟩ :=
      relevance_of_mem hs log (ParseQuery_ok hq) pred (mem_of_mem_sortAndTruncate hd)
    exact ⟨data, hdata, hr⟩

end SearchServer


namespace SearchServer

variable {F : Type} [LinearOrderedField F]

/-! ### The predicate holds for every reported document, in any state -/

lemma at_ok {K V : Type} [LinearOrder K] {m : OrdMap K V} {k : K} {v : V}
    (h : m.at_ k = .ok v) : m.find k = some v := by
  unfold OrdMap.at_ at h
  cases hf : m.find k with
  | none => rw [hf] at h; cases h
  | some x => rw [hf] at h; rw [Except.ok.inj h]

/-- One posting keeps the property that every id of the relevance map passes the
predicate. -/
lemma scorePosting_pred {s : SearchServer F} {pred : Int → DocumentStatus → Int → Bool}
    {idf : F} {rel rel' : OrdMap Int F} {posting : Int × F}
    (hrel : ∀ id, (rel.find id).isSome → predOf s pred id = true)
    (h : scorePosting s pred idf rel posting = .ok rel') :
    ∀ id, (rel'.find id).isSome → predOf s pred id = true := by
  unfold scorePosting at h
  cases ha : s.documents_.at_ posting.1 with
  | error e => rw [ha] at h; cases h
  | ok data =>
    rw [ha] at h
    simp only at h
    by_cases hp : pred posting.1 data.status data.rating = true
    · rw [if_pos hp] at h
      have h' := Except.ok.inj h
      subst h'
      intro id hid
      rw [OrdMap.find_modify] at hid
      by_cases e : posting.1 = id
      · subst e
        rw [predOf_eq (at_ok ha)]
        exact hp
      · rw [if_neg e] at hid
        exact hrel id hid
    · rw [if_neg hp] at h
      have h' := Except.ok.inj h
      subst h'
      exact hrel

lemma scoreWord_pred {log : F → F} {s : SearchServer F}
    {pred : Int → DocumentStatus → Int → Bool} {rel rel' : OrdMap Int F} {w : Str}
    (hrel : ∀ id, (rel.find id).isSome → predOf s pred id = true)
    (h : scoreWord log s pred rel w = .ok rel') :
    ∀ id, (rel'.find id).isSome → predOf s pred id = true := by
  unfold scoreWord at h
  cases hf : s.word_to_document_freqs_.find w with
  | none =>
    rw [hf] at h
    have h' := Except.ok.inj h
    subst h'
    exact hrel
  | some docs =>
    rw [hf] at h
    simp only at h
    cases hi : ComputeWordInverseDocumentFreq log s w with
    | error e => rw [hi] at h; cases h
    | ok idf =>
      rw [hi] at h
      simp only at h
      exact foldlM_except_inv (fun rel => ∀ id, (rel.find id).isSome → predOf s pred id = true)
        _ (fun a x b ha hb => scorePosting_pred ha hb) _ _ _ hrel h

/-- In any state, every document that `FindAllDocuments` returns has metadata, passes
the predicate on its stored status and rating, and carries the stored rating. -/
lemma FindAllDocuments_pred {log : F → F} {s : SearchServer F} {q : Query}
    {pred : Int → DocumentStatus → Int → Bool} {all : List (Document F)}
    (h : FindAllDocuments log s q pred = .ok all) {d : Document F} (hd : d ∈ all) :
    ∃ data, s.documents_.find d.id = some data ∧
      pred d.id data.status data.rating = true ∧ d.rating = data.rating := by
  unfold FindAllDocuments at h
  cases hp : q.plus_words.foldlM (scoreWord log s pred) [] with
  | error e => rw [hp] at h; cases h
  | ok scored =>
    rw [hp] at h
    simp only at h
    have hscored : ∀ id, (scored.find id).isSome → predOf s pred id = true :=
      foldlM_except_inv (fun rel => ∀ id, (rel.find id).isSome → predOf s pred id = true)
        _ (fun a x b ha hb => scoreWord_pred ha hb) _ _ _ (fun id hid => by cases hid) hp
    have hdropped : ∀ id, ((q.minus_words.foldl (dropWord s) scored).find id).isSome →
        predOf s pred id = true := by
      intro id hid
      rw [find_foldl_dropWord] at hid
      split_ifs at hid
      · cases hid
      · exact hscored id hid
    have hl : ∀ e ∈ q.minus_words.foldl (dropWord s) scored, s.documents_.find e.1 ≠ none := by
      intro e he
      have hk : e.1 ∈ OrdMap.keys (q.minus_words.foldl (dropWord s) scored) :=
        List.mem_map.2 ⟨e, he, rfl⟩
      obtain ⟨data, hdata, _⟩ := (predOf_true_iff s pred e.1).1
        (hdropped e.1 ((OrdMap.find_isSome_iff_mem_keys _ _).2 hk))
      rw [hdata]; simp
    unfold collectDocuments at h
    rw [collect_loop s _ hl []] at h
    have h' := Except.ok.inj h
    rw [← h', List.nil_append] at hd
    obtain ⟨e, he, rfl⟩ := List.mem_map.1 hd
    have hk : e.1 ∈ OrdMap.keys (q.minus_words.foldl (dropWord s) scored) :=
      List.mem_map.2 ⟨e, he, rfl⟩
    obtain ⟨data, hdata, hpred⟩ := (predOf_true_iff s pred e.1).1
      (hdropped e.1 ((OrdMap.find_isSome_iff_mem_keys _ _).2 hk))
    refine ⟨data, hdata, hpred, ?_⟩
    show ratingOf s e.1 = data.rating
    unfold ratingOf
    rw [hdata]

/-- The same for `FindTopDocuments`. -/
lemma FindTopDocuments_pred {log : F → F} {s : SearchServer F} {raw_query : Str}
    {pred : Int → DocumentStatus → Int → Bool} {top : List (Document F)}
    (h : FindTopDocuments log s raw_query pred = .ok top) {d : Document F} (hd : d ∈ top) :
    ∃ data, s.documents_.find d.id = some data ∧
      pred d.id data.status data.rating = true ∧ d.rating = data.rating := by
  unfold FindTopDocuments at h
  cases hq : s.ParseQuery raw_query with
  | error e => rw [hq] at h; cases h
  | ok q =>
    rw [hq] at h
    simp only at h
    cases ha : FindAllDocuments log s q pred with
    | error e => rw [ha] at h; cases h
    | ok all =>
      rw [ha] at h
      have h' := Except.ok.inj h
      rw [← h'] at hd
      exact FindAllDocuments_pred ha (mem_of_mem_sortAndTruncate hd)

end SearchServer


/-! ### The constructor -/

/-- The loop of `MakeUniqueNonEmptyStrings` from any set: the non-empty strings of the
container are inserted. -/
lemma MakeUniqueNonEmptyStrings_loop (l : List Str) (acc : OrdSet Str) :
    l.foldl (fun non_empty_strings str =>
      if !str.isEmpty then OrdSet.insert non_empty_strings str else non_empty_strings) acc =
    (l.filter (fun str => !str.isEmpty)).foldl OrdSet.insert acc := by
  induction l generalizing acc with
  | nil => rfl
  | cons x xs ih =>
    rw [List.foldl_cons, ih, List.filter_cons]
    by_cases h : (!x.isEmpty) = true
    · rw [if_pos h, if_pos h, List.foldl_cons]
    · rw [if_neg h, if_neg h]

lemma isEmpty_eq_false_iff (w : Str) : (!w.isEmpty) = true ↔ w ≠ [] := by
  cases w <;> simp

/-- The stop-word set holds exactly the non-empty strings of the container. -/
lemma mem_MakeUniqueNonEmptyStrings (l : List Str) (w : Str) :
    w ∈ MakeUniqueNonEmptyStrings l ↔ w ∈ l ∧ w ≠ [] := by
  unfold MakeUniqueNonEmptyStrings
  rw [MakeUniqueNonEmptyStrings_loop, OrdSet.mem_foldl_insert, List.mem_filter,
    isEmpty_eq_false_iff]
  simp

lemma WF_MakeUniqueNonEmptyStrings (l : List Str) : OrdSet.WF (MakeUniqueNonEmptyStrings l) := by
  unfold MakeUniqueNonEmptyStrings
  rw [MakeUniqueNonEmptyStrings_loop]
  exact OrdSet.WF_foldl_insert _ List.Pairwise.nil

namespace SearchServer

variable {F : Type} [LinearOrderedField F]

/-- The constructor in closed form. -/
lemma create_eq (stop_words : List Str) :
    (create stop_words : Except Exception (SearchServer F)) =
      if ∃ w ∈ stop_words, w ≠ [] ∧ ∃ c ∈ w, c.toNat < 32 then .error .invalid_argument
      else .ok ⟨MakeUniqueNonEmptyStrings stop_words, [], [], [], []⟩ := by
  unfold create
  simp only
  have key : (MakeUniqueNonEmptyStrings stop_words).all IsValidWord = true ↔
      ¬ ∃ w ∈ stop_words, w ≠ [] ∧ ∃ c ∈ w, c.toNat < 32 := by
    rw [List.all_eq_true]
    constructor
    · rintro h ⟨w, hw, hne, hc⟩
      have := h w ((mem_MakeUniqueNonEmptyStrings _ _).2 ⟨hw, hne⟩)
      rw [(IsValidWord_eq_false_iff w).2 hc] at this
      cases this
    · intro h w hw
      obtain ⟨hw1, hw2⟩ := (mem_MakeUniqueNonEmptyStrings _ _).1 hw
      by_contra hv
      have hv' : IsValidWord w = false := by simpa using hv
      exact h ⟨w, hw1, hw2, (IsValidWord_eq_false_iff w).1 hv'⟩
  by_cases h : ∃ w ∈ stop_words, w ≠ [] ∧ ∃ c ∈ w, c.toNat < 32
  · rw [if_pos h]
    have : (MakeUniqueNonEmptyStrings stop_words).all IsValidWord = false := by
      by_contra hc
      exact (key.1 (by simpa using hc)) h
    rw [this]; rfl
  · rw [if_neg h, key.2 h]; rfl

/-! ### A rejected `AddDocument` -/

/-- A new key makes the map one entry longer. -/
lemma length_assign_of_none {K V : Type} [LinearOrder K] {m : OrdMap K V} {k : K}
    (hk : m.find k = none) (v : V) : (m.assign k v).length = m.length + 1 := by
  induction m with
  | nil => rfl
  | cons e rest ih =>
    obtain ⟨a, b⟩ := e
    rw [OrdMap.find_cons] at hk
    by_cases ha : a = k
    · rw [if_pos ha] at hk; cases hk
    · rw [if_neg ha] at hk
      unfold OrdMap.assign
      by_cases h1 : k < a
      · rw [if_pos h1]; rfl
      · rw [if_neg h1, if_neg (fun hc => ha hc.symm), List.length_cons, ih hk, List.length_cons]

end SearchServer


/-! ### The slices of a text -/

lemma SplitIntoWords_no_space (t : Str) : ∀ w ∈ SplitIntoWords t, ' ' ∉ w := by
  induction t with
  | nil =>
    intro w hw
    have : w = [] := by simpa [SplitIntoWords] using hw
    subst this
    simp
  | cons c rest ih =>
    by_cases hc : c = ' '
    · subst hc
      rw [SplitIntoWords_cons_space]
      intro w hw
      rcases List.mem_cons.1 hw with rfl | hw
      · simp
      · exact ih w hw
    · obtain ⟨w₀, ws, h1, h2⟩ := SplitIntoWords_cons_char hc rest
      rw [h2]
      rw [h1] at ih
      intro w hw
      rcases List.mem_cons.1 hw with rfl | hw
      · intro hmem
        rcases List.mem_cons.1 hmem with h | h
        · exact hc h.symm
        · exact ih w₀ (List.mem_cons_self _ _) h
      · exact ih w (List.mem_cons_of_mem _ hw)

lemma length_SplitIntoWords (t : Str) : (SplitIntoWords t).length = t.count ' ' + 1 := by
  induction t with
  | nil => rfl
  | cons c rest ih =>
    by_cases hc : c = ' '
    · subst hc
      rw [SplitIntoWords_cons_space, List.length_cons, ih, List.count_cons_self]
    · obtain ⟨w₀, ws, h1, h2⟩ := SplitIntoWords_cons_char hc rest
      rw [h2, List.length_cons, List.count_cons_of_ne (fun h => hc h.symm), ← ih, h1,
        List.length_cons]

lemma intercalate_cons_cons {α : Type} (sep x y : List α) (l : List (List α)) :
    List.intercalate sep (x :: y :: l) = x ++ sep ++ List.intercalate sep (y :: l) := by
  simp [List.intercalate, List.intersperse]

lemma intercalate_SplitIntoWords (t : Str) : List.intercalate [' '] (SplitIntoWords t) = t := by
  induction t with
  | nil => simp [SplitIntoWords, List.intercalate, List.intersperse]
  | cons c rest ih =>
    by_cases hc : c = ' '
    · subst hc
      rw [SplitIntoWords_cons_space]
      cases hr : SplitIntoWords rest with
      | nil => exact absurd hr (SplitIntoWords_ne_nil rest)
      | cons y l =>
        rw [intercalate_cons_cons, ← hr, ih]
        rfl
    · obtain ⟨w₀, ws, h1, h2⟩ := SplitIntoWords_cons_char hc rest
      rw [h2]
      rw [h1] at ih
      cases ws with
      | nil =>
        have hw : w₀ = rest := by simpa [List.intercalate, List.intersperse] using ih
        subst hw
        simp [List.intercalate, List.intersperse]
      | cons y l =>
        rw [intercalate_cons_cons] at ih ⊢
        rw [← ih]
        simp

/-- A space at the end of the text adds an empty slice at the end. -/
lemma SplitIntoWords_append_space (t : Str) :
    SplitIntoWords (t ++ [' ']) = SplitIntoWords t ++ [[]] := by
  induction t with
  | nil => rfl
  | cons c rest ih =>
    by_cases hc : c = ' '
    · subst hc
      rw [List.cons_append, SplitIntoWords_cons_space, SplitIntoWords_cons_space, ih]
      rfl
    · obtain ⟨w₀, ws, h1, h2⟩ := SplitIntoWords_cons_char hc rest
      obtain ⟨w₁, ws₁, h3, h4⟩ := SplitIntoWords_cons_char hc (rest ++ [' '])
      rw [List.cons_append, h4, h2]
      rw [ih, h1] at h3
      simp only [List.cons_append, List.cons.injEq] at h3
      rw [← h3.1, ← h3.2]
      rfl

/-- A character other than the space at the end of the text is added to the last
slice. -/
lemma SplitIntoWords_append_char (t : Str) {c : Char} (hc : c ≠ ' ') :
    ∃ init last, SplitIntoWords t = init ++ [last] ∧
      SplitIntoWords (t ++ [c]) = init ++ [last ++ [c]] := by
  induction t with
  | nil =>
    refine ⟨[], [], rfl, ?_⟩
    obtain ⟨w₀, ws, h1, h2⟩ := SplitIntoWords_cons_char hc []
    have : SplitIntoWords ([] : Str) = [[]] := rfl
    rw [this] at h1
    simp only [List.cons.injEq] at h1
    rw [List.nil_append, h2, ← h1.1, ← h1.2]
    rfl
  | cons a rest ih =>
    obtain ⟨init, last, e1, e2⟩ := ih
    by_cases ha : a = ' '
    · subst ha
      refine ⟨[] :: init, last, ?_, ?_⟩
      · rw [SplitIntoWords_cons_space, e1]; rfl
      · rw [List.cons_append, SplitIntoWords_cons_space, e2]; rfl
    · obtain ⟨w₀, ws, h1, h2⟩ := SplitIntoWords_cons_char ha rest
      obtain ⟨w₁, ws₁, h3, h4⟩ := SplitIntoWords_cons_char ha (rest ++ [c])
      rw [List.cons_append, h4, h2]
      rw [e1] at h1
      rw [e2] at h3
      cases init with
      | nil =>
        simp only [List.nil_append, List.cons.injEq] at h1 h3
        refine ⟨[], a :: last, ?_, ?_⟩
        · rw [← h1.1, ← h1.2]; rfl
        · rw [← h3.1, ← h3.2]; rfl
      | cons x xs =>
        simp only [List.cons_append, List.cons.injEq] at h1 h3
        refine ⟨(a :: x) :: xs, last, ?_, ?_⟩
        · rw [← h1.1, ← h1.2]; rfl
        · rw [← h3.1, ← h3.2]; rfl

namespace SearchServer

variable {F : Type} [LinearOrderedField F]

/-! ### What the keys of the indexes are -/

/-- The stop words of a reachable state are not empty. -/
lemma ReachableAny.stop_nonempty {s : SearchServer F} (h : ReachableAny s) :
    ∀ w ∈ s.stop_words_, w ≠ [] := by
  induction h with
  | init stop_words s h =>
    rw [create_eq] at h
    split_ifs at h
    have h' := Except.ok.inj h
    subst h'
    intro w hw
    exact ((mem_MakeUniqueNonEmptyStrings _ _).1 hw).2
  | add s id text status ratings _ ih => rw [AddDocument_stop_words]; exact ih
  | remove s id _ ih => rw [RemoveDocument_stop_words]; exact ih
  | removePar s id _ ih => rw [RemoveDocumentPar_eq, RemoveDocument_stop_words]; exact ih

/-- A property of every slice of every text without control bytes holds for every key
of the postings and for every word of a forward entry, in every state the program can
reach. -/
lemma ReachableAny.keys_prop (Q : Str → Prop)
    (hQ : ∀ text : Str, (∀ c ∈ text, 32 ≤ c.toNat) → ∀ w ∈ SplitIntoWords text, Q w)
    {s : SearchServer F} (h : ReachableAny s) :
    (∀ w, (s.word_to_document_freqs_.find w).isSome → Q w) ∧
    (∀ k w, OrdMap.find2 s.document_to_word_freqs_ k w ≠ none → Q w) := by
  induction h with
  | init stop_words s h =>
    rw [create_eq] at h
    split_ifs at h
    have h' := Except.ok.inj h
    subst h'
    exact ⟨fun w hw => (by cases hw), fun k w hw => absurd rfl hw⟩
  | add s id text status ratings _ ih =>
    by_cases hok : (s.AddDocument id text status ratings).1 = .ok ()
    · have hadd : s.AddDocument id text status ratings =
          (.ok (), (s.AddDocument id text status ratings).2) := Prod.ext hok rfl
      have hvalid := ((AddDocument_ok_iff _ _ _ _ _).1 hok).2.2
      have hwords : ∀ w ∈ s.nonStopWords text, Q w := fun w hw =>
        hQ text hvalid w ((mem_nonStopWords s text w).1 hw).1
      constructor
      · intro w hw
        rcases (AddDocument_postings_keys hadd w).1 hw with h1 | h1
        · exact hwords w h1
        · exact ih.1 w h1
      · intro k w hw
        rw [(AddDocument_ok_maps hadd).2, find2_forward_add] at hw
        split_ifs at hw with hc
        · exact hwords w hc.2
        · exact ih.2 k w hw
    · have hsame : (s.AddDocument id text status ratings).2.word_to_document_freqs_ =
          s.word_to_document_freqs_ ∧
          (s.AddDocument id text status ratings).2.document_to_word_freqs_ =
          s.document_to_word_freqs_ := by
        rw [AddDocument_ok_iff] at hok
        rw [AddDocument_eq]
        split_ifs with h1 h2 h3
        · exact ⟨rfl, rfl⟩
        · exact ⟨rfl, rfl⟩
        · exact absurd ⟨by omega, by simpa using h2, h3⟩ hok
        · exact ⟨rfl, rfl⟩
      rw [hsame.1, hsame.2]
      exact ih
  | remove s id _ ih =>
    constructor
    · intro w hw
      rcases (RemoveDocument_postings_keys s id w).1 hw with h1 | h1
      · rw [← OrdMap.find_isSome_iff_mem_keys, ← find2_forward_eq,
          Option.isSome_iff_ne_none] at h1
        exact ih.2 id w h1
      · exact ih.1 w h1
    · intro k w hw
      rw [RemoveDocument_eq] at hw
      split_ifs at hw
      · exact ih.2 k w hw
      · have hw' : OrdMap.find2 (s.document_to_word_freqs_.erase id) k w ≠ none := hw
        rw [OrdMap.find2_erase] at hw'
        split_ifs at hw'
        · exact absurd rfl hw'
        · exact ih.2 k w hw'
  | removePar s id _ ih =>
    rw [RemoveDocumentPar_eq]
    constructor
    · intro w hw
      rcases (RemoveDocument_postings_keys s id w).1 hw with h1 | h1
      · rw [← OrdMap.find_isSome_iff_mem_keys, ← find2_forward_eq,
          Option.isSome_iff_ne_none] at h1
        exact ih.2 id w h1
      · exact ih.1 w h1
    · intro k w hw
      rw [RemoveDocument_eq] at hw
      split_ifs at hw
      · exact ih.2 k w hw
      · have hw' : OrdMap.find2 (s.document_to_word_freqs_.erase id) k w ≠ none := hw
        rw [OrdMap.find2_erase] at hw'
        split_ifs at hw'
        · exact absurd rfl hw'
        · exact ih.2 k w hw'

end SearchServer


/-! ### The loop of `SplitIntoWords` -/

lemma findSpace_eq_none_iff (t : Str) : findSpace t = none ↔ ' ' ∉ t := by
  induction t with
  | nil => simp [findSpace]
  | cons c rest ih =>
    unfold findSpace
    by_cases hc : c = ' '
    · simp [hc]
    · rw [if_neg hc, Option.map_eq_none', ih, List.mem_cons, not_or]
      exact ⟨fun h => ⟨fun e => hc e.symm, h⟩, fun h => h.2⟩

/-- What `find` returns: no space before the position, a space at it. -/
lemma findSpace_eq_some {t : Str} {i : Nat} (h : findSpace t = some i) :
    ' ' ∉ t.take i ∧ t = t.take i ++ ' ' :: t.drop (i + 1) := by
  induction t generalizing i with
  | nil => cases h
  | cons c rest ih =>
    unfold findSpace at h
    by_cases hc : c = ' '
    · rw [if_pos hc] at h
      have hi := Option.some.inj h
      subst hi
      subst hc
      simp
    · rw [if_neg hc] at h
      cases hr : findSpace rest with
      | none => rw [hr] at h; cases h
      | some j =>
        rw [hr] at h
        have hi : j + 1 = i := Option.some.inj h
        subst hi
        obtain ⟨h1, h2⟩ := ih hr
        constructor
        · rw [List.take_succ_cons]
          intro hmem
          rcases List.mem_cons.1 hmem with e | e
          · exact hc e.symm
          · exact h1 e
        · rw [List.take_succ_cons, List.drop_succ_cons, List.cons_append, ← h2]

lemma SplitIntoWords_of_no_space {t : Str} (h : ' ' ∉ t) : SplitIntoWords t = [t] := by
  induction t with
  | nil => rfl
  | cons c rest ih =>
    have hc : c ≠ ' ' := fun e => h (e ▸ List.mem_cons_self _ _)
    obtain ⟨w₀, ws, h1, h2⟩ := SplitIntoWords_cons_char hc rest
    rw [ih (fun hm => h (List.mem_cons_of_mem _ hm))] at h1
    simp only [List.cons.injEq] at h1
    rw [h2, ← h1.1, ← h1.2]

/-- The slices of a text that starts with a run without spaces and a space. -/
lemma SplitIntoWords_run_space {w : Str} (h : ' ' ∉ w) (r : Str) :
    SplitIntoWords (w ++ ' ' :: r) = w :: SplitIntoWords r := by
  induction w with
  | nil => exact SplitIntoWords_cons_space r
  | cons c rest ih =>
    have hc : c ≠ ' ' := fun e => h (e ▸ List.mem_cons_self _ _)
    obtain ⟨w₀, ws, h1, h2⟩ := SplitIntoWords_cons_char hc (rest ++ ' ' :: r)
    rw [ih (fun hm => h (List.mem_cons_of_mem _ hm))] at h1
    simp only [List.cons.injEq] at h1
    rw [List.cons_append, h2, ← h1.1, ← h1.2]

/-- The loop returns once it has run one iteration more than the text has spaces, and
its result is `SplitIntoWords`. -/
lemma SplitIntoWordsLoop_eq (fuel : Nat) (t : Str) (result : List Str)
    (h : t.count ' ' < fuel) :
    SplitIntoWordsLoop fuel t result = some (result ++ SplitIntoWords t) := by
  induction fuel generalizing t result with
  | zero => omega
  | succ n ih =>
    unfold SplitIntoWordsLoop
    cases hf : findSpace t with
    | none =>
      simp only
      rw [SplitIntoWords_of_no_space ((findSpace_eq_none_iff t).1 hf)]
    | some i =>
      simp only
      obtain ⟨h1, h2⟩ := findSpace_eq_some hf
      have hcount : t.count ' ' = (t.drop (i + 1)).count ' ' + 1 := by
        conv_lhs => rw [h2]
        rw [List.count_append, List.count_cons_self, List.count_eq_zero_of_not_mem h1]
        omega
      rw [ih _ _ (by omega)]
      conv_rhs => rw [h2, SplitIntoWords_run_space h1]
      simp

/-- The loop has not returned before that. -/
lemma SplitIntoWordsLoop_none (fuel : Nat) (t : Str) (result : List Str)
    (h : fuel ≤ t.count ' ') : SplitIntoWordsLoop fuel t result = none := by
  induction fuel generalizing t result with
  | zero => rfl
  | succ n ih =>
    unfold SplitIntoWordsLoop
    cases hf : findSpace t with
    | none =>
      have := List.count_eq_zero_of_not_mem ((findSpace_eq_none_iff t).1 hf)
      omega
    | some i =>
      simp only
      obtain ⟨h1, h2⟩ := findSpace_eq_some hf
      have hcount : t.count ' ' = (t.drop (i + 1)).count ' ' + 1 := by
        conv_lhs => rw [h2]
        rw [List.count_append, List.count_cons_self, List.count_eq_zero_of_not_mem h1]
        omega
      exact ih _ _ (by omega)


/-! ## Part III. The claims -/


namespace SearchServer

variable {F : Type} [LinearOrderedField F]

/-- With the keys of the postings held by value, and in exact arithmetic: in a state
reached by calls of `AddDocument` that return and by calls of `RemoveDocument`, for a
query that parses, `FindTopDocuments` returns, and for every returned document the
rating is the rating stored for its id and the relevance is the sum, over the
plus-terms of the query that are slices of the text of the document, of the stored term
frequency times the logarithm of the number of documents over the number of documents
whose text has the term. -/
lemma relevance_formula_of_reachable (log : F → F) (s : SearchServer F) (hs : Reachable s)
    (raw_query : Str) (query : Query) (hq : s.ParseQuery raw_query = .ok query)
    (document_predicate : Int → DocumentStatus → Int → Bool) :
    ∃ top, FindTopDocuments log s raw_query document_predicate = .ok top ∧
      ∀ d ∈ top, ∃ data, s.documents_.find d.id = some data ∧
        d.rating = data.rating ∧
        d.relevance =
          ((query.plus_words.filter (fun w => decide (w ∈ SplitIntoWords data.text))).map
            (fun w => storedTermFreq s w d.id *
              log ((s.documents_.length : F) / (documentFrequency s w : F)))).sum ∧
        ∀ w ∈ query.plus_words, w ∈ SplitIntoWords data.text →
          storedTermFreq s w d.id =
            ((s.nonStopWords data.text).count w : F) / ((s.nonStopWords data.text).length : F) := by
  have hinv := hs.inv
  have hok := ParseQuery_ok hq
  refine ⟨_, FindTopDocuments_eq hinv log hq document_predicate, ?_⟩
  intro d hd
  have hmem := (mem_FindAllDocuments s log query document_predicate d).1
    (mem_of_mem_sortAndTruncate hd)
  obtain ⟨hrel, hrating⟩ := hmem
  rw [find_relevanceMap hinv] at hrel
  split_ifs at hrel with h1 h2
  obtain ⟨data, hdata, _⟩ := (predOf_true_iff s document_predicate d.id).1 h2.1
  refine ⟨data, hdata, ?_, ?_, ?_⟩
  · rw [hrating]; unfold ratingOf; rw [hdata]
  · rw [← contribs_eq hinv log hdata query.plus_words hok.plus_nonstop]
    exact (Option.some.inj hrel).symm
  · intro w hw hin
    unfold storedTermFreq
    rw [← find2_forward_eq, hinv.forward_some d.id data hdata w]
    unfold termFreq
    rw [if_pos ((mem_nonStopWords s data.text w).2 ⟨hin, hok.plus_nonstop w hw⟩)]
    rfl

/-- The relevances of the three texts of `TestRelevanceValue` for its query. -/
lemma relevance_test_texts :
    textRelevance Real.log (Examples.relevanceServer ℝ)
        ⟨["кот".toList, "пушистый".toList, "ухоженный".toList], []⟩
        "белый кот и модный ошейник".toList = 1 / 4 * Real.log (3 / 2) ∧
    textRelevance Real.log (Examples.relevanceServer ℝ)
        ⟨["кот".toList, "пушистый".toList, "ухоженный".toList], []⟩
        "пушистый кот пушистый хвост".toList =
      1 / 2 * Real.log 3 + 1 / 4 * Real.log (3 / 2) ∧
    textRelevance Real.log (Examples.relevanceServer ℝ)
        ⟨["кот".toList, "пушистый".toList, "ухоженный".toList], []⟩
        "ухоженный пёс выразительные глаза".toList = 1 / 4 * Real.log 3 := by
  have hstop := (Examples.relevanceServer_spec (F := ℝ)).2.1
  have hdocs := (Examples.relevanceServer_spec (F := ℝ)).2.2
  have hwords : ∀ t, (Examples.relevanceServer ℝ).nonStopWords t =
      (Examples.cyrillicStopServer ℝ).nonStopWords t := nonStopWords_congr hstop
  have hdf : ∀ w, documentFrequency (Examples.relevanceServer ℝ) w =
      (([(0, ⟨2, .ACTUAL, "белый кот и модный ошейник".toList⟩),
         (1, ⟨5, .ACTUAL, "пушистый кот пушистый хвост".toList⟩),
         (2, ⟨0, .ACTUAL, "ухоженный пёс выразительные глаза".toList⟩)] :
          OrdMap Int DocumentData).filter
        (fun e => decide (w ∈ SplitIntoWords e.2.text))).length := by
    intro w; unfold documentFrequency; rw [hdocs]
  have hN : ((Examples.relevanceServer ℝ).documents_.length : ℝ) = 3 := by
    rw [hdocs]; norm_num
  have d1 : (([(0, ⟨2, .ACTUAL, "белый кот и модный ошейник".toList⟩),
       (1, ⟨5, .ACTUAL, "пушистый кот пушистый хвост".toList⟩),
       (2, ⟨0, .ACTUAL, "ухоженный пёс выразительные глаза".toList⟩)] :
        OrdMap Int DocumentData).filter
      (fun e => decide ("кот".toList ∈ SplitIntoWords e.2.text))).length = 2 := by decide
  have d2 : (([(0, ⟨2, .ACTUAL, "белый кот и модный ошейник".toList⟩),
       (1, ⟨5, .ACTUAL, "пушистый кот пушистый хвост".toList⟩),
       (2, ⟨0, .ACTUAL, "ухоженный пёс выразительные глаза".toList⟩)] :
        OrdMap Int DocumentData).filter
      (fun e => decide ("пушистый".toList ∈ SplitIntoWords e.2.text))).length = 1 := by decide
  have d3 : (([(0, ⟨2, .ACTUAL, "белый кот и модный ошейник".toList⟩),
       (1, ⟨5, .ACTUAL, "пушистый кот пушистый хвост".toList⟩),
       (2, ⟨0, .ACTUAL, "ухоженный пёс выразительные глаза".toList⟩)] :
        OrdMap Int DocumentData).filter
      (fun e => decide ("ухоженный".toList ∈ SplitIntoWords e.2.text))).length = 1 := by decide
  refine ⟨?_, ?_, ?_⟩
  · unfold textRelevance
    have f1 : (List.filter (fun w => decide (w ∈ SplitIntoWords "белый кот и модный ошейник".toList))
        ({ plus_words := ["кот".toList, "пушистый".toList, "ухоженный".toList],
           minus_words := [] } : Query).plus_words) = ["кот".toList] := by decide
    have c1 : List.count "кот".toList ((Examples.cyrillicStopServer ℝ).nonStopWords
        "белый кот и модный ошейник".toList) = 1 := by decide
    have c3 : ((Examples.cyrillicStopServer ℝ).nonStopWords
        "белый кот и модный ошейник".toList).length = 4 := by decide
    rw [f1]
    simp only [List.map_cons, List.map_nil, List.sum_cons, List.sum_nil, add_zero]
    rw [hwords, hdf, hN, c1, c3, d1]
    norm_num
  · unfold textRelevance
    have f1 : (List.filter (fun w => decide (w ∈ SplitIntoWords "пушистый кот пушистый хвост".toList))
        ({ plus_words := ["кот".toList, "пушистый".toList, "ухоженный".toList],
           minus_words := [] } : Query).plus_words) = ["кот".toList, "пушистый".toList] := by
      decide
    have c1 : List.count "кот".toList ((Examples.cyrillicStopServer ℝ).nonStopWords
        "пушистый кот пушистый хвост".toList) = 1 := by decide
    have c2 : List.count "пушистый".toList ((Examples.cyrillicStopServer ℝ).nonStopWords
        "пушистый кот пушистый хвост".toList) = 2 := by decide
    have c3 : ((Examples.cyrillicStopServer ℝ).nonStopWords
        "пушистый кот пушистый хвост".toList).length = 4 := by decide
    rw [f1]
    simp only [List.map_cons, List.map_nil, List.sum_cons, List.sum_nil, add_zero]
    rw [hwords, hdf, hdf, hN, c1, c2, c3, d1, d2]
    norm_num
    ring
  · unfold textRelevance
    have f1 : (List.filter (fun w => decide (w ∈ SplitIntoWords
        "ухоженный пёс выразительные глаза".toList))
        ({ plus_words := ["кот".toList, "пушистый".toList, "ухоженный".toList],
           minus_words := [] } : Query).plus_words) = ["ухоженный".toList] := by decide
    have c1 : List.count "ухоженный".toList ((Examples.cyrillicStopServer ℝ).nonStopWords
        "ухоженный пёс выразительные глаза".toList) = 1 := by decide
    have c3 : ((Examples.cyrillicStopServer ℝ).nonStopWords
        "ухоженный пёс выразительные глаза".toList).length = 4 := by decide
    rw [f1]
    simp only [List.map_cons, List.map_nil, List.sum_cons, List.sum_nil, add_zero]
    rw [hwords, hdf, hN, c1, c3, d3]
    norm_num

/-- The comparisons that the sort makes on the three documents of
`TestRelevanceValue`. -/
lemma relevance_test_order :
    documentBefore (⟨2, 1 / 4 * Real.log 3, 0⟩ : Document ℝ)
        ⟨1, 1 / 2 * Real.log 3 + 1 / 4 * Real.log (3 / 2), 5⟩ = false ∧
    documentBefore (⟨1, 1 / 2 * Real.log 3 + 1 / 4 * Real.log (3 / 2), 5⟩ : Document ℝ)
        ⟨0, 1 / 4 * Real.log (3 / 2), 2⟩ = true ∧
    documentBefore (⟨2, 1 / 4 * Real.log 3, 0⟩ : Document ℝ)
        ⟨0, 1 / 4 * Real.log (3 / 2), 2⟩ = true := by
  have l2 := Real.log_two_gt_d9
  have h32 : Real.log (3 / 2) = Real.log 3 - Real.log 2 :=
    Real.log_div (by norm_num) (by norm_num)
  have h3 : Real.log 2 < Real.log 3 := Real.log_lt_log (by norm_num) (by norm_num)
  norm_num at l2
  refine ⟨?_, ?_, ?_⟩
  · rw [Bool.eq_false_iff]
    intro h
    rw [documentBefore_iff] at h
    rcases h with ⟨_, h⟩ | ⟨_, h⟩
    · simp at h
    · simp only [gt_iff_lt] at h
      rw [h32] at h
      linarith
  · rw [documentBefore_iff]
    right
    constructor
    · unfold closeRelevance
      simp only
      rw [abs_lt, h32]
      rintro ⟨_, h⟩
      linarith
    · simp only [gt_iff_lt]
      rw [h32]; linarith
  · rw [documentBefore_iff]
    right
    constructor
    · unfold closeRelevance
      simp only
      rw [abs_lt, h32]
      rintro ⟨_, h⟩
      linarith
    · simp only [gt_iff_lt]
      rw [h32]; linarith

/-- `TestRelevanceValue` in the model: the query returns the documents 1, 2 and 0 in
this order, with the relevances that the test expects. -/
lemma relevance_test_result :
    FindTopDocuments Real.log (Examples.relevanceServer ℝ) "пушистый ухоженный кот".toList
        (statusPredicate .ACTUAL) =
      .ok [⟨1, 1 / 2 * Real.log 3 + 1 / 4 * Real.log (3 / 2), 5⟩,
           ⟨2, 1 / 4 * Real.log 3, 0⟩,
           ⟨0, 1 / 4 * Real.log (3 / 2), 2⟩] := by
  have hreach : Reachable (Examples.relevanceServer ℝ) := Examples.relevanceServer_spec.1
  have hinv := hreach.inv
  have hstop := (Examples.relevanceServer_spec (F := ℝ)).2.1
  have hdocs := (Examples.relevanceServer_spec (F := ℝ)).2.2
  have hparse : (Examples.relevanceServer ℝ).ParseQuery "пушистый ухоженный кот".toList =
      .ok ⟨["кот".toList, "пушистый".toList, "ухоженный".toList], []⟩ :=
    (ParseQuery_congr (s := Examples.cyrillicStopServer ℝ) hstop _).trans rfl
  have hq := ParseQuery_ok hparse
  have hd0 : (Examples.relevanceServer ℝ).documents_.find 0 =
      some ⟨2, .ACTUAL, "белый кот и модный ошейник".toList⟩ := by rw [hdocs]; rfl
  have hd1 : (Examples.relevanceServer ℝ).documents_.find 1 =
      some ⟨5, .ACTUAL, "пушистый кот пушистый хвост".toList⟩ := by rw [hdocs]; rfl
  have hd2 : (Examples.relevanceServer ℝ).documents_.find 2 =
      some ⟨0, .ACTUAL, "ухоженный пёс выразительные глаза".toList⟩ := by rw [hdocs]; rfl
  obtain ⟨t0, t1, t2⟩ := relevance_test_texts
  have hmap : relevanceMap Real.log (Examples.relevanceServer ℝ)
      ⟨["кот".toList, "пушистый".toList, "ухоженный".toList], []⟩ (statusPredicate .ACTUAL) =
      [(0, 1 / 4 * Real.log (3 / 2)), (1, 1 / 2 * Real.log 3 + 1 / 4 * Real.log (3 / 2)),
       (2, 1 / 4 * Real.log 3)] := by
    have hwf : OrdMap.WF ([(0, 1 / 4 * Real.log (3 / 2)),
        (1, 1 / 2 * Real.log 3 + 1 / 4 * Real.log (3 / 2)), (2, 1 / 4 * Real.log 3)] :
        OrdMap Int ℝ) := by
      show List.Pairwise (fun a b : Int => a < b) [0, 1, 2]
      decide
    apply OrdMap.ext_of_WF (WF_relevanceMap _ _ _ _) hwf
    intro k
    by_cases k0 : k = 0
    · subst k0
      rw [find_relevanceMap_of_match hinv Real.log hq _ hd0 rfl
        ⟨"кот".toList, by decide, by decide⟩ (fun w hw => by simp at hw), t0]
      rfl
    by_cases k1 : k = 1
    · subst k1
      rw [find_relevanceMap_of_match hinv Real.log hq _ hd1 rfl
        ⟨"кот".toList, by decide, by decide⟩ (fun w hw => by simp at hw), t1]
      rfl
    by_cases k2 : k = 2
    · subst k2
      rw [find_relevanceMap_of_match hinv Real.log hq _ hd2 rfl
        ⟨"ухоженный".toList, by decide, by decide⟩ (fun w hw => by simp at hw), t2]
      rfl
    have hnone : (relevanceMap Real.log (Examples.relevanceServer ℝ)
        ⟨["кот".toList, "пушистый".toList, "ухоженный".toList], []⟩
        (statusPredicate .ACTUAL)).find k = none := by
      rw [OrdMap.find_eq_none_iff, FindAllDocuments_ids hinv Real.log hq]
      rintro ⟨data, hd, _⟩
      have hm := OrdMap.find_some_mem hd
      rw [hdocs] at hm
      simp only [List.mem_cons, Prod.mk.injEq, List.mem_singleton, List.not_mem_nil,
        or_false] at hm
      rcases hm with h | h | h
      · exact k0 h.1
      · exact k1 h.1
      · exact k2 h.1
    rw [hnone]
    simp only [OrdMap.find_cons, OrdMap.find_nil]
    rw [if_neg (fun e => k0 e.symm), if_neg (fun e => k1 e.symm), if_neg (fun e => k2 e.symm)]
  rw [FindTopDocuments_eq hinv Real.log hparse, hmap]
  have hr0 : ratingOf (Examples.relevanceServer ℝ) 0 = 2 := by unfold ratingOf; rw [hd0]
  have hr1 : ratingOf (Examples.relevanceServer ℝ) 1 = 5 := by unfold ratingOf; rw [hd1]
  have hr2 : ratingOf (Examples.relevanceServer ℝ) 2 = 0 := by unfold ratingOf; rw [hd2]
  obtain ⟨o1, o2, o3⟩ := relevance_test_order
  simp only [List.map_cons, List.map_nil, hr0, hr1, hr2]
  rw [sortAndTruncate_eq]
  simp only [stdSort, sortInsert, o1, o2, o3, if_true, Bool.false_eq_true, if_false,
    List.length_cons, List.length_nil]
  rfl

end SearchServer


namespace SearchServer

variable {F : Type} [LinearOrderedField F]

end SearchServer


namespace SearchServer

end SearchServer


namespace SearchServer

end SearchServer


namespace SearchServer

variable {F : Type} [LinearOrderedField F]

lemma scorePosting_sim (s : SearchServer F) (pred : Int → DocumentStatus → Int → Bool)
    (idf : F) (cm : ConcurrentMap F) (m : OrdMap Int F) (p : Int × F)
    (h : ConcurrentMap.Sim cm m) :
    ConcurrentMap.SimE (scorePostingPar s pred idf cm p) (scorePosting s pred idf m p) := by
  unfold scorePostingPar scorePosting
  cases s.documents_.at_ p.1 with
  | error e => exact rfl
  | ok data =>
    simp only
    by_cases hp : pred p.1 data.status data.rating = true
    · rw [if_pos hp, if_pos hp]
      exact h.access _ _ _
    · rw [if_neg hp, if_neg hp]
      exact h

lemma scoreWord_sim (log : F → F) (s : SearchServer F)
    (pred : Int → DocumentStatus → Int → Bool) (cm : ConcurrentMap F) (m : OrdMap Int F)
    (w : Str) (h : ConcurrentMap.Sim cm m) :
    ConcurrentMap.SimE (scoreWordPar log s pred cm w) (scoreWord log s pred m w) := by
  unfold scoreWordPar scoreWord
  cases s.word_to_document_freqs_.find w with
  | none => exact h
  | some docs =>
    simp only
    cases ComputeWordInverseDocumentFreq log s w with
    | error e => exact rfl
    | ok idf =>
      exact ConcurrentMap.SimE_foldlM _ _
        (fun cm' m' p h' => scorePosting_sim s pred idf cm' m' p h') docs cm m h

lemma dropWord_sim (s : SearchServer F) (cm : ConcurrentMap F) (m : OrdMap Int F) (w : Str)
    (h : ConcurrentMap.Sim cm m) : ConcurrentMap.Sim (dropWordPar s cm w) (dropWord s m w) := by
  unfold dropWordPar dropWord
  cases s.word_to_document_freqs_.find w with
  | none => exact h
  | some docs =>
    simp only
    induction docs generalizing cm m with
    | nil => exact h
    | cons e rest ih =>
      rw [List.foldl_cons, List.foldl_cons]
      exact ih _ _ (h.erase e.1)

lemma foldl_dropWord_sim (s : SearchServer F) (ws : List Str) (cm : ConcurrentMap F)
    (m : OrdMap Int F) (h : ConcurrentMap.Sim cm m) :
    ConcurrentMap.Sim (ws.foldl (dropWordPar s) cm) (ws.foldl (dropWord s) m) := by
  induction ws generalizing cm m with
  | nil => exact h
  | cons w ws ih => exact ih _ _ (dropWord_sim s cm m w h)

/-- The parallel `FindAllDocuments` returns what the sequential one returns. -/
lemma FindAllDocumentsPar_eq (log : F → F) (s : SearchServer F) (q : Query)
    (pred : Int → DocumentStatus → Int → Bool) :
    FindAllDocumentsPar log s q pred = FindAllDocuments log s q pred := by
  unfold FindAllDocumentsPar FindAllDocuments
  have hsim := ConcurrentMap.SimE_foldlM (scoreWordPar log s pred) (scoreWord log s pred)
    (fun cm m w h => scoreWord_sim log s pred cm m w h) q.plus_words
    (ConcurrentMap.create 64) [] (ConcurrentMap.Sim.create 64 (by decide))
  cases hp : List.foldlM (scoreWordPar log s pred) (ConcurrentMap.create 64) q.plus_words with
  | error e =>
    cases hq : List.foldlM (scoreWord log s pred) [] q.plus_words with
    | error e' =>
      rw [hp, hq] at hsim
      have : e = e' := hsim
      subst this
      rfl
    | ok m => rw [hp, hq] at hsim; exact hsim.elim
  | ok cm =>
    cases hq : List.foldlM (scoreWord log s pred) [] q.plus_words with
    | error e' => rw [hp, hq] at hsim; exact hsim.elim
    | ok m =>
      rw [hp, hq] at hsim
      simp only
      rw [(foldl_dropWord_sim s q.minus_words cm m hsim).build_eq]

end SearchServer


namespace SearchServer

variable {F : Type} [LinearOrderedField F]

lemma wordInDocument_iff (s : SearchServer F) (id : Int) (w : Str) :
    wordInDocument s id w = true ↔ OrdMap.find2 s.word_to_document_freqs_ w id ≠ none := by
  unfold wordInDocument
  cases hf : s.word_to_document_freqs_.find w with
  | none => simp [OrdMap.find2_eq_none_of_find hf]
  | some docs =>
    simp only [decide_eq_true_eq]
    rw [count_pos_iff, OrdMap.find2_eq_of_find hf]

/-- The first loop of `MatchDocument` keeps the words that have a posting for the
document, in order. -/
lemma matchPlus_loop (s : SearchServer F) (id : Int) (ws acc : List Str) :
    ws.foldl (fun matched_words word =>
      match s.word_to_document_freqs_.find word with
      | none => matched_words
      | some found_documents =>
        if found_documents.count id > 0 then matched_words ++ [word] else matched_words) acc =
      acc ++ ws.filter (wordInDocument s id) := by
  induction ws generalizing acc with
  | nil => simp
  | cons w ws ih =>
    rw [List.foldl_cons, ih, List.filter_cons]
    unfold wordInDocument
    cases hf : s.word_to_document_freqs_.find w with
    | none => simp
    | some docs =>
      simp only
      by_cases hc : docs.count id > 0
      · simp [hc]
      · simp [hc]

lemma matchPlus_eq (s : SearchServer F) (id : Int) (ws : List Str) :
    matchPlus s id ws = ws.filter (wordInDocument s id) := by
  unfold matchPlus; exact matchPlus_loop s id ws []

/-- The second loop of `MatchDocument` clears the result exactly when some minus-word
has a posting for the document. -/
lemma matchMinus_eq (s : SearchServer F) (id : Int) (ws matched : List Str) :
    matchMinus s id ws matched = if ws.any (wordInDocument s id) then [] else matched := by
  induction ws with
  | nil => rfl
  | cons w ws ih =>
    unfold matchMinus
    rw [List.any_cons]
    unfold wordInDocument at ih ⊢
    cases hf : s.word_to_document_freqs_.find w with
    | none => simp only [Bool.false_or]; exact ih
    | some docs =>
      simp only
      by_cases hc : docs.count id > 0
      · simp [hc]
      · simp only [hc, if_false, decide_False, Bool.false_or]; exact ih

/-- On a consistent index, a word that is not a stop word has a posting for a live
document exactly when it is a slice of the text of the document. -/
lemma wordInDocument_eq {s : SearchServer F} (hs : Inv s) {id : Int} {data : DocumentData}
    (hd : s.documents_.find id = some data) {w : Str} (hw : s.IsStopWord w = false) :
    wordInDocument s id w = decide (w ∈ SplitIntoWords data.text) := by
  rw [Bool.eq_iff_iff, wordInDocument_iff, hs.postings_isSome hw, decide_eq_true_eq]
  constructor
  · rintro ⟨data', hd', hin⟩
    rw [hd] at hd'
    cases hd'
    exact hin
  · intro hin
    exact ⟨data, hd, hin⟩

lemma filter_congr_mem {α : Type} (l : List α) (p q : α → Bool) (h : ∀ a ∈ l, p a = q a) :
    l.filter p = l.filter q := List.filter_congr h

lemma any_congr_mem {α : Type} (l : List α) (p q : α → Bool) (h : ∀ a ∈ l, p a = q a) :
    l.any p = l.any q := by
  induction l with
  | nil => rfl
  | cons a l ih =>
    rw [List.any_cons, List.any_cons, h a (List.mem_cons_self _ _),
      ih (fun b hb => h b (List.mem_cons_of_mem _ hb))]

/-- With the keys of the postings held by value: in a reachable state, for a stored
document and a query that parses, the sequential `MatchDocument` returns the stored
status of the document together with the empty list when some minus-term of the query
is a slice of the text, and otherwise with the plus-terms of the query that are slices
of the text, in the order of the parsed plus set; that list is strictly ascending in
the order of `Str`, so each term occurs once. -/
lemma MatchDocument_of_reachable (s : SearchServer F) (hs : Reachable s) (document_id : Int)
    (data : DocumentData) (hd : s.documents_.find document_id = some data)
    (raw_query : Str) (query : Query) (hq : s.ParseQuery raw_query = .ok query) :
    MatchDocument s raw_query document_id =
      .ok (if query.minus_words.any (fun w => decide (w ∈ SplitIntoWords data.text)) then []
           else query.plus_words.filter (fun w => decide (w ∈ SplitIntoWords data.text)),
        data.status) ∧
    (query.plus_words.filter (fun w => decide (w ∈ SplitIntoWords data.text))).Pairwise
      (fun a b => a < b) := by
  have hinv := hs.inv
  have hok := ParseQuery_ok hq
  constructor
  · unfold MatchDocument
    rw [hq]
    simp only
    rw [at_eq_ok hd, matchMinus_eq, matchPlus_eq]
    simp only
    rw [any_congr_mem query.minus_words _ (fun w => decide (w ∈ SplitIntoWords data.text))
        (fun w hw => wordInDocument_eq hinv hd (hok.minus_nonstop w hw)),
      filter_congr_mem query.plus_words _ (fun w => decide (w ∈ SplitIntoWords data.text))
        (fun w hw => wordInDocument_eq hinv hd (hok.plus_nonstop w hw))]
  · exact List.Pairwise.sublist (List.filter_sublist _) hok.wf_plus

end SearchServer



namespace SearchServer

variable {F : Type} [LinearOrderedField F]

/-- C7. For every index state, id, text, status and ratings, `AddDocument` returns
normally if and only if the id is not negative, the id is not a key of the metadata
map and no character of the text has a code in 0..31 (codes 127 and above are
accepted); every other call throws `invalid_argument`.  In particular the empty text
is accepted, and so is a text made only of stop words. -/
theorem C7_AddDocument_accepts_iff (s : SearchServer F) (id : Int) (text : Str)
    (status : DocumentStatus) (ratings : List Int) :
    ((s.AddDocument id text status ratings).1 = .ok () ↔
      0 ≤ id ∧ id ∉ s.documents_.keys ∧ ∀ c ∈ text, ¬ c.toNat < 32) ∧
    ((s.AddDocument id text status ratings).1 ≠ .ok () →
      (s.AddDocument id text status ratings).1 = .error .invalid_argument) ∧
    ((s.AddDocument id [] status ratings).1 = .ok () ↔ 0 ≤ id ∧ id ∉ s.documents_.keys) ∧
    ((∀ w ∈ SplitIntoWords text, w ∈ s.stop_words_) → (∀ w ∈ s.stop_words_, IsValidWord w = true) →
      ((s.AddDocument id text status ratings).1 = .ok () ↔ 0 ≤ id ∧ id ∉ s.documents_.keys)) := by
  have key : ∀ t : Str, (s.AddDocument id t status ratings).1 = .ok () ↔
      0 ≤ id ∧ id ∉ s.documents_.keys ∧ ∀ c ∈ t, ¬ c.toNat < 32 := by
    intro t
    rw [AddDocument_ok_iff, OrdMap.find_eq_none_iff]
    simp only [not_lt]
  refine ⟨key text, AddDocument_error s id text status ratings, ?_, ?_⟩
  · rw [key]; simp
  · intro h1 h2
    rw [key]
    have : ∀ c ∈ text, ¬ c.toNat < 32 := by
      have hv : ∀ w ∈ SplitIntoWords text, IsValidWord w = true := fun w hw => h2 w (h1 w hw)
      intro c hc
      exact not_lt.2 ((all_valid_SplitIntoWords text).1 hv c hc)
    constructor
    · rintro ⟨a, b, _⟩; exact ⟨a, b⟩
    · rintro ⟨a, b⟩; exact ⟨a, b, this⟩

/-- C7 on concrete calls: a text made only of stop words and the empty text are
accepted, the characters of codes 127 and 1087 are accepted, and a negative id, a
repeated id and a tab character are rejected with `invalid_argument`. -/
theorem C7_AddDocument_accepts_iff_witness :
    ((Examples.stopServer ℝ).AddDocument 1 "in the".toList .ACTUAL []).1 = .ok () ∧
    ((Examples.stopServer ℝ).AddDocument 0 [] .ACTUAL [1]).1 = .ok () ∧
    ((Examples.stopServer ℝ).AddDocument 0 [Char.ofNat 127, Char.ofNat 1087] .ACTUAL [1]).1
      = .ok () ∧
    ((Examples.stopServer ℝ).AddDocument (-1) "cat".toList .ACTUAL [1]).1
      = .error .invalid_argument ∧
    ((Examples.catServer ℝ).AddDocument 42 "dog".toList .ACTUAL [1]).1
      = .error .invalid_argument ∧
    ((Examples.stopServer ℝ).AddDocument 2 [Char.ofNat 99, Char.ofNat 9] .ACTUAL [1]).1
      = .error .invalid_argument := by
  refine ⟨?_, ?_, ?_, ?_, ?_, ?_⟩
  · exact (C7_AddDocument_accepts_iff _ 1 "in the".toList .ACTUAL []).1.2
      ⟨by decide, by decide, by decide⟩
  · exact (C7_AddDocument_accepts_iff _ 0 [] .ACTUAL [1]).1.2 ⟨by decide, by decide, by decide⟩
  · exact (C7_AddDocument_accepts_iff _ 0 _ .ACTUAL [1]).1.2 ⟨by decide, by decide, by decide⟩
  · apply (C7_AddDocument_accepts_iff _ (-1) "cat".toList .ACTUAL [1]).2.1
    intro h
    exact absurd ((C7_AddDocument_accepts_iff _ (-1) "cat".toList .ACTUAL [1]).1.1 h).1
      (by decide)
  · apply (C7_AddDocument_accepts_iff _ 42 "dog".toList .ACTUAL [1]).2.1
    intro h
    exact ((C7_AddDocument_accepts_iff _ 42 "dog".toList .ACTUAL [1]).1.1 h).2.1 (by decide)
  · apply (C7_AddDocument_accepts_iff _ 2 _ .ACTUAL [1]).2.1
    intro h
    exact ((C7_AddDocument_accepts_iff _ 2 _ .ACTUAL [1]).1.1 h).2.2 (Char.ofNat 9)
      (by decide) (by decide)

/-- With the keys of the postings held by value, and in exact arithmetic: after a
successful `AddDocument(id, text, ...)` on a reachable state, `GetWordFrequencies(id)`
has each key once, maps every non-stop token `w` of the text to the number of
occurrences of `w` among the non-stop tokens divided by the number of non-stop tokens,
maps nothing else, and `postings[w][id]` holds the same value. -/
lemma term_frequencies_of_reachable (s : SearchServer F) (hs : Reachable s) (id : Int)
    (text : Str) (status : DocumentStatus) (ratings : List Int) (s' : SearchServer F)
    (h : s.AddDocument id text status ratings = (.ok (), s')) :
    (s'.GetWordFrequencies id).keys.Nodup ∧
    ∀ w : Str,
      (s'.GetWordFrequencies id).find w =
        (if w ∈ s.nonStopWords text then
          some (((s.nonStopWords text).count w : F) / ((s.nonStopWords text).length : F))
        else none) ∧
      OrdMap.find2 s'.word_to_document_freqs_ w id = (s'.GetWordFrequencies id).find w := by
  have hinv : Inv s' := Inv_add hs.inv h
  obtain ⟨hstop, hdocs, _, _⟩ := AddDocument_ok_state h
  have hfind : s'.documents_.find id = some ⟨ComputeAverageRating ratings, status, text⟩ := by
    rw [hdocs, OrdMap.find_assign, if_pos rfl]
  refine ⟨OrdMap.WF_nodup (GetWordFrequencies_WF hinv id), fun w => ⟨?_, ?_⟩⟩
  · rw [← find2_forward_eq, hinv.forward_some id _ hfind w, nonStopWords_congr hstop]
    rfl
  · rw [hinv.consistent, find2_forward_eq]

end SearchServer


namespace OrdMap

variable {K V : Type} [LinearOrder K]

lemma length_erase_of_find {m : OrdMap K V} (h : m.WF) {k : K} {v : V} (hk : m.find k = some v) :
    (m.erase k).length + 1 = m.length := by
  induction m with
  | nil => simp at hk
  | cons e rest ih =>
    obtain ⟨a, b⟩ := e
    rw [find_cons] at hk
    by_cases ha : a = k
    · subst ha
      have hnone : find rest a = none := not_mem_keys_of_WF_cons h
      have : erase ((a, b) :: rest) a = rest := by
        unfold erase
        rw [List.filter_cons]
        simp only [ne_eq, not_true_eq_false, decide_False, Bool.false_eq_true, if_false]
        rw [List.filter_eq_self]
        intro e he
        have : e.1 ≠ a := by
          intro hc
          have hm : a ∈ keys rest := List.mem_map.2 ⟨e, he, hc⟩
          exact (find_eq_none_iff _ _).1 hnone hm
        simpa using this
      rw [this]; rfl
    · simp only [ha, if_false] at hk
      have : erase ((a, b) :: rest) k = (a, b) :: erase rest k := by
        unfold erase
        rw [List.filter_cons]
        simp [ha]
      rw [this, List.length_cons, List.length_cons, ih ((WF_cons_iff _ _).1 h).2 hk]

end OrdMap

namespace SearchServer

variable {F : Type} [LinearOrderedField F]

/-- `RemoveDocument` does nothing when no word frequencies are stored for the id. -/
lemma RemoveDocument_of_empty {s : SearchServer F} {id : Int}
    (h : s.GetWordFrequencies id = []) : s.RemoveDocument id = s := by
  rw [RemoveDocument_eq, if_pos h]

lemma GetWordFrequencies_of_find_none {s : SearchServer F} {id : Int}
    (h : s.document_to_word_freqs_.find id = none) : s.GetWordFrequencies id = [] := by
  unfold GetWordFrequencies; rw [h]

/-- What `RemoveDocument` does for a document with at least one indexed word: the id
leaves every posting map, the forward index, the id set and the metadata, the
document count drops by one, and the id can be added again. -/
lemma RemoveDocument_of_indexed {s : SearchServer F} (hs : Inv s) {id : Int}
    (h : s.GetWordFrequencies id ≠ []) :
    (∀ w, OrdMap.find2 (s.RemoveDocument id).word_to_document_freqs_ w id = none) ∧
    (s.RemoveDocument id).GetWordFrequencies id = [] ∧
    id ∉ (s.RemoveDocument id).document_ids_ ∧
    id ∉ (s.RemoveDocument id).documents_.keys ∧
    (s.RemoveDocument id).GetDocumentCount + 1 = s.GetDocumentCount ∧
    ∀ (text : Str) (status : DocumentStatus) (ratings : List Int),
      0 ≤ id → (∀ c ∈ text, ¬ c.toNat < 32) →
      ((s.RemoveDocument id).AddDocument id text status ratings).1 = .ok () ∧
      ∀ w, OrdMap.find2 ((s.RemoveDocument id).AddDocument id text status
          ratings).2.word_to_document_freqs_ w id ≠ none ↔ w ∈ s.nonStopWords text := by
  have hinv : Inv (s.RemoveDocument id) := Inv_remove hs id
  have hdocs : (s.RemoveDocument id).documents_ = s.documents_.erase id := by
    rw [RemoveDocument_eq, if_neg h]
  have hfwd : (s.RemoveDocument id).document_to_word_freqs_ =
      s.document_to_word_freqs_.erase id := by
    rw [RemoveDocument_eq, if_neg h]
  have hstop : (s.RemoveDocument id).stop_words_ = s.stop_words_ := by
    rw [RemoveDocument_eq, if_neg h]
  have hnone : (s.RemoveDocument id).documents_.find id = none := by
    rw [hdocs, OrdMap.find_erase, if_pos rfl]
  have hfnone : (s.RemoveDocument id).document_to_word_freqs_.find id = none :=
    hinv.forward_none id hnone
  have hwas : ∃ data, s.documents_.find id = some data := by
    cases hd : s.documents_.find id with
    | none => exact absurd (GetWordFrequencies_of_find_none (hs.forward_none id hd)) h
    | some data => exact ⟨data, rfl⟩
  refine ⟨?_, GetWordFrequencies_of_find_none hfnone, ?_, ?_, ?_, ?_⟩
  · intro w
    rw [hinv.consistent]
    exact OrdMap.find2_eq_none_of_find hfnone w
  · rw [hinv.ids_eq]
    exact (OrdMap.find_eq_none_iff _ _).1 hnone
  · exact (OrdMap.find_eq_none_iff _ _).1 hnone
  · obtain ⟨data, hdata⟩ := hwas
    unfold GetDocumentCount OrdMap.size
    rw [hdocs]
    exact OrdMap.length_erase_of_find hs.wf_documents hdata
  · intro text status ratings h0 hvalid
    have hok : ((s.RemoveDocument id).AddDocument id text status ratings).1 = .ok () :=
      (AddDocument_ok_iff _ _ _ _ _).2 ⟨h0, hnone, fun c hc => not_lt.1 (hvalid c hc)⟩
    refine ⟨hok, fun w => ?_⟩
    have hadd : (s.RemoveDocument id).AddDocument id text status ratings =
        (.ok (), ((s.RemoveDocument id).AddDocument id text status ratings).2) :=
      Prod.ext hok rfl
    have hinv2 := Inv_add hinv hadd
    obtain ⟨hstop2, hdocs2, _, _⟩ := AddDocument_ok_state hadd
    have hfind2 : ((s.RemoveDocument id).AddDocument id text status ratings).2.documents_.find id
        = some ⟨ComputeAverageRating ratings, status, text⟩ := by
      rw [hdocs2, OrdMap.find_assign, if_pos rfl]
    rw [hinv2.postings_eq, hfind2]
    simp only
    rw [termFreq_ne_none, nonStopWords_congr hstop2, nonStopWords_congr hstop]

/-- C9, at the input where it fails.  With the stop words `in the`, the document
added by `AddDocument(1, "in the", ACTUAL, {})` is in the document id set, yet
`RemoveDocument(1)` (sequential or parallel) returns the state unchanged: the id stays
in the id set and in the metadata, the document count stays 1, and a following
`AddDocument(1, "dog", ...)` throws `invalid_argument`. -/
theorem C9_RemoveDocument_keeps_wordless_document :
    Reachable (Examples.stopOnlyServer ℝ) ∧
    (1 : Int) ∈ (Examples.stopOnlyServer ℝ).document_ids_ ∧
    (Examples.stopOnlyServer ℝ).documents_.find 1 = some ⟨0, .ACTUAL, "in the".toList⟩ ∧
    (Examples.stopOnlyServer ℝ).GetWordFrequencies 1 = [] ∧
    (Examples.stopOnlyServer ℝ).RemoveDocument 1 = Examples.stopOnlyServer ℝ ∧
    (Examples.stopOnlyServer ℝ).RemoveDocumentPar 1 = Examples.stopOnlyServer ℝ ∧
    (1 : Int) ∈ ((Examples.stopOnlyServer ℝ).RemoveDocument 1).document_ids_ ∧
    ((Examples.stopOnlyServer ℝ).RemoveDocument 1).GetDocumentCount = 1 ∧
    (((Examples.stopOnlyServer ℝ).RemoveDocument 1).AddDocument 1 "dog".toList .ACTUAL []).1 =
      .error .invalid_argument := by
  have hempty : (Examples.stopOnlyServer ℝ).GetWordFrequencies 1 = [] := by rfl
  have hrem : (Examples.stopOnlyServer ℝ).RemoveDocument 1 = Examples.stopOnlyServer ℝ :=
    RemoveDocument_of_empty hempty
  refine ⟨Examples.stopOnlyServer_reachable, by decide, by rfl, hempty, hrem, ?_, ?_, ?_, ?_⟩
  · rw [RemoveDocumentPar_eq]; exact hrem
  · rw [hrem]; decide
  · rw [hrem]; rfl
  · rw [hrem]
    apply AddDocument_error
    intro h
    have := ((AddDocument_ok_iff _ _ _ _ _).1 h).2.1
    exact absurd this (by decide)

/-- C10. In every state that the program can reach (by calls of `AddDocument` that
return or throw and by calls of `RemoveDocument`), for every id that is not in the
document id set (never added, or removed), `RemoveDocument` (sequential or parallel)
throws nothing and returns the state unchanged: postings, forward index, metadata and
document id set are what they were. -/
theorem C10_RemoveDocument_unknown_id (s : SearchServer F) (hs : ReachableAny s) (id : Int)
    (h : id ∉ s.document_ids_) :
    s.RemoveDocument id = s ∧ s.RemoveDocumentPar id = s := by
  have hnone : s.document_to_word_freqs_.find id = none := by
    by_contra hc
    exact h (hs.forward_subset id hc)
  have hrem : s.RemoveDocument id = s :=
    RemoveDocument_of_empty (GetWordFrequencies_of_find_none hnone)
  exact ⟨hrem, by rw [RemoveDocumentPar_eq]; exact hrem⟩

/-- C10 on the server of `TestMinusWords`, whose documents are 0 and 1, with the id 7,
and on the state that a rejected `AddDocument(3, ...)` with a tab character leaves,
with the id 3. -/
theorem C10_RemoveDocument_unknown_id_witness :
    ReachableAny (Examples.minusWordsServer ℝ) ∧
    (7 : Int) ∉ (Examples.minusWordsServer ℝ).document_ids_ ∧
    (Examples.minusWordsServer ℝ).RemoveDocument 7 = Examples.minusWordsServer ℝ ∧
    (Examples.minusWordsServer ℝ).RemoveDocumentPar 7 = Examples.minusWordsServer ℝ ∧
    ((Examples.emptyServer ℝ).AddDocument 3 [Char.ofNat 99, Char.ofNat 9] .ACTUAL []).1 =
      .error .invalid_argument ∧
    ((Examples.emptyServer ℝ).AddDocument 3 [Char.ofNat 99, Char.ofNat 9] .ACTUAL []).2.RemoveDocument
        3 =
      ((Examples.emptyServer ℝ).AddDocument 3 [Char.ofNat 99, Char.ofNat 9] .ACTUAL []).2 := by
  have h1 := C10_RemoveDocument_unknown_id _
    (Examples.minusWordsServer_reachable (F := ℝ)).any 7 (by decide)
  have h2 := C10_RemoveDocument_unknown_id _
    (ReachableAny.add _ 3 [Char.ofNat 99, Char.ofNat 9] .ACTUAL []
      (Examples.emptyServer_reachable (F := ℝ)).any) 3 (by decide)
  refine ⟨(Examples.minusWordsServer_reachable (F := ℝ)).any, by decide, h1.1, h1.2, ?_, h2.1⟩
  apply AddDocument_error
  intro h
  exact absurd (((AddDocument_ok_iff _ _ _ _ _).1 h).2.2 (Char.ofNat 9) (by decide)) (by decide)

end SearchServer


namespace SearchServer

variable {F : Type} [LinearOrderedField F]

/-- C11 fails as stated.  On the freshly constructed server without stop words,
`AddDocument(1, "cat", ACTUAL, {1, 2, 3})` followed by `RemoveDocument(1)` leaves the
key `cat` in the postings, with an empty posting map, where there was no key before:
the state is not the state before the two calls. -/
theorem C11_add_then_remove_counterexample :
    Reachable (Examples.emptyServer ℝ) ∧
    (1 : Int) ∉ (Examples.emptyServer ℝ).document_ids_ ∧
    (∀ c ∈ "cat".toList, 32 ≤ c.toNat) ∧
    ((Examples.emptyServer ℝ).AddDocument 1 "cat".toList .ACTUAL [1, 2, 3]).1 = .ok () ∧
    (Examples.emptyServer ℝ).word_to_document_freqs_ = [] ∧
    (((Examples.emptyServer ℝ).AddDocument 1 "cat".toList .ACTUAL
      [1, 2, 3]).2.RemoveDocument 1).word_to_document_freqs_ = [("cat".toList, [])] ∧
    ((Examples.emptyServer ℝ).AddDocument 1 "cat".toList .ACTUAL [1, 2, 3]).2.RemoveDocument 1 ≠
      Examples.emptyServer ℝ := by
  have hp : (((Examples.emptyServer ℝ).AddDocument 1 "cat".toList .ACTUAL
      [1, 2, 3]).2.RemoveDocument 1).word_to_document_freqs_ = [("cat".toList, [])] := by
    rfl
  refine ⟨Examples.emptyServer_reachable, by decide, by decide, rfl, rfl, hp, fun hc => ?_⟩
  rw [hc] at hp
  exact absurd hp (by decide)

end SearchServer


namespace SearchServer

variable {F : Type} [LinearOrderedField F]

/-- C13.  In every state reached from a constructed server by calls of `AddDocument`
that return and by calls of `RemoveDocument`, the document id set is the key set of the
metadata map, and `GetDocumentCount()`, the size of the metadata map, is the size of
the document id set. -/
theorem C13_document_count (s : SearchServer F) (hs : Reachable s) :
    s.document_ids_ = s.documents_.keys ∧ s.GetDocumentCount = s.document_ids_.length := by
  refine ⟨hs.inv.ids_eq, ?_⟩
  rw [hs.inv.ids_eq]
  unfold GetDocumentCount OrdMap.size OrdMap.keys
  rw [List.length_map]

/-- C13 on the server of `TestMatchDocument`: four documents, ids 1 to 4. -/
theorem C13_document_count_witness :
    Reachable (Examples.matchServer ℝ) ∧
    (Examples.matchServer ℝ).document_ids_ = [1, 2, 3, 4] ∧
    (Examples.matchServer ℝ).documents_.keys = [1, 2, 3, 4] ∧
    (Examples.matchServer ℝ).GetDocumentCount = 4 := by
  have hreach := Examples.matchServer_reachable (F := ℝ)
  have key := C13_document_count (Examples.matchServer ℝ) hreach
  have hkeys : (Examples.matchServer ℝ).documents_.keys = [1, 2, 3, 4] := by
    rw [Examples.matchServer_spec.2.2]; rfl
  refine ⟨hreach, key.1.trans hkeys, hkeys, ?_⟩
  rw [key.2, key.1, hkeys]; rfl

/-- C14 fails as stated.  With the stop words `in the`, after
`AddDocument(1, "in the", ACTUAL, {})` the id 1 is in the document id set and in the
metadata map, and it is no key of the forward index. -/
theorem C14_key_sets_counterexample :
    Reachable (Examples.stopOnlyServer ℝ) ∧
    (1 : Int) ∈ (Examples.stopOnlyServer ℝ).document_ids_ ∧
    (1 : Int) ∈ (Examples.stopOnlyServer ℝ).documents_.keys ∧
    (1 : Int) ∉ (Examples.stopOnlyServer ℝ).document_to_word_freqs_.keys :=
  ⟨Examples.stopOnlyServer_reachable, by decide, by decide, by decide⟩

/-- C14, amended.  In every state reached from a constructed server by calls of
`AddDocument` that return and by calls of `RemoveDocument`: the document id set and the
key set of the metadata map are the same set; every key of the forward index is in
both; and an id of the two is a key of the forward index exactly when the text of its
document has a word that is no stop word. -/
theorem C14_key_sets (s : SearchServer F) (hs : Reachable s) :
    (∀ id, id ∈ s.document_ids_ ↔ id ∈ s.documents_.keys) ∧
    (∀ id, id ∈ s.document_to_word_freqs_.keys →
      id ∈ s.document_ids_ ∧ id ∈ s.documents_.keys) ∧
    (∀ id data, s.documents_.find id = some data →
      (id ∈ s.document_to_word_freqs_.keys ↔
        ∃ w ∈ SplitIntoWords data.text, s.IsStopWord w = false)) := by
  have hinv := hs.inv
  have hsub : ∀ id, id ∈ s.document_to_word_freqs_.keys → id ∈ s.documents_.keys := by
    intro id hid
    by_contra hc
    have := hinv.forward_none id ((OrdMap.find_eq_none_iff _ _).2 hc)
    exact (OrdMap.find_eq_none_iff _ _).1 this hid
  refine ⟨fun id => by rw [hinv.ids_eq], fun id hid => ⟨?_, hsub id hid⟩, ?_⟩
  · rw [hinv.ids_eq]; exact hsub id hid
  · intro id data hd
    constructor
    · intro hid
      obtain ⟨m, hm⟩ := Option.isSome_iff_exists.1
        ((OrdMap.find_isSome_iff_mem_keys _ _).2 hid)
      have hne := hs.forward_nonempty id m hm
      obtain ⟨e, he⟩ := List.exists_mem_of_ne_nil _ hne
      have hk : e.1 ∈ (s.GetWordFrequencies id).keys := by
        unfold GetWordFrequencies
        rw [hm]
        exact List.mem_map.2 ⟨e, he, rfl⟩
      have := (mem_nonStopWords s data.text e.1).1 ((hinv.forward_keys hd e.1).1 hk)
      exact ⟨e.1, this.1, this.2⟩
    · rintro ⟨w, hw, hst⟩
      have hk := (hinv.forward_keys hd w).2 ((mem_nonStopWords s data.text w).2 ⟨hw, hst⟩)
      rw [← OrdMap.find_isSome_iff_mem_keys]
      cases hf : s.document_to_word_freqs_.find id with
      | some m => rfl
      | none =>
        unfold GetWordFrequencies at hk
        rw [hf] at hk
        simp [OrdMap.keys] at hk

/-- C14 as amended, on the server with the stop words `in the` and the document 42
`cat in the city`: 42 is the one element of the id set, of the metadata keys and of the
forward-index keys, and `cat` is a word of its text that is no stop word. -/
theorem C14_key_sets_witness :
    Reachable (Examples.catServer ℝ) ∧
    (Examples.catServer ℝ).document_ids_ = [42] ∧
    (Examples.catServer ℝ).documents_.keys = [42] ∧
    (Examples.catServer ℝ).document_to_word_freqs_.keys = [42] ∧
    ((42 : Int) ∈ (Examples.catServer ℝ).document_to_word_freqs_.keys ↔
      ∃ w ∈ SplitIntoWords "cat in the city".toList,
        (Examples.catServer ℝ).IsStopWord w = false) :=
  ⟨Examples.catServer_reachable, by rfl, by rfl, by rfl,
    (C14_key_sets (Examples.catServer ℝ) Examples.catServer_reachable).2.2 42
      ⟨2, .ACTUAL, "cat in the city".toList⟩ (by rfl)⟩

end SearchServer


namespace SearchServer

variable {F : Type} [LinearOrderedField F]

/-- C16.  For every server and every query string, those without an empty slice among
them: `ParseQuery` throws `invalid_argument` if and only if some space-separated slice,
with one leading `-` stripped when it has one, is empty, begins with another `-`, or
contains a byte with a value in 0..31; otherwise `ParseQuery` returns a query.
`FindTopDocuments` and `MatchDocument` throw `invalid_argument` under the same
condition. -/
theorem C16_ParseQuery_rejects_iff (log : F → F) (s : SearchServer F) (raw_query : Str) :
    (s.ParseQuery raw_query = .error .invalid_argument ↔
      ∃ w ∈ SplitIntoWords raw_query, RejectedSlice w) ∧
    ((¬ ∃ w ∈ SplitIntoWords raw_query, RejectedSlice w) →
      ∃ query, s.ParseQuery raw_query = .ok query) ∧
    (∀ document_predicate,
      FindTopDocuments log s raw_query document_predicate = .error .invalid_argument ↔
        ∃ w ∈ SplitIntoWords raw_query, RejectedSlice w) ∧
    (∀ document_id, MatchDocument s raw_query document_id = .error .invalid_argument ↔
      ∃ w ∈ SplitIntoWords raw_query, RejectedSlice w) := by
  refine ⟨ParseQuery_error_iff s raw_query, fun h => ?_, fun p => ?_, fun id => ?_⟩
  · rw [ParseQuery_eq, if_neg h]
    exact ⟨_, rfl⟩
  · rw [FindTopDocuments_invalid_iff, ParseQuery_error_iff]
  · rw [MatchDocument_invalid_iff, ParseQuery_error_iff]

/-- C16 on six queries without an empty slice: `-`, `cat -`, `--cat` and `cat --dog`
are rejected, `cat-dog` and `cat-` are accepted.  On the
server with the document 42, `FindTopDocuments` and `MatchDocument` reject
`cat --dog` and `cat -`. -/
theorem C16_ParseQuery_rejects_iff_witness :
    (∀ q ∈ ["-".toList, "cat -".toList, "--cat".toList, "cat --dog".toList,
        "cat-dog".toList, "cat-".toList], ∀ w ∈ SplitIntoWords q, w ≠ []) ∧
    (Examples.emptyServer ℝ).ParseQuery "-".toList = .error .invalid_argument ∧
    (Examples.emptyServer ℝ).ParseQuery "cat -".toList = .error .invalid_argument ∧
    (Examples.emptyServer ℝ).ParseQuery "--cat".toList = .error .invalid_argument ∧
    (Examples.emptyServer ℝ).ParseQuery "cat --dog".toList = .error .invalid_argument ∧
    (∃ query, (Examples.emptyServer ℝ).ParseQuery "cat-dog".toList = .ok query) ∧
    (∃ query, (Examples.emptyServer ℝ).ParseQuery "cat-".toList = .ok query) ∧
    FindTopDocuments Real.log (Examples.catServer ℝ) "cat --dog".toList
      (statusPredicate .ACTUAL) = .error .invalid_argument ∧
    MatchDocument (Examples.catServer ℝ) "cat -".toList 42 = .error .invalid_argument :=
  ⟨by decide,
    (C16_ParseQuery_rejects_iff Real.log (Examples.emptyServer ℝ) "-".toList).1.2 (by decide),
    (C16_ParseQuery_rejects_iff Real.log (Examples.emptyServer ℝ) "cat -".toList).1.2
      (by decide),
    (C16_ParseQuery_rejects_iff Real.log (Examples.emptyServer ℝ) "--cat".toList).1.2
      (by decide),
    (C16_ParseQuery_rejects_iff Real.log (Examples.emptyServer ℝ) "cat --dog".toList).1.2
      (by decide),
    (C16_ParseQuery_rejects_iff Real.log (Examples.emptyServer ℝ) "cat-dog".toList).2.1
      (by decide),
    (C16_ParseQuery_rejects_iff Real.log (Examples.emptyServer ℝ) "cat-".toList).2.1
      (by decide),
    ((C16_ParseQuery_rejects_iff Real.log (Examples.catServer ℝ) "cat --dog".toList).2.2.1
      _).2 (by decide),
    ((C16_ParseQuery_rejects_iff Real.log (Examples.catServer ℝ) "cat -".toList).2.2.2
      42).2 (by decide)⟩

/-- C17 fails as stated.  The query `cat ` with a trailing space has the slices `cat`
and the empty slice; without its empty slice it is the query `cat`.  `ParseQuery`
returns the plus set `cat` for `cat` and throws `invalid_argument` for `cat `, and it
throws `invalid_argument` for the empty query. -/
theorem C17_empty_slices_skipped_counterexample :
    SplitIntoWords "cat ".toList = ["cat".toList, []] ∧
    (SplitIntoWords "cat ".toList).filter (fun w => !w.isEmpty) = SplitIntoWords "cat".toList ∧
    (Examples.emptyServer ℝ).ParseQuery "cat".toList = .ok ⟨["cat".toList], []⟩ ∧
    (Examples.emptyServer ℝ).ParseQuery "cat ".toList = .error .invalid_argument ∧
    (Examples.emptyServer ℝ).ParseQuery [] = .error .invalid_argument :=
  ⟨by decide, by decide, rfl, rfl, rfl⟩

/-- C17, amended.  The query parser rejects empty slices: for every server and every
query string that has an empty slice, `ParseQuery` throws `invalid_argument`, whatever
the other slices are, and so do `FindTopDocuments` and `MatchDocument`. -/
theorem C17_empty_slice_rejected (log : F → F) (s : SearchServer F) (raw_query : Str)
    (h : [] ∈ SplitIntoWords raw_query) :
    s.ParseQuery raw_query = .error .invalid_argument ∧
    (∀ document_predicate,
      FindTopDocuments log s raw_query document_predicate = .error .invalid_argument) ∧
    (∀ document_id, MatchDocument s raw_query document_id = .error .invalid_argument) := by
  have hq : s.ParseQuery raw_query = .error .invalid_argument :=
    (ParseQuery_error_iff s raw_query).2 ⟨[], h, Or.inl rfl⟩
  exact ⟨hq, fun p => (FindTopDocuments_invalid_iff log s raw_query p).2 hq,
    fun id => (MatchDocument_invalid_iff s raw_query id).2 hq⟩

/-- C17 as amended, on the empty query and on queries with a leading space, a trailing
space and two adjacent spaces: each has an empty slice and is rejected. -/
theorem C17_empty_slice_rejected_witness :
    ([] : Str) ∈ SplitIntoWords [] ∧
    (Examples.emptyServer ℝ).ParseQuery [] = .error .invalid_argument ∧
    ([] : Str) ∈ SplitIntoWords " cat".toList ∧
    (Examples.emptyServer ℝ).ParseQuery " cat".toList = .error .invalid_argument ∧
    ([] : Str) ∈ SplitIntoWords "cat ".toList ∧
    (Examples.emptyServer ℝ).ParseQuery "cat ".toList = .error .invalid_argument ∧
    ([] : Str) ∈ SplitIntoWords "cat  dog".toList ∧
    (Examples.catServer ℝ).ParseQuery "cat  dog".toList = .error .invalid_argument ∧
    FindTopDocuments Real.log (Examples.catServer ℝ) "cat  dog".toList
      (statusPredicate .ACTUAL) = .error .invalid_argument ∧
    MatchDocument (Examples.catServer ℝ) "cat  dog".toList 42 = .error .invalid_argument :=
  ⟨by decide,
    (C17_empty_slice_rejected Real.log (Examples.emptyServer ℝ) [] (by decide)).1,
    by decide,
    (C17_empty_slice_rejected Real.log (Examples.emptyServer ℝ) " cat".toList (by decide)).1,
    by decide,
    (C17_empty_slice_rejected Real.log (Examples.emptyServer ℝ) "cat ".toList (by decide)).1,
    by decide,
    (C17_empty_slice_rejected Real.log (Examples.catServer ℝ) "cat  dog".toList
      (by decide)).1,
    (C17_empty_slice_rejected Real.log (Examples.catServer ℝ) "cat  dog".toList
      (by decide)).2.1 _,
    (C17_empty_slice_rejected Real.log (Examples.catServer ℝ) "cat  dog".toList
      (by decide)).2.2 42⟩

end SearchServer


namespace SearchServer

variable {F : Type} [LinearOrderedField F]

end SearchServer


namespace SearchServer

variable {F : Type} [LinearOrderedField F]

/-- C21.  In every state, for every query and status: `FindTopDocuments(query, status)`
is `FindTopDocuments(query, predicate)` with the predicate that compares the status of
the document with `status`, and `FindTopDocuments(query)` is
`FindTopDocuments(query, ACTUAL)`.  Hence every document that the overload with a
status returns has metadata with exactly that status, and every document that the
default overload returns has the status `ACTUAL`: a document stored as `BANNED`,
`IRRELEVANT` or `REMOVED` is not returned by it. -/
theorem C21_status_overloads (log : F → F) (s : SearchServer F) (raw_query : Str)
    (status : DocumentStatus) :
    FindTopDocumentsByStatus log s raw_query status =
      FindTopDocuments log s raw_query
        (fun _ document_status _ => decide (document_status = status)) ∧
    FindTopDocumentsDefault log s raw_query =
      FindTopDocumentsByStatus log s raw_query .ACTUAL ∧
    (∀ top, FindTopDocumentsByStatus log s raw_query status = .ok top →
      ∀ d ∈ top, ∃ data, s.documents_.find d.id = some data ∧ data.status = status) ∧
    (∀ top, FindTopDocumentsDefault log s raw_query = .ok top →
      ∀ d ∈ top, ∃ data, s.documents_.find d.id = some data ∧ data.status = .ACTUAL ∧
        data.status ≠ .BANNED ∧ data.status ≠ .IRRELEVANT ∧ data.status ≠ .REMOVED) := by
  refine ⟨rfl, rfl, fun top htop d hd => ?_, fun top htop d hd => ?_⟩
  · obtain ⟨data, hdata, hpred, _⟩ :=
      FindTopDocuments_pred (show FindTopDocuments log s raw_query (statusPredicate status) =
        .ok top from htop) hd
    exact ⟨data, hdata, of_decide_eq_true hpred⟩
  · obtain ⟨data, hdata, hpred, _⟩ :=
      FindTopDocuments_pred (show FindTopDocuments log s raw_query (statusPredicate .ACTUAL) =
        .ok top from htop) hd
    have hst : data.status = .ACTUAL := of_decide_eq_true hpred
    refine ⟨data, hdata, hst, ?_, ?_, ?_⟩ <;> rw [hst] <;> decide

/-- The documents that the server of `TestMatchDocument` returns for the query `cat`
and a status: the one document stored with that status. -/
lemma matchServer_by_status (status : DocumentStatus) (id : Int)
    (hid : (Examples.matchServer ℝ).documents_.find id =
      some ⟨2, status, "cat in the city".toList⟩)
    (honly : ∀ k data, (Examples.matchServer ℝ).documents_.find k = some data →
      data.status = status → k = id) :
    ∃ r, FindTopDocumentsByStatus Real.log (Examples.matchServer ℝ) "cat".toList status =
      .ok [⟨id, r, 2⟩] := by
  have hreach := Examples.matchServer_reachable (F := ℝ)
  have hinv := hreach.inv
  have hparse : (Examples.matchServer ℝ).ParseQuery "cat".toList = .ok ⟨["cat".toList], []⟩ :=
    (ParseQuery_congr (s := Examples.emptyServer ℝ) Examples.matchServer_spec.2.1 _).trans rfl
  have hq := ParseQuery_ok hparse
  have hkeys : (relevanceMap Real.log (Examples.matchServer ℝ) ⟨["cat".toList], []⟩
      (statusPredicate status)).keys = [id] := by
    apply OrdSet.set_ext_of_WF (WF_relevanceMap _ _ _ _) (List.pairwise_singleton _ _)
    intro k
    rw [FindAllDocuments_ids hinv Real.log hq, List.mem_singleton]
    constructor
    · rintro ⟨data, hd, _, hp, _⟩
      exact honly k data hd (of_decide_eq_true hp)
    · rintro rfl
      exact ⟨_, hid, ⟨"cat".toList, by decide,
        show "cat".toList ∈ SplitIntoWords "cat in the city".toList by decide⟩,
        by simp [statusPredicate], by simp⟩
  have hrating : ratingOf (Examples.matchServer ℝ) id = 2 := by
    unfold ratingOf; rw [hid]
  unfold FindTopDocumentsByStatus
  rw [FindTopDocuments_eq hinv Real.log hparse]
  cases hm : relevanceMap Real.log (Examples.matchServer ℝ) ⟨["cat".toList], []⟩
      (statusPredicate status) with
  | nil => rw [hm] at hkeys; cases hkeys
  | cons e rest =>
    rw [hm] at hkeys
    simp only [OrdMap.keys, List.map_cons, List.cons.injEq, List.map_eq_nil_iff] at hkeys
    obtain ⟨h1, h2⟩ := hkeys
    subst h2
    refine ⟨e.2, ?_⟩
    simp only [List.map_cons, List.map_nil, h1, hrating]
    rfl

/-- C21 on the server of `TestMatchDocument`, which stores the text `cat in the city`
under the ids 1 to 4 with the statuses `ACTUAL`, `BANNED`, `IRRELEVANT` and `REMOVED`:
for the query `cat` the default overload returns the document 1 only, and the overload
with the status `BANNED` returns the document 2 only. -/
theorem C21_status_overloads_witness :
    Reachable (Examples.matchServer ℝ) ∧
    (Examples.matchServer ℝ).documents_.map (fun e => (e.1, e.2.status)) =
      [(1, .ACTUAL), (2, .BANNED), (3, .IRRELEVANT), (4, .REMOVED)] ∧
    (∃ r, FindTopDocumentsDefault Real.log (Examples.matchServer ℝ) "cat".toList =
      .ok [⟨1, r, 2⟩]) ∧
    (∃ r, FindTopDocuments Real.log (Examples.matchServer ℝ) "cat".toList
      (fun _ document_status _ => decide (document_status = .BANNED)) = .ok [⟨2, r, 2⟩]) ∧
    (∀ top, FindTopDocumentsDefault Real.log (Examples.matchServer ℝ) "cat".toList = .ok top →
      ∀ d ∈ top, ∃ data, (Examples.matchServer ℝ).documents_.find d.id = some data ∧
        data.status = .ACTUAL ∧
        data.status ≠ .BANNED ∧ data.status ≠ .IRRELEVANT ∧ data.status ≠ .REMOVED) := by
  have hdocs := (Examples.matchServer_spec (F := ℝ)).2.2
  have honly : ∀ (status : DocumentStatus) (id : Int),
      (id, status) ∈ ([(1, .ACTUAL), (2, .BANNED), (3, .IRRELEVANT), (4, .REMOVED)] :
        List (Int × DocumentStatus)) →
      ∀ k data, (Examples.matchServer ℝ).documents_.find k = some data →
        data.status = status → k = id := by
    intro status id hmem k data hk hst
    have hm := OrdMap.find_some_mem hk
    rw [hdocs] at hm
    simp only [List.mem_cons, Prod.mk.injEq, List.mem_singleton, List.not_mem_nil,
      or_false] at hm hmem
    rcases hm with ⟨rfl, rfl⟩ | ⟨rfl, rfl⟩ | ⟨rfl, rfl⟩ | ⟨rfl, rfl⟩ <;>
      rcases hmem with ⟨rfl, rfl⟩ | ⟨rfl, rfl⟩ | ⟨rfl, rfl⟩ | ⟨rfl, rfl⟩ <;>
      first | rfl | (exact absurd hst (by decide))
  have key := C21_status_overloads Real.log (Examples.matchServer ℝ) "cat".toList .BANNED
  have key' := C21_status_overloads Real.log (Examples.matchServer ℝ) "cat".toList .ACTUAL
  obtain ⟨r1, h1⟩ := matchServer_by_status .ACTUAL 1 (by rw [hdocs]; rfl)
    (honly .ACTUAL 1 (by decide))
  obtain ⟨r2, h2⟩ := matchServer_by_status .BANNED 2 (by rw [hdocs]; rfl)
    (honly .BANNED 2 (by decide))
  refine ⟨Examples.matchServer_reachable, by rw [hdocs]; rfl, ⟨r1, ?_⟩, ⟨r2, ?_⟩, key'.2.2.2⟩
  · rw [key'.2.1]; exact h1
  · rw [← key.1]; exact h2

end SearchServer


namespace SearchServer

variable {F : Type} [LinearOrderedField F]

/-- C22.  For every container of strings, the constructor throws `invalid_argument` if
and only if some non-empty string of the container has a byte with a value in 0..31.
Otherwise it returns a server whose stop-word set is ordered, so that every word occurs
once, and holds exactly the non-empty strings of the container, with empty indexes.
The constructor from a string is the constructor from the slices of the string. -/
theorem C22_constructor (stop_words : List Str) :
    ((create stop_words : Except Exception (SearchServer F)) = .error .invalid_argument ↔
      ∃ w ∈ stop_words, w ≠ [] ∧ ∃ c ∈ w, c.toNat < 32) ∧
    ((¬ ∃ w ∈ stop_words, w ≠ [] ∧ ∃ c ∈ w, c.toNat < 32) →
      ∃ s : SearchServer F, create stop_words = .ok s ∧
        OrdSet.WF s.stop_words_ ∧ (∀ w, w ∈ s.stop_words_ ↔ w ∈ stop_words ∧ w ≠ []) ∧
        s.word_to_document_freqs_ = [] ∧ s.document_to_word_freqs_ = [] ∧
        s.documents_ = [] ∧ s.document_ids_ = []) ∧
    (∀ stop_words_text : Str,
      (createFromText stop_words_text : Except Exception (SearchServer F)) =
        create (SplitIntoWords stop_words_text)) := by
  refine ⟨?_, fun h => ?_, fun _ => rfl⟩
  · rw [create_eq]
    split_ifs with h
    · exact ⟨fun _ => h, fun _ => rfl⟩
    · exact ⟨fun hc => (by cases hc), fun hc => absurd hc h⟩
  · rw [create_eq, if_neg h]
    exact ⟨_, rfl, WF_MakeUniqueNonEmptyStrings _, mem_MakeUniqueNonEmptyStrings _,
      rfl, rfl, rfl, rfl⟩

/-- C22 on four inputs: the string `и в на` gives the three stop words; the container
`in`, the empty string, `the`, `in` gives the stop words `in` and `the`; the empty
string gives no stop word; the string `и в на` followed by the byte 18 is rejected. -/
theorem C22_constructor_witness :
    (createFromText "и в на".toList : Except Exception (SearchServer ℝ)) =
      .ok (Examples.cyrillicStopServer ℝ) ∧
    (Examples.cyrillicStopServer ℝ).stop_words_ = ["в".toList, "и".toList, "на".toList] ∧
    (create ["in".toList, [], "the".toList, "in".toList] :
      Except Exception (SearchServer ℝ)) = .ok (Examples.stopServer ℝ) ∧
    (createFromText [] : Except Exception (SearchServer ℝ)) = .ok (Examples.emptyServer ℝ) ∧
    (createFromText ("и в на".toList ++ [Char.ofNat 18]) :
      Except Exception (SearchServer ℝ)) = .error .invalid_argument ∧
    (createFromText [Char.ofNat 200, ' ', Char.ofNat 255] :
      Except Exception (SearchServer ℝ)) =
      .ok ⟨[[Char.ofNat 200], [Char.ofNat 255]], [], [], [], []⟩ := by
  refine ⟨rfl, rfl, rfl, rfl, ?_, rfl⟩
  rw [(C22_constructor (F := ℝ) []).2.2]
  exact (C22_constructor (F := ℝ) _).1.2
    ⟨"на".toList ++ [Char.ofNat 18], by decide, by decide, Char.ofNat 18, by decide, by decide⟩

/-- C23.  `AddDocument` with a negative id, or with an id that has an entry in the
metadata map, throws `invalid_argument` and leaves the whole state as it was.
`AddDocument` with a new, non-negative id and a text that has a byte with a value in
0..31 throws `invalid_argument` and is not rolled back: the metadata map has the new
entry for the id and the entries it had, `GetDocumentCount` is larger by one, and
postings, forward index, document id set and stop words are as they were. -/
theorem C23_failed_AddDocument (s : SearchServer F) (id : Int) (text : Str)
    (status : DocumentStatus) (ratings : List Int) :
    (id < 0 → s.AddDocument id text status ratings = (.error .invalid_argument, s)) ∧
    (id ∈ s.documents_.keys →
      s.AddDocument id text status ratings = (.error .invalid_argument, s)) ∧
    (0 ≤ id → id ∉ s.documents_.keys → (∃ c ∈ text, c.toNat < 32) →
      (s.AddDocument id text status ratings).1 = .error .invalid_argument ∧
      (s.AddDocument id text status ratings).2.documents_.find id =
        some ⟨ComputeAverageRating ratings, status, text⟩ ∧
      (∀ k, k ≠ id → (s.AddDocument id text status ratings).2.documents_.find k =
        s.documents_.find k) ∧
      (s.AddDocument id text status ratings).2.GetDocumentCount = s.GetDocumentCount + 1 ∧
      (s.AddDocument id text status ratings).2.word_to_document_freqs_ =
        s.word_to_document_freqs_ ∧
      (s.AddDocument id text status ratings).2.document_to_word_freqs_ =
        s.document_to_word_freqs_ ∧
      (s.AddDocument id text status ratings).2.document_ids_ = s.document_ids_ ∧
      (s.AddDocument id text status ratings).2.stop_words_ = s.stop_words_) := by
  refine ⟨fun h => ?_, fun h => ?_, fun h1 h2 h3 => ?_⟩
  · rw [AddDocument_eq, if_pos h]
  · have hf : s.documents_.find id ≠ none := by
      rw [ne_eq, OrdMap.find_eq_none_iff]; exact fun hc => hc h
    rw [AddDocument_eq]
    split_ifs
    · rfl
    · rfl
  · have hf : s.documents_.find id = none := (OrdMap.find_eq_none_iff _ _).2 h2
    have hbad : ¬ ∀ c ∈ text, 32 ≤ c.toNat := by
      obtain ⟨c, hc, hlt⟩ := h3
      exact fun hall => absurd (hall c hc) (by omega)
    rw [AddDocument_eq, if_neg (by omega), if_neg (by rw [hf]; simp), if_neg hbad]
    refine ⟨rfl, ?_, fun k hk => ?_, ?_, rfl, rfl, rfl, rfl⟩
    · show (s.documents_.assign id _).find id = _
      rw [OrdMap.find_assign, if_pos rfl]
    · show (s.documents_.assign id _).find k = _
      rw [OrdMap.find_assign, if_neg (fun hc => hk hc.symm)]
    · show (s.documents_.assign id _).length = s.documents_.length + 1
      exact length_assign_of_none hf _

/-- C23 on the server of `TestMinusWords`, whose documents are 0 and 1: the ids -1 and
0 are rejected without a change, and the id 3 with a text that has a tab character is
rejected with the metadata entry left behind and the document count grown from 2 to
3. -/
theorem C23_failed_AddDocument_witness :
    (Examples.minusWordsServer ℝ).AddDocument (-1) "dog".toList .ACTUAL [] =
      (.error .invalid_argument, Examples.minusWordsServer ℝ) ∧
    (0 : Int) ∈ (Examples.minusWordsServer ℝ).documents_.keys ∧
    (Examples.minusWordsServer ℝ).AddDocument 0 "dog".toList .ACTUAL [] =
      (.error .invalid_argument, Examples.minusWordsServer ℝ) ∧
    (3 : Int) ∉ (Examples.minusWordsServer ℝ).documents_.keys ∧
    ((Examples.minusWordsServer ℝ).AddDocument 3 [Char.ofNat 99, Char.ofNat 9] .BANNED
      [4]).1 = .error .invalid_argument ∧
    ((Examples.minusWordsServer ℝ).AddDocument 3 [Char.ofNat 99, Char.ofNat 9] .BANNED
      [4]).2.documents_.find 3 = some ⟨4, .BANNED, [Char.ofNat 99, Char.ofNat 9]⟩ ∧
    (Examples.minusWordsServer ℝ).GetDocumentCount = 2 ∧
    ((Examples.minusWordsServer ℝ).AddDocument 3 [Char.ofNat 99, Char.ofNat 9] .BANNED
      [4]).2.GetDocumentCount = 3 ∧
    ((Examples.minusWordsServer ℝ).AddDocument 3 [Char.ofNat 99, Char.ofNat 9] .BANNED
      [4]).2.document_ids_ = [0, 1] := by
  have hkeys : (Examples.minusWordsServer ℝ).documents_.keys = [0, 1] := by
    rw [Examples.minusWordsServer_spec.2.2]; rfl
  have hcount : (Examples.minusWordsServer ℝ).GetDocumentCount = 2 := by
    unfold GetDocumentCount; rw [Examples.minusWordsServer_spec.2.2]; rfl
  have h0 : (0 : Int) ∈ (Examples.minusWordsServer ℝ).documents_.keys := by
    rw [hkeys]; decide
  have h3 : (3 : Int) ∉ (Examples.minusWordsServer ℝ).documents_.keys := by
    rw [hkeys]; decide
  have a := (C23_failed_AddDocument (Examples.minusWordsServer ℝ) (-1) "dog".toList .ACTUAL
    []).1 (by decide)
  have b := (C23_failed_AddDocument (Examples.minusWordsServer ℝ) 0 "dog".toList .ACTUAL
    []).2.1 h0
  have c := (C23_failed_AddDocument (Examples.minusWordsServer ℝ) 3
    [Char.ofNat 99, Char.ofNat 9] .BANNED [4]).2.2 (by decide) h3
    ⟨Char.ofNat 9, by decide, by decide⟩
  refine ⟨a, h0, b, h3, c.1, c.2.1.trans (by rfl), hcount, ?_, ?_⟩
  · rw [c.2.2.2.1, hcount]
  · rw [c.2.2.2.2.2.2.1, (Examples.minusWordsServer_reachable (F := ℝ)).inv.ids_eq, hkeys]

/-- C24.  For every query string that `ParseQuery` accepts, the plus set and the minus
set are ordered, so that every word occurs once; a word is in the plus set exactly when
it is a slice of the query that does not begin with `-` and is no stop word; a word is
in the minus set exactly when the word with a `-` in front is a slice of the query and
the word itself is no stop word. -/
theorem C24_parsed_sets (s : SearchServer F) (raw_query : Str) (query : Query)
    (h : s.ParseQuery raw_query = .ok query) :
    OrdSet.WF query.plus_words ∧ OrdSet.WF query.minus_words ∧
    (∀ w, w ∈ query.plus_words ↔
      w ∈ SplitIntoWords raw_query ∧ w.head? ≠ some '-' ∧ s.IsStopWord w = false) ∧
    (∀ w, w ∈ query.minus_words ↔
      ('-' :: w) ∈ SplitIntoWords raw_query ∧ s.IsStopWord w = false) := by
  rw [ParseQuery_eq] at h
  split_ifs at h
  have h' := Except.ok.inj h
  subst h'
  refine ⟨OrdSet.WF_foldl_insert _ List.Pairwise.nil, OrdSet.WF_foldl_insert _ List.Pairwise.nil,
    fun w => ?_, fun w => ?_⟩
  · show w ∈ List.foldl OrdSet.insert [] (plusTerms s raw_query) ↔ _
    rw [OrdSet.mem_foldl_insert]
    unfold plusTerms
    simp [List.mem_filter]
  · show w ∈ List.foldl OrdSet.insert [] (minusTerms s raw_query) ↔ _
    rw [OrdSet.mem_foldl_insert]
    unfold minusTerms
    simp only [List.not_mem_nil, false_or, List.mem_filter, List.mem_map, decide_eq_true_eq,
      Bool.not_eq_true']
    constructor
    · rintro ⟨⟨a, ⟨ha, hhead⟩, rfl⟩, hst⟩
      refine ⟨?_, hst⟩
      cases a with
      | nil => cases hhead
      | cons c t =>
        simp only [List.head?_cons, Option.some.injEq] at hhead
        subst hhead
        exact ha
    · rintro ⟨hw, hst⟩
      exact ⟨⟨'-' :: w, ⟨hw, rfl⟩, rfl⟩, hst⟩

/-- C24 on the server with the stop words `in the` and the query
`cat -cat in -the dog -city cat`: the plus set is `cat`, `dog`, the minus set is `cat`,
`city`; the stop words `in` and `the` are in neither, and `cat` is in both. -/
theorem C24_parsed_sets_witness :
    (Examples.stopServer ℝ).ParseQuery "cat -cat in -the dog -city cat".toList =
      .ok ⟨["cat".toList, "dog".toList], ["cat".toList, "city".toList]⟩ ∧
    ("cat".toList ∈ ["cat".toList, "dog".toList] ↔
      "cat".toList ∈ SplitIntoWords "cat -cat in -the dog -city cat".toList ∧
        "cat".toList.head? ≠ some '-' ∧ (Examples.stopServer ℝ).IsStopWord "cat".toList = false) ∧
    ("the".toList ∈ ["cat".toList, "city".toList] ↔
      "-the".toList ∈ SplitIntoWords "cat -cat in -the dog -city cat".toList ∧
        (Examples.stopServer ℝ).IsStopWord "the".toList = false) ∧
    "the".toList ∉ ["cat".toList, "city".toList] := by
  have hparse : (Examples.stopServer ℝ).ParseQuery "cat -cat in -the dog -city cat".toList =
      .ok ⟨["cat".toList, "dog".toList], ["cat".toList, "city".toList]⟩ := rfl
  have key := C24_parsed_sets (Examples.stopServer ℝ) _ _ hparse
  exact ⟨hparse, key.2.2.1 _, key.2.2.2 _, by decide⟩

end SearchServer


namespace SearchServer

variable {F : Type} [LinearOrderedField F]

/-- C25 fails as stated.  On the freshly constructed server without stop words,
`AddDocument(1, "cat ", ACTUAL, {})` with a trailing space returns, and the empty
string is then a key of the postings and of the forward entry of the document; the
token count is 2, so that `cat` has the term frequency 1/2. -/
theorem C25_index_terms_counterexample :
    Reachable ((Examples.emptyServer ℝ).AddDocument 1 "cat ".toList .ACTUAL []).2 ∧
    ((Examples.emptyServer ℝ).AddDocument 1 "cat ".toList .ACTUAL []).1 = .ok () ∧
    SplitIntoWords "cat ".toList = ["cat".toList, []] ∧
    ((Examples.emptyServer ℝ).AddDocument 1 "cat ".toList .ACTUAL
      []).2.word_to_document_freqs_.keys = [[], "cat".toList] ∧
    (((Examples.emptyServer ℝ).AddDocument 1 "cat ".toList .ACTUAL
      []).2.GetWordFrequencies 1).keys = [[], "cat".toList] ∧
    (((Examples.emptyServer ℝ).AddDocument 1 "cat ".toList .ACTUAL
      []).2.GetWordFrequencies 1).find "cat".toList = some (1 / 2) ∧
    (((Examples.emptyServer ℝ).AddDocument 1 "cat ".toList .ACTUAL
      []).2.GetWordFrequencies 1).find [] = some (1 / 2) := by
  have hreach : Reachable ((Examples.emptyServer ℝ).AddDocument 1 "cat ".toList .ACTUAL []).2 :=
    Examples.emptyServer_reachable.add_ok .ACTUAL [] (by decide) rfl (by decide)
  have hfind : ((Examples.emptyServer ℝ).AddDocument 1 "cat ".toList .ACTUAL
      []).2.documents_.find 1 = some ⟨0, .ACTUAL, "cat ".toList⟩ := by rfl
  have hwords : ((Examples.emptyServer ℝ).AddDocument 1 "cat ".toList .ACTUAL
      []).2.nonStopWords "cat ".toList = ["cat".toList, []] := by rfl
  have hfwd := hreach.inv.forward_some 1 _ hfind
  simp only [hwords] at hfwd
  refine ⟨hreach, rfl, by decide, by rfl, by rfl, ?_, ?_⟩
  · rw [← find2_forward_eq, hfwd]
    unfold termFreq
    rw [if_pos (by decide)]
    simp [List.count_cons]
  · rw [← find2_forward_eq, hfwd]
    unfold termFreq
    rw [if_pos (by decide)]
    simp [List.count_cons]

/-- With the keys of the postings held by value: in every state reached by calls of
`AddDocument` that return and by calls of `RemoveDocument`, every term that is a key of
the postings or of an entry of the forward index has no space and no byte with a value
in 0..31, and is no stop word.  The empty string is never a stop word, and it is a
term like any other: when `AddDocument` returns for a text that has an empty slice, the
empty string is among the tokens that are counted, it is a key of the postings, and the
forward entry of the document maps every token to its number of occurrences divided by
the number of tokens that counts the empty slices. -/
lemma index_terms_of_reachable (s : SearchServer F) (hs : Reachable s) :
    (∀ w, (w ∈ s.word_to_document_freqs_.keys ∨
        ∃ id freqs, s.document_to_word_freqs_.find id = some freqs ∧ w ∈ freqs.keys) →
      ' ' ∉ w ∧ (∀ c ∈ w, 32 ≤ c.toNat) ∧ w ∉ s.stop_words_) ∧
    ([] : Str) ∉ s.stop_words_ ∧
    (∀ (id : Int) (text : Str) (status : DocumentStatus) (ratings : List Int)
      (s' : SearchServer F),
      s.AddDocument id text status ratings = (.ok (), s') → [] ∈ SplitIntoWords text →
      [] ∈ s.nonStopWords text ∧ [] ∈ s'.word_to_document_freqs_.keys ∧
      ∀ w ∈ s.nonStopWords text, (s'.GetWordFrequencies id).find w =
        some (((s.nonStopWords text).count w : F) / ((s.nonStopWords text).length : F))) := by
  have hempty : ([] : Str) ∉ s.stop_words_ := fun hc => hs.any.stop_nonempty [] hc rfl
  refine ⟨fun w hw => ?_, hempty, fun id text status ratings s' hadd hsl => ?_⟩
  · have hQ := hs.any.keys_prop (fun w => ' ' ∉ w ∧ ∀ c ∈ w, 32 ≤ c.toNat)
      (fun text hvalid w hw =>
        ⟨SplitIntoWords_no_space text w hw,
          (IsValidWord_iff w).1 ((all_valid_SplitIntoWords text).2 hvalid w hw)⟩)
    rcases hw with hw | ⟨id, freqs, hf, hw⟩
    · have h1 := (OrdMap.find_isSome_iff_mem_keys _ _).2 hw
      refine ⟨(hQ.1 w h1).1, (hQ.1 w h1).2, fun hst => ?_⟩
      rw [(hs.any.no_stop hst).1] at h1
      cases h1
    · have h1 : OrdMap.find2 s.document_to_word_freqs_ id w ≠ none := by
        rw [OrdMap.find2_eq_of_find hf, ← Option.isSome_iff_ne_none,
          OrdMap.find_isSome_iff_mem_keys]
        exact hw
      exact ⟨(hQ.2 id w h1).1, (hQ.2 id w h1).2, fun hst => h1 ((hs.any.no_stop hst).2 id)⟩
  · have hin : [] ∈ s.nonStopWords text := by
      rw [mem_nonStopWords]
      refine ⟨hsl, ?_⟩
      rw [← Bool.not_eq_true, IsStopWord_iff]
      exact hempty
    have hinv' := Inv_add hs.inv hadd
    obtain ⟨hstop, hdocs, _, _⟩ := AddDocument_ok_state hadd
    have hfind : s'.documents_.find id = some ⟨ComputeAverageRating ratings, status, text⟩ := by
      rw [hdocs, OrdMap.find_assign, if_pos rfl]
    refine ⟨hin, ?_, fun w hw => ?_⟩
    · rw [← OrdMap.find_isSome_iff_mem_keys]
      exact (AddDocument_postings_keys hadd []).2 (Or.inl hin)
    · rw [← find2_forward_eq, hinv'.forward_some id _ hfind w, nonStopWords_congr hstop]
      unfold termFreq
      rw [if_pos hw]

end SearchServer

/-- C26.  `SplitIntoWords` is a total function, and for every string: no slice of the
result has a space, the number of slices is the number of spaces of the string plus
one, joining the slices with one space between them gives the string back, and the
empty string gives the one-element list of the empty string.  The loop of the program
leaves with this result in its iteration number `spaces + 1` and not before. -/
theorem C26_SplitIntoWords (str : Str) :
    (∀ w ∈ SplitIntoWords str, ' ' ∉ w) ∧
    (SplitIntoWords str).length = str.count ' ' + 1 ∧
    List.intercalate [' '] (SplitIntoWords str) = str ∧
    SplitIntoWords [] = [[]] ∧
    (∀ fuel, str.count ' ' < fuel → SplitIntoWordsLoop fuel str [] = some (SplitIntoWords str)) ∧
    (∀ fuel, fuel ≤ str.count ' ' → SplitIntoWordsLoop fuel str [] = none) :=
  ⟨SplitIntoWords_no_space str, length_SplitIntoWords str, intercalate_SplitIntoWords str, rfl,
    fun fuel h => by rw [SplitIntoWordsLoop_eq fuel str [] h, List.nil_append],
    fun fuel h => SplitIntoWordsLoop_none fuel str [] h⟩

/-- C26 on the string ` cat  in ` with a leading space, two adjacent spaces and a
trailing space: it has four spaces and five slices, three of them empty, and the loop
returns them in its fifth iteration. -/
theorem C26_SplitIntoWords_witness :
    SplitIntoWords " cat  in ".toList = [[], "cat".toList, [], "in".toList, []] ∧
    " cat  in ".toList.count ' ' = 4 ∧
    List.intercalate [' '] [[], "cat".toList, [], "in".toList, []] = " cat  in ".toList ∧
    SplitIntoWordsLoop 5 " cat  in ".toList [] =
      some [[], "cat".toList, [], "in".toList, []] ∧
    SplitIntoWordsLoop 4 " cat  in ".toList [] = none := by
  have h : SplitIntoWords " cat  in ".toList = [[], "cat".toList, [], "in".toList, []] := by
    decide
  have key := C26_SplitIntoWords " cat  in ".toList
  refine ⟨h, by decide, ?_, ?_, key.2.2.2.2.2 4 (by decide)⟩
  · rw [← h]; exact key.2.2.1
  · rw [← h]; exact key.2.2.2.2.1 5 (by decide)

/-- C27 fails as stated.  The string `cat` ends in a character that is no space, and
`SplitIntoWords` returns the one slice `cat`: the last element of the list is not the
empty string. -/
theorem C27_last_slice_counterexample :
    "cat".toList.getLast? = some 't' ∧ 't' ≠ ' ' ∧
    SplitIntoWords "cat".toList = ["cat".toList] ∧
    (SplitIntoWords "cat".toList).getLast? = some "cat".toList ∧
    (SplitIntoWords "cat".toList).getLast? ≠ some [] := by
  decide

/-- C27, amended.  The last element of the list that `SplitIntoWords` returns is the
empty string if and only if the input is empty or ends in a space.  For an input that
ends in a character that is no space, the last element is not empty and ends in that
character. -/
theorem C27_last_slice (str : Str) :
    ((SplitIntoWords str).getLast? = some [] ↔ str = [] ∨ str.getLast? = some ' ') ∧
    (∀ c, c ≠ ' ' → str.getLast? = some c →
      ∃ last, (SplitIntoWords str).getLast? = some last ∧ last ≠ [] ∧
        last.getLast? = some c) := by
  rcases List.eq_nil_or_concat str with rfl | ⟨t, x, rfl⟩
  · exact ⟨⟨fun _ => Or.inl rfl, fun _ => rfl⟩, fun c _ hc => by cases hc⟩
  · simp only [List.concat_eq_append]
    by_cases hx : x = ' '
    · subst hx
      constructor
      · rw [SplitIntoWords_append_space]
        simp
      · intro c hc hlast
        rw [List.getLast?_append, List.getLast?_singleton] at hlast
        simp only [Option.or_some, Option.some.injEq] at hlast
        exact absurd hlast.symm hc
    · obtain ⟨init, last, _, h2⟩ := SplitIntoWords_append_char t hx
      rw [h2]
      constructor
      · simp [hx]
      · intro c _ hlast
        rw [List.getLast?_append, List.getLast?_singleton] at hlast
        simp only [Option.or_some, Option.some.injEq] at hlast
        subst hlast
        exact ⟨last ++ [x], by simp, by simp, by simp⟩

/-- C27 as amended, on `cat`, which ends in `t`, and on `cat ` and the empty string,
whose last slice is empty. -/
theorem C27_last_slice_witness :
    (∃ last, (SplitIntoWords "cat".toList).getLast? = some last ∧ last ≠ [] ∧
      last.getLast? = some 't') ∧
    (SplitIntoWords "cat ".toList).getLast? = some [] ∧
    (SplitIntoWords []).getLast? = some [] :=
  ⟨(C27_last_slice "cat".toList).2 't' (by decide) (by decide),
    (C27_last_slice "cat ".toList).1.2 (Or.inr (by decide)),
    (C27_last_slice []).1.2 (Or.inl rfl)⟩


namespace SearchServer

variable {F : Type} [LinearOrderedField F]

end SearchServer

namespace ConcurrentMap

variable {V : Type}

/-- C29.  For every number of buckets `N ≥ 1`, every default value and every sequence
of operations applied one after the other to a `ConcurrentMap` with `N` buckets
(an update through `operator[]`, which first inserts the default value when the key is
absent, and `Erase`), `BuildOrdinaryMap` returns exactly the map that the same
operations build on a single `std::map`.  The result is the same for every `N`, its
keys are in ascending order and every key occurs once. -/
theorem C29_BuildOrdinaryMap (N : Nat) (hN : 1 ≤ N) (dflt : V) (ops : List (MapOp V)) :
    (ops.foldl (applyOp dflt) (create N)).BuildOrdinaryMap =
      ops.foldl (OrdMap.applyOp dflt) [] ∧
    (∀ M, 1 ≤ M → (ops.foldl (applyOp dflt) (create M)).BuildOrdinaryMap =
      (ops.foldl (applyOp dflt) (create N)).BuildOrdinaryMap) ∧
    OrdMap.WF (ops.foldl (applyOp dflt) (create N)).BuildOrdinaryMap ∧
    (OrdMap.keys (ops.foldl (applyOp dflt) (create N)).BuildOrdinaryMap).Nodup := by
  have key : ∀ M, 1 ≤ M → ∀ (l : List (MapOp V)) (cm : ConcurrentMap V) (m : OrdMap Int V),
      Sim cm m → Sim (l.foldl (applyOp dflt) cm) (l.foldl (OrdMap.applyOp dflt) m) := by
    intro M _ l
    induction l with
    | nil => exact fun cm m h => h
    | cons op rest ih =>
      intro cm m h
      rw [List.foldl_cons, List.foldl_cons]
      apply ih
      cases op with
      | update k f => exact h.access k dflt f
      | erase k => exact h.erase k
  have hsim : ∀ M, 1 ≤ M → (ops.foldl (applyOp dflt) (create M)).BuildOrdinaryMap =
      ops.foldl (OrdMap.applyOp dflt) [] :=
    fun M hM => (key M hM ops _ _ (Sim.create M hM)).build_eq
  refine ⟨hsim N hN, fun M hM => (hsim M hM).trans (hsim N hN).symm,
    BuildOrdinaryMap_WF _, OrdMap.WF_nodup (BuildOrdinaryMap_WF _)⟩

/-- C29 on six operations with the default value 0 on maps with 1, 3 and 64 buckets:
add 1 under 5, add 2 under -1, add 10 under 5, erase 7, erase -1, add 4 under 70.  The
snapshot holds 11 under 5 and 4 under 70. -/
theorem C29_BuildOrdinaryMap_witness :
    (List.foldl (applyOp (0 : Int)) (create 3)
      [.update 5 (fun x => x + 1), .update (-1) (fun x => x + 2), .update 5 (fun x => x + 10),
        .erase 7, .erase (-1), .update 70 (fun x => x + 4)]).BuildOrdinaryMap =
      [(5, 11), (70, 4)] ∧
    (List.foldl (applyOp (0 : Int)) (create 1)
      [.update 5 (fun x => x + 1), .update (-1) (fun x => x + 2), .update 5 (fun x => x + 10),
        .erase 7, .erase (-1), .update 70 (fun x => x + 4)]).BuildOrdinaryMap =
      [(5, 11), (70, 4)] ∧
    (List.foldl (applyOp (0 : Int)) (create 64)
      [.update 5 (fun x => x + 1), .update (-1) (fun x => x + 2), .update 5 (fun x => x + 10),
        .erase 7, .erase (-1), .update 70 (fun x => x + 4)]).BuildOrdinaryMap =
      [(5, 11), (70, 4)] := by
  have h : List.foldl (OrdMap.applyOp (0 : Int)) []
      [.update 5 (fun x => x + 1), .update (-1) (fun x => x + 2), .update 5 (fun x => x + 10),
        .erase 7, .erase (-1), .update 70 (fun x => x + 4)] = [(5, 11), (70, 4)] := by
    decide
  exact ⟨(C29_BuildOrdinaryMap 3 (by decide) 0 _).1.trans h,
    (C29_BuildOrdinaryMap 1 (by decide) 0 _).1.trans h,
    (C29_BuildOrdinaryMap 64 (by decide) 0 _).1.trans h⟩

/-- C30 fails as stated.  For the key -1 and three buckets, `GetBucket` selects the
bucket `(2 ^ 64 - 1) mod 3 = 0`, and `|-1| mod 3` is 1. -/
theorem C30_GetBucket_counterexample :
    (create 3 : ConcurrentMap Int).maps_.length = 3 ∧
    (create 3 : ConcurrentMap Int).GetBucket (-1) = 0 ∧
    (-1 : Int).natAbs % 3 = 1 ∧
    (create 64 : ConcurrentMap Int).GetBucket (-1) = 63 ∧
    (-1 : Int).natAbs % 64 = 1 := by
  decide

/-- C30, amended.  For every integer key `k` and every number of buckets `N ≥ 1`, the
bucket that `GetBucket` selects is `(k mod 2 ^ 64) mod N`, the key converted to an
unsigned 64-bit integer modulo `N`, and it is in the range `0..N-1`.  For a key
`0 ≤ k < 2 ^ 64` this is `|k| mod N`; for a key `-2 ^ 64 < k < 0` it is
`(2 ^ 64 - |k|) mod N`. -/
theorem C30_GetBucket (cm : ConcurrentMap V) (hN : 1 ≤ cm.maps_.length) (k : Int) :
    cm.GetBucket k = (k % 2 ^ 64).toNat % cm.maps_.length ∧
    cm.GetBucket k < cm.maps_.length ∧
    (0 ≤ k → k < 2 ^ 64 → cm.GetBucket k = k.natAbs % cm.maps_.length) ∧
    (k < 0 → -2 ^ 64 < k → cm.GetBucket k = (2 ^ 64 - k.natAbs) % cm.maps_.length) := by
  refine ⟨rfl, GetBucket_lt cm (by omega) k, fun h1 h2 => ?_, fun h1 h2 => ?_⟩
  · unfold GetBucket
    congr 1
    omega
  · unfold GetBucket
    congr 1
    omega

/-- C30 as amended, on maps with 3 and 64 buckets: the key 5 goes to the buckets 2 and
5, the key 70 to the buckets 1 and 6, and the key -1 to the buckets 0 and 63. -/
theorem C30_GetBucket_witness :
    (create 3 : ConcurrentMap Int).GetBucket 5 = 2 ∧
    (create 64 : ConcurrentMap Int).GetBucket 5 = 5 ∧
    (create 3 : ConcurrentMap Int).GetBucket 70 = 1 ∧
    (create 64 : ConcurrentMap Int).GetBucket 70 = 6 ∧
    (create 3 : ConcurrentMap Int).GetBucket (-1) = 0 ∧
    (create 64 : ConcurrentMap Int).GetBucket (-1) = 63 ∧
    (create 64 : ConcurrentMap Int).GetBucket (-1) < 64 :=
  ⟨((C30_GetBucket (create 3 : ConcurrentMap Int) (by decide) 5).2.2.1 (by decide)
      (by decide)).trans (by decide),
    ((C30_GetBucket (create 64 : ConcurrentMap Int) (by decide) 5).2.2.1 (by decide)
      (by decide)).trans (by decide),
    ((C30_GetBucket (create 3 : ConcurrentMap Int) (by decide) 70).2.2.1 (by decide)
      (by decide)).trans (by decide),
    ((C30_GetBucket (create 64 : ConcurrentMap Int) (by decide) 70).2.2.1 (by decide)
      (by decide)).trans (by decide),
    ((C30_GetBucket (create 3 : ConcurrentMap Int) (by decide) (-1)).2.2.2 (by decide)
      (by decide)).trans (by decide),
    ((C30_GetBucket (create 64 : ConcurrentMap Int) (by decide) (-1)).2.2.2 (by decide)
      (by decide)).trans (by decide),
    (C30_GetBucket (create 64 : ConcurrentMap Int) (by decide) (-1)).2.1⟩

end ConcurrentMap


/-! ### The loop of `Paginator` -/

namespace Paginator

/-- The number of pages for `n` elements is 0 exactly for `n = 0`. -/
lemma pageCount_zero (page_size : Nat) : (0 + page_size - 1) / page_size = 0 := by
  rcases Nat.eq_zero_or_pos page_size with h | h
  · subst h; rfl
  · exact Nat.div_eq_of_lt (by omega)

/-- One page more for the elements after the first page. -/
lemma pageCount_succ {n page_size : Nat} (hp : 1 ≤ page_size) (hn : 0 < n) :
    (n + page_size - 1) / page_size =
      (n - min page_size n + page_size - 1) / page_size + 1 := by
  rcases le_total page_size n with h | h
  · rw [min_eq_left h]
    have : n + page_size - 1 = (n - page_size + page_size - 1) + page_size := by omega
    rw [this, Nat.add_div_right _ (by omega)]
  · rw [min_eq_right h, Nat.sub_self, pageCount_zero]
    exact Nat.div_eq_of_lt_le (by omega) (by omega)

lemma pages_zero (first page_size : Nat) : pages first 0 page_size = [] := by
  unfold pages
  rw [pageCount_zero]
  rfl

/-- The first page, and the pages of the rest. -/
lemma pages_pos (first : Nat) {n page_size : Nat} (hp : 1 ≤ page_size) (hn : 0 < n) :
    pages first n page_size =
      IteratorRange.create first (first + min page_size n) ::
        pages (first + min page_size n) (n - min page_size n) page_size := by
  unfold pages
  rw [pageCount_succ hp hn, List.range_succ_eq_map, List.map_cons, List.map_map]
  congr 1
  · simp
  · apply List.map_congr_left
    intro i hi
    have hi' := List.mem_range.1 hi
    rcases le_total page_size n with h | h
    · have h1 : min page_size n = page_size := min_eq_left h
      simp only [Function.comp, h1]
      have e1 : first + (i + 1) * page_size = first + page_size + i * page_size := by ring
      have e2 : first + min ((i + 1 + 1) * page_size) n =
          first + page_size + min ((i + 1) * page_size) (n - page_size) := by
        have : (i + 1 + 1) * page_size = (i + 1) * page_size + page_size := by ring
        rw [this]
        rcases le_total ((i + 1) * page_size) (n - page_size) with h2 | h2
        · rw [min_eq_left h2, min_eq_left (by omega)]; omega
        · rw [min_eq_right h2, min_eq_right (by omega)]; omega
      rw [e1, e2]
    · rw [min_eq_right h, Nat.sub_self, pageCount_zero] at hi'
      omega

/-- The loop started with `left` elements to go: it ends at the test number
`left / page_size` rounded up, plus one, with the pages of the rest appended. -/
lemma loop_eq {page_size : Nat} (hp : 1 ≤ page_size) (left : Nat) :
    ∀ (fuel first : Nat) (pages_ : List IteratorRange),
      loop fuel left first page_size pages_ =
        if fuel ≤ (left + page_size - 1) / page_size then none
        else some (pages_ ++ pages first left page_size) := by
  induction left using Nat.strong_induction_on with
  | _ left ih =>
    intro fuel first pages_
    cases fuel with
    | zero => simp [loop]
    | succ fuel =>
      unfold loop
      rcases Nat.eq_zero_or_pos left with h0 | hpos
      · subst h0
        rw [if_neg (by omega), pages_zero, pageCount_zero, if_neg (by omega), List.append_nil]
      · rw [if_pos hpos, ih (left - min page_size left) (by omega), pageCount_succ hp hpos,
          pages_pos first hp hpos]
        by_cases hf : fuel ≤ (left - min page_size left + page_size - 1) / page_size
        · rw [if_pos hf, if_pos (by omega)]
        · rw [if_neg hf, if_neg (by omega), List.append_assoc]
          rfl

/-- Without progress the loop never ends. -/
lemma loop_zero {left : Nat} (h : 0 < left) :
    ∀ (fuel first : Nat) (pages_ : List IteratorRange), loop fuel left first 0 pages_ = none := by
  intro fuel
  induction fuel with
  | zero => intro first pages_; rfl
  | succ fuel ih =>
    intro first pages_
    unfold loop
    rw [if_pos h, Nat.zero_min, Nat.sub_zero]
    exact ih _ _

/-- The pages, one after the other, hold the elements of the range. -/
lemma flatten_pages {α : Type} (c : List α) {page_size : Nat} (hp : 1 ≤ page_size) (n : Nat) :
    ∀ first, ((pages first n page_size).map (IteratorRange.elements c)).flatten =
      (c.drop first).take n := by
  induction n using Nat.strong_induction_on with
  | _ n ih =>
    intro first
    rcases Nat.eq_zero_or_pos n with h0 | hpos
    · subst h0
      rw [pages_zero]
      simp
    · rw [pages_pos first hp hpos, List.map_cons, List.flatten_cons,
        ih (n - min page_size n) (by omega)]
      unfold IteratorRange.elements IteratorRange.create
      simp only [Nat.add_sub_cancel_left]
      have h1 : List.drop (first + min page_size n) c =
          List.drop (min page_size n) (List.drop first c) := by
        rw [List.drop_drop, Nat.add_comm]
      rw [h1, ← List.drop_take]
      have h2 : List.take (min page_size n) (List.drop first c) =
          List.take (min page_size n) (List.take n (List.drop first c)) := by
        rw [List.take_take, min_eq_left (min_le_right _ _)]
      rw [h2, List.take_append_drop]

/-- The page at position `i`. -/
lemma getElem?_pages (first n page_size i : Nat) :
    (pages first n page_size)[i]? =
      if i < (n + page_size - 1) / page_size then
        some (IteratorRange.create (first + i * page_size)
          (first + min ((i + 1) * page_size) n))
      else none := by
  unfold pages
  rw [List.getElem?_map]
  by_cases h : i < (n + page_size - 1) / page_size
  · rw [if_pos h, List.getElem?_range h]
    rfl
  · rw [if_neg h, List.getElem?_eq_none (by rw [List.length_range]; omega)]
    rfl

end Paginator



/-! ### The request queue -/

namespace RequestQueue

variable {F : Type} [LinearOrderedField F]

/-- The entry that `AddFindRequest` pushes for a result. -/
lemma AddFindRequest_ok {log : F → F} (rq : RequestQueue F) {s : SearchServer F} {raw_query : Str}
    {pred : Int → DocumentStatus → Int → Bool} {found_docs : List (Document F)}
    (h : SearchServer.FindTopDocuments log s raw_query pred = .ok found_docs) :
    AddFindRequest log rq s raw_query pred =
      (.ok found_docs,
        dropFront ⟨rq.requests_ ++ [⟨found_docs.isEmpty, found_docs⟩],
          rq.no_result_requests_ + if found_docs.isEmpty then 1 else 0⟩) := by
  unfold AddFindRequest
  rw [h]
  by_cases hd : found_docs.isEmpty = true
  · simp only [hd, if_true]
  · have hd' : found_docs.isEmpty = false := by simpa using hd
    simp only [hd', Bool.false_eq_true, if_false, add_zero]

lemma AddFindRequest_error {log : F → F} (rq : RequestQueue F) {s : SearchServer F}
    {raw_query : Str} {pred : Int → DocumentStatus → Int → Bool} {e : Exception}
    (h : SearchServer.FindTopDocuments log s raw_query pred = .error e) :
    AddFindRequest log rq s raw_query pred = (.error e, rq) := by
  unfold AddFindRequest
  rw [h]

/-- The front is dropped when the queue is longer than `sec_in_day_`. -/
lemma dropFront_requests (rq : RequestQueue F) :
    (dropFront rq).requests_ =
      if rq.requests_.length > 1440 then rq.requests_.drop 1 else rq.requests_ := by
  unfold dropFront sec_in_day_
  by_cases h : rq.requests_.length > 1440
  · rw [if_pos h, if_pos h]
    cases hr : rq.requests_ with
    | nil => rw [hr] at h; exact absurd h (by simp)
    | cons front rest => rfl
  · rw [if_neg h, if_neg h]

/-- The counter stays the number of the requests without result when the front is
dropped. -/
lemma dropFront_counter {rq : RequestQueue F}
    (h : rq.no_result_requests_ = ((rq.requests_.filter (fun r => r.is_empty)).length : Int)) :
    (dropFront rq).no_result_requests_ =
      (((dropFront rq).requests_.filter (fun r => r.is_empty)).length : Int) := by
  unfold dropFront
  by_cases hl : rq.requests_.length > sec_in_day_
  · rw [if_pos hl]
    obtain ⟨requests_, n⟩ := rq
    cases requests_ with
    | nil => exact h
    | cons front rest =>
      simp only at h ⊢
      rw [List.filter_cons] at h
      cases hf : front.is_empty
      · rw [hf] at h
        simpa using h
      · rw [hf] at h
        simp only [if_true, List.length_cons, Nat.cast_add, Nat.cast_one] at h
        simp only [if_true]
        omega
  · rw [if_neg hl]
    exact h

/-- The queue after a call that returns `d`, when it held the last 1440 of the results
`hist` before. -/
lemma push_requests (hist : List (List (Document F))) (d : List (Document F)) (n : Int) :
    (dropFront ⟨(hist.drop (hist.length - 1440)).map (fun d => ⟨d.isEmpty, d⟩) ++
        [⟨d.isEmpty, d⟩], n⟩).requests_ =
      ((hist ++ [d]).drop ((hist ++ [d]).length - 1440)).map
        (fun d => (⟨d.isEmpty, d⟩ : QueryResult F)) := by
  rw [dropFront_requests]
  simp only [List.length_append, List.length_map, List.length_drop, List.length_singleton]
  have happ : (hist.drop (hist.length - 1440)).map (fun d => (⟨d.isEmpty, d⟩ : QueryResult F)) ++
      [⟨d.isEmpty, d⟩] =
      ((hist ++ [d]).drop (hist.length - 1440)).map (fun d => ⟨d.isEmpty, d⟩) := by
    rw [List.drop_append_of_le_length (by omega), List.map_append]
    rfl
  rw [happ]
  by_cases h : hist.length - (hist.length - 1440) + 1 > 1440
  · rw [if_pos h, ← List.map_drop, List.drop_drop]
    have e : hist.length - 1440 + 1 = hist.length + 1 - 1440 := by omega
    rw [e]
  · rw [if_neg h]
    have e : hist.length - 1440 = hist.length + 1 - 1440 := by omega
    rw [e]

/-- A series of calls on a queue that holds the last 1440 of the results `hist` and
counts those without result: afterwards the queue holds the last 1440 of `hist`
followed by the results of the calls that return, and counts those without result. -/
lemma addRequests_holds (log : F → F)
    (calls : List (SearchServer F × Str × (Int → DocumentStatus → Int → Bool))) :
    ∀ (rq : RequestQueue F) (hist : List (List (Document F))),
      rq.requests_ = (hist.drop (hist.length - 1440)).map (fun d => ⟨d.isEmpty, d⟩) →
      rq.no_result_requests_ = ((rq.requests_.filter (fun r => r.is_empty)).length : Int) →
      (addRequests log rq calls).requests_ =
        ((hist ++ returned log calls).drop ((hist ++ returned log calls).length - 1440)).map
          (fun d => ⟨d.isEmpty, d⟩) ∧
      (addRequests log rq calls).no_result_requests_ =
        (((addRequests log rq calls).requests_.filter (fun r => r.is_empty)).length : Int) := by
  induction calls with
  | nil =>
    intro rq hist h1 h2
    simp only [returned, List.filterMap_nil, List.append_nil]
    exact ⟨h1, h2⟩
  | cons call calls ih =>
    intro rq hist h1 h2
    have hadd : addRequests log rq (call :: calls) =
        addRequests log (AddFindRequest log rq call.1 call.2.1 call.2.2).2 calls := rfl
    rw [hadd]
    cases hf : SearchServer.FindTopDocuments log call.1 call.2.1 call.2.2 with
    | error e =>
      have hret : returned log (call :: calls) = returned log calls := by
        unfold returned
        rw [List.filterMap_cons, hf]
      rw [AddFindRequest_error rq hf, hret]
      exact ih rq hist h1 h2
    | ok d =>
      have hret : returned log (call :: calls) = d :: returned log calls := by
        unfold returned
        rw [List.filterMap_cons, hf]
      rw [AddFindRequest_ok rq hf, hret]
      have := ih (dropFront ⟨rq.requests_ ++ [⟨d.isEmpty, d⟩],
          rq.no_result_requests_ + if d.isEmpty then 1 else 0⟩) (hist ++ [d])
        (by rw [h1]; exact push_requests hist d _)
        (dropFront_counter (by
          simp only
          rw [List.filter_append, List.length_append, h2]
          cases d.isEmpty <;> simp))
      rw [List.append_assoc] at this
      exact this

end RequestQueue




/-! ### The term frequencies of a document -/

namespace SearchServer

variable {F : Type} [LinearOrderedField F]

/-- A map that holds the term frequencies of a list of words that is not empty: every
value lies in (0, 1] and the values add up to 1. -/
lemma sum_termFreq {m : OrdMap Str F} (hm : m.WF) {words : List Str} (hne : words ≠ [])
    (hfind : ∀ w, m.find w = termFreq words w) :
    m ≠ [] ∧ (∀ e ∈ m, 0 < e.2 ∧ e.2 ≤ 1) ∧ (m.map Prod.snd).sum = 1 := by
  have hlen : (0 : F) < (words.length : F) := by
    have : 0 < words.length := List.length_pos.2 hne
    exact_mod_cast this
  have hval : ∀ e ∈ m, e.1 ∈ words ∧ e.2 = (words.count e.1 : F) / (words.length : F) := by
    intro e he
    have h1 : m.find e.1 = some e.2 := (OrdMap.mem_iff_find hm e.1 e.2).1 he
    rw [hfind] at h1
    unfold termFreq at h1
    split_ifs at h1 with hw
    exact ⟨hw, (Option.some.inj h1).symm⟩
  have hkeys : ∀ w, w ∈ OrdMap.keys m ↔ w ∈ words := by
    intro w
    rw [← OrdMap.find_isSome_iff_mem_keys, hfind, ← termFreq_ne_none (F := F),
      Option.isSome_iff_ne_none]
  refine ⟨?_, ?_, ?_⟩
  · intro hc
    obtain ⟨w, hw⟩ := List.exists_mem_of_ne_nil _ hne
    have := (hkeys w).2 hw
    rw [hc] at this
    cases this
  · intro e he
    obtain ⟨hw, hv⟩ := hval e he
    rw [hv]
    have hc : 0 < words.count e.1 := List.count_pos_iff.2 hw
    have hle : words.count e.1 ≤ words.length := List.count_le_length _ _
    constructor
    · exact div_pos (by exact_mod_cast hc) hlen
    · rw [div_le_one hlen]
      exact_mod_cast hle
  · have h1 : m.map Prod.snd =
        (OrdMap.keys m).map (fun w => (words.count w : F) * (words.length : F)⁻¹) := by
      unfold OrdMap.keys
      rw [List.map_map]
      apply List.map_congr_left
      intro e he
      rw [(hval e he).2, div_eq_mul_inv]
      rfl
    have hperm : List.Perm (OrdMap.keys m) words.dedup := by
      rw [List.perm_ext_iff_of_nodup (OrdMap.WF_nodup hm) (List.nodup_dedup _)]
      intro w
      rw [hkeys, List.mem_dedup]
    rw [h1, List.sum_map_mul_right, (hperm.map _).sum_eq]
    have h2 : ((words.dedup.map (fun w => (words.count w : F))).sum : F) =
        (((words.dedup.map (fun w => words.count w)).sum : Nat) : F) := by
      rw [Nat.cast_list_sum, List.map_map]
      rfl
    have h3 : (words.dedup.map (fun w => words.count w)).sum = words.length := by
      convert List.sum_map_count_dedup_eq_length words using 5
      apply lawful_beq_unique <;> infer_instance
    rw [h2, h3]
    exact mul_inv_cancel₀ (ne_of_gt hlen)

end SearchServer





/-! ### The sign of the relevance -/

namespace SearchServer

variable {F : Type} [LinearOrderedField F]

/-- A posting map lists stored documents only, so it has at most as many entries as
there are documents. -/
lemma Inv.posting_size_le {s : SearchServer F} (hs : Inv s) {w : Str} {docs : OrdMap Int F}
    (hf : s.word_to_document_freqs_.find w = some docs) : docs.size ≤ s.GetDocumentCount := by
  have hsub : OrdMap.keys docs ⊆ OrdMap.keys s.documents_ := by
    intro id hid
    rw [← OrdMap.find_isSome_iff_mem_keys, Option.isSome_iff_ne_none,
      ← OrdMap.find2_eq_of_find hf] at hid
    cases hd : s.documents_.find id with
    | none =>
      rw [hs.postings_eq, hd] at hid
      exact absurd rfl hid
    | some data =>
      rw [← OrdMap.find_isSome_iff_mem_keys, hd]
      rfl
  have h := (List.subperm_of_subset (OrdMap.WF_nodup (hs.inner_postings w docs hf)) hsub).length_le
  unfold OrdMap.keys at h
  rw [List.length_map, List.length_map] at h
  exact h

/-- The quotient under the logarithm of the inverse document frequency is at least 1
for a word that has a posting. -/
lemma Inv.idf_ratio {s : SearchServer F} (hs : Inv s) {w : Str} {id : Int}
    (h : OrdMap.find2 s.word_to_document_freqs_ w id ≠ none) :
    ∃ docs, s.word_to_document_freqs_.find w = some docs ∧ 0 < docs.size ∧
      docs.size ≤ s.GetDocumentCount ∧
      (1 : F) ≤ (s.GetDocumentCount : F) * 1 / (docs.size : F) ∧
      ∀ log : F → F, idfOf log s w = log ((s.GetDocumentCount : F) * 1 / (docs.size : F)) := by
  cases hf : s.word_to_document_freqs_.find w with
  | none => exact absurd (OrdMap.find2_eq_none_of_find hf id) h
  | some docs =>
    have hpos : 0 < docs.size := by
      rw [OrdMap.find2_eq_of_find hf] at h
      unfold OrdMap.size
      cases docs with
      | nil => exact absurd rfl h
      | cons e rest => simp
    have hle := hs.posting_size_le hf
    refine ⟨docs, rfl, hpos, hle, ?_, fun log => ?_⟩
    · rw [mul_one, one_le_div (by exact_mod_cast hpos)]
      exact_mod_cast hle
    · unfold idfOf
      rw [hf, Option.getD_some]

/-- Every product `tf * idf` of a document is at least 0 when the logarithm is at
least 0 from 1 on. -/
lemma Inv.contribs_nonneg {s : SearchServer F} (hs : Inv s) {log : F → F}
    (hlog : ∀ x, 1 ≤ x → 0 ≤ log x) (ws : List Str) (id : Int) :
    ∀ x ∈ contribs log s ws id, 0 ≤ x := by
  intro x hx
  unfold contribs at hx
  obtain ⟨w, -, hw⟩ := List.mem_filterMap.1 hx
  cases hf : OrdMap.find2 s.word_to_document_freqs_ w id with
  | none => rw [hf] at hw; cases hw
  | some tf =>
    rw [hf] at hw
    have hx' : x = tf * idfOf log s w := (Option.some.inj hw).symm
    obtain ⟨data, -, hin, htf⟩ := hs.postings_some hf
    have hsome : OrdMap.find2 s.word_to_document_freqs_ w id ≠ none := by rw [hf]; simp
    obtain ⟨docs, -, -, -, hratio, hidf⟩ := hs.idf_ratio hsome
    rw [hx', hidf log]
    apply mul_nonneg _ (hlog _ hratio)
    rw [htf]
    exact div_nonneg (Nat.cast_nonneg _) (Nat.cast_nonneg _)

end SearchServer






/-! ### Documents made of stop words -/

namespace SearchServer

variable {F : Type} [LinearOrderedField F]

/-- The stop words of a reachable state have no control byte. -/
lemma ReachableAny.stop_valid {s : SearchServer F} (h : ReachableAny s) :
    ∀ w ∈ s.stop_words_, ∀ c ∈ w, 32 ≤ c.toNat := by
  induction h with
  | init stop_words s h =>
    rw [create_eq] at h
    split_ifs at h with hbad
    have h' := Except.ok.inj h
    subst h'
    intro w hw c hc
    obtain ⟨hin, hne⟩ := (mem_MakeUniqueNonEmptyStrings _ _).1 hw
    by_contra hlt
    exact hbad ⟨w, hin, hne, c, hc, by omega⟩
  | add s id text status ratings _ ih => rw [AddDocument_stop_words]; exact ih
  | remove s id _ ih => rw [RemoveDocument_stop_words]; exact ih
  | removePar s id _ ih => rw [RemoveDocumentPar_eq, RemoveDocument_stop_words]; exact ih

/-- A text whose slices are all stop words has no control byte and no word to
index. -/
lemma stop_only_text {s : SearchServer F} (hs : ReachableAny s) {text : Str}
    (h : ∀ w ∈ SplitIntoWords text, s.IsStopWord w = true) :
    (∀ c ∈ text, 32 ≤ c.toNat) ∧ s.nonStopWords text = [] := by
  constructor
  · rw [← all_valid_SplitIntoWords]
    intro w hw
    rw [IsValidWord_iff]
    exact hs.stop_valid w ((IsStopWord_iff s w).1 (h w hw))
  · unfold nonStopWords
    rw [List.filter_eq_nil_iff]
    intro w hw
    rw [h w hw]
    simp

/-- `AddDocument` of an id that has metadata throws and leaves the state as it is. -/
lemma AddDocument_duplicate {s : SearchServer F} {id : Int} (h : s.documents_.find id ≠ none)
    (text : Str) (status : DocumentStatus) (ratings : List Int) :
    s.AddDocument id text status ratings = (.error .invalid_argument, s) := by
  rw [AddDocument_eq]
  by_cases h1 : id < 0
  · rw [if_pos h1]
  · rw [if_neg h1, if_pos h]

end SearchServer







/-! ### States that differ by empty posting maps -/

namespace OrdMap

variable {K₁ K₂ V : Type} [LinearOrder K₁] [LinearOrder K₂]

/-- A lookup through two levels reads the inner map, or the empty map when the outer
key is missing. -/
lemma find2_eq_getD (m : OrdMap K₁ (OrdMap K₂ V)) (k₁ : K₁) (k₂ : K₂) :
    find2 m k₁ k₂ = find ((m.find k₁).getD []) k₂ := by
  unfold find2
  cases m.find k₁ <;> rfl

end OrdMap

namespace SearchServer

variable {F : Type} [LinearOrderedField F]

/-- What the queries read of the postings is the posting map of a word, taken as empty
when the word is no key.  Two consistent states with the same stop words and metadata
whose postings agree in that sense give the same outcome for every query. -/
lemma observe_congr {s s' : SearchServer F}
    (hstop : s'.stop_words_ = s.stop_words_) (hdocs : s'.documents_ = s.documents_)
    (hpost : ∀ w, (s'.word_to_document_freqs_.find w).getD [] =
      (s.word_to_document_freqs_.find w).getD []) :
    (Inv s → Inv s' → ∀ (log : F → F) (raw_query : Str)
        (document_predicate : Int → DocumentStatus → Int → Bool),
      FindTopDocuments log s' raw_query document_predicate =
        FindTopDocuments log s raw_query document_predicate) ∧
    (∀ (raw_query : Str) (document_id : Int),
      MatchDocument s' raw_query document_id = MatchDocument s raw_query document_id) := by
  have hfind2 : ∀ w id, OrdMap.find2 s'.word_to_document_freqs_ w id =
      OrdMap.find2 s.word_to_document_freqs_ w id := by
    intro w id
    rw [OrdMap.find2_eq_getD, OrdMap.find2_eq_getD, hpost]
  have hidf : ∀ (log : F → F) w, idfOf log s' w = idfOf log s w := by
    intro log w
    unfold idfOf GetDocumentCount
    rw [hpost, hdocs]
  have hcontribs : ∀ (log : F → F) ws id, contribs log s' ws id = contribs log s ws id := by
    intro log ws id
    unfold contribs
    apply List.filterMap_congr
    intro w _
    rw [hfind2, hidf]
  have hpred : ∀ pred id, predOf s' pred id = predOf s pred id := by
    intro pred id
    unfold predOf
    rw [hdocs]
  have hword : ∀ id w, wordInDocument s' id w = wordInDocument s id w := by
    intro id w
    rw [Bool.eq_iff_iff, wordInDocument_iff, wordInDocument_iff, hfind2]
  constructor
  · intro hs hs' log raw pred
    cases hq : s.ParseQuery raw with
    | error e =>
      unfold FindTopDocuments
      rw [ParseQuery_congr hstop, hq]
    | ok q =>
      rw [FindTopDocuments_eq hs log hq pred,
        FindTopDocuments_eq hs' log ((ParseQuery_congr hstop raw).trans hq) pred]
      have hrel : relevanceMap log s' q pred = relevanceMap log s q pred := by
        apply OrdMap.ext_of_WF (WF_relevanceMap log s' q pred) (WF_relevanceMap log s q pred)
        intro id
        rw [find_relevanceMap hs', find_relevanceMap hs]
        simp only [hfind2, hcontribs, hpred]
      have hrating : ∀ id, ratingOf s' id = ratingOf s id := by
        intro id
        unfold ratingOf
        rw [hdocs]
      rw [hrel]
      simp only [hrating]
  · intro raw id
    unfold MatchDocument
    rw [ParseQuery_congr hstop, hdocs]
    cases s.ParseQuery raw with
    | error e => rfl
    | ok q =>
      simp only
      rw [matchPlus_eq, matchPlus_eq, matchMinus_eq, matchMinus_eq]
      have h1 : q.plus_words.filter (wordInDocument s' id) =
          q.plus_words.filter (wordInDocument s id) :=
        List.filter_congr (fun w _ => hword id w)
      have h2 : q.minus_words.any (wordInDocument s' id) =
          q.minus_words.any (wordInDocument s id) :=
        any_congr_mem _ _ _ (fun w _ => hword id w)
      rw [h1, h2]

/-- The parallel `FindTopDocuments` returns what the sequential one returns, in every
state. -/
lemma FindTopDocumentsPar_eq (log : F → F) (s : SearchServer F) (raw_query : Str)
    (pred : Int → DocumentStatus → Int → Bool) :
    FindTopDocumentsPar log s raw_query pred = FindTopDocuments log s raw_query pred := by
  unfold FindTopDocumentsPar FindTopDocuments
  cases s.ParseQuery raw_query with
  | error e => rfl
  | ok q => simp only; rw [FindAllDocumentsPar_eq]

/-- The parallel `MatchDocument` returns what the sequential one returns, in every
state. -/
lemma MatchDocumentPar_eq (s : SearchServer F) (raw_query : Str) (document_id : Int) :
    MatchDocumentPar s raw_query document_id = MatchDocument s raw_query document_id := by
  unfold MatchDocumentPar MatchDocument
  cases hq : s.ParseQuery raw_query with
  | error e => rfl
  | ok query =>
    simp only
    rw [matchPlus_eq, matchMinus_eq]
    by_cases hm : query.minus_words.any (wordInDocument s document_id) = true
    · rw [if_pos hm, if_pos hm]
    · rw [if_neg hm, if_neg hm]

end SearchServer








/-! ### The mutexes of the buckets -/

namespace Thread

variable {V : Type}

/-- The guard that a thread has alive depends on the map by the number of buckets
only. -/
lemma holding_congr {cm cm' : ConcurrentMap V} (h : cm'.maps_.length = cm.maps_.length)
    (th : Thread V) : th.holding cm' = th.holding cm := by
  unfold holding
  cases th.pc with
  | idle => rfl
  | held o => simp only [ConcurrentMap.GetBucket_congr h]
  | buildNext i m => rfl
  | buildHeld i m => rfl

end Thread

namespace ConcurrentMap

variable {V : Type}

/-- An operation keeps the number of buckets. -/
lemma length_applyOp (dflt : V) (cm : ConcurrentMap V) (o : MapOp V) :
    (cm.applyOp dflt o).maps_.length = cm.maps_.length := by
  cases o with
  | update key f => simp [applyOp, access]
  | erase key => simp [applyOp, Erase]

end ConcurrentMap

namespace LockedMap

variable {V : Type}

/-- A thread that has no guard alive takes a free mutex. -/
lemma Consistent.acquire {st : LockedMap V} (h : st.Consistent) {t b₀ : Nat} {th th' : Thread V}
    (ht : st.threads[t]? = some th) (hnone : th.holding st.cm = none)
    (hfree : st.mutexes[b₀]? = some none) (hnew : th'.holding st.cm = some b₀) :
    Consistent ⟨st.mutexes.set b₀ (some t), st.cm, st.threads.set t th'⟩ := by
  obtain ⟨hlen, hiff⟩ := h
  have hb₀ : b₀ < st.mutexes.length := by
    by_contra hc
    rw [List.getElem?_eq_none (by omega)] at hfree
    cases hfree
  have htl : t < st.threads.length := by
    by_contra hc
    rw [List.getElem?_eq_none (by omega)] at ht
    cases ht
  refine ⟨by simp only [List.length_set]; exact hlen, fun b t' => ?_⟩
  unfold Holds
  simp only [List.getElem?_set]
  by_cases hb : b₀ = b
  · subst hb
    rw [if_pos rfl, if_pos hb₀]
    by_cases htt : t = t'
    · subst htt
      rw [if_pos rfl, if_pos htl]
      exact ⟨fun _ => ⟨th', rfl, hnew⟩, fun _ => rfl⟩
    · rw [if_neg htt]
      constructor
      · intro hc
        exact absurd (Option.some.inj (Option.some.inj hc)) htt
      · intro hc
        have := (hiff b₀ t').2 hc
        unfold Holds at this
        rw [hfree] at this
        cases this
  · rw [if_neg hb]
    by_cases htt : t = t'
    · subst htt
      rw [if_pos rfl, if_pos htl]
      constructor
      · intro hc
        obtain ⟨th₀, h1, h2⟩ := (hiff b t).1 hc
        rw [ht] at h1
        rw [← Option.some.inj h1, hnone] at h2
        cases h2
      · rintro ⟨th₀, h1, h2⟩
        rw [← Option.some.inj h1, hnew] at h2
        exact absurd (Option.some.inj h2) hb
    · rw [if_neg htt]
      exact hiff b t'

/-- A thread that has a guard alive destroys it. -/
lemma Consistent.release {st : LockedMap V} (h : st.Consistent) {t b₀ : Nat} {th th' : Thread V}
    (ht : st.threads[t]? = some th) (hheld : th.holding st.cm = some b₀)
    {cm' : ConcurrentMap V} (hcm : cm'.maps_.length = st.cm.maps_.length)
    (hnew : th'.holding st.cm = none) :
    Consistent ⟨st.mutexes.set b₀ none, cm', st.threads.set t th'⟩ := by
  obtain ⟨hlen, hiff⟩ := h
  have hown : st.mutexes[b₀]? = some (some t) := (hiff b₀ t).2 ⟨th, ht, hheld⟩
  have hb₀ : b₀ < st.mutexes.length := by
    by_contra hc
    rw [List.getElem?_eq_none (by omega)] at hown
    cases hown
  have htl : t < st.threads.length := by
    by_contra hc
    rw [List.getElem?_eq_none (by omega)] at ht
    cases ht
  refine ⟨by simp only [List.length_set]; rw [hcm]; exact hlen, fun b t' => ?_⟩
  unfold Holds
  simp only [List.getElem?_set, Thread.holding_congr hcm]
  by_cases hb : b₀ = b
  · subst hb
    rw [if_pos rfl, if_pos hb₀]
    constructor
    · intro hc; cases hc
    · by_cases htt : t = t'
      · subst htt
        rw [if_pos rfl, if_pos htl]
        rintro ⟨th₀, h1, h2⟩
        rw [← Option.some.inj h1, hnew] at h2
        cases h2
      · rw [if_neg htt]
        intro hc
        have := (hiff b₀ t').2 hc
        unfold Holds at this
        rw [hown] at this
        exact absurd (Option.some.inj (Option.some.inj this)) htt
  · rw [if_neg hb]
    by_cases htt : t = t'
    · subst htt
      rw [if_pos rfl, if_pos htl]
      constructor
      · intro hc
        obtain ⟨th₀, h1, h2⟩ := (hiff b t).1 hc
        rw [ht] at h1
        rw [← Option.some.inj h1, hheld] at h2
        exact absurd (Option.some.inj h2) hb
      · rintro ⟨th₀, h1, h2⟩
        rw [← Option.some.inj h1, hnew] at h2
        cases h2
    · rw [if_neg htt]
      exact hiff b t'

/-- A thread that has no guard alive takes a step that takes none. -/
lemma Consistent.local {st : LockedMap V} (h : st.Consistent) {t : Nat} {th th' : Thread V}
    (ht : st.threads[t]? = some th) (hnone : th.holding st.cm = none)
    (hnew : th'.holding st.cm = none) :
    Consistent ⟨st.mutexes, st.cm, st.threads.set t th'⟩ := by
  obtain ⟨hlen, hiff⟩ := h
  have htl : t < st.threads.length := by
    by_contra hc
    rw [List.getElem?_eq_none (by omega)] at ht
    cases ht
  refine ⟨hlen, fun b t' => ?_⟩
  unfold Holds
  simp only [List.getElem?_set]
  by_cases htt : t = t'
  · subst htt
    rw [if_pos rfl, if_pos htl]
    constructor
    · intro hc
      obtain ⟨th₀, h1, h2⟩ := (hiff b t).1 hc
      rw [ht] at h1
      rw [← Option.some.inj h1, hnone] at h2
      cases h2
    · rintro ⟨th₀, h1, h2⟩
      rw [← Option.some.inj h1, hnew] at h2
      cases h2
  · rw [if_neg htt]
    exact hiff b t'

/-- The start is consistent. -/
lemma Consistent.init (cm : ConcurrentMap V) (programs : List (List (MapCall V))) :
    (init cm programs).Consistent := by
  refine ⟨by simp [LockedMap.init], fun b t => ?_⟩
  unfold Holds LockedMap.init
  simp only [List.getElem?_replicate, List.getElem?_map]
  constructor
  · intro h
    split_ifs at h
    cases h
  · rintro ⟨th, h1, h2⟩
    cases hp : programs[t]? with
    | none => rw [hp] at h1; cases h1
    | some calls =>
      rw [hp] at h1
      rw [← Option.some.inj h1] at h2
      cases h2

/-- A step keeps the number of buckets and the consistency of mutexes and threads. -/
lemma Consistent.step {dflt : V} {st st' : LockedMap V} {t : Nat} (h : st.Consistent)
    (hstep : step dflt st t = some st') :
    st'.Consistent ∧ st'.cm.maps_.length = st.cm.maps_.length ∧
      st'.threads.length = st.threads.length := by
  unfold LockedMap.step at hstep
  cases ht : st.threads[t]? with
  | none => rw [ht] at hstep; cases hstep
  | some th =>
    rw [ht] at hstep
    obtain ⟨pc, calls, built⟩ := th
    cases pc with
    | idle =>
      cases calls with
      | nil => cases hstep
      | cons call rest =>
        cases call with
        | op o =>
          simp only at hstep
          split_ifs at hstep with hfree
          rw [← Option.some.inj hstep]
          exact ⟨h.acquire ht rfl hfree rfl, rfl, by simp⟩
        | build =>
          simp only at hstep
          rw [← Option.some.inj hstep]
          exact ⟨h.local ht rfl rfl, rfl, by simp⟩
    | held o =>
      simp only at hstep
      rw [← Option.some.inj hstep]
      exact ⟨h.release ht rfl (ConcurrentMap.length_applyOp dflt st.cm o) rfl,
        ConcurrentMap.length_applyOp dflt st.cm o, by simp⟩
    | buildNext i m =>
      simp only at hstep
      split_ifs at hstep with hi hfree
      · rw [← Option.some.inj hstep]
        exact ⟨h.acquire ht rfl hfree rfl, rfl, by simp⟩
      · rw [← Option.some.inj hstep]
        exact ⟨h.local ht rfl rfl, rfl, by simp⟩
    | buildHeld i m =>
      simp only at hstep
      rw [← Option.some.inj hstep]
      exact ⟨h.release ht rfl rfl rfl, rfl, by simp⟩

/-- The sum over a list after one element is replaced. -/
lemma sum_map_set {α : Type} (f : α → Nat) (l : List α) (t : Nat) (a a' : α)
    (h : l[t]? = some a) : ((l.set t a').map f).sum + f a = (l.map f).sum + f a' := by
  induction l generalizing t with
  | nil => simp at h
  | cons x rest ih =>
    cases t with
    | zero =>
      simp only [List.getElem?_cons_zero, Option.some.injEq] at h
      subst h
      simp only [List.set_cons_zero, List.map_cons, List.sum_cons]
      omega
    | succ t =>
      simp only [List.getElem?_cons_succ] at h
      have := ih t h
      simp only [List.set_cons_succ, List.map_cons, List.sum_cons]
      omega

/-- Every step takes one unit of the cost. -/
lemma Consistent.cost_step {dflt : V} {st st' : LockedMap V} {t : Nat} (h : st.Consistent)
    (hstep : LockedMap.step dflt st t = some st') : st'.cost + 1 = st.cost := by
  unfold LockedMap.step at hstep
  cases ht : st.threads[t]? with
  | none => rw [ht] at hstep; cases hstep
  | some th =>
    rw [ht] at hstep
    obtain ⟨pc, calls, built⟩ := th
    have key : ∀ (th' : Thread V) (cm' : ConcurrentMap V) (mutexes' : List (Option Nat)),
        cm'.maps_.length = st.cm.maps_.length →
        Thread.cost st.cm.maps_.length th' + 1 =
          Thread.cost st.cm.maps_.length ⟨pc, calls, built⟩ →
        LockedMap.cost ⟨mutexes', cm', st.threads.set t th'⟩ + 1 = st.cost := by
      intro th' cm' mutexes' hcm hc
      unfold LockedMap.cost
      simp only [hcm]
      have := sum_map_set (Thread.cost st.cm.maps_.length) st.threads t _ th' ht
      omega
    cases pc with
    | idle =>
      cases calls with
      | nil => cases hstep
      | cons call rest =>
        cases call with
        | op o =>
          simp only at hstep
          split_ifs at hstep with hfree
          rw [← Option.some.inj hstep]
          apply key _ _ _ rfl
          simp only [Thread.cost, Thread.callCost, List.map_cons, List.sum_cons]
          omega
        | build =>
          simp only at hstep
          rw [← Option.some.inj hstep]
          apply key _ _ _ rfl
          simp only [Thread.cost, Thread.callCost, List.map_cons, List.sum_cons]
          omega
    | held o =>
      simp only at hstep
      rw [← Option.some.inj hstep]
      apply key _ _ _ (ConcurrentMap.length_applyOp dflt st.cm o)
      simp only [Thread.cost]
      omega
    | buildNext i m =>
      simp only at hstep
      split_ifs at hstep with hi hfree
      · rw [← Option.some.inj hstep]
        apply key _ _ _ rfl
        simp only [Thread.cost]
        omega
      · rw [← Option.some.inj hstep]
        apply key _ _ _ rfl
        simp only [Thread.cost]
        omega
    | buildHeld i m =>
      simp only at hstep
      have hown : st.mutexes[i]? = some (some t) := (h.2 i t).2 ⟨_, ht, rfl⟩
      have hi : i < st.cm.maps_.length := by
        rw [← h.1]
        by_contra hc
        rw [List.getElem?_eq_none (by omega)] at hown
        cases hown
      rw [← Option.some.inj hstep]
      apply key _ _ _ rfl
      simp only [Thread.cost]
      omega

/-- A thread that has a guard alive can step. -/
lemma step_of_holding (dflt : V) {st : LockedMap V} {t : Nat} {th : Thread V}
    (ht : st.threads[t]? = some th) {b : Nat} (hb : th.holding st.cm = some b) :
    (LockedMap.step dflt st t).isSome = true := by
  unfold LockedMap.step
  rw [ht]
  obtain ⟨pc, calls, built⟩ := th
  cases pc with
  | idle => cases hb
  | held o => rfl
  | buildNext i m => cases hb
  | buildHeld i m => rfl

/-- While a thread has calls to make, some thread can step. -/
lemma Consistent.progress (dflt : V) {st : LockedMap V} (h : st.Consistent)
    (hN : 1 ≤ st.cm.maps_.length) (hfin : st.finished = false) :
    ∃ t, t < st.threads.length ∧ (LockedMap.step dflt st t).isSome = true := by
  by_cases hold : ∃ (t : Nat) (th : Thread V) (b : Nat),
      st.threads[t]? = some th ∧ th.holding st.cm = some b
  · obtain ⟨t, th, b, ht, hb⟩ := hold
    refine ⟨t, ?_, step_of_holding dflt ht hb⟩
    by_contra hc
    rw [List.getElem?_eq_none (by omega)] at ht
    cases ht
  · have hfree : ∀ b, b < st.cm.maps_.length → st.mutexes[b]? = some none := by
      intro b hb
      rw [← h.1] at hb
      rw [List.getElem?_eq_getElem hb]
      cases hm : st.mutexes[b] with
      | none => rfl
      | some t =>
        have hown : st.Holds t b := by
          unfold Holds
          rw [List.getElem?_eq_getElem hb, hm]
        obtain ⟨th, ht, hth⟩ := (h.2 b t).1 hown
        exact absurd ⟨t, th, b, ht, hth⟩ hold
    unfold LockedMap.finished at hfin
    rw [List.all_eq_false] at hfin
    obtain ⟨th, hmem, hth⟩ := hfin
    obtain ⟨t, htl, hget⟩ := List.getElem_of_mem hmem
    have ht : st.threads[t]? = some th := by rw [List.getElem?_eq_getElem htl, hget]
    refine ⟨t, htl, ?_⟩
    unfold LockedMap.step
    rw [ht]
    obtain ⟨pc, calls, built⟩ := th
    cases pc with
    | idle =>
      cases calls with
      | nil => exact absurd rfl hth
      | cons call rest =>
        cases call with
        | op o =>
          simp only
          rw [if_pos (hfree _ (ConcurrentMap.GetBucket_lt st.cm (by omega) _))]
          rfl
        | build => rfl
    | held o => exact absurd ⟨t, _, _, ht, rfl⟩ hold
    | buildNext i m =>
      simp only
      by_cases hi : i < st.cm.maps_.length
      · rw [if_pos hi, if_pos (hfree i hi)]
        rfl
      · rw [if_neg hi]
        rfl
    | buildHeld i m => exact absurd ⟨t, _, _, ht, rfl⟩ hold

/-- An interleaving keeps the number of buckets and of threads and the consistency, and
its length is the cost it has taken. -/
lemma Consistent.run {dflt : V} (schedule : List Nat) :
    ∀ {st st' : LockedMap V}, st.Consistent → LockedMap.run dflt st schedule = some st' →
      st'.Consistent ∧ st'.cm.maps_.length = st.cm.maps_.length ∧
        st'.threads.length = st.threads.length ∧ st'.cost + schedule.length = st.cost := by
  induction schedule with
  | nil =>
    intro st st' h hrun
    unfold LockedMap.run at hrun
    rw [← Option.some.inj hrun]
    exact ⟨h, rfl, rfl, rfl⟩
  | cons t schedule ih =>
    intro st st' h hrun
    unfold LockedMap.run at hrun
    cases hs : LockedMap.step dflt st t with
    | none => rw [hs] at hrun; cases hrun
    | some st₁ =>
      rw [hs] at hrun
      obtain ⟨h₁, hlen₁, hth₁⟩ := h.step hs
      obtain ⟨h', hlen', hth', hcost'⟩ := ih h₁ hrun
      have := h.cost_step hs
      refine ⟨h', hlen'.trans hlen₁, hth'.trans hth₁, ?_⟩
      simp only [List.length_cons]
      omega

end LockedMap


/-! ### The duplicate scrubber -/

namespace SearchServer

variable {F : Type} [LinearOrderedField F]

/-- What a call of `RemoveDocument` leaves of the stop words, the word frequencies, the
id set and the metadata. -/
lemma RemoveDocument_observe (s : SearchServer F) (d : Int) :
    (s.RemoveDocument d).stop_words_ = s.stop_words_ ∧
    (∀ k, (s.RemoveDocument d).GetWordFrequencies k =
      if k = d then [] else s.GetWordFrequencies k) ∧
    (∀ k, k ∈ (s.RemoveDocument d).document_ids_ ↔
      k ∈ s.document_ids_ ∧ (k = d → s.GetWordFrequencies d = [])) ∧
    (∀ k, (s.RemoveDocument d).documents_.find k =
      if k = d ∧ s.GetWordFrequencies d ≠ [] then none else s.documents_.find k) := by
  rw [RemoveDocument_eq]
  by_cases h : s.GetWordFrequencies d = []
  · rw [if_pos h]
    refine ⟨rfl, fun k => ?_, fun k => ?_, fun k => ?_⟩
    · by_cases hk : k = d
      · rw [if_pos hk, hk, h]
      · rw [if_neg hk]
    · exact ⟨fun hk => ⟨hk, fun _ => h⟩, fun hk => hk.1⟩
    · rw [if_neg (fun hc => hc.2 h)]
  · rw [if_neg h]
    refine ⟨rfl, fun k => ?_, fun k => ?_, fun k => ?_⟩
    · unfold GetWordFrequencies
      simp only
      rw [OrdMap.find_erase]
      by_cases hk : k = d
      · rw [if_pos hk, if_pos hk]
      · rw [if_neg hk, if_neg hk]
    · simp only
      rw [OrdSet.set_mem_erase]
      constructor
      · rintro ⟨h1, h2⟩
        exact ⟨h2, fun hc => absurd hc h1⟩
      · rintro ⟨h1, h2⟩
        exact ⟨fun hc => h (h2 hc), h1⟩
    · simp only
      rw [OrdMap.find_erase]
      by_cases hk : k = d
      · rw [if_pos hk, if_pos ⟨hk, h⟩]
      · rw [if_neg hk, if_neg (fun hc => hk hc.1)]

/-- A series of `RemoveDocument` calls: the documents of the series that have word
frequencies are removed, and the others stay as they are. -/
lemma foldl_RemoveDocumentPar (D : List Int) :
    ∀ s : SearchServer F, Inv s →
      Inv (D.foldl (fun server id => server.RemoveDocumentPar id) s) ∧
      (D.foldl (fun server id => server.RemoveDocumentPar id) s).stop_words_ = s.stop_words_ ∧
      (∀ k, (D.foldl (fun server id => server.RemoveDocumentPar id) s).GetWordFrequencies k =
        if k ∈ D then [] else s.GetWordFrequencies k) ∧
      (∀ k, k ∈ (D.foldl (fun server id => server.RemoveDocumentPar id) s).document_ids_ ↔
        k ∈ s.document_ids_ ∧ (k ∈ D → s.GetWordFrequencies k = [])) ∧
      (∀ k, (D.foldl (fun server id => server.RemoveDocumentPar id) s).documents_.find k =
        if k ∈ D ∧ s.GetWordFrequencies k ≠ [] then none else s.documents_.find k) := by
  induction D with
  | nil =>
    intro s hs
    refine ⟨hs, rfl, fun k => ?_, fun k => ?_, fun k => ?_⟩
    · simp
    · simp
    · simp
  | cons d D ih =>
    intro s hs
    rw [List.foldl_cons, RemoveDocumentPar_eq]
    obtain ⟨hstop, hfreq, hids, hdocs⟩ := RemoveDocument_observe s d
    obtain ⟨hinv', hstop', hfreq', hids', hdocs'⟩ := ih (s.RemoveDocument d) (Inv_remove hs d)
    refine ⟨hinv', hstop'.trans hstop, fun k => ?_, fun k => ?_, fun k => ?_⟩
    · rw [hfreq' k, hfreq k]
      by_cases hk : k = d
      · subst hk
        simp
      · simp [hk]
    · rw [hids' k, hids k, hfreq k]
      by_cases hk : k = d
      · subst hk
        simp
      · simp [hk]
    · rw [hdocs' k, hdocs k, hfreq k]
      by_cases hk : k = d
      · subst hk
        by_cases he : s.GetWordFrequencies k = []
        · simp [he]
        · simp [he]
      · simp [hk]

end SearchServer

namespace RemoveDuplicates

variable {F : Type} [LinearOrderedField F]

/-- The word set of a document is empty exactly when no word frequencies are stored
for it. -/
lemma temp_eq_nil_iff (s : SearchServer F) (id : Int) :
    temp s id = [] ↔ s.GetWordFrequencies id = [] := by
  unfold temp
  constructor
  · intro h
    by_contra hne
    obtain ⟨e, he⟩ := List.exists_mem_of_ne_nil _ hne
    have hmem : e.1 ∈ ((s.GetWordFrequencies id).map Prod.fst).foldl OrdSet.insert [] :=
      (OrdSet.mem_foldl_insert _ _ _).2 (Or.inr (List.mem_map.2 ⟨e, he, rfl⟩))
    rw [List.foldl_map, h] at hmem
    cases hmem
  · intro h
    rw [h]
    rfl

/-- The word set of a stored document holds the tokens of its text that are not stop
words. -/
lemma mem_temp {s : SearchServer F} (hs : SearchServer.Inv s) {id : Int} {data : DocumentData}
    (hd : s.documents_.find id = some data) (w : Str) :
    w ∈ temp s id ↔ w ∈ SplitIntoWords data.text ∧ s.IsStopWord w = false := by
  unfold temp
  rw [← List.foldl_map, OrdSet.mem_foldl_insert, ← SearchServer.mem_nonStopWords,
    ← hs.forward_keys hd w]
  simp [OrdMap.keys]

/-- The first loop of `RemoveDuplicates` over ids in ascending order: an id becomes a
duplicate exactly when its word set is a key of `originals` already or is the word set
of a smaller id of the loop. -/
lemma scan_spec (s : SearchServer F) (l : List Int) (hl : l.Pairwise (· < ·)) :
    ∀ (d : List Int) (o : OrdMap (OrdSet Str) Int),
      ∃ d', (l.foldl (scan s) (d, o)).1 = d ++ d' ∧ List.Sublist d' l ∧
        ∀ id, id ∈ d' ↔ id ∈ l ∧
          (o.find (temp s id) ≠ none ∨ ∃ id' ∈ l, id' < id ∧ temp s id' = temp s id) := by
  induction l with
  | nil =>
    intro d o
    exact ⟨[], by simp, List.Sublist.refl _, fun id => by simp⟩
  | cons a rest ih =>
    intro d o
    rw [List.pairwise_cons] at hl
    obtain ⟨ha, hrest⟩ := hl
    rw [List.foldl_cons]
    by_cases hc : o.count (temp s a) < 1
    · have hnone : o.find (temp s a) = none := by
        by_contra hne
        have := (SearchServer.count_pos_iff o (temp s a)).2 hne
        omega
      have hscan : scan s (d, o) a = (d, o.emplace (temp s a) a) := by
        unfold scan; rw [if_pos hc]
      rw [hscan]
      obtain ⟨d', h1, h2, h3⟩ := ih hrest d (o.emplace (temp s a) a)
      refine ⟨d', h1, h2.trans (List.sublist_cons_self _ _), fun id => ?_⟩
      rw [h3 id, OrdMap.find_emplace_of_none hnone]
      constructor
      · rintro ⟨hin, hor⟩
        refine ⟨List.mem_cons_of_mem _ hin, ?_⟩
        rcases hor with hor | ⟨id', hid', hlt, heq⟩
        · by_cases he : temp s a = temp s id
          · exact Or.inr ⟨a, List.mem_cons_self _ _, ha id hin, he⟩
          · rw [if_neg he] at hor
            exact Or.inl hor
        · exact Or.inr ⟨id', List.mem_cons_of_mem _ hid', hlt, heq⟩
      · rintro ⟨hin, hor⟩
        rcases List.mem_cons.1 hin with rfl | hin'
        · exfalso
          rcases hor with hor | ⟨id', hid', hlt, heq⟩
          · exact hor hnone
          · rcases List.mem_cons.1 hid' with rfl | hid''
            · exact lt_irrefl _ hlt
            · exact lt_asymm hlt (ha id' hid'')
        · refine ⟨hin', ?_⟩
          rcases hor with hor | ⟨id', hid', hlt, heq⟩
          · left
            by_cases he : temp s a = temp s id
            · rw [if_pos he]; simp
            · rw [if_neg he]; exact hor
          · rcases List.mem_cons.1 hid' with rfl | hid''
            · left
              rw [if_pos heq]; simp
            · exact Or.inr ⟨id', hid'', hlt, heq⟩
    · have hsome : o.find (temp s a) ≠ none := by
        rw [← SearchServer.count_pos_iff]
        omega
      have hscan : scan s (d, o) a = (d ++ [a], o) := by
        unfold scan; rw [if_neg hc]
      rw [hscan]
      obtain ⟨d', h1, h2, h3⟩ := ih hrest (d ++ [a]) o
      refine ⟨a :: d', by rw [h1, List.append_assoc]; rfl, h2.cons₂ a, fun id => ?_⟩
      rw [List.mem_cons, h3 id]
      constructor
      · rintro (rfl | ⟨hin, hor⟩)
        · exact ⟨List.mem_cons_self _ _, Or.inl hsome⟩
        · refine ⟨List.mem_cons_of_mem _ hin, ?_⟩
          rcases hor with hor | ⟨id', hid', hlt, heq⟩
          · exact Or.inl hor
          · exact Or.inr ⟨id', List.mem_cons_of_mem _ hid', hlt, heq⟩
      · rintro ⟨hin, hor⟩
        rcases List.mem_cons.1 hin with rfl | hin'
        · exact Or.inl rfl
        · refine Or.inr ⟨hin', ?_⟩
          rcases hor with hor | ⟨id', hid', hlt, heq⟩
          · exact Or.inl hor
          · rcases List.mem_cons.1 hid' with rfl | hid''
            · left
              rw [← heq]; exact hsome
            · exact Or.inr ⟨id', hid'', hlt, heq⟩

/-- The duplicates that `RemoveDuplicates` finds on a consistent index: the ids whose
word set is the word set of a smaller id. -/
lemma mem_duplicates {s : SearchServer F} (hs : SearchServer.Inv s) (id : Int) :
    id ∈ duplicates s ↔ id ∈ s.document_ids_ ∧
      ∃ id' ∈ s.document_ids_, id' < id ∧ temp s id' = temp s id := by
  have hsorted : s.document_ids_.Pairwise (· < ·) := by
    rw [hs.ids_eq]; exact hs.wf_documents
  obtain ⟨d', h1, -, h3⟩ := scan_spec s s.document_ids_ hsorted [] []
  unfold duplicates
  rw [h1, List.nil_append, h3 id]
  simp [OrdMap.find]

/-- What `RemoveDuplicates` does on a consistent index.  A document stays exactly
when no smaller id has its word set or when it has no word frequencies; the documents
that stay keep their word frequencies, their word set and their metadata.  Hence no
two documents that stay share a word set that is not empty, the smallest id of every
word set stays, and every other document of a word set that is not empty is
removed. -/
lemma removes_indexed_duplicates {s : SearchServer F} (hs : SearchServer.Inv s) :
    SearchServer.Inv (RemoveDuplicates s) ∧
    (RemoveDuplicates s).stop_words_ = s.stop_words_ ∧
    (∀ k, k ∈ (RemoveDuplicates s).document_ids_ ↔ k ∈ s.document_ids_ ∧
      ((∃ k' ∈ s.document_ids_, k' < k ∧ temp s k' = temp s k) →
        s.GetWordFrequencies k = [])) ∧
    (∀ k ∈ (RemoveDuplicates s).document_ids_,
      (RemoveDuplicates s).GetWordFrequencies k = s.GetWordFrequencies k ∧
      temp (RemoveDuplicates s) k = temp s k ∧
      (RemoveDuplicates s).documents_.find k = s.documents_.find k) ∧
    (∀ a ∈ (RemoveDuplicates s).document_ids_, ∀ b ∈ (RemoveDuplicates s).document_ids_,
      temp (RemoveDuplicates s) a = temp (RemoveDuplicates s) b →
      temp (RemoveDuplicates s) a ≠ [] → a = b) ∧
    (∀ k ∈ s.document_ids_, (∀ k' ∈ s.document_ids_, temp s k' = temp s k → k ≤ k') →
      k ∈ (RemoveDuplicates s).document_ids_) ∧
    (∀ k ∈ s.document_ids_, (∃ k' ∈ s.document_ids_, k' < k ∧ temp s k' = temp s k) →
      temp s k ≠ [] → k ∉ (RemoveDuplicates s).document_ids_) := by
  obtain ⟨hinv, hstop, hfreq, hids, hdocs⟩ :=
    SearchServer.foldl_RemoveDocumentPar (duplicates s) s hs
  have hmem : ∀ k, k ∈ (RemoveDuplicates s).document_ids_ ↔ k ∈ s.document_ids_ ∧
      ((∃ k' ∈ s.document_ids_, k' < k ∧ temp s k' = temp s k) →
        s.GetWordFrequencies k = []) := by
    intro k
    unfold RemoveDuplicates
    rw [hids k, mem_duplicates hs]
    constructor
    · rintro ⟨h1, h2⟩
      exact ⟨h1, fun h => h2 ⟨h1, h⟩⟩
    · rintro ⟨h1, h2⟩
      exact ⟨h1, fun h => h2 h.2⟩
  have hkeep : ∀ k ∈ (RemoveDuplicates s).document_ids_,
      (RemoveDuplicates s).GetWordFrequencies k = s.GetWordFrequencies k ∧
      temp (RemoveDuplicates s) k = temp s k ∧
      (RemoveDuplicates s).documents_.find k = s.documents_.find k := by
    intro k hk
    obtain ⟨h1, h2⟩ := (hmem k).1 hk
    have hf : (RemoveDuplicates s).GetWordFrequencies k = s.GetWordFrequencies k := by
      unfold RemoveDuplicates
      rw [hfreq k]
      by_cases hd : k ∈ duplicates s
      · rw [if_pos hd, h2 ((mem_duplicates hs k).1 hd).2]
      · rw [if_neg hd]
    refine ⟨hf, by unfold temp; rw [hf], ?_⟩
    unfold RemoveDuplicates
    rw [hdocs k]
    by_cases hd : k ∈ duplicates s
    · rw [if_neg (fun hc => hc.2 (h2 ((mem_duplicates hs k).1 hd).2))]
    · rw [if_neg (fun hc => hd hc.1)]
  refine ⟨hinv, hstop, hmem, hkeep, fun a ha b hb hab hne => ?_, fun k hk hmin => ?_,
    fun k hk hsmaller hne hc => ?_⟩
  · rw [(hkeep a ha).2.1] at hab hne
    rw [(hkeep b hb).2.1] at hab
    obtain ⟨ha1, ha2⟩ := (hmem a).1 ha
    obtain ⟨hb1, hb2⟩ := (hmem b).1 hb
    rcases lt_trichotomy a b with hlt | heq | hgt
    · exfalso
      have := hb2 ⟨a, ha1, hlt, hab⟩
      rw [← temp_eq_nil_iff, ← hab] at this
      exact hne this
    · exact heq
    · exfalso
      have := ha2 ⟨b, hb1, hgt, hab.symm⟩
      rw [← temp_eq_nil_iff] at this
      exact hne this
  · rw [hmem k]
    refine ⟨hk, ?_⟩
    rintro ⟨k', hk', hlt, heq⟩
    have := hmin k' hk' heq
    omega
  · have := ((hmem k).1 hc).2 hsmaller
    rw [← temp_eq_nil_iff] at this
    exact hne this

end RemoveDuplicates


/-! ### The calls of the parallel ranking -/

namespace SearchServer

variable {F : Type} [LinearOrderedField F]

end SearchServer









namespace LockedMap

variable {V : Type}

/-- Every state that an interleaving reaches from the start, on a map with at least one
bucket: who owns which mutex, that some thread can step unless all have finished, and
the cost that is left. -/
lemma reach_spec (dflt : V) (cm : ConcurrentMap V) (hN : 1 ≤ cm.maps_.length)
    (programs : List (List (MapCall V))) (schedule : List Nat) (st : LockedMap V)
    (hrun : run dflt (init cm programs) schedule = some st) :
    (∀ t b, st.Holds t b ↔ ∃ th, st.threads[t]? = some th ∧ th.holding st.cm = some b) ∧
    (∀ t b b', st.Holds t b → st.Holds t b' → b = b') ∧
    (∀ t, st.atLock t = true → ∀ b, ¬ st.Holds t b) ∧
    (∀ t b, st.Holds t b → (step dflt st t).isSome = true) ∧
    (st.finished = true ∨ ∃ t, t < st.threads.length ∧ (step dflt st t).isSome = true) ∧
    ((∀ t, step dflt st t = none) → st.finished = true) ∧
    st.cost + schedule.length = (init cm programs).cost ∧
    schedule.length ≤ (init cm programs).cost ∧
    (st.finished = true → ∀ b, b < st.cm.maps_.length → st.mutexes[b]? = some none) := by
  obtain ⟨hcons, hlen, -, hcost⟩ := (Consistent.init cm programs).run schedule hrun
  have hN' : 1 ≤ st.cm.maps_.length := by rw [hlen]; exact hN
  have hprog : st.finished = true ∨
      ∃ t, t < st.threads.length ∧ (step dflt st t).isSome = true := by
    cases hf : st.finished with
    | true => exact Or.inl rfl
    | false => exact Or.inr (hcons.progress dflt hN' hf)
  refine ⟨fun t b => hcons.2 b t, fun t b b' hb hb' => ?_, fun t hat b hb => ?_,
    fun t b hb => ?_, hprog, fun hnone => ?_, hcost, by omega, fun hfin b hb => ?_⟩
  · obtain ⟨th, ht, hth⟩ := (hcons.2 b t).1 hb
    obtain ⟨th', ht', hth'⟩ := (hcons.2 b' t).1 hb'
    rw [ht] at ht'
    rw [← Option.some.inj ht', hth] at hth'
    exact Option.some.inj hth'
  · obtain ⟨th, ht, hth⟩ := (hcons.2 b t).1 hb
    unfold atLock at hat
    rw [ht] at hat
    obtain ⟨pc, calls, built⟩ := th
    cases pc with
    | idle => cases hth
    | held o => cases calls <;> cases hat
    | buildNext i m => cases hth
    | buildHeld i m => cases calls <;> cases hat
  · obtain ⟨th, ht, hth⟩ := (hcons.2 b t).1 hb
    exact step_of_holding dflt ht hth
  · rcases hprog with h | ⟨t, -, ht⟩
    · exact h
    · rw [hnone t] at ht
      cases ht
  · rw [← hcons.1] at hb
    rw [List.getElem?_eq_getElem hb]
    cases hm : st.mutexes[b] with
    | none => rfl
    | some t =>
      have hown : st.Holds t b := by
        unfold Holds
        rw [List.getElem?_eq_getElem hb, hm]
      obtain ⟨th, ht, hth⟩ := (hcons.2 b t).1 hown
      unfold finished at hfin
      rw [List.all_eq_true] at hfin
      have := hfin th (List.getElem?_mem ht)
      obtain ⟨pc, calls, built⟩ := th
      cases pc with
      | idle => cases hth
      | held o => cases this
      | buildNext i m => cases hth
      | buildHeld i m => cases this


/-- C31.  Threads make calls of `operator[]` with an update through the `Access`,
`Erase` and `BuildOrdinaryMap` on a `ConcurrentMap` with at least one bucket, each
thread its own series of calls, and their steps interleave in any order.  In every
state that an interleaving reaches: a thread owns the mutex of a bucket exactly when it
is inside the critical section of that bucket, so it owns at most one mutex at a time;
a thread that is at the construction of a `lock_guard`, the only place where it can
wait, owns no mutex, and `BuildOrdinaryMap` in particular has released the mutex of a
bucket before it takes the next; a thread that owns a mutex can take its next step.
Unless every thread has made all its calls, some thread can take a step: there is no
deadlock.  Every step takes one unit of a cost that is fixed at the start, so an
interleaving is no longer than that cost, and when all threads have finished every
mutex is free.  This holds in particular for the three stages of the parallel
`FindAllDocuments` on its map of 64 buckets: the threads of the first `for_each` with
the updates of their plus-words, the threads of the second with the erasures of their
minus-words, and the thread that calls `BuildOrdinaryMap`. -/
theorem C31_deadlock_freedom (dflt : V) (cm : ConcurrentMap V) (hN : 1 ≤ cm.maps_.length)
    (programs : List (List (MapCall V))) (schedule : List Nat) (st : LockedMap V)
    (hrun : run dflt (init cm programs) schedule = some st) :
    ((∀ t b, st.Holds t b ↔ ∃ th, st.threads[t]? = some th ∧ th.holding st.cm = some b) ∧
    (∀ t b b', st.Holds t b → st.Holds t b' → b = b') ∧
    (∀ t, st.atLock t = true → ∀ b, ¬ st.Holds t b) ∧
    (∀ t b, st.Holds t b → (step dflt st t).isSome = true) ∧
    (st.finished = true ∨ ∃ t, t < st.threads.length ∧ (step dflt st t).isSome = true) ∧
    ((∀ t, step dflt st t = none) → st.finished = true) ∧
    st.cost + schedule.length = (init cm programs).cost ∧
    schedule.length ≤ (init cm programs).cost ∧
    (st.finished = true → ∀ b, b < st.cm.maps_.length → st.mutexes[b]? = some none)) ∧
    (∀ (F : Type) [LinearOrderedField F] (log : F → F) (s : SearchServer F) (query : Query)
        (document_predicate : Int → DocumentStatus → Int → Bool)
        (document_to_relevance : ConcurrentMap F),
      document_to_relevance.maps_.length = 64 →
      ∀ stage ∈ [SearchServer.plusPrograms log s query document_predicate,
          SearchServer.minusPrograms s query, [[MapCall.build]]],
        ∀ (steps : List Nat) (reached : LockedMap F),
          run 0 (init document_to_relevance stage) steps = some reached →
          (∀ t b b', reached.Holds t b → reached.Holds t b' → b = b') ∧
          (∀ t, reached.atLock t = true → ∀ b, ¬ reached.Holds t b) ∧
          (reached.finished = true ∨
            ∃ t, t < reached.threads.length ∧ (step 0 reached t).isSome = true) ∧
          steps.length ≤ (init document_to_relevance stage).cost) := by
  refine ⟨reach_spec dflt cm hN programs schedule st hrun,
    fun F _ log s query pred cm' hlen stage _ steps reached hreached => ?_⟩
  have h := reach_spec 0 cm' (by omega) stage steps reached hreached
  exact ⟨h.2.1, h.2.2.1, h.2.2.2.2.1, h.2.2.2.2.2.2.2.1⟩

/-- C31 on three threads and a map of three buckets, where the keys 1 and 4 share the
bucket 1.  After the steps 0, 1, 1 the first thread owns the mutex of bucket 1 and the
second, inside `BuildOrdinaryMap`, the mutex of bucket 0; the third thread waits at
its `lock_guard` for bucket 1 and owns nothing, and the other two can step.  A
schedule of 16 steps, the cost at the start, ends with all calls made and every mutex
free.  On the server of `TestMinusWords` the query `cat city -village` gives the first
`for_each` two threads that both update the relevance of document 0: after the first
step thread 0 owns the mutex of bucket 0, thread 1 waits and owns nothing, and four
steps end the stage. -/
theorem C31_deadlock_freedom_witness :
    1 ≤ (ConcurrentMap.create 3 : ConcurrentMap Int).maps_.length ∧
    (∃ st, run 0 (init (ConcurrentMap.create 3) Examples.threePrograms) [0, 1, 1] = some st ∧
      st.mutexes = [some 1, some 0, none] ∧ st.atLock 2 = true ∧
      (step 0 st 2).isSome = false ∧ (∀ b, ¬ st.Holds 2 b) ∧
      (step 0 st 0).isSome = true ∧ (step 0 st 1).isSome = true ∧
      (∃ t, t < st.threads.length ∧ (step 0 st t).isSome = true) ∧
      st.cost + 3 = 16) ∧
    (∃ st, run 0 (init (ConcurrentMap.create 3) Examples.threePrograms)
        [0, 1, 1, 0, 2, 2, 0, 0, 1, 1, 1, 1, 1, 0, 0, 1] = some st ∧
      st.finished = true ∧ st.mutexes = [none, none, none] ∧
      st.cm.maps_ = [[], [(4, 15)], []] ∧
      (∀ b, b < st.cm.maps_.length → st.mutexes[b]? = some none) ∧ st.cost = 0) ∧
    (Examples.minusWordsServer ℝ).ParseQuery "cat city -village".toList =
      .ok ⟨["cat".toList, "city".toList], ["village".toList]⟩ ∧
    (∃ st, run 0 (init (ConcurrentMap.create 64)
        (SearchServer.plusPrograms Real.log (Examples.minusWordsServer ℝ)
          ⟨["cat".toList, "city".toList], ["village".toList]⟩
          (SearchServer.statusPredicate .ACTUAL))) [0] = some st ∧
      st.Holds 0 0 ∧ st.atLock 1 = true ∧ (step 0 st 1).isSome = false ∧
      (step 0 st 0).isSome = true ∧ (∀ b, ¬ st.Holds 1 b)) ∧
    (∃ st, run 0 (init (ConcurrentMap.create 64)
        (SearchServer.plusPrograms Real.log (Examples.minusWordsServer ℝ)
          ⟨["cat".toList, "city".toList], ["village".toList]⟩
          (SearchServer.statusPredicate .ACTUAL))) [0, 0, 1, 1] = some st ∧
      st.finished = true ∧ st.cm.BuildOrdinaryMap.map Prod.fst = [0]) := by
  have hN : 1 ≤ (ConcurrentMap.create 3 : ConcurrentMap Int).maps_.length := by decide
  refine ⟨hN, ⟨_, rfl, rfl, rfl, rfl, ?_, rfl, rfl, ?_, ?_⟩, ⟨_, rfl, rfl, rfl, rfl, ?_, rfl⟩,
    by rfl, ⟨_, rfl, rfl, rfl, rfl, rfl, ?_⟩, ⟨_, rfl, rfl, rfl⟩⟩
  · exact (C31_deadlock_freedom 0 (ConcurrentMap.create 3) hN Examples.threePrograms [0, 1, 1] _
      rfl).1.2.2.1 2 rfl
  · rcases (C31_deadlock_freedom 0 (ConcurrentMap.create 3) hN Examples.threePrograms [0, 1, 1] _
      rfl).1.2.2.2.2.1 with h | h
    · cases h
    · exact h
  · exact (C31_deadlock_freedom 0 (ConcurrentMap.create 3) hN Examples.threePrograms [0, 1, 1] _
      rfl).1.2.2.2.2.2.2.1
  · exact (C31_deadlock_freedom 0 (ConcurrentMap.create 3) hN Examples.threePrograms
      [0, 1, 1, 0, 2, 2, 0, 0, 1, 1, 1, 1, 1, 0, 0, 1] _ (by rfl)).1.2.2.2.2.2.2.2.2 (by rfl)
  · exact ((C31_deadlock_freedom 0 (ConcurrentMap.create 3) hN Examples.threePrograms [] _
      rfl).2 ℝ Real.log (Examples.minusWordsServer ℝ)
      ⟨["cat".toList, "city".toList], ["village".toList]⟩
      (SearchServer.statusPredicate .ACTUAL) (ConcurrentMap.create 64) rfl _
      (List.mem_cons_self _ _) [0] _ rfl).2.1 1 rfl

end LockedMap








namespace Examples

open SearchServer

variable {F : Type} [LinearOrderedField F]

lemma duplicatesServer_spec :
    Reachable (duplicatesServer F) ∧
      (duplicatesServer F).stop_words_ = ["in".toList, "the".toList] ∧
      (duplicatesServer F).documents_ =
        [(1, ⟨1, .ACTUAL, "cat in the city".toList⟩), (2, ⟨2, .ACTUAL, "city cat cat".toList⟩),
         (3, ⟨3, .ACTUAL, "in the".toList⟩), (4, ⟨4, .ACTUAL, "the".toList⟩),
         (5, ⟨5, .ACTUAL, "dog".toList⟩)] :=
  addAll_spec _ _ stopServer_reachable (by decide) (by decide) (fun _ _ => rfl)

end Examples

/-- C32, at an input where it fails.  The server with the stop words `in the` holds the
documents 1 `cat in the city`, 2 `city cat cat`, 3 `in the`, 4 `the` and 5 `dog`.  The
word sets of 1 and 2 are both `cat city`, those of 3 and 4 are both empty.
`RemoveDuplicates` finds the duplicates 2 and 4 and calls `RemoveDocument` for both:
document 2 is removed, and document 4, which has no word frequencies, stays.  After
the call the documents 3 and 4 are both in the server, with the same word set. -/
theorem C32_RemoveDuplicates_keeps_wordless_duplicate :
    SearchServer.Reachable (Examples.duplicatesServer ℝ) ∧
    (Examples.duplicatesServer ℝ).document_ids_ = [1, 2, 3, 4, 5] ∧
    RemoveDuplicates.temp (Examples.duplicatesServer ℝ) 1 = ["cat".toList, "city".toList] ∧
    RemoveDuplicates.temp (Examples.duplicatesServer ℝ) 2 = ["cat".toList, "city".toList] ∧
    RemoveDuplicates.temp (Examples.duplicatesServer ℝ) 3 = [] ∧
    RemoveDuplicates.temp (Examples.duplicatesServer ℝ) 4 = [] ∧
    RemoveDuplicates.temp (Examples.duplicatesServer ℝ) 5 = ["dog".toList] ∧
    RemoveDuplicates.duplicates (Examples.duplicatesServer ℝ) = [2, 4] ∧
    (RemoveDuplicates (Examples.duplicatesServer ℝ)).document_ids_ = [1, 3, 4, 5] ∧
    (RemoveDuplicates (Examples.duplicatesServer ℝ)).GetDocumentCount = 4 ∧
    (3 : Int) ∈ (RemoveDuplicates (Examples.duplicatesServer ℝ)).document_ids_ ∧
    (4 : Int) ∈ (RemoveDuplicates (Examples.duplicatesServer ℝ)).document_ids_ ∧
    RemoveDuplicates.temp (RemoveDuplicates (Examples.duplicatesServer ℝ)) 3 =
      RemoveDuplicates.temp (RemoveDuplicates (Examples.duplicatesServer ℝ)) 4 := by
  have hids : (RemoveDuplicates (Examples.duplicatesServer ℝ)).document_ids_ = [1, 3, 4, 5] := by
    rfl
  refine ⟨Examples.duplicatesServer_spec.1, by rfl, by rfl, by rfl, by rfl, by rfl, by rfl,
    by rfl, hids, by rfl, ?_, ?_, by rfl⟩
  · rw [hids]; decide
  · rw [hids]; decide








namespace SearchServer

variable {F : Type} [LinearOrderedField F]

/-- With the keys of the postings held by value: for every reachable state `S`, every
id that is not negative and not in `S`, and every text without control bytes that has a
word that is no stop word, the state after `AddDocument` and `RemoveDocument` of the
id answers `GetDocumentCount`, the iteration over the ids, `GetWordFrequencies`,
`FindTopDocuments` and `MatchDocument` as `S` does. -/
lemma round_trip_of_reachable (log : F → F) (s : SearchServer F) (hs : Reachable s)
    (id : Int) (text : Str) (status : DocumentStatus) (ratings : List Int) (h1 : 0 ≤ id)
    (h2 : id ∉ s.document_ids_) (h3 : ∀ c ∈ text, 32 ≤ c.toNat)
    (h4 : ∃ w ∈ SplitIntoWords text, s.IsStopWord w = false) :
    ∃ s₁ : SearchServer F, s.AddDocument id text status ratings = (.ok (), s₁) ∧
      s₁.RemoveDocumentPar id = s₁.RemoveDocument id ∧
      (s₁.RemoveDocument id).GetDocumentCount = s.GetDocumentCount ∧
      (s₁.RemoveDocument id).document_ids_ = s.document_ids_ ∧
      (∀ document_id, (s₁.RemoveDocument id).GetWordFrequencies document_id =
        s.GetWordFrequencies document_id) ∧
      (∀ (raw_query : Str) (document_predicate : Int → DocumentStatus → Int → Bool),
        FindTopDocuments log (s₁.RemoveDocument id) raw_query document_predicate =
          FindTopDocuments log s raw_query document_predicate ∧
        FindTopDocumentsPar log (s₁.RemoveDocument id) raw_query document_predicate =
          FindTopDocumentsPar log s raw_query document_predicate) ∧
      (∀ (raw_query : Str) (document_id : Int),
        MatchDocument (s₁.RemoveDocument id) raw_query document_id =
          MatchDocument s raw_query document_id ∧
        MatchDocumentPar (s₁.RemoveDocument id) raw_query document_id =
          MatchDocumentPar s raw_query document_id) ∧
      (∀ w, ((s₁.RemoveDocument id).word_to_document_freqs_.find w).getD [] =
        (s.word_to_document_freqs_.find w).getD []) := by
  have hinv := hs.inv
  have hnone : s.documents_.find id = none := by
    rw [OrdMap.find_eq_none_iff, ← hinv.ids_eq]; exact h2
  have hne : s.nonStopWords text ≠ [] := by
    obtain ⟨w, hw, hst⟩ := h4
    exact List.ne_nil_of_mem ((mem_nonStopWords s text w).2 ⟨hw, hst⟩)
  have hok : (s.AddDocument id text status ratings).1 = .ok () :=
    (AddDocument_ok_iff _ _ _ _ _).2 ⟨h1, hnone, h3⟩
  obtain ⟨hinv', hstop, hdocs, hids, hfwd, hpost⟩ :=
    add_then_remove hinv status ratings h1 hnone h3 hne
  have hgetD : ∀ w, (((s.AddDocument id text status ratings).2.RemoveDocument
      id).word_to_document_freqs_.find w).getD [] =
      (s.word_to_document_freqs_.find w).getD [] := by
    intro w
    rw [hpost w]
    by_cases hw : w ∈ s.nonStopWords text
    · rw [if_pos hw]; rfl
    · rw [if_neg hw]
  obtain ⟨hfind, hmatch⟩ := observe_congr hstop hdocs hgetD
  refine ⟨(s.AddDocument id text status ratings).2, Prod.ext hok rfl, RemoveDocumentPar_eq _ _,
    ?_, hids, fun k => ?_, fun raw pred => ⟨hfind hinv hinv' log raw pred, ?_⟩,
    fun raw k => ⟨hmatch raw k, ?_⟩, hgetD⟩
  · unfold GetDocumentCount
    rw [hdocs]
  · unfold GetWordFrequencies
    rw [hfwd]
  · rw [FindTopDocumentsPar_eq, FindTopDocumentsPar_eq]
    exact hfind hinv hinv' log raw pred
  · rw [MatchDocumentPar_eq, MatchDocumentPar_eq]
    exact hmatch raw k

end SearchServer







namespace SearchServer

variable {F : Type} [LinearOrderedField F]

/-- C34.  In a reachable state, `AddDocument` of a new id that is not negative with a
text whose slices are all stop words returns normally: the id enters the metadata map
and the document id set and the document count grows by one, the forward index and the
postings stay as they were, with no entry for the id, and `GetWordFrequencies(id)` is
empty.  A `RemoveDocument(id)` that follows, sequential or parallel, returns the state
unchanged: the id stays in the id set and in the metadata, `GetDocumentCount` does not
decrease, and every `AddDocument` of the same id throws `invalid_argument` and leaves
the state as it is. -/
theorem C34_stop_word_only_document (s : SearchServer F) (hs : Reachable s) (id : Int)
    (text : Str) (status : DocumentStatus) (ratings : List Int) (h1 : 0 ≤ id)
    (h2 : id ∉ s.document_ids_) (h3 : ∀ w ∈ SplitIntoWords text, s.IsStopWord w = true) :
    ∃ s' : SearchServer F, s.AddDocument id text status ratings = (.ok (), s') ∧
      s'.documents_.find id = some ⟨ComputeAverageRating ratings, status, text⟩ ∧
      id ∈ s'.document_ids_ ∧
      s'.GetDocumentCount = s.GetDocumentCount + 1 ∧
      s'.document_to_word_freqs_ = s.document_to_word_freqs_ ∧
      s'.word_to_document_freqs_ = s.word_to_document_freqs_ ∧
      s'.document_to_word_freqs_.find id = none ∧
      (∀ w, OrdMap.find2 s'.word_to_document_freqs_ w id = none) ∧
      s'.GetWordFrequencies id = [] ∧
      s'.RemoveDocument id = s' ∧ s'.RemoveDocumentPar id = s' ∧
      id ∈ (s'.RemoveDocument id).document_ids_ ∧
      (s'.RemoveDocument id).GetDocumentCount = s'.GetDocumentCount ∧
      ∀ (text' : Str) (status' : DocumentStatus) (ratings' : List Int),
        (s'.RemoveDocument id).AddDocument id text' status' ratings' =
          (.error .invalid_argument, s'.RemoveDocument id) := by
  have hinv := hs.inv
  have hnone : s.documents_.find id = none := by
    rw [OrdMap.find_eq_none_iff, ← hinv.ids_eq]; exact h2
  obtain ⟨hvalid, hwords⟩ := stop_only_text hs.any h3
  have hok : (s.AddDocument id text status ratings).1 = .ok () :=
    (AddDocument_ok_iff _ _ _ _ _).2 ⟨h1, hnone, hvalid⟩
  have hadd : s.AddDocument id text status ratings =
      (.ok (), (s.AddDocument id text status ratings).2) := Prod.ext hok rfl
  have hmaps : (s.AddDocument id text status ratings).2.word_to_document_freqs_ =
        s.word_to_document_freqs_ ∧
      (s.AddDocument id text status ratings).2.document_to_word_freqs_ =
        s.document_to_word_freqs_ := by
    rw [AddDocument_eq, if_neg (by omega), if_neg (by rw [hnone]; simp), if_pos hvalid, hwords]
    exact ⟨rfl, rfl⟩
  generalize (s.AddDocument id text status ratings).2 = s' at hadd hmaps
  obtain ⟨hpost, hfwd⟩ := hmaps
  have hinv' : Inv s' := Inv_add hinv hadd
  obtain ⟨-, hdocs, hids, -⟩ := AddDocument_ok_state hadd
  have hfind : s'.documents_.find id = some ⟨ComputeAverageRating ratings, status, text⟩ := by
    rw [hdocs, OrdMap.find_assign, if_pos rfl]
  have hfnone : s'.document_to_word_freqs_.find id = none := by
    rw [hfwd]; exact hinv.forward_none id hnone
  have hempty : s'.GetWordFrequencies id = [] := GetWordFrequencies_of_find_none hfnone
  have hrem : s'.RemoveDocument id = s' := RemoveDocument_of_empty hempty
  have hmem : id ∈ s'.document_ids_ := by
    rw [hids, OrdSet.set_mem_insert]; exact Or.inl rfl
  refine ⟨s', hadd, hfind, hmem, ?_, hfwd, hpost, hfnone, fun w => ?_, hempty, hrem, ?_, ?_, ?_,
    fun text' status' ratings' => ?_⟩
  · unfold GetDocumentCount OrdMap.size
    rw [hdocs]
    exact length_assign_of_none hnone _
  · rw [hinv'.consistent]
    exact OrdMap.find2_eq_none_of_find hfnone w
  · rw [RemoveDocumentPar_eq]; exact hrem
  · rw [hrem]; exact hmem
  · rw [hrem]
  · rw [hrem]
    exact AddDocument_duplicate (by rw [hfind]; simp) _ _ _

/-- C34 on the server with the stop words `in the` and the document 7 with the text
`in the in`: the call returns and stores the metadata and the id, no word frequencies
are stored, `RemoveDocument(7)` returns the state unchanged, and
`AddDocument(7, "dog", ...)` after it throws. -/
theorem C34_stop_word_only_document_witness :
    Reachable (Examples.stopServer ℝ) ∧
    (7 : Int) ∉ (Examples.stopServer ℝ).document_ids_ ∧
    (∀ w ∈ SplitIntoWords "in the in".toList, (Examples.stopServer ℝ).IsStopWord w = true) ∧
    ∃ s' : SearchServer ℝ,
      (Examples.stopServer ℝ).AddDocument 7 "in the in".toList .ACTUAL [4] = (.ok (), s') ∧
      s'.document_ids_ = [7] ∧ s'.GetDocumentCount = 1 ∧
      s'.document_to_word_freqs_ = [] ∧ s'.word_to_document_freqs_ = [] ∧
      s'.GetWordFrequencies 7 = [] ∧ s'.RemoveDocument 7 = s' ∧
      (s'.RemoveDocument 7).document_ids_ = [7] ∧
      (s'.RemoveDocument 7).AddDocument 7 "dog".toList .ACTUAL [] =
        (.error .invalid_argument, s'.RemoveDocument 7) := by
  have hfresh : (7 : Int) ∉ (Examples.stopServer ℝ).document_ids_ := by decide
  have hstop : ∀ w ∈ SplitIntoWords "in the in".toList,
      (Examples.stopServer ℝ).IsStopWord w = true := by decide
  obtain ⟨s', hadd, -, -, hcount, hfwd, hpost, -, -, hempty, hrem, -, -, -, hagain⟩ :=
    C34_stop_word_only_document (Examples.stopServer ℝ) Examples.stopServer_reachable 7
      "in the in".toList .ACTUAL [4] (by decide) hfresh hstop
  have hids : s'.document_ids_ = [7] := by
    rw [(AddDocument_ok_state hadd).2.2.1]
    rfl
  refine ⟨Examples.stopServer_reachable, hfresh, hstop, s', hadd, hids, ?_, ?_, ?_, hempty, hrem,
    ?_, hagain _ _ _⟩
  · rw [hcount]; rfl
  · rw [hfwd]; rfl
  · rw [hpost]; rfl
  · rw [hrem]; exact hids

end SearchServer






namespace SearchServer

variable {F : Type} [LinearOrderedField F]

/-- With the keys of the postings held by value: in every state reached by calls of
`AddDocument` that return and by calls of `RemoveDocument`, no posting map has more
documents than `GetDocumentCount`, the inverse document frequency of a word with a
posting is the logarithm of a ratio that is at least 1, and for a logarithm that is
not negative from 1 on, every relevance that `FindTopDocuments` returns is at least
0. -/
lemma relevance_nonneg_of_reachable (s : SearchServer F) (hs : Reachable s) :
    (∀ (w : Str) (docs : OrdMap Int F), s.word_to_document_freqs_.find w = some docs →
      docs.size ≤ s.GetDocumentCount) ∧
    (∀ (w : Str) (id : Int), OrdMap.find2 s.word_to_document_freqs_ w id ≠ none →
      ∃ docs, s.word_to_document_freqs_.find w = some docs ∧ 0 < docs.size ∧
        (1 : F) ≤ (s.GetDocumentCount : F) * 1 / (docs.size : F) ∧
        ∀ log : F → F, ComputeWordInverseDocumentFreq log s w =
          .ok (log ((s.GetDocumentCount : F) * 1 / (docs.size : F)))) ∧
    (∀ log : F → F, (∀ x, 1 ≤ x → 0 ≤ log x) →
      ∀ (raw_query : Str) (query : Query)
        (document_predicate : Int → DocumentStatus → Int → Bool),
        s.ParseQuery raw_query = .ok query →
        ∃ top, FindTopDocuments log s raw_query document_predicate = .ok top ∧
          ∀ d ∈ top, 0 ≤ d.relevance) := by
  have hinv := hs.inv
  refine ⟨fun w docs hf => hinv.posting_size_le hf, fun w id h => ?_,
    fun log hlog raw_query query pred hq => ?_⟩
  · obtain ⟨docs, hf, hpos, -, hratio, -⟩ := hinv.idf_ratio (F := F) h
    refine ⟨docs, hf, hpos, hratio, fun log => ?_⟩
    unfold ComputeWordInverseDocumentFreq
    rw [at_eq_ok hf]
  · refine ⟨_, FindTopDocuments_eq hinv log hq pred, fun d hd => ?_⟩
    have hmem := (mem_FindAllDocuments s log query pred d).1 (mem_of_mem_sortAndTruncate hd)
    have hrel := hmem.1
    rw [find_relevanceMap hinv] at hrel
    split_ifs at hrel with h1 h2
    rw [← Option.some.inj hrel]
    exact List.sum_nonneg (hinv.contribs_nonneg hlog _ _)

end SearchServer


namespace SearchServer

variable {F : Type} [LinearOrderedField F]

/-- C37.  The comparator that `FindTopDocuments` gives to `std::sort`, the same in the
sequential and in the parallel version, puts `a` before `b` exactly when the rating of
`a` is greater in case the relevances differ by less than 1e-6, and the relevance of
`a` is greater otherwise.  It is irreflexive and asymmetric, and it is not transitive:
the documents with relevance and rating 0 and 3, 0.6e-6 and 2, 1.2e-6 and 1 form a
cycle, each one before the next and the third before the first, so the comparator is
no strict weak ordering. -/
theorem C37_comparator_not_transitive :
    (∀ a b : Document F, documentBefore a b = true ↔
      if |a.relevance - b.relevance| < 1 / 1000000 then a.rating > b.rating
      else a.relevance > b.relevance) ∧
    (∀ a : Document F, documentBefore a a = false) ∧
    (∀ a b : Document F, documentBefore a b = true → documentBefore b a = false) ∧
    (documentBefore (⟨1, 0, 3⟩ : Document F) ⟨2, 6 / 10000000, 2⟩ = true ∧
      documentBefore (⟨2, 6 / 10000000, 2⟩ : Document F) ⟨3, 12 / 10000000, 1⟩ = true ∧
      documentBefore (⟨3, 12 / 10000000, 1⟩ : Document F) ⟨1, 0, 3⟩ = true ∧
      documentBefore (⟨1, 0, 3⟩ : Document F) ⟨3, 12 / 10000000, 1⟩ = false) ∧
    ¬ (∀ a b c : Document F, documentBefore a b = true → documentBefore b c = true →
      documentBefore a c = true) := by
  have hiff : ∀ a b : Document F, documentBefore a b = true ↔
      if |a.relevance - b.relevance| < 1 / 1000000 then a.rating > b.rating
      else a.relevance > b.relevance := by
    intro a b
    unfold documentBefore
    split_ifs <;> simp
  have h12 : documentBefore (⟨1, 0, 3⟩ : Document F) ⟨2, 6 / 10000000, 2⟩ = true := by
    rw [hiff, if_pos (by simp only [zero_sub, abs_neg]; rw [abs_of_pos (by norm_num)]; norm_num)]
    show (3 : Int) > 2
    decide
  have h23 : documentBefore (⟨2, 6 / 10000000, 2⟩ : Document F) ⟨3, 12 / 10000000, 1⟩ = true := by
    rw [hiff, if_pos (by
      simp only
      rw [abs_sub_comm, abs_of_pos (by norm_num)]; norm_num)]
    show (2 : Int) > 1
    decide
  have h31 : documentBefore (⟨3, 12 / 10000000, 1⟩ : Document F) ⟨1, 0, 3⟩ = true := by
    rw [hiff, if_neg (by simp only [sub_zero]; rw [abs_of_pos (by norm_num)]; norm_num)]
    simp only
    norm_num
  have hasym : ∀ a b : Document F, documentBefore a b = true → documentBefore b a = false :=
    fun a b h => Bool.eq_false_iff.2 (documentBefore_asymm a b h)
  refine ⟨hiff, fun a => ?_, hasym, ⟨h12, h23, h31, hasym _ _ h31⟩, fun htrans => ?_⟩
  · cases h : documentBefore a a with
    | false => rfl
    | true => exact absurd h (documentBefore_asymm a a h)
  · have := htrans _ _ _ h12 h23
    rw [hasym _ _ h31] at this
    cases this

/-- C37 over the real numbers: the three documents of the cycle, and the first of them
not before the third. -/
theorem C37_comparator_not_transitive_witness :
    documentBefore (⟨1, 0, 3⟩ : Document ℝ) ⟨2, 6 / 10000000, 2⟩ = true ∧
    documentBefore (⟨2, 6 / 10000000, 2⟩ : Document ℝ) ⟨3, 12 / 10000000, 1⟩ = true ∧
    documentBefore (⟨3, 12 / 10000000, 1⟩ : Document ℝ) ⟨1, 0, 3⟩ = true ∧
    documentBefore (⟨1, 0, 3⟩ : Document ℝ) ⟨3, 12 / 10000000, 1⟩ = false :=
  (C37_comparator_not_transitive (F := ℝ)).2.2.2.1

end SearchServer




namespace RequestQueue

variable {F : Type} [LinearOrderedField F]

/-- C38.  For every series of `AddFindRequest` calls on a new queue, whatever the
state of the server at each call, with `n` calls that return: the queue stores the
results of the most recent `min n 1440` of them, oldest first, and never more than
1440; every stored entry carries the flag of an empty result exactly when its result
is empty; `GetNoResultRequests` is the number of stored entries whose result is empty,
so it lies between 0 and 1440.  When every call of the series returns, `n` is the
number of calls.  Each call returns the outcome of `FindTopDocuments` for its query
unchanged, the overloads with a status and without one return the outcome of the
corresponding overloads of `FindTopDocuments`, and a call that throws leaves the queue
as it was.  A call of the overload with a status has the outcome and leaves the queue of
the call with the predicate `document_status == status`, and a call of the overload
without one those of the call with the predicate `document_status == ACTUAL`, so a
series may mix the three overloads. -/
theorem C38_request_queue (log : F → F)
    (calls : List (SearchServer F × Str × (Int → DocumentStatus → Int → Bool))) :
    ((addRequests log create calls).requests_.map (fun r => r.found_docs) =
      (returned log calls).drop ((returned log calls).length - 1440)) ∧
    (addRequests log create calls).requests_.length = min (returned log calls).length 1440 ∧
    (addRequests log create calls).requests_.length ≤ 1440 ∧
    (∀ r ∈ (addRequests log create calls).requests_, r.is_empty = r.found_docs.isEmpty) ∧
    (addRequests log create calls).GetNoResultRequests =
      ((((addRequests log create calls).requests_.filter
        (fun r => r.found_docs.isEmpty)).length : Nat) : Int) ∧
    0 ≤ (addRequests log create calls).GetNoResultRequests ∧
    (addRequests log create calls).GetNoResultRequests ≤ 1440 ∧
    ((∀ call ∈ calls, ∃ found_docs,
        SearchServer.FindTopDocuments log call.1 call.2.1 call.2.2 = .ok found_docs) →
      (returned log calls).length = calls.length ∧
      returned log calls = calls.filterMap (fun call =>
        (AddFindRequest log create call.1 call.2.1 call.2.2).1.toOption)) ∧
    (∀ (rq : RequestQueue F) (s : SearchServer F) (raw_query : Str)
        (document_predicate : Int → DocumentStatus → Int → Bool),
      (AddFindRequest log rq s raw_query document_predicate).1 =
        SearchServer.FindTopDocuments log s raw_query document_predicate ∧
      (∀ e, SearchServer.FindTopDocuments log s raw_query document_predicate = .error e →
        (AddFindRequest log rq s raw_query document_predicate).2 = rq)) ∧
    (∀ (rq : RequestQueue F) (s : SearchServer F) (raw_query : Str) (status : DocumentStatus),
      (AddFindRequestByStatus log rq s raw_query status).1 =
        SearchServer.FindTopDocumentsByStatus log s raw_query status ∧
      (AddFindRequestDefault log rq s raw_query).1 =
        SearchServer.FindTopDocumentsDefault log s raw_query ∧
      AddFindRequestByStatus log rq s raw_query status =
        AddFindRequest log rq s raw_query (SearchServer.statusPredicate status) ∧
      AddFindRequestDefault log rq s raw_query =
        AddFindRequest log rq s raw_query (SearchServer.statusPredicate .ACTUAL)) := by
  have hcall : ∀ (rq : RequestQueue F) (s : SearchServer F) (raw_query : Str)
      (document_predicate : Int → DocumentStatus → Int → Bool),
      (AddFindRequest log rq s raw_query document_predicate).1 =
        SearchServer.FindTopDocuments log s raw_query document_predicate := by
    intro rq s raw_query document_predicate
    cases hf : SearchServer.FindTopDocuments log s raw_query document_predicate with
    | error e => rw [AddFindRequest_error rq hf]
    | ok d => rw [AddFindRequest_ok rq hf]
  obtain ⟨h1, h2⟩ := addRequests_holds log calls create [] (by simp [create]) (by simp [create])
  rw [List.nil_append] at h1
  have hlen : (addRequests log create calls).requests_.length =
      min (returned log calls).length 1440 := by
    rw [h1, List.length_map, List.length_drop]
    omega
  have hflag : ∀ r ∈ (addRequests log create calls).requests_,
      r.is_empty = r.found_docs.isEmpty := by
    intro r hr
    rw [h1] at hr
    obtain ⟨d, -, rfl⟩ := List.mem_map.1 hr
    rfl
  have hcount : (addRequests log create calls).GetNoResultRequests =
      ((((addRequests log create calls).requests_.filter
        (fun r => r.found_docs.isEmpty)).length : Nat) : Int) := by
    unfold GetNoResultRequests
    rw [h2]
    congr 2
    apply List.filter_congr
    intro r hr
    exact hflag r hr
  refine ⟨?_, hlen, by rw [hlen]; exact min_le_right _ _, hflag, hcount, ?_, ?_, ?_,
    fun rq s raw_query document_predicate =>
      ⟨hcall rq s raw_query document_predicate, fun e he => ?_⟩,
    fun rq s raw_query status => ⟨hcall _ _ _ _, hcall _ _ _ _, rfl, rfl⟩⟩
  · rw [h1, List.map_map]
    exact List.map_id _
  · rw [hcount]
    exact Int.natCast_nonneg _
  · rw [hcount]
    have := List.length_filter_le (fun r : QueryResult F => r.found_docs.isEmpty)
      (addRequests log create calls).requests_
    have h3 : (addRequests log create calls).requests_.length ≤ 1440 := by
      rw [hlen]; exact min_le_right _ _
    omega
  · intro hall
    have hret : returned log calls = calls.filterMap (fun call =>
        (AddFindRequest log create call.1 call.2.1 call.2.2).1.toOption) := by
      unfold returned
      apply List.filterMap_congr
      intro call _
      rw [hcall]
      cases SearchServer.FindTopDocuments log call.1 call.2.1 call.2.2 <;> rfl
    refine ⟨?_, hret⟩
    unfold returned
    clear h1 h2 hlen hflag hcount hret
    induction calls with
    | nil => rfl
    | cons call calls ih =>
      obtain ⟨d, hd⟩ := hall call (List.mem_cons_self _ _)
      rw [List.filterMap_cons, hd]
      simp only [List.length_cons]
      rw [ih (fun c hc => hall c (List.mem_cons_of_mem _ hc))]
  · rw [AddFindRequest_error rq he]

/-- C38 on the server with the document 42, `cat in the city`.  The requests `cat` and
`dog` both return, the first with the document 42 and the second with nothing: the
queue stores the two results and one of them is empty.  A third request `--cat` throws
and leaves the queue as it is.  A further request `dog` through the overload without a
status adds a second empty result, and a request `cat` with the status `BANNED` adds an
empty result as well. -/
theorem C38_request_queue_witness :
    (∀ call ∈ Examples.twoRequests ℝ, ∃ found_docs,
      SearchServer.FindTopDocuments Real.log call.1 call.2.1 call.2.2 = .ok found_docs) ∧
    (returned Real.log (Examples.twoRequests ℝ)).length = 2 ∧
    (addRequests Real.log create (Examples.twoRequests ℝ)).requests_.map
      (fun r => (r.is_empty, r.found_docs.map (fun d => (d.id, d.rating)))) =
        [(false, [(42, 2)]), (true, [])] ∧
    (addRequests Real.log create (Examples.twoRequests ℝ)).GetNoResultRequests = 1 ∧
    (AddFindRequest Real.log (addRequests Real.log create (Examples.twoRequests ℝ))
      (Examples.catServer ℝ) "--cat".toList (SearchServer.statusPredicate .ACTUAL)) =
        (.error .invalid_argument, addRequests Real.log create (Examples.twoRequests ℝ)) ∧
    (addRequests Real.log create (Examples.threeRequests ℝ)).GetNoResultRequests = 1 ∧
    (AddFindRequestDefault Real.log (addRequests Real.log create (Examples.twoRequests ℝ))
      (Examples.catServer ℝ) "dog".toList).2.GetNoResultRequests = 2 ∧
    (AddFindRequestByStatus Real.log (addRequests Real.log create (Examples.twoRequests ℝ))
      (Examples.catServer ℝ) "cat".toList .BANNED).2.requests_.map
      (fun r => (r.is_empty, r.found_docs.map (fun d => (d.id, d.rating)))) =
        [(false, [(42, 2)]), (true, []), (true, [])] := by
  have hall : ∀ call ∈ Examples.twoRequests ℝ, ∃ found_docs,
      SearchServer.FindTopDocuments Real.log call.1 call.2.1 call.2.2 = .ok found_docs := by
    intro call hc
    unfold Examples.twoRequests at hc
    simp only [List.mem_cons, List.mem_singleton, List.not_mem_nil, or_false] at hc
    rcases hc with rfl | rfl
    · exact ⟨_, rfl⟩
    · exact ⟨_, rfl⟩
  have h := C38_request_queue Real.log (Examples.twoRequests ℝ)
  have h3 := C38_request_queue Real.log (Examples.threeRequests ℝ)
  refine ⟨hall, (h.2.2.2.2.2.2.2.1 hall).1, rfl, ?_, ?_, ?_, ?_, ?_⟩
  · rw [h.2.2.2.2.1]
    rfl
  · exact Prod.ext ((h.2.2.2.2.2.2.2.2.1 _ _ _ _).1.trans rfl)
      ((h.2.2.2.2.2.2.2.2.1 _ _ _ _).2 .invalid_argument rfl)
  · rw [h3.2.2.2.2.1]
    rfl
  · rw [(h.2.2.2.2.2.2.2.2.2 _ _ _ .ACTUAL).2.2.2]
    rfl
  · rw [(h.2.2.2.2.2.2.2.2.2 _ _ _ .BANNED).2.2.1]
    rfl

end RequestQueue



/-- C39.  For every range from position `first` to position `last` of a container, with
`n = last - first` elements, and every `page_size` that is at least 1, the loop of the
constructor of `Paginator` ends, at its test number `n / page_size` rounded up, plus
one, and not before, and it produces `n / page_size` rounded up pages.  Page `i` runs
from `first + i * page_size` to `first + min ((i + 1) * page_size) n`: it is not empty,
it starts where the page before it ends, the first page starts at `first` and the last
page ends at `last`, every page but the last has `page_size` elements and the last has
between 1 and `page_size`, and the elements of the pages, one page after the other, are
the elements of the range.  With `page_size = 0` and a range that is not empty the loop
does not end.  `Paginate` is the constructor on the whole container. -/
theorem C39_Paginator {α : Type} (c : List α) (first last page_size : Nat)
    (hfl : first ≤ last) (hlc : last ≤ c.length) :
    (1 ≤ page_size →
      ∃ pages_ : List IteratorRange,
        (∀ fuel, (last - first + page_size - 1) / page_size < fuel →
          Paginator.create fuel first last page_size = some pages_) ∧
        (∀ fuel, fuel ≤ (last - first + page_size - 1) / page_size →
          Paginator.create fuel first last page_size = none) ∧
        pages_.length = (last - first + page_size - 1) / page_size ∧
        last - first ≤ pages_.length * page_size ∧
        pages_.length * page_size < last - first + page_size ∧
        (∀ i r, pages_[i]? = some r →
          r.first_ = first + i * page_size ∧
          r.last_ = first + min ((i + 1) * page_size) (last - first) ∧
          r.size_ = r.last_ - r.first_ ∧ r.first_ < r.last_ ∧ r.last_ ≤ last ∧
          1 ≤ r.size_ ∧ r.size_ ≤ page_size ∧
          (r.elements c).length = r.size_ ∧
          (i = 0 → r.first_ = first) ∧
          (i + 1 < pages_.length → r.size_ = page_size) ∧
          (i + 1 = pages_.length → r.last_ = last) ∧
          (∀ r', pages_[i + 1]? = some r' → r'.first_ = r.last_)) ∧
        (pages_.map (IteratorRange.elements c)).flatten = (c.drop first).take (last - first)) ∧
    (page_size = 0 → first < last →
      ∀ fuel, Paginator.create fuel first last page_size = none) ∧
    (∀ fuel, Paginate fuel c page_size = Paginator.create fuel 0 c.length page_size) ∧
    (1 ≤ page_size → ∀ pages_ fuel, Paginate fuel c page_size = some pages_ →
      (pages_.map (IteratorRange.elements c)).flatten = c) := by
  have hceil : 1 ≤ page_size →
      last - first ≤ (last - first + page_size - 1) / page_size * page_size ∧
      (last - first + page_size - 1) / page_size * page_size < last - first + page_size := by
    intro hp
    have h1 := Nat.div_add_mod (last - first + page_size - 1) page_size
    have h2 := Nat.mod_lt (last - first + page_size - 1) (show page_size > 0 by omega)
    rw [Nat.mul_comm] at h1
    constructor <;> omega
  refine ⟨fun hp => ⟨Paginator.pages first (last - first) page_size, ?_, ?_, ?_, ?_, ?_, ?_, ?_⟩,
    ?_, fun _ => rfl, ?_⟩
  · intro fuel hf
    unfold Paginator.create
    rw [Paginator.loop_eq hp, if_neg (by omega), List.nil_append]
  · intro fuel hf
    unfold Paginator.create
    rw [Paginator.loop_eq hp, if_pos hf]
  · unfold Paginator.pages
    rw [List.length_map, List.length_range]
  · unfold Paginator.pages
    rw [List.length_map, List.length_range]
    exact (hceil hp).1
  · unfold Paginator.pages
    rw [List.length_map, List.length_range]
    exact (hceil hp).2
  · intro i r hr
    have hlen : (Paginator.pages first (last - first) page_size).length =
        (last - first + page_size - 1) / page_size := by
      unfold Paginator.pages
      rw [List.length_map, List.length_range]
    rw [Paginator.getElem?_pages] at hr
    by_cases hi : i < (last - first + page_size - 1) / page_size
    · rw [if_pos hi] at hr
      have hr' := (Option.some.inj hr).symm
      subst hr'
      obtain ⟨hc1, hc2⟩ := hceil hp
      have hmul : i * page_size + page_size ≤
          (last - first + page_size - 1) / page_size * page_size := by
        have := Nat.mul_le_mul_right page_size (show i + 1 ≤ _ from hi)
        rw [Nat.add_mul, Nat.one_mul] at this
        exact this
      have hs : (i + 1) * page_size = i * page_size + page_size := by ring
      have hlt : i * page_size < last - first := by omega
      have hmin : i * page_size < min ((i + 1) * page_size) (last - first) := by
        rw [hs]; exact lt_min (by omega) hlt
      have hmin2 : min ((i + 1) * page_size) (last - first) ≤ i * page_size + page_size := by
        rw [hs]; exact min_le_left _ _
      have hmin3 : min ((i + 1) * page_size) (last - first) ≤ last - first := min_le_right _ _
      simp only [IteratorRange.create, IteratorRange.elements]
      refine ⟨trivial, trivial, trivial, by omega, by omega, by omega, by omega, ?_, ?_, ?_, ?_, ?_⟩
      · rw [List.length_take, List.length_drop]
        omega
      · intro h0; subst h0; simp
      · intro hlast
        rw [hlen] at hlast
        have := Nat.mul_le_mul_right page_size (show i + 1 + 1 ≤ _ from hlast)
        have hle : (i + 1) * page_size ≤ last - first := by
          rw [hs]
          rw [Nat.add_mul, Nat.add_mul, Nat.one_mul] at this
          omega
        rw [min_eq_left hle]
        omega
      · intro hlast
        rw [hlen] at hlast
        have hge : last - first ≤ (i + 1) * page_size := by rw [hlast]; exact hc1
        rw [min_eq_right hge]
        omega
      · intro r' hr1
        rw [Paginator.getElem?_pages] at hr1
        by_cases hi1 : i + 1 < (last - first + page_size - 1) / page_size
        · rw [if_pos hi1] at hr1
          have hr1' := (Option.some.inj hr1).symm
          subst hr1'
          have := Nat.mul_le_mul_right page_size (show i + 1 + 1 ≤ _ from hi1)
          have hle : (i + 1) * page_size ≤ last - first := by
            rw [hs]
            rw [Nat.add_mul, Nat.add_mul, Nat.one_mul] at this
            omega
          simp only [IteratorRange.create]
          rw [min_eq_left hle]
        · rw [if_neg hi1] at hr1
          cases hr1
    · rw [if_neg hi] at hr
      cases hr
  · exact Paginator.flatten_pages c hp _ _
  · intro h0 hlt fuel
    subst h0
    exact Paginator.loop_zero (by omega) _ _ _
  · intro hp pages_ fuel h
    unfold Paginate Paginator.create at h
    rw [Paginator.loop_eq hp] at h
    split_ifs at h
    rw [List.nil_append] at h
    rw [← Option.some.inj h, Paginator.flatten_pages c hp, List.drop_zero, Nat.sub_zero,
      List.take_length]

/-- C39 on a container of seven elements: with `page_size = 3` the loop ends at its
fourth test with the pages 0 to 3, 3 to 6 and 6 to 7, which hold `[1, 2, 3]`,
`[4, 5, 6]` and `[7]`, and with three tests it has not ended; on the range from
position 2 to position 7 with `page_size = 2` the pages are 2 to 4, 4 to 6 and 6 to 7;
with `page_size = 0` the loop never ends. -/
theorem C39_Paginator_witness :
    Paginate 4 [1, 2, 3, 4, 5, 6, 7] 3 = some [⟨0, 3, 3⟩, ⟨3, 6, 3⟩, ⟨6, 7, 1⟩] ∧
    Paginate 3 [1, 2, 3, 4, 5, 6, 7] 3 = none ∧
    ([⟨0, 3, 3⟩, ⟨3, 6, 3⟩, ⟨6, 7, 1⟩].map
      (IteratorRange.elements [1, 2, 3, 4, 5, 6, 7])) = [[1, 2, 3], [4, 5, 6], [7]] ∧
    Paginator.create 4 2 7 2 = some [⟨2, 4, 2⟩, ⟨4, 6, 2⟩, ⟨6, 7, 1⟩] ∧
    (∀ pages_ fuel, Paginate fuel [1, 2, 3, 4, 5, 6, 7] 3 = some pages_ →
      (pages_.map (IteratorRange.elements [1, 2, 3, 4, 5, 6, 7])).flatten =
        [1, 2, 3, 4, 5, 6, 7]) ∧
    (∀ fuel, Paginator.create fuel 0 7 0 = none) :=
  ⟨rfl, rfl, by decide, rfl,
    (C39_Paginator [1, 2, 3, 4, 5, 6, 7] 0 7 3 (by decide) (by decide)).2.2.2 (by decide),
    (C39_Paginator [1, 2, 3, 4, 5, 6, 7] 0 7 0 (by decide) (by decide)).2.1 rfl (by decide)⟩



/-! ## Part IV. Views, rounding, the sort and the schedules

The lemmas on the keys of the postings as views into the stored texts, on the
arithmetic of `double`, on `std::sort` as the standard specifies it and on the schedules
of the parallel accumulation, followed by the claims that rest on them. -/

/-! ### The keys as views -/

namespace OrdMap

variable {K V : Type} [LinearOrder K]

lemma find_emplace (m : OrdMap K V) (k : K) (v : V) (k' : K) :
    (m.emplace k v).find k' =
      if (m.find k).isSome then m.find k' else if k = k' then some v else m.find k' := by
  unfold emplace
  by_cases h : (m.find k).isSome
  · rw [if_pos h, if_pos h]
  · rw [if_neg h, if_neg h, find_assign]

/-- The lookups after a series of `emplace` with one value. -/
lemma find_foldl_emplace (ks : List K) (c : V) (m : OrdMap K V) (k : K) :
    (ks.foldl (fun owners word => owners.emplace word c) m).find k =
      if (m.find k).isSome then m.find k else if k ∈ ks then some c else none := by
  induction ks generalizing m with
  | nil =>
    rw [List.foldl_nil]
    cases h : m.find k <;> simp
  | cons a ks ih =>
    rw [List.foldl_cons, ih, find_emplace]
    by_cases ha : (m.find a).isSome
    · simp only [ha, if_true, List.mem_cons]
      by_cases hk : (m.find k).isSome
      · simp only [hk, if_true]
      · simp only [hk, Bool.false_eq_true, if_false]
        have hne : k ≠ a := fun e => hk (e ▸ ha)
        simp only [hne, false_or]
    · simp only [ha, Bool.false_eq_true, if_false, List.mem_cons]
      by_cases hak : a = k
      · subst hak
        simp only [if_true, Option.isSome_some, ha, Bool.false_eq_true, if_false, true_or]
      · have hne : ¬ k = a := fun e => hak e.symm
        simp only [hak, if_false, hne, false_or]

lemma WF_foldl_emplace (ks : List K) (c : V) {m : OrdMap K V} (h : m.WF) :
    (ks.foldl (fun owners word => owners.emplace word c) m).WF := by
  induction ks generalizing m with
  | nil => exact h
  | cons a ks ih => exact ih (WF_emplace h a c)

/-- A series of `emplace` of keys that are all present changes nothing. -/
lemma foldl_emplace_of_present (ks : List K) (c : V) (m : OrdMap K V)
    (h : ∀ k ∈ ks, (m.find k).isSome) :
    ks.foldl (fun owners word => owners.emplace word c) m = m := by
  induction ks with
  | nil => rfl
  | cons a ks ih =>
    rw [List.foldl_cons]
    have ha : m.emplace a c = m := by
      unfold emplace
      rw [if_pos (h a (List.mem_cons_self _ _))]
    rw [ha]
    exact ih (fun k hk => h k (List.mem_cons_of_mem _ hk))

/-- Lookups in a map whose values have been changed entry by entry. -/
lemma find_map_snd {W : Type} (g : V → W) (m : OrdMap K V) (k : K) :
    OrdMap.find (m.map (fun e => (e.1, g e.2))) k = (m.find k).map g := by
  induction m with
  | nil => rfl
  | cons e rest ih =>
    obtain ⟨k', v⟩ := e
    simp only [List.map_cons, OrdMap.find]
    split_ifs
    · rfl
    · exact ih

/-- Lookups among the entries whose key passes a test. -/
lemma find_filter_key (m : OrdMap K V) (p : K → Bool) (k : K) :
    OrdMap.find (m.filter (fun e => p e.1)) k = if p k then m.find k else none := by
  induction m with
  | nil => simp [OrdMap.find]
  | cons e rest ih =>
    obtain ⟨k', v⟩ := e
    by_cases hp : p k' = true
    · rw [List.filter_cons_of_pos (by simpa using hp)]
      simp only [OrdMap.find]
      by_cases hk : k' = k
      · subst hk
        simp only [if_true, hp]
      · simp only [if_neg hk]
        exact ih
    · rw [List.filter_cons_of_neg (by simpa using hp)]
      simp only [OrdMap.find]
      by_cases hk : k' = k
      · subst hk
        rw [ih, if_neg hp, if_neg hp]
      · simp only [if_neg hk]
        exact ih

lemma WF_filter_key {m : OrdMap K V} (h : m.WF) (p : K → Bool) :
    OrdMap.WF (m.filter (fun e => p e.1)) := by
  unfold OrdMap.WF OrdMap.keys at h ⊢
  rw [List.pairwise_map] at h ⊢
  exact h.sublist (List.filter_sublist _)

lemma WF_map_snd {W : Type} (g : V → W) {m : OrdMap K V} (h : m.WF) :
    OrdMap.WF (m.map (fun e => (e.1, g e.2))) := by
  unfold OrdMap.WF OrdMap.keys at h ⊢
  rw [List.map_map]
  exact h

end OrdMap

namespace ViewIndex

open SearchServer

variable {F : Type} [LinearOrderedField F]

lemma AddDocument_fst (v : ViewIndex F) (id : Int) (text : Str) (status : DocumentStatus)
    (ratings : List Int) :
    (v.AddDocument id text status ratings).1 = (v.server.AddDocument id text status ratings).1 :=
  rfl

lemma AddDocument_server (v : ViewIndex F) (id : Int) (text : Str) (status : DocumentStatus)
    (ratings : List Int) :
    (v.AddDocument id text status ratings).2.server =
      (v.server.AddDocument id text status ratings).2 := rfl

/-- The owners after an `AddDocument` that returns: every word of the document that was
no key is now a key owned by the document. -/
lemma AddDocument_owner {v : ViewIndex F} {id : Int} {text : Str} {status : DocumentStatus}
    {ratings : List Int} (h : (v.AddDocument id text status ratings).1 = .ok ()) :
    (v.AddDocument id text status ratings).2.key_owner =
      (v.server.nonStopWords text).foldl (fun owners word => owners.emplace word (some id))
        v.key_owner := by
  rw [AddDocument_fst] at h
  have hvalid := ((AddDocument_ok_iff _ _ _ _ _).1 h).2.2
  have hsplit : v.server.SplitIntoWordsNoStop text = .ok (v.server.nonStopWords text) := by
    rw [SplitIntoWordsNoStop_eq, if_pos hvalid]
  unfold AddDocument
  simp only [h, hsplit]

lemma AddDocument_owner_of_error {v : ViewIndex F} {id : Int} {text : Str}
    {status : DocumentStatus} {ratings : List Int}
    (h : (v.AddDocument id text status ratings).1 ≠ .ok ()) :
    (v.AddDocument id text status ratings).2.key_owner = v.key_owner := by
  rw [AddDocument_fst] at h
  unfold AddDocument
  simp only
  split
  · rename_i h1 _
    exact absurd h1 h
  · rfl

lemma AddDocument_pair {v : ViewIndex F} {id : Int} {text : Str} {status : DocumentStatus}
    {ratings : List Int} (h : (v.AddDocument id text status ratings).1 = .ok ()) :
    v.server.AddDocument id text status ratings =
      (.ok (), (v.AddDocument id text status ratings).2.server) := by
  rw [AddDocument_fst] at h
  rw [AddDocument_server]
  exact Prod.ext h rfl

/-- The contents of a state reached with live keys are those of the index with its
keys held by value. -/
lemma LiveReach.reachable {v : ViewIndex F} (h : LiveReach v) : Reachable v.server := by
  induction h with
  | init stop_words v h =>
    unfold create at h
    cases hc : SearchServer.create (F := F) stop_words with
    | error e => rw [hc] at h; cases h
    | ok s =>
      rw [hc] at h
      cases h
      exact Reachable.init stop_words s hc
  | add v id text status ratings _ _ hok ih =>
    exact Reachable.add _ id text status ratings _ ih (AddDocument_pair hok)
  | remove v id _ _ ih => exact Reachable.remove _ id ih
  | removePar v id _ _ ih => exact Reachable.removePar _ id ih

/-- The words of a stored forward entry are keys of the postings. -/
lemma forward_keys_present {s : SearchServer F} (hs : Inv s) (id : Int) :
    ∀ w ∈ (s.GetWordFrequencies id).keys, (s.word_to_document_freqs_.find w).isSome := by
  intro w hw
  rw [← OrdMap.find_isSome_iff_mem_keys, ← find2_forward_eq, ← hs.consistent] at hw
  unfold OrdMap.find2 at hw
  cases hf : s.word_to_document_freqs_.find w with
  | none => rw [hf] at hw; cases hw
  | some inner => rfl

/-- The owner of a key after texts have been erased. -/
lemma find_releaseOwners (documents : OrdMap Int DocumentData)
    (owners : OrdMap Str (Option Int)) (w : Str) :
    (releaseOwners documents owners).find w =
      (owners.find w).map (fun owner => owner.bind (fun document_id =>
        if (documents.find document_id).isSome then some document_id else none)) := by
  unfold releaseOwners
  exact OrdMap.find_map_snd (fun owner : Option Int => owner.bind (fun document_id =>
    if (documents.find document_id).isSome then some document_id else none)) owners w

lemma WF_releaseOwners (documents : OrdMap Int DocumentData)
    {owners : OrdMap Str (Option Int)} (h : owners.WF) :
    (releaseOwners documents owners).WF := by
  unfold releaseOwners
  exact OrdMap.WF_map_snd (fun owner : Option Int => owner.bind (fun document_id =>
    if (documents.find document_id).isSome then some document_id else none)) h

/-- In a state reached with live keys the owners are recorded for the keys of the
postings and for nothing else. -/
lemma LiveReach.owner_isSome {v : ViewIndex F} (h : LiveReach v) :
    ∀ w : Str,
      (v.key_owner.find w).isSome ↔ (v.server.word_to_document_freqs_.find w).isSome := by
  induction h with
  | init stop_words v h =>
    unfold create at h
    cases hc : SearchServer.create (F := F) stop_words with
    | error e => rw [hc] at h; cases h
    | ok s =>
      rw [hc] at h
      cases h
      unfold SearchServer.create at hc
      simp only at hc
      split at hc
      · cases hc
      · cases hc
        intro w
        rfl
  | add v id text status ratings _ _ hok ih =>
    intro w
    have ih := ih w
    rw [AddDocument_owner hok, AddDocument_postings_keys (AddDocument_pair hok),
      OrdMap.find_foldl_emplace]
    by_cases hk : (v.key_owner.find w).isSome
    · simp only [hk, if_true]
      exact ⟨fun _ => Or.inr (ih.1 hk), fun _ => trivial⟩
    · have hp : ¬ (v.server.word_to_document_freqs_.find w).isSome := fun hc => hk (ih.2 hc)
      simp only [hk, Bool.false_eq_true, if_false, hp, or_false]
      by_cases hw : w ∈ v.server.nonStopWords text
      · simp [hw]
      · simp [hw]
  | remove v id hv _ ih =>
    intro w
    have hkeep : (v.RemoveDocument id).key_owner =
        releaseOwners (v.server.RemoveDocument id).documents_ v.key_owner := by
      show releaseOwners _ (List.foldl _ _ _) = _
      have := OrdMap.foldl_emplace_of_present ((v.server.GetWordFrequencies id).keys) none
        v.key_owner (fun k hk => (ih k).2 (forward_keys_present hv.reachable.inv id k hk))
      unfold OrdMap.keys at this
      rw [List.foldl_map] at this
      rw [this]
    have ih := ih w
    rw [hkeep]
    rw [find_releaseOwners, Option.isSome_map']
    show _ ↔ ((v.server.RemoveDocument id).word_to_document_freqs_.find w).isSome
    rw [RemoveDocument_postings_keys]
    constructor
    · intro hk; exact Or.inr (ih.1 hk)
    · rintro (hk | hk)
      · exact ih.2 (forward_keys_present hv.reachable.inv id w hk)
      · exact ih.2 hk
  | removePar v id hv _ ih =>
    intro w
    have hkeep : (v.RemoveDocumentPar id).key_owner =
        releaseOwners (v.server.RemoveDocument id).documents_ v.key_owner := by
      show releaseOwners _ (List.foldl _ _ _) = _
      have := OrdMap.foldl_emplace_of_present ((v.server.GetWordFrequencies id).keys) (some id)
        v.key_owner (fun k hk => (ih k).2 (forward_keys_present hv.reachable.inv id k hk))
      unfold OrdMap.keys at this
      rw [List.foldl_map] at this
      rw [this]
      rfl
    have ih := ih w
    rw [hkeep]
    rw [find_releaseOwners, Option.isSome_map']
    show _ ↔ ((v.server.RemoveDocument id).word_to_document_freqs_.find w).isSome
    rw [RemoveDocument_postings_keys]
    constructor
    · intro hk; exact Or.inr (ih.1 hk)
    · rintro (hk | hk)
      · exact ih.2 (forward_keys_present hv.reachable.inv id w hk)
      · exact ih.2 hk

/-- In a state reached with live keys `RemoveDocument` finds every word of the
document among the keys, so it inserts no key; the keys that point into the erased
text lose their owner. -/
lemma LiveReach.RemoveDocument_owner {v : ViewIndex F} (h : LiveReach v) (id : Int) :
    (v.RemoveDocument id).key_owner =
      releaseOwners (v.server.RemoveDocument id).documents_ v.key_owner ∧
    (v.RemoveDocumentPar id).key_owner =
      releaseOwners (v.server.RemoveDocument id).documents_ v.key_owner := by
  constructor
  · show releaseOwners _ (List.foldl _ _ _) = _
    have := OrdMap.foldl_emplace_of_present ((v.server.GetWordFrequencies id).keys) none
      v.key_owner (fun k hk => (h.owner_isSome k).2 (forward_keys_present h.reachable.inv id k hk))
    unfold OrdMap.keys at this
    rw [List.foldl_map] at this
    rw [this]
  · show releaseOwners _ (List.foldl _ _ _) = _
    have := OrdMap.foldl_emplace_of_present ((v.server.GetWordFrequencies id).keys) (some id)
      v.key_owner (fun k hk => (h.owner_isSome k).2 (forward_keys_present h.reachable.inv id k hk))
    unfold OrdMap.keys at this
    rw [List.foldl_map] at this
    rw [this]
    rfl

/-- Owners that are all stored stay as they are. -/
lemma releaseOwners_of_stored (documents : OrdMap Int DocumentData)
    (owners : OrdMap Str (Option Int))
    (h : ∀ e ∈ owners, ∀ id, e.2 = some id → (documents.find id).isSome = true) :
    releaseOwners documents owners = owners := by
  unfold releaseOwners
  induction owners with
  | nil => rfl
  | cons e rest ih =>
    rw [List.map_cons, ih (fun e' he' => h e' (List.mem_cons_of_mem _ he'))]
    congr 1
    obtain ⟨k, o⟩ := e
    cases o with
    | none => rfl
    | some id =>
      have := h (k, some id) (List.mem_cons_self _ _) id rfl
      simp only [Option.some_bind, this, if_true]

lemma LiveReach.owner_WF {v : ViewIndex F} (h : LiveReach v) : v.key_owner.WF := by
  induction h with
  | init stop_words v h =>
    unfold create at h
    cases hc : SearchServer.create (F := F) stop_words with
    | error e => rw [hc] at h; cases h
    | ok s =>
      rw [hc] at h
      cases h
      exact OrdMap.WF_nil
  | add v id text status ratings _ _ hok ih =>
    rw [AddDocument_owner hok]
    exact OrdMap.WF_foldl_emplace _ _ ih
  | remove v id hv _ ih =>
    rw [(hv.RemoveDocument_owner id).1]
    exact WF_releaseOwners _ ih
  | removePar v id hv _ ih =>
    rw [(hv.RemoveDocument_owner id).2]
    exact WF_releaseOwners _ ih

/-- A stored owner stays stored when a document is added. -/
lemma ownerStored_add (v : ViewIndex F) (id : Int) (text : Str) (status : DocumentStatus)
    (ratings : List Int) (o : Option Int) (h : v.ownerStored o = true) :
    (v.AddDocument id text status ratings).2.ownerStored o = true := by
  cases o with
  | none => cases h
  | some k =>
    unfold ownerStored at h ⊢
    rw [AddDocument_server, AddDocument_eq]
    split_ifs
    · exact h
    · exact h
    · show (OrdMap.find (OrdMap.assign _ _ _) k).isSome = true
      rw [OrdMap.find_assign]
      split_ifs
      · rfl
      · exact h
    · show (OrdMap.find (OrdMap.assign _ _ _) k).isSome = true
      rw [OrdMap.find_assign]
      split_ifs
      · rfl
      · exact h

/-- `AddDocument` keeps the keys live: a new key points into the text that the call
has just stored. -/
lemma KeysLive.add {v : ViewIndex F} (hv : v.KeysLive) (hw : v.key_owner.WF) {id : Int}
    {text : Str} {status : DocumentStatus} {ratings : List Int}
    (hok : (v.AddDocument id text status ratings).1 = .ok ()) :
    (v.AddDocument id text status ratings).2.KeysLive := by
  intro e he
  have hwf : (v.AddDocument id text status ratings).2.key_owner.WF := by
    rw [AddDocument_owner hok]
    exact OrdMap.WF_foldl_emplace _ _ hw
  have hfind := (OrdMap.mem_iff_find hwf e.1 e.2).1 he
  rw [AddDocument_owner hok, OrdMap.find_foldl_emplace] at hfind
  by_cases hk : (v.key_owner.find e.1).isSome
  · rw [if_pos hk] at hfind
    exact ownerStored_add v id text status ratings e.2
      (hv (e.1, e.2) (OrdMap.find_some_mem hfind))
  · rw [if_neg hk] at hfind
    split_ifs at hfind with hm
    · have he2 : e.2 = some id := (Option.some.inj hfind).symm
      rw [he2]
      show (OrdMap.find _ id).isSome = true
      rw [(AddDocument_ok_state (AddDocument_pair hok)).2.1, OrdMap.find_assign, if_pos rfl]
      rfl

end ViewIndex



/-! ### The arithmetic of `double` -/

namespace OrdMap

variable {K₁ K₂ V : Type} [LinearOrder K₁] [LinearOrder K₂]

/-- A run of `m[k₁][k₂] = f(m[k₁][k₂])` over a list of key pairs applies `f` once per
occurrence of the pair, starting from the value-initialised `z` where there was no
value. -/
lemma find2_foldl_iterate (l : List (K₁ × K₂)) (z : V) (f : V → V)
    (m : OrdMap K₁ (OrdMap K₂ V)) (a : K₁) (b : K₂) :
    find2 (l.foldl (fun acc p => acc.modify p.1 [] (fun inner => inner.modify p.2 z f)) m) a b =
      if (a, b) ∈ l then some (f^[l.count (a, b)] ((find2 m a b).getD z))
      else find2 m a b := by
  induction l generalizing m with
  | nil => simp
  | cons p ps ih =>
    rw [List.foldl_cons, ih, find2_modify_modify]
    by_cases hp : (a, b) = p
    · subst hp
      simp only [and_self, if_true, Option.getD_some, List.mem_cons, true_or,
        List.count_cons_self, Function.iterate_succ_apply]
      by_cases hm : (a, b) ∈ ps
      · simp only [hm, if_true]
      · simp only [hm, if_false, List.count_eq_zero_of_not_mem hm, Function.iterate_zero,
          id_eq]
    · have h2 : ¬ (a = p.1 ∧ b = p.2) := by
        intro h; apply hp; ext <;> simp [h.1, h.2]
      have h3 : ¬ p = (a, b) := fun e => hp e.symm
      have h4 : (p == (a, b)) = false := by simpa using h3
      simp only [h2, if_false, List.mem_cons, hp, false_or, List.count_cons, h4]
      simp

end OrdMap

namespace SearchServer

variable {D : Type}

/-- The loop of `AddDocument` treats the two maps independently, in every arithmetic. -/
lemma foldl_addWordWith (A : DoubleArith D) (id : Int) (x : D) (words : List Str)
    (p : OrdMap Str (OrdMap Int D)) (f : OrdMap Int (OrdMap Str D)) :
    words.foldl (addWordWith A id x) (p, f) =
      ((words.map (fun w => (w, id))).foldl (fun acc q => acc.modify q.1 []
          (fun inner => inner.modify q.2 A.zero (fun y => A.add y x))) p,
       (words.map (fun w => (id, w))).foldl (fun acc q => acc.modify q.1 []
          (fun inner => inner.modify q.2 A.zero (fun y => A.add y x))) f) := by
  induction words generalizing p f with
  | nil => rfl
  | cons w ws ih =>
    rw [List.foldl_cons, List.map_cons, List.map_cons, List.foldl_cons, List.foldl_cons]
    exact ih _ _

/-- `SplitIntoWordsNoStop` on a server with frequencies of any type. -/
lemma SplitIntoWordsNoStop_any (s : SearchServer D) (text : Str) :
    s.SplitIntoWordsNoStop text =
      if ∀ c ∈ text, 32 ≤ c.toNat then .ok (s.nonStopWords text)
      else .error .invalid_argument :=
  SplitIntoWordsNoStop_eq (⟨s.stop_words_, [], [], [], []⟩ : SearchServer ℚ) text

/-- `AddDocument` in any arithmetic, by cases on its three checks. -/
lemma AddDocumentWith_eq (A : DoubleArith D) (s : SearchServer D) (id : Int) (text : Str)
    (status : DocumentStatus) (ratings : List Int) :
    AddDocumentWith A s id text status ratings =
      if id < 0 then (.error .invalid_argument, s)
      else if s.documents_.find id ≠ none then (.error .invalid_argument, s)
      else if ∀ c ∈ text, 32 ≤ c.toNat then
        (.ok (), { s with
          documents_ := s.documents_.assign id ⟨ComputeAverageRating ratings, status, text⟩
          word_to_document_freqs_ := ((s.nonStopWords text).foldl
            (addWordWith A id (A.div A.one (A.ofNat (s.nonStopWords text).length)))
            (s.word_to_document_freqs_, s.document_to_word_freqs_)).1
          document_to_word_freqs_ := ((s.nonStopWords text).foldl
            (addWordWith A id (A.div A.one (A.ofNat (s.nonStopWords text).length)))
            (s.word_to_document_freqs_, s.document_to_word_freqs_)).2
          document_ids_ := s.document_ids_.insert id })
      else (.error .invalid_argument, { s with
          documents_ := s.documents_.assign id ⟨ComputeAverageRating ratings, status, text⟩ }) := by
  unfold AddDocumentWith
  by_cases h1 : id < 0
  · rw [if_pos h1, if_pos h1]
  · rw [if_neg h1, if_neg h1]
    by_cases h2 : s.documents_.count id > 0
    · rw [if_pos h2, if_pos ((count_pos_iff _ _).1 h2)]
    · have h3 : s.documents_.find id = none := by
        by_contra hc; exact h2 ((count_pos_iff _ _).2 hc)
      rw [if_neg h2, if_neg (by simp [h3])]
      have he : ∀ d, s.documents_.emplace id d = s.documents_.assign id d := by
        intro d; unfold OrdMap.emplace; simp [h3]
      simp only [he, SplitIntoWordsNoStop_any]
      by_cases h4 : ∀ c ∈ text, 32 ≤ c.toNat
      · rw [if_pos h4, if_pos h4]
        rfl
      · rw [if_neg h4, if_neg h4]

/-- In a field without rounding `AddDocumentWith` is `AddDocument`. -/
lemma AddDocumentWith_exact {F : Type} [LinearOrderedField F] (s : SearchServer F) (id : Int)
    (text : Str) (status : DocumentStatus) (ratings : List Int) :
    AddDocumentWith (DoubleArith.exact F) s id text status ratings =
      s.AddDocument id text status ratings := rfl

/-- In a field without rounding the stored frequency is the quotient. -/
lemma storedFrequency_exact {F : Type} [LinearOrderedField F] (count size : Nat) :
    storedFrequency (DoubleArith.exact F) count size = (count : F) / (size : F) := by
  unfold storedFrequency DoubleArith.exact
  simp only
  induction count with
  | zero => simp
  | succ n ih =>
    rw [Function.iterate_succ_apply', ih]
    push_cast
    ring

/-- The frequencies that `AddDocument` leaves, in any arithmetic: for a document id that
is not negative and has no metadata, and a text without control bytes, the call
returns; under the new id the forward index and the postings then hold, for every
word of the text that is no stop word, the value that was there (`0.0` when there was
none) with `inv_word_count` added once per occurrence, and nothing else changes under
that id. -/
lemma AddDocumentWith_frequencies (A : DoubleArith D) (s : SearchServer D) (id : Int)
    (text : Str) (status : DocumentStatus) (ratings : List Int) (h1 : 0 ≤ id)
    (h2 : s.documents_.find id = none) (h3 : ∀ c ∈ text, 32 ≤ c.toNat) :
    (AddDocumentWith A s id text status ratings).1 = .ok () ∧
    (∀ w, OrdMap.find2 (AddDocumentWith A s id text status ratings).2.document_to_word_freqs_
        id w =
      if w ∈ s.nonStopWords text then
        some ((fun x => A.add x (A.div A.one (A.ofNat (s.nonStopWords text).length)))^[
          (s.nonStopWords text).count w] ((OrdMap.find2 s.document_to_word_freqs_ id w).getD A.zero))
      else OrdMap.find2 s.document_to_word_freqs_ id w) ∧
    (∀ w, OrdMap.find2 (AddDocumentWith A s id text status ratings).2.word_to_document_freqs_
        w id =
      if w ∈ s.nonStopWords text then
        some ((fun x => A.add x (A.div A.one (A.ofNat (s.nonStopWords text).length)))^[
          (s.nonStopWords text).count w] ((OrdMap.find2 s.word_to_document_freqs_ w id).getD A.zero))
      else OrdMap.find2 s.word_to_document_freqs_ w id) := by
  rw [AddDocumentWith_eq, if_neg (by omega), if_neg (by simp [h2]), if_pos h3]
  refine ⟨rfl, fun w => ?_, fun w => ?_⟩
  · show OrdMap.find2 (Prod.snd (List.foldl _ _ _)) id w = _
    rw [foldl_addWordWith]
    simp only
    rw [OrdMap.find2_foldl_iterate]
    have hmem : (id, w) ∈ (s.nonStopWords text).map (fun w => (id, w)) ↔
        w ∈ s.nonStopWords text := by
      simp only [List.mem_map, Prod.mk.injEq, true_and, exists_eq_right]
    by_cases hw : w ∈ s.nonStopWords text
    · rw [if_pos (hmem.2 hw), if_pos hw, count_map_pair_right]
      congr 3
      apply lawful_beq_unique <;> infer_instance
    · rw [if_neg (fun hc => hw (hmem.1 hc)), if_neg hw]
  · show OrdMap.find2 (Prod.fst (List.foldl _ _ _)) w id = _
    rw [foldl_addWordWith]
    simp only
    rw [OrdMap.find2_foldl_iterate]
    have hmem : (w, id) ∈ (s.nonStopWords text).map (fun w => (w, id)) ↔
        w ∈ s.nonStopWords text := by
      simp only [List.mem_map, Prod.mk.injEq, and_true, exists_eq_right]
    by_cases hw : w ∈ s.nonStopWords text
    · rw [if_pos (hmem.2 hw), if_pos hw, count_map_pair_left]
      congr 3
      apply lawful_beq_unique <;> infer_instance
    · rw [if_neg (fun hc => hw (hmem.1 hc)), if_neg hw]

end SearchServer



namespace Binary64

/-- The leading bit that `exponent` finds is a bit of the number. -/
lemma exponent_le {n : Nat} (h : 1 ≤ n) : 1 <<< exponent n ≤ n := by
  unfold exponent
  have key : ∀ (l : List Nat) (e : Nat), 1 <<< e ≤ n →
      1 <<< (l.foldl (fun e k => if 1 <<< (e + k) ≤ n then e + k else e) e) ≤ n := by
    intro l
    induction l with
    | nil => intro e he; exact he
    | cons k l ih =>
      intro e he
      rw [List.foldl_cons]
      apply ih
      split_ifs with hk
      · exact hk
      · exact he
  exact key _ 0 (by simpa using h)

lemma ulp_pos (n : Nat) : 1 ≤ ulp n := by
  unfold ulp
  rw [Nat.one_shiftLeft]
  exact Nat.one_le_two_pow

lemma ulp_le {n : Nat} (h : 1 ≤ n) : ulp n ≤ n := by
  refine le_trans ?_ (exponent_le h)
  unfold ulp
  rw [Nat.one_shiftLeft, Nat.one_shiftLeft]
  exact Nat.pow_le_pow_right (by decide) (Nat.sub_le _ _)

/-- A quotient of at least 1 is not rounded to 0. -/
lemma roundQuot_pos {p q : Nat} (hq : 1 ≤ q) (hpq : q ≤ p) : 1 ≤ roundQuot p q := by
  have h1 : 1 ≤ p / q := (Nat.one_le_div_iff (by omega)).2 hpq
  have hu := ulp_pos (p / q)
  have hle := ulp_le h1
  have hm : 1 ≤ p / (q * ulp (p / q)) := by
    rw [Nat.one_le_div_iff (Nat.mul_pos (by omega) (by omega))]
    calc q * ulp (p / q) ≤ q * (p / q) := Nat.mul_le_mul_left _ hle
      _ ≤ p := Nat.mul_div_le p q
  unfold roundQuot
  simp only
  split_ifs
  · exact Nat.mul_pos (by omega) (by omega)
  · exact Nat.mul_pos (by omega) (by omega)
  · exact Nat.mul_pos (by omega) (by omega)
  · exact Nat.mul_pos (by omega) (by omega)

/-- The value is greater than zero. -/
lemma lt_zero_ofUnits {n : Nat} (h : 1 ≤ n) : lt (.finite 0) (ofUnits n) = true := by
  unfold ofUnits
  split_ifs
  · unfold lt
    simpa using h
  · rfl

/-- A sum with a term greater than zero is greater than zero. -/
lemma lt_zero_add (x : Binary64) {y : Binary64} (hy : lt (.finite 0) y = true) :
    lt (.finite 0) (add x y) = true := by
  cases x with
  | infinity => rfl
  | finite a =>
    cases y with
    | infinity => rfl
    | finite b =>
      have hb : 1 ≤ b := by
        unfold lt at hy
        simpa using hy
      unfold add
      exact lt_zero_ofUnits (roundQuot_pos (le_refl 1) (by omega))

/-- A finite value that `ofUnits` gives is at most the largest finite value. -/
lemma ofUnits_finite {n b : Nat} (h : ofUnits n = .finite b) : b = n ∧ n ≤ maxUnits := by
  unfold ofUnits at h
  split_ifs at h with hn
  · cases h
    exact ⟨rfl, hn⟩

lemma maxUnits_le : maxUnits ≤ 1 <<< 2148 := by decide

/-- `1.0 / n` is greater than zero for every `n` from 1 on, whether the conversion of
`n` is finite or not. -/
lemma lt_zero_inv {n : Nat} (hn : 1 ≤ n) :
    lt (.finite 0) (div (ofNat 1) (ofNat n)) = true ∨ ofNat n = .infinity := by
  have hone : ofNat 1 = .finite (1 <<< 1074) := by decide
  cases hc : ofNat n with
  | infinity => exact Or.inr rfl
  | finite b =>
    left
    have hb := ofUnits_finite hc
    have hb1 : 1 ≤ b := by
      rw [hb.1]
      apply roundQuot_pos (le_refl 1)
      rw [Nat.shiftLeft_eq]
      exact Nat.mul_pos hn (by positivity)
    rw [hone]
    unfold div
    simp only
    rw [if_neg (by omega)]
    apply lt_zero_ofUnits
    apply roundQuot_pos hb1
    have h2 : (1 <<< 1074) <<< 1074 = 1 <<< 2148 := by decide
    rw [h2]
    have h3 : b ≤ maxUnits := by
      have := hb.2
      rw [← hb.1] at this
      exact this
    exact le_trans h3 maxUnits_le

/-- A rounded quotient is at most the quotient and the distance to the next value. -/
lemma roundQuot_le (p : Nat) : roundQuot p 1 ≤ p + ulp (p / 1) := by
  have hm : p / (1 * ulp (p / 1)) * ulp (p / 1) ≤ p := by
    rw [one_mul]
    exact Nat.div_mul_le_self _ _
  have hu := ulp_pos (p / 1)
  rw [one_mul] at hm
  unfold roundQuot
  simp only [one_mul]
  split_ifs
  · omega
  · rw [Nat.add_mul, one_mul]; omega
  · omega
  · rw [Nat.add_mul, one_mul]; omega

/-- The conversion of a number of words below `2 ^ 64` is finite. -/
lemma ofNat_finite {n : Nat} (hn : n < 1 <<< 64) : ∃ b, ofNat n = .finite b := by
  unfold ofNat ofUnits
  have hq : n <<< 1074 < 1 <<< 1138 := by
    rw [Nat.shiftLeft_eq, Nat.shiftLeft_eq, one_mul]
    rw [Nat.shiftLeft_eq, one_mul] at hn
    calc n * 2 ^ 1074 < 2 ^ 64 * 2 ^ 1074 := Nat.mul_lt_mul_of_pos_right hn (by positivity)
      _ = 2 ^ 1138 := by rw [← pow_add]
  have hle : ulp ((n <<< 1074) / 1) ≤ 1 <<< 1138 := by
    by_cases h0 : 1 ≤ (n <<< 1074) / 1
    · refine le_trans (ulp_le h0) ?_
      rw [Nat.div_one]
      exact le_of_lt hq
    · have : (n <<< 1074) / 1 = 0 := by omega
      rw [this]
      decide
  have hmax : 1 <<< 1138 + 1 <<< 1138 ≤ maxUnits := by decide
  have hb : roundQuot (n <<< 1074) 1 ≤ maxUnits :=
    le_trans (roundQuot_le _) (le_trans (Nat.add_le_add (le_of_lt hq) hle) hmax)
  exact ⟨_, by rw [if_pos hb]⟩

end Binary64

namespace SearchServer

/-- In the arithmetic of `double` the frequency stored for a word that occurs in a text
of fewer than `2 ^ 64` words is greater than zero. -/
lemma storedFrequency_pos {count size : Nat} (hc : 1 ≤ count) (hs : 1 ≤ size)
    (hlt : size < 1 <<< 64) :
    Binary64.lt (.finite 0) (storedFrequency Binary64.arith count size) = true := by
  unfold storedFrequency
  obtain ⟨n, rfl⟩ : ∃ n, count = n + 1 := ⟨count - 1, by omega⟩
  rw [Function.iterate_succ_apply']
  simp only [Binary64.arith]
  apply Binary64.lt_zero_add
  rcases Binary64.lt_zero_inv hs with h | h
  · exact h
  · obtain ⟨b, hb⟩ := Binary64.ofNat_finite hlt
    rw [hb] at h
    cases h

end SearchServer



/-! ### `std::sort` as the standard specifies it -/

section SortContract

variable {α : Type}

end SortContract

namespace SearchServer

variable {F : Type} [LinearOrderedField F]

/-- The sequential `FindTopDocuments` of the model is the one with the insertion
sort. -/
lemma FindTopDocuments_eq_with (log : F → F) (s : SearchServer F) (raw_query : Str)
    (pred : Int → DocumentStatus → Int → Bool) :
    FindTopDocuments log s raw_query pred =
      FindTopDocumentsWith (stdSort documentBefore) log s raw_query pred := rfl

end SearchServer



/-! ### The schedules of the parallel accumulation -/

namespace ConcurrentMap

variable {V : Type}

end ConcurrentMap

namespace MapOp

variable {F : Type} [LinearOrderedField F]

variable {V : Type}

end MapOp

namespace LockedMap

variable {V : Type}

end LockedMap

namespace SearchServer

variable {F : Type} [LinearOrderedField F]

end SearchServer



section SortedPositions

variable {α : Type}

end SortedPositions

namespace SearchServer

variable {F : Type} [LinearOrderedField F]

end SearchServer

namespace Examples

variable {F : Type} [LinearOrderedField F]

open SearchServer

end Examples



/-! ### Metadata left by calls of `AddDocument` that throw -/

section FoldCongr

lemma foldlM_congr_mem {α β ε : Type} (f g : β → α → Except ε β) (l : List α)
    (h : ∀ x ∈ l, ∀ b, f b x = g b x) (b : β) : l.foldlM f b = l.foldlM g b := by
  induction l generalizing b with
  | nil => rfl
  | cons x xs ih =>
    rw [List.foldlM_cons, List.foldlM_cons, h x (List.mem_cons_self _ _) b]
    cases g b x with
    | error e => rfl
    | ok b' => exact ih (fun y hy => h y (List.mem_cons_of_mem _ hy)) b'

end FoldCongr

namespace SearchServer

variable {F : Type} [LinearOrderedField F]

lemma WithRejected.refl {s : SearchServer F} (hs : Inv s) : WithRejected s s :=
  ⟨rfl, rfl, rfl, rfl, hs.wf_documents, fun _ _ h => h⟩

lemma WithRejected.find_none {s s' : SearchServer F} (h : WithRejected s s') {id : Int}
    (hn : s'.documents_.find id = none) : s.documents_.find id = none := by
  cases hf : s.documents_.find id with
  | none => rfl
  | some data => rw [h.documents id data hf] at hn; cases hn

/-- A call of `AddDocument` on a server with further metadata is the call on the server
without them, or, when it throws, leaves the indexes as they were. -/
lemma WithRejected.after_add {s s' : SearchServer F} (hs : Reachable s)
    (h : WithRejected s s') (id : Int) (text : Str) (status : DocumentStatus) (ratings : List Int) :
    ∃ t, Reachable t ∧ WithRejected t (s'.AddDocument id text status ratings).2 := by
  rw [AddDocument_eq]
  by_cases h1 : id < 0
  · rw [if_pos h1]; exact ⟨s, hs, h⟩
  rw [if_neg h1]
  by_cases h2 : s'.documents_.find id ≠ none
  · rw [if_pos h2]; exact ⟨s, hs, h⟩
  rw [if_neg h2]
  have h2' : s'.documents_.find id = none := by
    by_contra hc; exact h2 hc
  have h3 : s.documents_.find id = none := h.find_none h2'
  by_cases h4 : ∀ c ∈ text, 32 ≤ c.toNat
  · rw [if_pos h4]
    refine ⟨(s.AddDocument id text status ratings).2,
      hs.add_ok status ratings (not_lt.1 h1) h3 h4, ?_⟩
    · rw [AddDocument_eq, if_neg h1, if_neg (by simp [h3]), if_pos h4]
      refine ⟨h.stop_words, ?_, ?_, ?_, OrdMap.WF_assign h.wf_documents _ _, ?_⟩
      · show Prod.fst (List.foldl _ _ _) = Prod.fst (List.foldl _ _ _)
        rw [nonStopWords_congr h.stop_words, h.postings, h.forward]
      · show Prod.snd (List.foldl _ _ _) = Prod.snd (List.foldl _ _ _)
        rw [nonStopWords_congr h.stop_words, h.postings, h.forward]
      · show OrdSet.insert _ _ = OrdSet.insert _ _
        rw [h.ids]
      · intro id' data hd
        change (s.documents_.assign id _).find id' = some data at hd
        show (s'.documents_.assign id _).find id' = some data
        rw [OrdMap.find_assign] at hd ⊢
        split_ifs at hd ⊢ with hid
        · exact hd
        · exact h.documents id' data hd
  · rw [if_neg h4]
    refine ⟨s, hs, h.stop_words, h.postings, h.forward, h.ids,
      OrdMap.WF_assign h.wf_documents _ _, ?_⟩
    intro id' data hd
    show (s'.documents_.assign id _).find id' = some data
    rw [OrdMap.find_assign]
    split_ifs with hid
    · subst hid; rw [h3] at hd; cases hd
    · exact h.documents id' data hd

/-- A call of `RemoveDocument` on a server with further metadata is the call on the
server without them. -/
lemma WithRejected.after_remove {s s' : SearchServer F} (hs : Reachable s)
    (h : WithRejected s s') (id : Int) :
    ∃ t, Reachable t ∧ WithRejected t (s'.RemoveDocument id) := by
  have hg : s'.GetWordFrequencies id = s.GetWordFrequencies id := by
    unfold GetWordFrequencies; rw [h.forward]
  rw [RemoveDocument_eq]
  by_cases he : s'.GetWordFrequencies id = []
  · rw [if_pos he]; exact ⟨s, hs, h⟩
  rw [if_neg he]
  refine ⟨s.RemoveDocument id, Reachable.remove s id hs, ?_⟩
  rw [RemoveDocument_eq, if_neg (by rw [← hg]; exact he)]
  refine ⟨h.stop_words, ?_, ?_, ?_, OrdMap.WF_erase h.wf_documents _, ?_⟩
  · show List.foldl _ _ _ = List.foldl _ _ _
    rw [hg, h.postings]
  · show OrdMap.erase _ _ = OrdMap.erase _ _
    rw [h.forward]
  · show OrdSet.erase _ _ = OrdSet.erase _ _
    rw [h.ids]
  · intro id' data hd
    change (s.documents_.erase id).find id' = some data at hd
    show (s'.documents_.erase id).find id' = some data
    rw [OrdMap.find_erase] at hd ⊢
    split_ifs at hd ⊢ with hid
    exact h.documents id' data hd

/-- The shift of the count of the documents inside the logarithm. -/
lemma count_shift (n n' d : F) (hn : n ≠ 0) : n' * 1 / d = n * 1 / d * (n' / n) := by
  rw [mul_one, mul_one, div_mul_div_comm, mul_comm n n', mul_div_mul_right _ _ hn]

lemma WithRejected.count_ne_zero {s s' : SearchServer F} (_ : WithRejected s s') {id : Int}
    {data : DocumentData} (hd : s.documents_.find id = some data) :
    (s.GetDocumentCount : F) ≠ 0 := by
  have hmem : (id, data) ∈ s.documents_ := OrdMap.find_some_mem hd
  have hpos : 0 < s.documents_.length := List.length_pos_of_mem hmem
  have : s.GetDocumentCount ≠ 0 := by
    show s.documents_.length ≠ 0
    omega
  exact_mod_cast this

/-- The plus-word step on a server with further metadata is the step on the server
without them, with the count of the documents shifted inside the logarithm. -/
lemma scoreWord_withRejected {s s' : SearchServer F} (hs : Inv s) (h : WithRejected s s')
    (log : F → F) (pred : Int → DocumentStatus → Int → Bool) (rel : OrdMap Int F) (w : Str) :
    scoreWord log s' pred rel w =
      scoreWord (fun x => log (x * ((s'.GetDocumentCount : F) / (s.GetDocumentCount : F))))
        s pred rel w := by
  have hstored : ∀ docs, s.word_to_document_freqs_.find w = some docs → ∀ p ∈ docs,
      ∃ data, s.documents_.find p.1 = some data := by
    intro docs hf p hp
    have hfind : docs.find p.1 = some p.2 :=
      (OrdMap.mem_iff_find (hs.inner_postings w docs hf) p.1 p.2).1 hp
    have h2 : OrdMap.find2 s.word_to_document_freqs_ w p.1 = some p.2 := by
      rw [OrdMap.find2_eq_of_find hf]; exact hfind
    obtain ⟨data, hdata, _, _⟩ := hs.postings_some h2
    exact ⟨data, hdata⟩
  unfold scoreWord ComputeWordInverseDocumentFreq
  rw [h.postings]
  cases hf : s.word_to_document_freqs_.find w with
  | none => rfl
  | some docs =>
    rw [at_eq_ok hf]
    simp only
    cases hdocs : docs with
    | nil => rfl
    | cons e rest =>
      rw [← hdocs]
      have hmem : e ∈ docs := by rw [hdocs]; exact List.mem_cons_self _ _
      obtain ⟨data0, hdata0⟩ := hstored docs hf e hmem
      rw [count_shift (s.GetDocumentCount : F) (s'.GetDocumentCount : F) _
        (h.count_ne_zero hdata0)]
      refine foldlM_congr_mem _ _ docs ?_ rel
      intro p hp b
      obtain ⟨data, hdata⟩ := hstored docs hf p hp
      unfold scorePosting
      rw [at_eq_ok hdata, at_eq_ok (h.documents _ _ hdata)]

lemma dropWord_withRejected {s s' : SearchServer F} (h : WithRejected s s')
    (rel : OrdMap Int F) (w : Str) : dropWord s' rel w = dropWord s rel w := by
  unfold dropWord; rw [h.postings]

lemma ratingOf_withRejected {s s' : SearchServer F} (h : WithRejected s s') {id : Int}
    {data : DocumentData} (hd : s.documents_.find id = some data) :
    ratingOf s' id = ratingOf s id := by
  unfold ratingOf; rw [hd, h.documents id data hd]

/-- `FindAllDocuments` on a server with further metadata is `FindAllDocuments` on the
server without them, with the count of the documents shifted inside the logarithm. -/
lemma FindAllDocuments_withRejected {s s' : SearchServer F} (hs : Inv s)
    (h : WithRejected s s') (log : F → F) (q : Query)
    (pred : Int → DocumentStatus → Int → Bool) :
    FindAllDocuments log s' q pred =
      FindAllDocuments
        (fun x => log (x * ((s'.GetDocumentCount : F) / (s.GetDocumentCount : F)))) s q pred := by
  have hstored : ∀ e ∈ relevanceMap
      (fun x => log (x * ((s'.GetDocumentCount : F) / (s.GetDocumentCount : F)))) s q pred,
      ∃ data, s.documents_.find e.1 = some data := by
    intro e he
    have hf := (OrdMap.mem_iff_find (WF_relevanceMap _ s q pred) e.1 e.2).1 he
    rw [find_relevanceMap hs] at hf
    split_ifs at hf with h1 h2
    obtain ⟨data, hdata, _⟩ := (predOf_true_iff s pred e.1).1 h2.1
    exact ⟨data, hdata⟩
  rw [FindAllDocuments_eq hs]
  unfold FindAllDocuments
  have hfun : scoreWord log s' pred = scoreWord
      (fun x => log (x * ((s'.GetDocumentCount : F) / (s.GetDocumentCount : F)))) s pred := by
    funext rel w; exact scoreWord_withRejected hs h log pred rel w
  have hdrop : dropWord s' = dropWord s := by
    funext rel w; exact dropWord_withRejected h rel w
  rw [hfun, hdrop, foldlM_except_ok _ (scoreWordPure _ s pred) q.plus_words
    (fun a x _ => scoreWord_eq hs _ pred a x)]
  simp only
  unfold collectDocuments
  have := collect_loop s' (relevanceMap
    (fun x => log (x * ((s'.GetDocumentCount : F) / (s.GetDocumentCount : F)))) s q pred) ?_ []
  · rw [List.nil_append] at this
    refine Eq.trans (by simpa [relevanceMap] using this) ?_
    congr 1
    refine List.map_congr_left ?_
    intro e he
    obtain ⟨data, hdata⟩ := hstored e he
    rw [ratingOf_withRejected h hdata]
  · intro e he
    obtain ⟨data, hdata⟩ := hstored e he
    rw [h.documents _ _ hdata]; simp

lemma FindTopDocuments_withRejected {s s' : SearchServer F} (hs : Inv s)
    (h : WithRejected s s') (log : F → F) (raw : Str)
    (pred : Int → DocumentStatus → Int → Bool) :
    FindTopDocuments log s' raw pred =
      FindTopDocuments
        (fun x => log (x * ((s'.GetDocumentCount : F) / (s.GetDocumentCount : F)))) s raw pred := by
  unfold FindTopDocuments
  rw [ParseQuery_congr h.stop_words]
  cases s.ParseQuery raw with
  | error e => rfl
  | ok q =>
    simp only
    rw [FindAllDocuments_withRejected hs h]

/-- The live documents of a server with further metadata are the documents of the
server without them. -/
lemma WithRejected.live_documents {s s' : SearchServer F} (hs : Inv s) (h : WithRejected s s') :
    s'.documents_.filter (fun e => decide (e.1 ∈ s'.document_ids_)) = s.documents_ := by
  refine OrdMap.ext_of_WF (OrdMap.WF_filter_key h.wf_documents
    (fun k => decide (k ∈ s'.document_ids_))) hs.wf_documents ?_
  intro k
  rw [OrdMap.find_filter_key s'.documents_ (fun k => decide (k ∈ s'.document_ids_)) k,
    h.ids, hs.ids_eq]
  cases hf : s.documents_.find k with
  | some data =>
    have hk : k ∈ s.documents_.keys :=
      List.mem_map.2 ⟨(k, data), OrdMap.find_some_mem hf, rfl⟩
    rw [if_pos (by simpa using hk)]
    exact h.documents k data hf
  | none =>
    have hk : k ∉ s.documents_.keys := by
      intro hk
      obtain ⟨e, he, hek⟩ := List.mem_map.1 hk
      have := (OrdMap.mem_iff_find hs.wf_documents e.1 e.2).1 he
      rw [hek, hf] at this
      cases this
    rw [if_neg (by simpa using hk)]

lemma WithRejected.liveDocumentFrequency_eq {s s' : SearchServer F} (hs : Inv s)
    (h : WithRejected s s') (w : Str) :
    liveDocumentFrequency s' w = documentFrequency s w := by
  unfold liveDocumentFrequency documentFrequency
  rw [← h.live_documents hs, List.filter_filter]
  congr 1
  refine List.filter_congr ?_
  intro e _
  rw [Bool.and_comm]

lemma WithRejected.live_count {s s' : SearchServer F} (hs : Inv s) (h : WithRejected s s') :
    s'.document_ids_.length = s.GetDocumentCount := by
  rw [h.ids, hs.ids_eq]
  show (OrdMap.keys _).length = List.length _
  unfold OrdMap.keys
  rw [List.length_map]

/-- The relevance on a server with further metadata: `GetDocumentCount` counts every
entry of the metadata, the document frequency counts the live documents. -/
lemma relevance_formula_withRejected (log : F → F) {s s' : SearchServer F} (hs : Reachable s)
    (h : WithRejected s s') (raw_query : Str) (query : Query)
    (hq : s'.ParseQuery raw_query = .ok query)
    (document_predicate : Int → DocumentStatus → Int → Bool) :
    ∃ top, FindTopDocuments log s' raw_query document_predicate = .ok top ∧
      ∀ d ∈ top, d.id ∈ s'.document_ids_ ∧
        ∃ data, s'.documents_.find d.id = some data ∧
        d.rating = data.rating ∧
        d.relevance =
          ((query.plus_words.filter (fun w => decide (w ∈ SplitIntoWords data.text))).map
            (fun w => storedTermFreq s' w d.id *
              log ((s'.GetDocumentCount : F) / (liveDocumentFrequency s' w : F)))).sum ∧
        ∀ w ∈ query.plus_words, w ∈ SplitIntoWords data.text →
          storedTermFreq s' w d.id =
            ((s'.nonStopWords data.text).count w : F) /
              ((s'.nonStopWords data.text).length : F) := by
  rw [ParseQuery_congr h.stop_words] at hq
  obtain ⟨top, htop, hall⟩ := relevance_formula_of_reachable
    (fun x => log (x * ((s'.GetDocumentCount : F) / (s.GetDocumentCount : F)))) s hs
    raw_query query hq document_predicate
  refine ⟨top, (FindTopDocuments_withRejected hs.inv h log raw_query document_predicate).trans
    htop, ?_⟩
  intro d hd
  obtain ⟨data, hdata, hrating, hrel, htf⟩ := hall d hd
  have hstf : ∀ w, storedTermFreq s' w d.id = storedTermFreq s w d.id := by
    intro w; unfold storedTermFreq GetWordFrequencies; rw [h.forward]
  refine ⟨?_, data, h.documents _ _ hdata, hrating, ?_, ?_⟩
  · rw [h.ids, hs.inv.ids_eq]
    exact List.mem_map.2 ⟨(d.id, data), OrdMap.find_some_mem hdata, rfl⟩
  · rw [hrel]
    congr 1
    refine List.map_congr_left ?_
    intro w _
    rw [hstf, h.liveDocumentFrequency_eq hs.inv]
    congr 2
    show (s.documents_.length : F) / _ * _ = _
    have hn := h.count_ne_zero (F := F) hdata
    have h1 := count_shift (s.GetDocumentCount : F) (s'.GetDocumentCount : F)
      (documentFrequency s w : F) hn
    rw [mul_one, mul_one] at h1
    exact h1.symm
  · intro w hw hin
    rw [hstf, nonStopWords_congr h.stop_words]
    exact htf w hw hin

end SearchServer

namespace ViewIndex

open SearchServer

variable {F : Type} [LinearOrderedField F]

/-- Every state reached with live keys by any calls of `AddDocument` and
`RemoveDocument` is a state reached by the calls that return, with further metadata. -/
lemma LiveReachAny.base {v : ViewIndex F} (hv : LiveReachAny v) :
    ∃ s, Reachable s ∧ WithRejected s v.server := by
  induction hv with
  | init stop_words v h =>
    have hr : Reachable v.server := (LiveReach.init stop_words v h).reachable
    exact ⟨v.server, hr, WithRejected.refl hr.inv⟩
  | add v id doc status ratings _ _ ih =>
    obtain ⟨s, hs, h⟩ := ih
    exact h.after_add hs id doc status ratings
  | remove v id _ _ ih =>
    obtain ⟨s, hs, h⟩ := ih
    exact h.after_remove hs id
  | removePar v id _ _ ih =>
    obtain ⟨s, hs, h⟩ := ih
    exact h.after_remove hs id

lemma LiveReach.liveReachAny {v : ViewIndex F} (hv : LiveReach v) : LiveReachAny v := by
  induction hv with
  | init stop_words v h => exact LiveReachAny.init stop_words v h
  | add v id doc status ratings _ hl _ ih => exact LiveReachAny.add v id doc status ratings ih hl
  | remove v id _ hl ih => exact LiveReachAny.remove v id ih hl
  | removePar v id _ hl ih => exact LiveReachAny.removePar v id ih hl

end ViewIndex



/-! ### The claims -/

namespace ViewIndex

open SearchServer

variable {F : Type} [LinearOrderedField F]

/-- In a state reached with live keys, all of whose keys are live, the sequential
`FindAllDocuments` returns for every query that parses, and a document id occurs in its
result if and only if the document contains at least one plus-term of the query, the
predicate holds for its id, status and rating, and it contains none of the
minus-terms; no id occurs twice. -/
lemma FindAllDocuments_membership (log : F → F) (v : ViewIndex F) (hv : LiveReach v)
    (_ : v.KeysLive) (raw_query : Str) (query : Query)
    (hq : v.server.ParseQuery raw_query = .ok query)
    (document_predicate : Int → DocumentStatus → Int → Bool) :
    ∃ docs, FindAllDocuments log v.server query document_predicate = .ok docs ∧
      (docs.map (fun d => d.id)).Nodup ∧
      ∀ id, id ∈ docs.map (fun d => d.id) ↔
        ∃ data, v.server.documents_.find id = some data ∧
          (∃ w ∈ query.plus_words, w ∈ SplitIntoWords data.text) ∧
          document_predicate id data.status data.rating = true ∧
          (∀ w ∈ query.minus_words, w ∉ SplitIntoWords data.text) := by
  refine ⟨_, FindAllDocuments_eq hv.reachable.inv log query document_predicate, ?_, ?_⟩
  · rw [map_id_result]
    exact OrdMap.WF_nodup (WF_relevanceMap log v.server query document_predicate)
  · intro id
    rw [map_id_result]
    exact FindAllDocuments_ids hv.reachable.inv log (ParseQuery_ok hq) document_predicate id

/-- C1 fails in the program.  After
`AddDocument(1, "alpha beta gamma delta epsilon", ...)`, `AddDocument(2, "alpha beta", ...)`
and `RemoveDocument(1)` on a server without stop words, every call having been made with
live keys, document 2 is stored with the text `alpha beta` and the query `alpha` parses
to the plus-term `alpha`, so the claim requires that `FindAllDocuments` returns
document 2, as it does when the keys are compared by the characters they were inserted
with.  But every key of the postings is a view that `AddDocument(1, ...)` inserted: it
points into the text of document 1, which `RemoveDocument(1)` has erased, while the
posting maps of `alpha` and `beta` still hold document 2.  The lookup of the plus-term
compares it with these keys, so it reads storage that has been released. -/
theorem C1_FindAllDocuments_reads_erased_text :
    LiveReach (Examples.alphaRemoved ℝ) ∧
    (Examples.alphaRemoved ℝ).server.document_ids_ = [2] ∧
    (Examples.alphaRemoved ℝ).server.documents_.find 2 =
      some ⟨2, .ACTUAL, "alpha beta".toList⟩ ∧
    "alpha".toList ∈ SplitIntoWords "alpha beta".toList ∧
    (Examples.alphaRemoved ℝ).server.ParseQuery "alpha".toList = .ok ⟨["alpha".toList], []⟩ ∧
    (FindAllDocuments Real.log (Examples.alphaRemoved ℝ).server ⟨["alpha".toList], []⟩
      (fun _ _ _ => true)).toOption.map (fun docs => docs.map (fun d => d.id)) = some [2] ∧
    (Examples.alphaRemoved ℝ).server.word_to_document_freqs_.map (fun e => (e.1, e.2.keys)) =
      [("alpha".toList, [2]), ("beta".toList, [2]), ("delta".toList, []),
        ("epsilon".toList, []), ("gamma".toList, [])] ∧
    (Examples.twoAlpha ℝ).key_owner =
      [("alpha".toList, some 1), ("beta".toList, some 1), ("delta".toList, some 1),
        ("epsilon".toList, some 1), ("gamma".toList, some 1)] ∧
    (Examples.alphaRemoved ℝ).key_owner =
      [("alpha".toList, none), ("beta".toList, none), ("delta".toList, none),
        ("epsilon".toList, none), ("gamma".toList, none)] ∧
    (Examples.alphaRemoved ℝ).server.documents_.find 1 = none ∧
    (Examples.alphaRemoved ℝ).Dangling "alpha".toList ∧
    ¬ (Examples.alphaRemoved ℝ).KeysLive := by
  have hdang : (Examples.alphaRemoved ℝ).Dangling "alpha".toList := ⟨none, rfl, rfl⟩
  refine ⟨?_, rfl, rfl, by decide, rfl, rfl, rfl, rfl, rfl, rfl, hdang, ?_⟩
  · exact LiveReach.removePar _ 1
      (LiveReach.add _ 2 _ .ACTUAL [2]
        (LiveReach.add _ 1 _ .ACTUAL [1] (LiveReach.init [] _ rfl) (by decide) rfl)
        (by decide) rfl)
      (by decide)
  · decide

end ViewIndex



namespace SearchServer

variable {F : Type} [LinearOrderedField F]

/-- C2 fails as stated.  (1) The count of the documents.  On a server without stop words, after
`AddDocument(1, "cat", ...)` and `AddDocument(2, "dog", ...)`, the call
`AddDocument(3, ...)` with a text that holds the byte 1 throws `invalid_argument`, but
it has emplaced the metadata of document 3 before it splits the text, and the entry
stays.  The state is reached by calls of `AddDocument`; two documents are live, one of
which contains `cat`, and `cat` has the stored term frequency 1 in document 1, so the
claim gives document 1 the relevance `1 * ln(2 / 1)` for the query `cat`.
`GetDocumentCount` counts the entries of the metadata, which are three, and
`FindTopDocuments` returns document 1 with the relevance `ln 3`.  (2) The sum in
`double`.  With the documents `1: a b c`, `2: c` and `3: d` the query `a b c` gives
document 1 the three products `(1.0 / 3) * log(3.0)` = 0.3662040962227032 (for `a` and
for `b`) and `(1.0 / 3) * log(1.5)` = 0.13515503603605478 (for `c`).  The loop adds them
to 0.0 in the order of the plus words, each addition rounded, which gives
0.8675632284814612; added in the order `a`, `c`, `b` they give 0.8675632284814613; and
the sum of the three doubles is neither, it is not a double. -/
theorem C2_relevance_formula_counterexample :
    ReachableAny (Examples.rejectedAddServer ℝ) ∧
    (((Examples.emptyServer ℝ).addAll
      [(1, "cat".toList, .ACTUAL, [1]), (2, "dog".toList, .ACTUAL, [2])]).AddDocument
      3 ['b', 'i', 'r', 'd', Char.ofNat 1] .ACTUAL [3]).1 = .error .invalid_argument ∧
    (Examples.rejectedAddServer ℝ).document_ids_ = [1, 2] ∧
    (Examples.rejectedAddServer ℝ).documents_.keys = [1, 2, 3] ∧
    (Examples.rejectedAddServer ℝ).GetDocumentCount = 3 ∧
    documentFrequency (Examples.rejectedAddServer ℝ) "cat".toList = 1 ∧
    storedTermFreq (Examples.rejectedAddServer ℝ) "cat".toList 1 = 1 ∧
    (Examples.rejectedAddServer ℝ).ParseQuery "cat".toList = .ok ⟨["cat".toList], []⟩ ∧
    (∃ relevance, FindTopDocuments Real.log (Examples.rejectedAddServer ℝ) "cat".toList
        (fun _ _ _ => true) = .ok [⟨1, relevance, 1⟩] ∧
      relevance = Real.log 3 ∧
      relevance ≠ storedTermFreq (Examples.rejectedAddServer ℝ) "cat".toList 1 *
        Real.log (((Examples.rejectedAddServer ℝ).document_ids_.length : ℝ) /
          (documentFrequency (Examples.rejectedAddServer ℝ) "cat".toList : ℝ))) ∧
    Binary64.add (Binary64.add (Binary64.add (.finite 0)
        (.finite (0x176fe34e3c040e <<< 1020))) (.finite (0x176fe34e3c040e <<< 1020)))
        (.finite (0x114cc29dd51032 <<< 1019)) = .finite (0x1bc313f5b1481a <<< 1021) ∧
    Binary64.add (Binary64.add (Binary64.add (.finite 0)
        (.finite (0x176fe34e3c040e <<< 1020))) (.finite (0x114cc29dd51032 <<< 1019)))
        (.finite (0x176fe34e3c040e <<< 1020)) = .finite (0x1bc313f5b1481b <<< 1021) ∧
    Binary64.finite (0x176fe34e3c040e <<< 1020 + 0x176fe34e3c040e <<< 1020 +
        0x114cc29dd51032 <<< 1019) ≠
      Binary64.add (Binary64.add (Binary64.add (.finite 0)
        (.finite (0x176fe34e3c040e <<< 1020))) (.finite (0x176fe34e3c040e <<< 1020)))
        (.finite (0x114cc29dd51032 <<< 1019)) := by
  have htf : storedTermFreq (Examples.rejectedAddServer ℝ) "cat".toList 1 = 1 := by
    show (0 : ℝ) + 1 / ((1 : Nat) : ℝ) = 1
    norm_num
  have hcount : (Examples.rejectedAddServer ℝ).GetDocumentCount = 3 := rfl
  have hsize : (((((Examples.emptyServer ℝ).word_to_document_freqs_.find ['c', 'a', 't']).getD
      []).modify 1 (0 : ℝ) (fun x => x + 1)).size) = 1 := rfl
  have hzero : (((((Examples.emptyServer ℝ).word_to_document_freqs_.find ['c', 'a', 't']).getD
      []).find 1).getD (0 : ℝ)) = 0 := rfl
  have hids : (Examples.rejectedAddServer ℝ).document_ids_.length = 2 := rfl
  have hdf : documentFrequency (Examples.rejectedAddServer ℝ) "cat".toList = 1 := rfl
  have hlog : Real.log 3 ≠ Real.log 2 := by
    intro h
    have := Real.log_injOn_pos (by norm_num : (3 : ℝ) ∈ Set.Ioi 0)
      (by norm_num : (2 : ℝ) ∈ Set.Ioi 0) h
    norm_num at this
  have hres : ∃ relevance, FindTopDocuments Real.log (Examples.rejectedAddServer ℝ)
      "cat".toList (fun _ _ _ => true) = .ok [⟨1, relevance, 1⟩] ∧
      relevance = Real.log 3 := by
    refine ⟨_, rfl, ?_⟩
    norm_num
    rw [hcount, hsize, hzero]
    norm_num
  obtain ⟨relevance, h1, h2⟩ := hres
  refine ⟨ReachableAny.add _ 3 _ .ACTUAL [3] (Reachable.any
    (addAll_spec _ _ Examples.emptyServer_reachable (by decide) (by decide)
      (fun _ _ => rfl)).1), rfl, rfl, rfl, rfl, rfl, htf, rfl, ⟨relevance, h1, h2, ?_⟩,
    by decide, by decide, by decide⟩
  rw [htf, hids, hdf, h2]
  norm_num
  exact hlog

end SearchServer

namespace ViewIndex

open SearchServer

variable {F : Type} [LinearOrderedField F]

/-- C2, amended.  Take a state reached from a constructed server by calls of
`AddDocument`, whether they return or throw, and of `RemoveDocument`, every call having
been made with live keys, all of whose keys are live, and let the arithmetic be exact.
For a query that parses `FindTopDocuments` returns, and every returned document is
live, its rating is the rating stored for its id and its relevance is the sum, over the
plus-terms of the query that are slices of the text of the document, of the stored term
frequency times the logarithm of `GetDocumentCount()` over the number of live documents
whose text has the term; the stored term frequency of such a term is the number of its
occurrences among the non-stop tokens of the text over their number.
`GetDocumentCount()` is the number of entries of the metadata, which is at least the
number of live documents, the size of the document id set; where every `AddDocument`
has returned it is this number, and every stored document is live. -/
theorem C2_relevance_formula (log : F → F) (v : ViewIndex F) (hv : LiveReachAny v)
    (_ : v.KeysLive) (raw_query : Str) (query : Query)
    (hq : v.server.ParseQuery raw_query = .ok query)
    (document_predicate : Int → DocumentStatus → Int → Bool) :
    v.server.GetDocumentCount = v.server.documents_.length ∧
    v.server.document_ids_.length ≤ v.server.GetDocumentCount ∧
    (LiveReach v → v.server.document_ids_.length = v.server.GetDocumentCount ∧
      ∀ w, liveDocumentFrequency v.server w = documentFrequency v.server w) ∧
    ∃ top, FindTopDocuments log v.server raw_query document_predicate = .ok top ∧
      ∀ d ∈ top, d.id ∈ v.server.document_ids_ ∧
        ∃ data, v.server.documents_.find d.id = some data ∧
        d.rating = data.rating ∧
        d.relevance =
          ((query.plus_words.filter (fun w => decide (w ∈ SplitIntoWords data.text))).map
            (fun w => storedTermFreq v.server w d.id *
              log ((v.server.GetDocumentCount : F) /
                (liveDocumentFrequency v.server w : F)))).sum ∧
        ∀ w ∈ query.plus_words, w ∈ SplitIntoWords data.text →
          storedTermFreq v.server w d.id =
            ((v.server.nonStopWords data.text).count w : F) /
              ((v.server.nonStopWords data.text).length : F) := by
  obtain ⟨s, hs, h⟩ := hv.base
  refine ⟨rfl, ?_, ?_, relevance_formula_withRejected log hs h raw_query query hq
    document_predicate⟩
  · rw [h.live_count hs.inv]
    show s.documents_.length ≤ v.server.documents_.length
    rw [← h.live_documents hs.inv]
    exact List.length_filter_le _ _
  · intro hl
    have hr := hl.reachable
    exact ⟨(WithRejected.refl hr.inv).live_count hr.inv,
      (WithRejected.refl hr.inv).liveDocumentFrequency_eq hr.inv⟩

/-- C2 as amended.  (1) On the server of `TestRelevanceValue` (stop words `и в на`)
with the query `пушистый ухоженный кот`: the documents 1, 2 and 0 are returned, in this
order, with the relevances `1/2 ln 3 + 1/4 ln (3/2)`, `1/4 ln 3` and `1/4 ln (3/2)` and
the ratings 5, 0 and 2, and each relevance is the sum that the theorem states.  (2) On
the server with the documents `1: cat` and `2: dog` and the metadata that the throwing
`AddDocument(3, ...)` has left, with the query `cat`: of the two live documents one has
`cat`, `GetDocumentCount()` is 3, and document 1 is returned with the relevance
`1 * ln (3 / 1)`. -/
theorem C2_relevance_formula_witness :
    (LiveReachAny (Examples.relevanceIndex ℝ) ∧ (Examples.relevanceIndex ℝ).KeysLive ∧
    (Examples.relevanceIndex ℝ).server.GetDocumentCount = 3 ∧
    (Examples.relevanceIndex ℝ).server.ParseQuery "пушистый ухоженный кот".toList =
      .ok ⟨["кот".toList, "пушистый".toList, "ухоженный".toList], []⟩ ∧
    FindTopDocuments Real.log (Examples.relevanceIndex ℝ).server
        "пушистый ухоженный кот".toList (statusPredicate .ACTUAL) =
      .ok [⟨1, 1 / 2 * Real.log 3 + 1 / 4 * Real.log (3 / 2), 5⟩,
           ⟨2, 1 / 4 * Real.log 3, 0⟩,
           ⟨0, 1 / 4 * Real.log (3 / 2), 2⟩] ∧
    ∀ d ∈ ([⟨1, 1 / 2 * Real.log 3 + 1 / 4 * Real.log (3 / 2), 5⟩,
           ⟨2, 1 / 4 * Real.log 3, 0⟩,
           ⟨0, 1 / 4 * Real.log (3 / 2), 2⟩] : List (Document ℝ)),
      ∃ data, (Examples.relevanceIndex ℝ).server.documents_.find d.id = some data ∧
        d.rating = data.rating ∧
        d.relevance =
          ((["кот".toList, "пушистый".toList, "ухоженный".toList].filter
              (fun w => decide (w ∈ SplitIntoWords data.text))).map
            (fun w => storedTermFreq (Examples.relevanceIndex ℝ).server w d.id *
              Real.log (((Examples.relevanceIndex ℝ).server.GetDocumentCount : ℝ) /
                (liveDocumentFrequency (Examples.relevanceIndex ℝ).server w : ℝ)))).sum) ∧
    (LiveReachAny (Examples.rejectedAddIndex ℝ) ∧ (Examples.rejectedAddIndex ℝ).KeysLive ∧
    (Examples.rejectedAddIndex ℝ).server = Examples.rejectedAddServer ℝ ∧
    (Examples.rejectedAddIndex ℝ).server.document_ids_ = [1, 2] ∧
    (Examples.rejectedAddIndex ℝ).server.GetDocumentCount = 3 ∧
    liveDocumentFrequency (Examples.rejectedAddIndex ℝ).server "cat".toList = 1 ∧
    storedTermFreq (Examples.rejectedAddIndex ℝ).server "cat".toList 1 = 1 ∧
    ∃ top, FindTopDocuments Real.log (Examples.rejectedAddIndex ℝ).server "cat".toList
        (fun _ _ _ => true) = .ok top ∧
      top.map (fun d => (d.id, d.rating)) = [(1, 1)] ∧
      ∀ d ∈ top, d.relevance = 1 * Real.log (3 / 1)) := by
  have hserver : (Examples.relevanceIndex ℝ).server = Examples.relevanceServer ℝ := rfl
  have hreach : LiveReachAny (Examples.relevanceIndex ℝ) :=
    LiveReachAny.add _ 2 _ .ACTUAL [0]
      (LiveReachAny.add _ 1 _ .ACTUAL [7, 2, 7]
        (LiveReachAny.add _ 0 _ .ACTUAL [8, -3]
          (LiveReachAny.init ["и".toList, "в".toList, "на".toList] _ rfl) (by decide))
        (by decide))
      (by decide)
  have hlive : (Examples.relevanceIndex ℝ).KeysLive := by decide
  have hparse : (Examples.relevanceIndex ℝ).server.ParseQuery "пушистый ухоженный кот".toList =
      .ok ⟨["кот".toList, "пушистый".toList, "ухоженный".toList], []⟩ := by
    rw [hserver]
    exact (ParseQuery_congr (s := Examples.cyrillicStopServer ℝ)
      Examples.relevanceServer_spec.2.1 _).trans rfl
  obtain ⟨_, _, _, top, htop, h⟩ := C2_relevance_formula Real.log (Examples.relevanceIndex ℝ)
    hreach hlive "пушистый ухоженный кот".toList _ hparse (statusPredicate .ACTUAL)
  have hresult : FindTopDocuments Real.log (Examples.relevanceIndex ℝ).server
      "пушистый ухоженный кот".toList (statusPredicate .ACTUAL) =
      .ok [⟨1, 1 / 2 * Real.log 3 + 1 / 4 * Real.log (3 / 2), 5⟩,
           ⟨2, 1 / 4 * Real.log 3, 0⟩,
           ⟨0, 1 / 4 * Real.log (3 / 2), 2⟩] := by
    rw [hserver]
    exact relevance_test_result
  rw [hresult] at htop
  have htop' := Except.ok.inj htop
  subst htop'
  have hreach2 : LiveReachAny (Examples.rejectedAddIndex ℝ) :=
    LiveReachAny.add _ 3 _ .ACTUAL [3]
      (LiveReachAny.add _ 2 _ .ACTUAL [2]
        (LiveReachAny.add _ 1 _ .ACTUAL [1]
          (LiveReachAny.init [] _ rfl) (by decide))
        (by decide))
      (by decide)
  have hlive2 : (Examples.rejectedAddIndex ℝ).KeysLive := by decide
  have hparse2 : (Examples.rejectedAddIndex ℝ).server.ParseQuery "cat".toList =
      .ok ⟨["cat".toList], []⟩ := rfl
  have hcount : (Examples.rejectedAddIndex ℝ).server.GetDocumentCount = 3 := rfl
  have hdf : liveDocumentFrequency (Examples.rejectedAddIndex ℝ).server "cat".toList = 1 := rfl
  have htf : storedTermFreq (Examples.rejectedAddIndex ℝ).server "cat".toList 1 = 1 := by
    show (0 : ℝ) + 1 / ((1 : Nat) : ℝ) = 1
    norm_num
  obtain ⟨_, _, _, top2, htop2, h2⟩ := C2_relevance_formula Real.log
    (Examples.rejectedAddIndex ℝ) hreach2 hlive2 "cat".toList _ hparse2 (fun _ _ _ => true)
  have hids : ∃ relevance, FindTopDocuments Real.log (Examples.rejectedAddIndex ℝ).server
      "cat".toList (fun _ _ _ => true) = .ok [⟨1, relevance, 1⟩] := ⟨_, rfl⟩
  obtain ⟨relevance, hrel⟩ := hids
  rw [hrel] at htop2
  have htop2' := Except.ok.inj htop2
  subst htop2'
  refine ⟨⟨hreach, hlive, rfl, hparse, hresult, ?_⟩,
    hreach2, hlive2, rfl, rfl, hcount, hdf, htf, _, hrel, rfl, ?_⟩
  · intro d hd
    obtain ⟨_, data, h1, h2, h3, _⟩ := h d hd
    exact ⟨data, h1, h2, h3⟩
  · intro d hd
    obtain ⟨_, data, h1, _, h3, _⟩ := h2 d hd
    have hd1 : d.id = 1 := by
      rw [List.mem_singleton] at hd; rw [hd]
    rw [hd1] at h1 h3
    have hdata : data = ⟨1, .ACTUAL, "cat".toList⟩ := (Option.some.inj h1).symm ▸ rfl
    subst hdata
    rw [h3]
    have hfilter : (["cat".toList].filter
        (fun w => decide (w ∈ SplitIntoWords "cat".toList))) = ["cat".toList] := by decide
    show ((["cat".toList].filter (fun w => decide (w ∈ SplitIntoWords "cat".toList))).map
      _).sum = _
    rw [hfilter]
    simp only [List.map_cons, List.map_nil, List.sum_cons, List.sum_nil, add_zero]
    rw [htf, hcount, hdf]
    norm_num

end ViewIndex



namespace SearchServer

variable {F : Type} [LinearOrderedField F]

end SearchServer



namespace SearchServer

variable {F : Type} [LinearOrderedField F]

end SearchServer



namespace ViewIndex

open SearchServer

variable {F : Type} [LinearOrderedField F]

/-- C6 fails in the program.  After
`AddDocument(1, "alpha beta gamma delta epsilon", ...)`, `AddDocument(2, "alpha beta", ...)`
and `RemoveDocument(1)` on a server without stop words, every call having been made with
live keys, document 2 is stored with the status `ACTUAL` and the text `alpha beta`, and
the query `alpha beta` parses to the plus-terms `alpha` and `beta`: the claim requires
that `MatchDocument("alpha beta", 2)` returns both words, as it does when the keys are
compared by the characters they were inserted with.  But the keys `alpha` and `beta` of
the postings are the views that `AddDocument(1, ...)` inserted, into the text of
document 1, which `RemoveDocument(1)` has erased.  The lookups of `MatchDocument`
compare the plus-terms with the keys, so they read storage that has been released. -/
theorem C6_MatchDocument_reads_erased_text :
    LiveReach (Examples.alphaRemoved ℝ) ∧
    (Examples.alphaRemoved ℝ).server.documents_.find 2 =
      some ⟨2, .ACTUAL, "alpha beta".toList⟩ ∧
    SplitIntoWords "alpha beta".toList = ["alpha".toList, "beta".toList] ∧
    (Examples.alphaRemoved ℝ).server.ParseQuery "alpha beta".toList =
      .ok ⟨["alpha".toList, "beta".toList], []⟩ ∧
    MatchDocument (Examples.alphaRemoved ℝ).server "alpha beta".toList 2 =
      .ok (["alpha".toList, "beta".toList], .ACTUAL) ∧
    (Examples.alphaRemoved ℝ).server.GetWordFrequencies 2 =
      [("alpha".toList, 1 / 2), ("beta".toList, 1 / 2)] ∧
    (Examples.alphaRemoved ℝ).server.documents_.keys = [2] ∧
    (Examples.alphaRemoved ℝ).Dangling "alpha".toList ∧
    (Examples.alphaRemoved ℝ).Dangling "beta".toList ∧
    (Examples.alphaRemoved ℝ).liveKey "alpha".toList = false ∧
    (Examples.alphaRemoved ℝ).liveKey "beta".toList = false := by
  refine ⟨?_, rfl, by decide, rfl, rfl, ?_, rfl, ⟨none, rfl, rfl⟩, ⟨none, rfl, rfl⟩, rfl, rfl⟩
  · exact LiveReach.removePar _ 1
      (LiveReach.add _ 2 _ .ACTUAL [2]
        (LiveReach.add _ 1 _ .ACTUAL [1] (LiveReach.init [] _ rfl) (by decide) rfl)
        (by decide) rfl)
      (by decide)
  · show [("alpha".toList, (0 : ℝ) + 1 / ((2 : Nat) : ℝ)), ("beta".toList, (0 : ℝ) + 1 / ((2 : Nat) : ℝ))] = _
    norm_num

end ViewIndex



namespace SearchServer

/-- The lookup in the forward entry of a document, for frequencies of any type. -/
lemma find2_forward_any {D : Type} (s : SearchServer D) (id : Int) (w : Str) :
    OrdMap.find2 s.document_to_word_freqs_ id w = (s.GetWordFrequencies id).find w := by
  unfold OrdMap.find2 GetWordFrequencies
  cases s.document_to_word_freqs_.find id <;> rfl

end SearchServer

namespace ViewIndex

open SearchServer

variable {F : Type} [LinearOrderedField F]

/-- C8 fails as stated.  In the arithmetic of `double`, `AddDocument(1, "a a a b c",
...)` on a server without stop words returns; the word `a` occurs three times among
five words, and `GetWordFrequencies(1)` and the postings hold for it the sum
`0.0 + 0.2 + 0.2 + 0.2` with every step rounded, which is 0.6000000000000001, the
double above the double 0.6 that is nearest to 3/5. -/
theorem C8_term_frequencies_counterexample :
    (AddDocumentWith Binary64.arith ⟨[], [], [], [], []⟩ 1 "a a a b c".toList .ACTUAL []).1 =
      .ok () ∧
    (⟨[], [], [], [], []⟩ : SearchServer Binary64).nonStopWords "a a a b c".toList =
      ["a".toList, "a".toList, "a".toList, "b".toList, "c".toList] ∧
    Examples.threeOfFive.GetWordFrequencies 1 =
      [("a".toList, .finite (0x13333333333334 <<< 1021)),
       ("b".toList, .finite (0x1999999999999A <<< 1019)),
       ("c".toList, .finite (0x1999999999999A <<< 1019))] ∧
    OrdMap.find2 Examples.threeOfFive.word_to_document_freqs_ "a".toList 1 =
      some (.finite (0x13333333333334 <<< 1021)) ∧
    Binary64.div (Binary64.ofNat 1) (Binary64.ofNat 5) = .finite (0x1999999999999A <<< 1019) ∧
    Binary64.div (Binary64.ofNat 3) (Binary64.ofNat 5) = .finite (0x13333333333333 <<< 1021) ∧
    (Examples.threeOfFive.GetWordFrequencies 1).find "a".toList ≠
      some (Binary64.div (Binary64.ofNat 3) (Binary64.ofNat 5)) := by
  refine ⟨rfl, by decide, by decide, by decide, by decide, by decide, by decide⟩

/-- C8, amended.  Take a state reached with live keys, all of whose keys are live, and
an `AddDocument(id, text, ...)` that returns.  The keys are live afterwards, and in the
exact arithmetic of the field `GetWordFrequencies(id)` has each key once, maps every
non-stop token `w` of the text to the number of occurrences of `w` among the non-stop
tokens divided by the number of non-stop tokens, maps nothing else, and
`postings[w][id]` holds the same value.  In every arithmetic, that of `double`
included, on a state that has no metadata, no forward entry and no posting for the id:
`AddDocument` of an id that is not negative and a text without control bytes returns,
`GetWordFrequencies(id)` maps exactly the non-stop tokens of the text, each to the
value that comes from `0.0` by adding `1.0 / total` once per occurrence of the token,
and `postings[w][id]` holds the same value; in the exact arithmetic this `AddDocument`
is the one of the field and the value is the quotient. -/
theorem C8_AddDocument_term_frequencies (v : ViewIndex F) (hv : LiveReach v)
    (hlive : v.KeysLive) (id : Int) (text : Str) (status : DocumentStatus) (ratings : List Int)
    (hok : (v.AddDocument id text status ratings).1 = .ok ()) :
    (v.AddDocument id text status ratings).2.KeysLive ∧
    ((v.AddDocument id text status ratings).2.server.GetWordFrequencies id).keys.Nodup ∧
    (∀ w : Str,
      ((v.AddDocument id text status ratings).2.server.GetWordFrequencies id).find w =
        (if w ∈ v.server.nonStopWords text then
          some (((v.server.nonStopWords text).count w : F) /
            ((v.server.nonStopWords text).length : F))
        else none) ∧
      OrdMap.find2 (v.AddDocument id text status ratings).2.server.word_to_document_freqs_ w id =
        ((v.AddDocument id text status ratings).2.server.GetWordFrequencies id).find w) ∧
    (0 ≤ id ∧ v.server.documents_.find id = none ∧ (∀ c ∈ text, 32 ≤ c.toNat) ∧
      v.server.document_to_word_freqs_.find id = none ∧
      (∀ w, OrdMap.find2 v.server.word_to_document_freqs_ w id = none)) ∧
    (∀ s : SearchServer F, AddDocumentWith (DoubleArith.exact F) s id text status ratings =
      s.AddDocument id text status ratings) ∧
    (∀ count size : Nat,
      storedFrequency (DoubleArith.exact F) count size = (count : F) / (size : F)) ∧
    (∀ (D : Type) (A : DoubleArith D) (s : SearchServer D),
      0 ≤ id → s.documents_.find id = none → (∀ c ∈ text, 32 ≤ c.toNat) →
      s.document_to_word_freqs_.find id = none →
      (∀ w, OrdMap.find2 s.word_to_document_freqs_ w id = none) →
      (AddDocumentWith A s id text status ratings).1 = .ok () ∧
      ∀ w : Str,
        ((AddDocumentWith A s id text status ratings).2.GetWordFrequencies id).find w =
          (if w ∈ s.nonStopWords text then
            some (storedFrequency A ((s.nonStopWords text).count w)
              (s.nonStopWords text).length)
          else none) ∧
        OrdMap.find2 (AddDocumentWith A s id text status ratings).2.word_to_document_freqs_ w
            id =
          ((AddDocumentWith A s id text status ratings).2.GetWordFrequencies id).find w) := by
  have hold := term_frequencies_of_reachable v.server hv.reachable id text status ratings _
    (AddDocument_pair hok)
  have hiff := (AddDocument_ok_iff v.server id text status ratings).1 hok
  have hfwd : v.server.document_to_word_freqs_.find id = none :=
    hv.reachable.inv.forward_none id hiff.2.1
  have hpost : ∀ w, OrdMap.find2 v.server.word_to_document_freqs_ w id = none := by
    intro w
    rw [hv.reachable.inv.consistent]
    exact OrdMap.find2_eq_none_of_find hfwd w
  refine ⟨KeysLive.add hlive hv.owner_WF hok, hold.1, hold.2,
    ⟨hiff.1, hiff.2.1, hiff.2.2, hfwd, hpost⟩, fun _ => rfl,
    fun count size => storedFrequency_exact count size,
    fun D A s h1 h2 h3 h4 h5 => ?_⟩
  obtain ⟨hret, hf, hp⟩ := AddDocumentWith_frequencies A s id text status ratings h1 h2 h3
  refine ⟨hret, fun w => ?_⟩
  have hf' := hf w
  have hp' := hp w
  rw [OrdMap.find2_eq_none_of_find h4 w, Option.getD_none] at hf'
  rw [h5 w, Option.getD_none] at hp'
  rw [← find2_forward_any, hf', hp']
  exact ⟨rfl, rfl⟩

/-- C8 as amended, on `AddDocument(42, "cat in the city", ...)` with the stop words
`in the`: the words `cat` and `city` get the frequency 1/2 and the stop word `in` gets
none.  In the arithmetic of `double` the same call stores the double 0.5 for `cat`. -/
theorem C8_AddDocument_term_frequencies_witness :
    LiveReach (Examples.stopIndex ℝ) ∧ (Examples.stopIndex ℝ).KeysLive ∧
    ((Examples.stopIndex ℝ).AddDocument 42 "cat in the city".toList .ACTUAL [1, 2, 3]).1 =
      .ok () ∧
    ((Examples.stopIndex ℝ).AddDocument 42 "cat in the city".toList .ACTUAL [1, 2, 3]).2.server =
      Examples.catServer ℝ ∧
    ((Examples.catServer ℝ).GetWordFrequencies 42).find "cat".toList = some (1 / 2) ∧
    OrdMap.find2 (Examples.catServer ℝ).word_to_document_freqs_ "city".toList 42 = some (1 / 2) ∧
    ((Examples.catServer ℝ).GetWordFrequencies 42).find "in".toList = none ∧
    ((AddDocumentWith Binary64.arith ⟨["in".toList, "the".toList], [], [], [], []⟩ 42
      "cat in the city".toList .ACTUAL [1, 2, 3]).2.GetWordFrequencies 42).find "cat".toList =
      some (storedFrequency Binary64.arith 1 2) ∧
    storedFrequency Binary64.arith 1 2 = .finite (1 <<< 1073) := by
  have hreach : LiveReach (Examples.stopIndex ℝ) :=
    LiveReach.init ["in".toList, "the".toList] _ rfl
  have key := C8_AddDocument_term_frequencies (Examples.stopIndex ℝ) hreach (by decide) 42
    "cat in the city".toList .ACTUAL [1, 2, 3] rfl
  have hserver : ((Examples.stopIndex ℝ).AddDocument 42 "cat in the city".toList .ACTUAL
      [1, 2, 3]).2.server = Examples.catServer ℝ := rfl
  have hwords : (Examples.stopIndex ℝ).server.nonStopWords "cat in the city".toList =
      ["cat".toList, "city".toList] := by rfl
  have hd := (key.2.2.2.2.2.2 Binary64 Binary64.arith
    ⟨["in".toList, "the".toList], [], [], [], []⟩ (by decide) rfl (by decide) rfl
    (fun w => rfl)).2 "cat".toList
  refine ⟨hreach, by decide, rfl, hserver, ?_, ?_, ?_, ?_, by decide⟩
  · rw [← hserver, (key.2.2.1 "cat".toList).1, hwords, if_pos (by decide)]
    norm_num
  · rw [← hserver, (key.2.2.1 "city".toList).2, (key.2.2.1 "city".toList).1, hwords,
      if_pos (by decide)]
    norm_num
  · rw [← hserver, (key.2.2.1 "in".toList).1, hwords, if_neg (by decide)]
  · rw [hd.1]
    rfl

end ViewIndex



namespace ViewIndex

open SearchServer

variable {F : Type} [LinearOrderedField F]

/-- C11, amended.  Take a state reached with live keys, all of whose keys are live, an
id that is not negative and not in the document id set, and a text without control
bytes that has a word that is no stop word.  `AddDocument` returns, and the following
`RemoveDocument(id)`, sequential or parallel, is made with live keys as well and leaves
the stop words, the metadata, the document id set and the forward index equal by value
to those before the two calls.  The entries of the postings whose key points into a
stored text are the entries that the postings had before the two calls, in the same
order, each with its key, the owner of the key and its posting map.  The postings have
one entry more for every non-stop word of the text that was no key, and no other: its
posting map is empty and its key points into the text of the document that has just
been erased, so the key has no owner any more and dangles.  When every non-stop word
of the text was a key already, the state is the state before the two calls. -/
theorem C11_add_then_remove (v : ViewIndex F) (hv : LiveReach v) (hlive : v.KeysLive) (id : Int)
    (text : Str) (status : DocumentStatus) (ratings : List Int) (h1 : 0 ≤ id)
    (h2 : id ∉ v.server.document_ids_) (h3 : ∀ c ∈ text, 32 ≤ c.toNat)
    (h4 : ∃ w ∈ SplitIntoWords text, v.server.IsStopWord w = false)
    (v' : ViewIndex F)
    (hv' : v' = (v.AddDocument id text status ratings).2.RemoveDocumentPar id) :
    (v.AddDocument id text status ratings).1 = .ok () ∧
    (v.AddDocument id text status ratings).2.KeysLive ∧
    LiveReach v' ∧
    (v.AddDocument id text status ratings).2.RemoveDocument id = v' ∧
    v'.server.stop_words_ = v.server.stop_words_ ∧
    v'.server.documents_ = v.server.documents_ ∧
    v'.server.document_ids_ = v.server.document_ids_ ∧
    v'.server.document_to_word_freqs_ = v.server.document_to_word_freqs_ ∧
    v'.server.word_to_document_freqs_.filter (fun e => v'.liveKey e.1) =
      v.server.word_to_document_freqs_ ∧
    (∀ e ∈ v'.server.word_to_document_freqs_, v'.liveKey e.1 = false →
      e.2 = [] ∧ e.1 ∈ SplitIntoWords text ∧ v.server.IsStopWord e.1 = false ∧
        v.server.word_to_document_freqs_.find e.1 = none) ∧
    (∀ w, v'.key_owner.find w =
      if (v.server.word_to_document_freqs_.find w).isSome then v.key_owner.find w
      else if w ∈ SplitIntoWords text ∧ v.server.IsStopWord w = false then some none
      else none) ∧
    (∀ w, (v.server.word_to_document_freqs_.find w).isSome → ¬ v'.Dangling w) ∧
    (∀ w ∈ SplitIntoWords text, v.server.IsStopWord w = false →
      v.server.word_to_document_freqs_.find w = none →
      (w, []) ∈ v'.server.word_to_document_freqs_ ∧ v'.liveKey w = false ∧ v'.Dangling w) ∧
    ((∀ w ∈ SplitIntoWords text, v.server.IsStopWord w = false →
        v.server.word_to_document_freqs_.find w ≠ none) → v' = v) := by
  have hinv := hv.reachable.inv
  have hnone : v.server.documents_.find id = none := by
    rw [OrdMap.find_eq_none_iff, ← hinv.ids_eq]; exact h2
  have hne : v.server.nonStopWords text ≠ [] := by
    obtain ⟨w, hw, hst⟩ := h4
    exact List.ne_nil_of_mem ((mem_nonStopWords v.server text w).2 ⟨hw, hst⟩)
  have hok : (v.AddDocument id text status ratings).1 = .ok () :=
    (AddDocument_ok_iff _ _ _ _ _).2 ⟨h1, hnone, h3⟩
  have hlive1 : (v.AddDocument id text status ratings).2.KeysLive :=
    KeysLive.add hlive hv.owner_WF hok
  have hreach1 : LiveReach (v.AddDocument id text status ratings).2 :=
    LiveReach.add v id text status ratings hv hlive hok
  obtain ⟨hinv', hstop, hdocs, hids, hfwd, hpost⟩ :=
    add_then_remove hinv status ratings h1 hnone h3 hne
  have hserver : v'.server = (v.server.AddDocument id text status ratings).2.RemoveDocument id := by
    rw [hv']; rfl
  have howner1 : v'.key_owner =
      releaseOwners v.server.documents_ (v.AddDocument id text status ratings).2.key_owner := by
    rw [hv', (hreach1.RemoveDocument_owner id).2, AddDocument_server, hdocs]
  have hkept : ∀ w owner, v.key_owner.find w = some owner →
      owner.bind (fun document_id =>
        if (v.server.documents_.find document_id).isSome then some document_id else none) =
        owner := by
    intro w owner ho
    have hst := hlive (w, owner) (OrdMap.find_some_mem ho)
    cases owner with
    | none => rfl
    | some k =>
      have hk : (v.server.documents_.find k).isSome = true := hst
      simp only [Option.some_bind, hk, if_true]
  have hpost' : ∀ w, v'.server.word_to_document_freqs_.find w =
      if w ∈ SplitIntoWords text ∧ v.server.IsStopWord w = false then
        some ((v.server.word_to_document_freqs_.find w).getD [])
      else v.server.word_to_document_freqs_.find w := by
    intro w
    rw [hserver, hpost w]
    by_cases hw : w ∈ v.server.nonStopWords text
    · rw [if_pos hw, if_pos ((mem_nonStopWords v.server text w).1 hw)]
    · rw [if_neg hw, if_neg (fun hc => hw ((mem_nonStopWords v.server text w).2 hc))]
  have howner : ∀ w, v'.key_owner.find w =
      if (v.server.word_to_document_freqs_.find w).isSome then v.key_owner.find w
      else if w ∈ SplitIntoWords text ∧ v.server.IsStopWord w = false then some none
      else none := by
    intro w
    rw [howner1, find_releaseOwners, AddDocument_owner hok, OrdMap.find_foldl_emplace]
    by_cases hk : (v.key_owner.find w).isSome
    · rw [if_pos hk, if_pos ((hv.owner_isSome w).1 hk)]
      obtain ⟨owner, ho⟩ := Option.isSome_iff_exists.1 hk
      rw [ho, Option.map_some', hkept w owner ho]
    · rw [if_neg hk, if_neg (fun hc => hk ((hv.owner_isSome w).2 hc))]
      by_cases hw : w ∈ v.server.nonStopWords text
      · rw [if_pos hw, if_pos ((mem_nonStopWords v.server text w).1 hw)]
        simp only [Option.map_some', Option.some_bind, hnone, Option.isSome_none,
          Bool.false_eq_true, if_false]
      · rw [if_neg hw, if_neg (fun hc => hw ((mem_nonStopWords v.server text w).2 hc))]
        rfl
  have hstored : ∀ o, v'.ownerStored o = v.ownerStored o := by
    intro o
    cases o with
    | none => rfl
    | some k =>
      show (v'.server.documents_.find k).isSome = (v.server.documents_.find k).isSome
      rw [hserver, hdocs]
  have hwf' : v'.server.word_to_document_freqs_.WF := by
    rw [hserver]; exact hinv'.wf_postings
  have hlk : ∀ w, v'.liveKey w = (v.server.word_to_document_freqs_.find w).isSome := by
    intro w
    unfold liveKey
    rw [howner w]
    by_cases hk : (v.server.word_to_document_freqs_.find w).isSome
    · rw [if_pos hk, hk]
      obtain ⟨owner, ho⟩ := Option.isSome_iff_exists.1 ((hv.owner_isSome w).2 hk)
      rw [ho]
      simp only
      rw [hstored]
      exact hlive (w, owner) (OrdMap.find_some_mem ho)
    · rw [if_neg hk]
      have hk' : (v.server.word_to_document_freqs_.find w).isSome = false := by
        simpa using hk
      rw [hk']
      split_ifs <;> rfl
  refine ⟨hok, hlive1, ?_, ?_, ?_, ?_, ?_, ?_, ?_, ?_, howner, ?_, ?_, ?_⟩
  · rw [hv']
    exact LiveReach.removePar _ id hreach1 hlive1
  · rw [hv']
    show ViewIndex.mk _ _ = ViewIndex.mk _ _
    congr 1
    exact (hreach1.RemoveDocument_owner id).1.trans (hreach1.RemoveDocument_owner id).2.symm
  · rw [hserver]; exact hstop
  · rw [hserver]; exact hdocs
  · rw [hserver]; exact hids
  · rw [hserver]; exact hfwd
  · apply OrdMap.ext_of_WF (OrdMap.WF_filter_key hwf' _) hinv.wf_postings
    intro w
    rw [OrdMap.find_filter_key, hlk w, hpost' w]
    cases hf : v.server.word_to_document_freqs_.find w with
    | none => rfl
    | some inner =>
      simp only [Option.isSome_some, if_true, Option.getD_some]
      split_ifs <;> rfl
  · intro e he hdead
    have hfind := (OrdMap.mem_iff_find hwf' e.1 e.2).1 he
    rw [hlk e.1] at hdead
    have hnone : v.server.word_to_document_freqs_.find e.1 = none := by
      cases hf : v.server.word_to_document_freqs_.find e.1 with
      | none => rfl
      | some inner => rw [hf] at hdead; cases hdead
    rw [hpost' e.1, hnone] at hfind
    split_ifs at hfind with hw
    exact ⟨(Option.some.inj hfind).symm, hw.1, hw.2, hnone⟩
  · rintro w hw ⟨owner, ho, hst⟩
    rw [howner w, if_pos hw] at ho
    rw [hstored] at hst
    have := hlive (w, owner) (OrdMap.find_some_mem ho)
    rw [hst] at this
    cases this
  · intro w hw hst hkey
    refine ⟨?_, ?_, none, ?_, rfl⟩
    · apply OrdMap.find_some_mem
      rw [hpost' w, if_pos ⟨hw, hst⟩, hkey]
      rfl
    · rw [hlk w, hkey]
      rfl
    · rw [howner w, hkey, if_neg (by simp), if_pos ⟨hw, hst⟩]
  · intro hall
    have hs : v'.server = v.server := by
      apply eq_of_members
      · rw [hserver]; exact hstop
      · apply OrdMap.ext_of_WF (by rw [hserver]; exact hinv'.wf_postings) hinv.wf_postings
        intro w
        rw [hpost' w]
        by_cases hw : w ∈ SplitIntoWords text ∧ v.server.IsStopWord w = false
        · rw [if_pos hw]
          cases hf : v.server.word_to_document_freqs_.find w with
          | none => exact absurd hf (hall w hw.1 hw.2)
          | some inner => rfl
        · rw [if_neg hw]
      · rw [hserver]; exact hfwd
      · rw [hserver]; exact hdocs
      · rw [hserver]; exact hids
    have ho : v'.key_owner = v.key_owner := by
      rw [howner1, AddDocument_owner hok, OrdMap.foldl_emplace_of_present _ _ _ (fun k hk => by
        have hk' := (mem_nonStopWords v.server text k).1 hk
        rw [hv.owner_isSome k, Option.isSome_iff_ne_none]
        exact hall k hk'.1 hk'.2)]
      apply releaseOwners_of_stored
      intro e he k hek
      have := hlive e he
      rw [hek] at this
      exact this
    cases v
    cases v'
    simp only at hs ho
    rw [hs, ho]

/-- C11 as amended, on the server of `TestMinusWords` (documents `cat in the city` and
`dog in the village`, no stop words).  Adding and removing document 2 with the text
`cat in the village`, whose words are all keys of the postings, gives the state back.
Adding and removing document 5 with the text `cat bird` gives back the metadata and
leaves the new key `bird` with an empty posting map; it points into the erased text of
document 5 and dangles, while the key `cat` stays live. -/
theorem C11_add_then_remove_witness :
    LiveReach (Examples.minusWordsIndex ℝ) ∧ (Examples.minusWordsIndex ℝ).KeysLive ∧
    (Examples.minusWordsIndex ℝ).server = Examples.minusWordsServer ℝ ∧
    ((Examples.minusWordsIndex ℝ).AddDocument 2 "cat in the village".toList .ACTUAL [7]).1 =
      .ok () ∧
    ((Examples.minusWordsIndex ℝ).AddDocument 2 "cat in the village".toList .ACTUAL
      [7]).2.RemoveDocumentPar 2 = Examples.minusWordsIndex ℝ ∧
    ((Examples.minusWordsIndex ℝ).AddDocument 5 "cat bird".toList .BANNED []).1 = .ok () ∧
    (((Examples.minusWordsIndex ℝ).AddDocument 5 "cat bird".toList .BANNED
      []).2.RemoveDocumentPar 5).server.documents_ =
      (Examples.minusWordsIndex ℝ).server.documents_ ∧
    (((Examples.minusWordsIndex ℝ).AddDocument 5 "cat bird".toList .BANNED
      []).2.RemoveDocumentPar 5).server.document_to_word_freqs_ =
      (Examples.minusWordsIndex ℝ).server.document_to_word_freqs_ ∧
    (Examples.minusWordsIndex ℝ).server.word_to_document_freqs_.find "bird".toList = none ∧
    (((Examples.minusWordsIndex ℝ).AddDocument 5 "cat bird".toList .BANNED
      []).2.RemoveDocumentPar 5).server.word_to_document_freqs_.find "bird".toList = some [] ∧
    (((Examples.minusWordsIndex ℝ).AddDocument 5 "cat bird".toList .BANNED
      []).2.RemoveDocumentPar 5).key_owner.find "bird".toList = some none ∧
    (((Examples.minusWordsIndex ℝ).AddDocument 5 "cat bird".toList .BANNED
      []).2.RemoveDocumentPar 5).Dangling "bird".toList ∧
    ¬ (((Examples.minusWordsIndex ℝ).AddDocument 5 "cat bird".toList .BANNED
      []).2.RemoveDocumentPar 5).Dangling "cat".toList := by
  have hreach : LiveReach (Examples.minusWordsIndex ℝ) :=
    LiveReach.add _ 1 _ .ACTUAL [1, 2, 3]
      (LiveReach.add _ 0 _ .ACTUAL [1, 2, 3] (LiveReach.init [] _ rfl) (by decide) rfl)
      (by decide) rfl
  have hlive : (Examples.minusWordsIndex ℝ).KeysLive := by decide
  have hstop : ∀ w, (Examples.minusWordsIndex ℝ).server.IsStopWord w = false := by
    intro w
    rfl
  have hkey : ∀ w ∈ ["cat".toList, "in".toList, "the".toList, "village".toList],
      (Examples.minusWordsIndex ℝ).server.word_to_document_freqs_.find w ≠ none := by
    intro w hw
    simp only [List.mem_cons, List.mem_singleton, List.not_mem_nil, or_false] at hw
    rcases hw with rfl | rfl | rfl | rfl <;> exact Option.isSome_iff_ne_none.1 (by rfl)
  have hbird : (Examples.minusWordsIndex ℝ).server.word_to_document_freqs_.find
      "bird".toList = none := by rfl
  have a := C11_add_then_remove (Examples.minusWordsIndex ℝ) hreach hlive 2
    "cat in the village".toList .ACTUAL [7] (by decide) (by decide) (by decide)
    ⟨"cat".toList, by decide, hstop _⟩ _ rfl
  have b := C11_add_then_remove (Examples.minusWordsIndex ℝ) hreach hlive 5
    "cat bird".toList .BANNED [] (by decide) (by decide) (by decide)
    ⟨"cat".toList, by decide, hstop _⟩ _ rfl
  refine ⟨hreach, hlive, rfl, a.1, a.2.2.2.2.2.2.2.2.2.2.2.2.2 (fun w hw _ => hkey w hw), b.1,
    b.2.2.2.2.2.1, b.2.2.2.2.2.2.2.1, hbird, ?_, ?_, ?_, ?_⟩
  · exact (OrdMap.mem_iff_find (b.2.2.1).reachable.inv.wf_postings _ _).1
      (b.2.2.2.2.2.2.2.2.2.2.2.2.1 _ (by decide) (hstop _) hbird).1
  · rw [b.2.2.2.2.2.2.2.2.2.2.1, hbird, if_neg (by simp), if_pos ⟨by decide, hstop _⟩]
  · exact (b.2.2.2.2.2.2.2.2.2.2.2.2.1 _ (by decide) (hstop _) hbird).2.2
  · exact b.2.2.2.2.2.2.2.2.2.2.2.1 _ (by rfl)

end ViewIndex



namespace ViewIndex

open SearchServer

variable {F : Type} [LinearOrderedField F]

/-- C12 fails in the program.  After `AddDocument(1, "cat", ...)`,
`AddDocument(2, "cat", ...)` and `RemoveDocument(1)` on a server without stop words,
every call having been made with live keys, the forward entry of document 2 has the
term `cat`, and the postings have one key with the posting map of document 2.  That key
is the view that `AddDocument(1, ...)` inserted, into the text of document 1, which
`RemoveDocument(1)` has erased: the term under which the postings hold document 2 is
read from storage that has been released, so it need not be the term `cat` under which
the forward index holds it.  The state accepts `AddDocument(3, "dog", ...)`, whose loop
looks the word `dog` up among the keys of the postings, of which there is only this
one. -/
theorem C12_postings_key_dangles :
    LiveReach (Examples.catRemoved ℝ) ∧
    (Examples.catRemoved ℝ).server.document_to_word_freqs_.map (fun e => (e.1, e.2.keys)) =
      [(2, ["cat".toList])] ∧
    (Examples.catRemoved ℝ).server.word_to_document_freqs_.map (fun e => (e.1, e.2.keys)) =
      [("cat".toList, [2])] ∧
    (Examples.catRemoved ℝ).key_owner = [("cat".toList, none)] ∧
    (Examples.catRemoved ℝ).server.documents_.keys = [2] ∧
    (Examples.catRemoved ℝ).Dangling "cat".toList ∧
    ¬ (Examples.catRemoved ℝ).KeysLive ∧
    ((Examples.catRemoved ℝ).AddDocument 3 "dog".toList .ACTUAL [3]).1 = .ok () ∧
    (Examples.catRemoved ℝ).server.nonStopWords "dog".toList = ["dog".toList] := by
  refine ⟨?_, rfl, rfl, rfl, rfl, ⟨none, rfl, rfl⟩, by decide, rfl, rfl⟩
  exact LiveReach.removePar _ 1
    (LiveReach.add _ 2 _ .ACTUAL [2]
      (LiveReach.add _ 1 _ .ACTUAL [1] (LiveReach.init [] _ rfl) (by decide) rfl)
      (by decide) rfl)
    (by decide)

/-- C15 fails in the program.  After `AddDocument(1, "cat", ...)` and
`RemoveDocument(1)` on the server with the stop word `the`, both calls having been made
with live keys, the postings keep one key, with an empty posting map.  The key is a
view of three characters into the text of document 1, which `RemoveDocument(1)` has
erased, so the word that the key holds is read from storage that has been released.
The state accepts `AddDocument(1, "the", ...)`: the call stores the text `the` and, as
the text has no word that is no stop word, looks nothing up and leaves the key where it
is, still without a text to point into.  Nothing in the program keeps the characters
behind the key from being those of a stop word, as they are when the new text takes the
place of the erased one. -/
theorem C15_retained_key_dangles :
    LiveReach (Examples.stopCatRemoved ℝ) ∧
    (Examples.stopCatRemoved ℝ).server.stop_words_ = ["the".toList] ∧
    (Examples.stopCatRemoved ℝ).server.word_to_document_freqs_ = [("cat".toList, [])] ∧
    (Examples.stopCatRemoved ℝ).key_owner = [("cat".toList, none)] ∧
    (Examples.stopCatRemoved ℝ).server.documents_ = [] ∧
    (Examples.stopCatRemoved ℝ).Dangling "cat".toList ∧
    ((Examples.stopCatRemoved ℝ).AddDocument 1 "the".toList .ACTUAL []).1 = .ok () ∧
    (Examples.stopCatRemoved ℝ).server.nonStopWords "the".toList = [] ∧
    ((Examples.stopCatRemoved ℝ).AddDocument 1 "the".toList .ACTUAL []).2.server.documents_ =
      [(1, ⟨0, .ACTUAL, "the".toList⟩)] ∧
    ((Examples.stopCatRemoved ℝ).AddDocument 1 "the".toList .ACTUAL []).2.key_owner =
      [("cat".toList, none)] ∧
    ((Examples.stopCatRemoved ℝ).AddDocument 1 "the".toList .ACTUAL []).2.Dangling
      "cat".toList ∧
    "cat".toList.length = "the".toList.length := by
  refine ⟨?_, rfl, rfl, rfl, rfl, ⟨none, rfl, rfl⟩, rfl, rfl, rfl, rfl, ⟨none, rfl, rfl⟩, rfl⟩
  exact LiveReach.removePar _ 1
    (LiveReach.add _ 1 _ .ACTUAL [1] (LiveReach.init ["the".toList] _ rfl) (by decide) rfl)
    (by decide)

end ViewIndex



namespace SearchServer

variable {F : Type} [LinearOrderedField F]

/-- In every state, a document that the last loop of `FindAllDocuments` builds carries
the rating that `documents_` stores for its id. -/
lemma collectDocuments_rating (s : SearchServer F) (rel : OrdMap Int F) :
    ∀ (acc docs : List (Document F)),
      (∀ d ∈ acc, ∃ data, s.documents_.find d.id = some data ∧ d.rating = data.rating) →
      rel.foldlM (fun matched_documents e =>
        match s.documents_.at_ e.1 with
        | .error err => (.error err : Except Exception (List (Document F)))
        | .ok data => .ok (matched_documents ++ [(⟨e.1, e.2, data.rating⟩ : Document F)])) acc =
          .ok docs →
      ∀ d ∈ docs, ∃ data, s.documents_.find d.id = some data ∧ d.rating = data.rating := by
  induction rel with
  | nil =>
    intro acc docs hacc h d hd
    rw [List.foldlM_nil] at h
    cases h
    exact hacc d hd
  | cons e rest ih =>
    intro acc docs hacc h
    rw [List.foldlM_cons] at h
    cases hat : s.documents_.at_ e.1 with
    | error err =>
      rw [hat] at h
      cases h
    | ok data =>
      rw [hat] at h
      refine ih _ docs ?_ h
      intro d hd
      rcases List.mem_append.1 hd with hd | hd
      · exact hacc d hd
      · rw [List.mem_singleton.1 hd]
        exact ⟨data, at_ok hat, rfl⟩

/-- In every state, whatever the index holds, a document that `FindTopDocuments`
reports carries the rating that `documents_` stores for its id. -/
lemma reported_rating_any (log : F → F) (s : SearchServer F) {raw_query : Str}
    {pred : Int → DocumentStatus → Int → Bool} {top : List (Document F)}
    (h : FindTopDocuments log s raw_query pred = .ok top) {d : Document F} (hd : d ∈ top) :
    ∃ data, s.documents_.find d.id = some data ∧ d.rating = data.rating := by
  unfold FindTopDocuments at h
  cases hq : s.ParseQuery raw_query with
  | error e => rw [hq] at h; cases h
  | ok query =>
    rw [hq] at h
    simp only at h
    cases hall : FindAllDocuments log s query pred with
    | error e => rw [hall] at h; cases h
    | ok all =>
      rw [hall] at h
      cases h
      have hd' := mem_of_mem_sortAndTruncate hd
      unfold FindAllDocuments at hall
      cases hsc : query.plus_words.foldlM (scoreWord log s pred) [] with
      | error e => rw [hsc] at hall; cases hall
      | ok scored =>
        rw [hsc] at hall
        exact collectDocuments_rating s (query.minus_words.foldl (dropWord s) scored) [] all
          (fun d hd => by cases hd) hall d hd'

end SearchServer

namespace ViewIndex

open SearchServer

variable {F : Type} [LinearOrderedField F]

/-- C19.  `ComputeAverageRating` returns 0 for the empty list and otherwise the sum of
the ratings divided by their number with the quotient rounded toward zero: for a sum
that is not negative it is the floor `sum / len`, for a negative sum it is
`-((-sum) / len)`, the ceiling, not the floor.  When the sum and the number of ratings
fit in a 32-bit `int`, the computation on 32-bit `int` gives this value, even where the
running sum wraps on the way.  `AddDocument` stores the value as the rating of the
document.  In every state, every document that `FindTopDocuments` reports carries the
rating stored for its id.  And the document is reported with this rating: after an
`AddDocument` that returns, made in a state reached with live keys, every query that
parses, has a plus-term among the words of the text and no minus-term among them, with
a predicate that accepts the document, makes `FindAllDocuments` return the document
with the value of `ComputeAverageRating` as its rating, and `FindTopDocuments` returns
it as well when no more than five documents match. -/
theorem C19_ComputeAverageRating (log : F → F) (ratings : List Int) :
    ComputeAverageRating [] = 0 ∧
    (ratings ≠ [] →
      ComputeAverageRating ratings = Int.tdiv ratings.sum (ratings.length : Int) ∧
      (0 ≤ ratings.sum → ComputeAverageRating ratings = ratings.sum / (ratings.length : Int)) ∧
      (ratings.sum < 0 →
        ComputeAverageRating ratings = -((-ratings.sum) / (ratings.length : Int)))) ∧
    (ratings.length < 2147483648 → -2147483648 ≤ ratings.sum → ratings.sum < 2147483648 →
      ComputeAverageRatingInt32 ratings = ComputeAverageRating ratings) ∧
    (∀ (s s' : SearchServer F) (id : Int) (text : Str) (status : DocumentStatus),
      s.AddDocument id text status ratings = (.ok (), s') →
      ∃ data, s'.documents_.find id = some data ∧
        data.rating = ComputeAverageRating ratings) ∧
    (∀ (s : SearchServer F) (raw_query : Str)
        (document_predicate : Int → DocumentStatus → Int → Bool) (top : List (Document F)),
        FindTopDocuments log s raw_query document_predicate = .ok top →
        ∀ d ∈ top, ∃ data, s.documents_.find d.id = some data ∧ d.rating = data.rating) ∧
    (∀ (v : ViewIndex F), LiveReach v → v.KeysLive →
      ∀ (id : Int) (text : Str) (status : DocumentStatus),
        (v.AddDocument id text status ratings).1 = .ok () →
        ∀ (raw_query : Str) (query : Query)
          (document_predicate : Int → DocumentStatus → Int → Bool),
          (v.AddDocument id text status ratings).2.server.ParseQuery raw_query = .ok query →
          (∃ w ∈ query.plus_words, w ∈ SplitIntoWords text) →
          (∀ w ∈ query.minus_words, w ∉ SplitIntoWords text) →
          document_predicate id status (ComputeAverageRating ratings) = true →
          ∃ all top,
            FindAllDocuments log (v.AddDocument id text status ratings).2.server query
              document_predicate = .ok all ∧
            FindTopDocuments log (v.AddDocument id text status ratings).2.server raw_query
              document_predicate = .ok top ∧
            ∃ d ∈ all, d.id = id ∧ d.rating = ComputeAverageRating ratings ∧
              (all.length ≤ 5 → d ∈ top)) := by
  refine ⟨rfl, fun hne => ?_, fun hlen h1 h2 => ComputeAverageRatingInt32_eq hlen h1 h2,
    fun s s' id text status hadd => ?_,
    fun s raw pred top htop d hd => reported_rating_any log s htop hd,
    fun v hv hlive id text status hok raw query pred hq hplus hminus hpred => ?_⟩
  · have hpos : (0 : Int) < (ratings.length : Int) := by
      cases ratings with
      | nil => exact absurd rfl hne
      | cons a b => simp only [List.length_cons]; omega
    rw [ComputeAverageRating_eq hne]
    exact ⟨rfl, (tdiv_cases _ hpos).1, (tdiv_cases _ hpos).2⟩
  · obtain ⟨_, hdocs, _, _⟩ := AddDocument_ok_state hadd
    exact ⟨_, by rw [hdocs, OrdMap.find_assign, if_pos rfl], rfl⟩
  · have hreach : LiveReach (v.AddDocument id text status ratings).2 :=
      LiveReach.add v id text status ratings hv hlive hok
    have hinv := hreach.reachable.inv
    obtain ⟨_, hdocs, _, _⟩ := AddDocument_ok_state (AddDocument_pair hok)
    have hfind : (v.AddDocument id text status ratings).2.server.documents_.find id =
        some ⟨ComputeAverageRating ratings, status, text⟩ := by
      rw [hdocs, OrdMap.find_assign, if_pos rfl]
    have hall := FindAllDocuments_eq hinv log query pred
    have htop := FindTopDocuments_eq hinv log hq pred
    have hid : id ∈ (relevanceMap log (v.AddDocument id text status ratings).2.server query
        pred).keys :=
      (FindAllDocuments_ids hinv log (ParseQuery_ok hq) pred id).2
        ⟨_, hfind, hplus, hpred, hminus⟩
    rw [← map_id_result] at hid
    obtain ⟨d, hd, hdid⟩ := List.mem_map.1 hid
    obtain ⟨data, hdata, hrating, _⟩ := relevance_of_mem hinv log (ParseQuery_ok hq) pred hd
    rw [hdid, hfind] at hdata
    cases hdata
    exact ⟨_, _, hall, htop, d, hd, hdid, hrating, fun hlen =>
      (mem_sortAndTruncate_of_le hlen d).2 hd⟩

/-- C19 on seven rating vectors, computed on unbounded integers and on 32-bit `int`:
`[1,2,3]` gives 2, `[1,2,3,4,5]` gives 3, `[5,10,15]` gives 10, `[-5,-10,-15]` gives
-10, `[-1,-3,-5]` gives -3, `[8,-3]` gives 2 and `[-1,-2]` gives -1, where the floor of
-3/2 is -2; and on the server of `TestRating`, which stores 2, 3, 10, -10 and -3 for
the ids 1 to 5: for the query `cat in the city` `FindAllDocuments` reports the five
documents with these ratings, `FindTopDocuments` reports five documents that are the
same up to their order, and with a predicate that accepts one document only
`FindTopDocuments` reports that document with its rating.  After
`AddDocument(42, "cat in the city", ACTUAL, {1, 2, 3})` on the server with the stop
words `in the`, the query `cat` reports document 42 with the rating 2. -/
theorem C19_ComputeAverageRating_witness :
    ComputeAverageRating [1, 2, 3] = 2 ∧ ComputeAverageRatingInt32 [1, 2, 3] = 2 ∧
    ComputeAverageRating [1, 2, 3, 4, 5] = 3 ∧ ComputeAverageRatingInt32 [1, 2, 3, 4, 5] = 3 ∧
    ComputeAverageRating [5, 10, 15] = 10 ∧ ComputeAverageRatingInt32 [5, 10, 15] = 10 ∧
    ComputeAverageRating [-5, -10, -15] = -10 ∧
    ComputeAverageRatingInt32 [-5, -10, -15] = -10 ∧
    ComputeAverageRating [-1, -3, -5] = -3 ∧ ComputeAverageRatingInt32 [-1, -3, -5] = -3 ∧
    ComputeAverageRating [8, -3] = 2 ∧ ComputeAverageRatingInt32 [8, -3] = 2 ∧
    ComputeAverageRating [-1, -2] = -1 ∧ ComputeAverageRatingInt32 [-1, -2] = -1 ∧
    ((-1 + -2 : Int) / 2 = -2) ∧
    Reachable (Examples.ratingServer ℝ) ∧
    (Examples.ratingServer ℝ).documents_.map (fun e => (e.1, e.2.rating)) =
      [(1, 2), (2, 3), (3, 10), (4, -10), (5, -3)] ∧
    (∃ all top,
      FindAllDocuments Real.log (Examples.ratingServer ℝ)
        ⟨["cat".toList, "city".toList, "in".toList, "the".toList], []⟩
        (statusPredicate .ACTUAL) = .ok all ∧
      FindTopDocuments Real.log (Examples.ratingServer ℝ) "cat in the city".toList
        (statusPredicate .ACTUAL) = .ok top ∧
      all.map (fun d => (d.id, d.rating)) = [(1, 2), (2, 3), (3, 10), (4, -10), (5, -3)] ∧
      (top.map (fun d => (d.id, d.rating))).Perm
        [(1, 2), (2, 3), (3, 10), (4, -10), (5, -3)] ∧
      ∀ d ∈ top, ∃ data, (Examples.ratingServer ℝ).documents_.find d.id = some data ∧
        d.rating = data.rating) ∧
    (FindTopDocuments Real.log (Examples.ratingServer ℝ) "cat in the city".toList
      (fun document_id _ _ => decide (document_id = 4))).toOption.map
        (fun docs => docs.map (fun d => (d.id, d.rating))) = some [(4, -10)] ∧
    (FindTopDocuments Real.log (Examples.ratingServer ℝ) "cat in the city".toList
      (fun document_id _ _ => decide (document_id = 5))).toOption.map
        (fun docs => docs.map (fun d => (d.id, d.rating))) = some [(5, -3)] ∧
    LiveReach (Examples.stopIndex ℝ) ∧ (Examples.stopIndex ℝ).KeysLive ∧
    ((Examples.stopIndex ℝ).AddDocument 42 "cat in the city".toList .ACTUAL [1, 2, 3]).1 =
      .ok () ∧
    (∃ all top,
      FindAllDocuments Real.log ((Examples.stopIndex ℝ).AddDocument 42
        "cat in the city".toList .ACTUAL [1, 2, 3]).2.server ⟨["cat".toList], []⟩
        (statusPredicate .ACTUAL) = .ok all ∧
      FindTopDocuments Real.log ((Examples.stopIndex ℝ).AddDocument 42
        "cat in the city".toList .ACTUAL [1, 2, 3]).2.server "cat".toList
        (statusPredicate .ACTUAL) = .ok top ∧
      ∃ d ∈ all, d.id = 42 ∧ d.rating = 2 ∧ (all.length ≤ 5 → d ∈ top)) := by
  have h := fun l => (C19_ComputeAverageRating Real.log l).2.2.1
  have h1 := (C19_ComputeAverageRating Real.log [1, 2, 3]).2.1 (by decide)
  have h7 := (C19_ComputeAverageRating Real.log [-1, -2]).2.1 (by decide)
  have hrep := (C19_ComputeAverageRating Real.log []).2.2.2.2.1
  have hadd := (C19_ComputeAverageRating Real.log [1, 2, 3]).2.2.2.2.2 (Examples.stopIndex ℝ)
    (LiveReach.init ["in".toList, "the".toList] _ rfl) (by decide) 42 "cat in the city".toList
    .ACTUAL rfl "cat".toList ⟨["cat".toList], []⟩ (statusPredicate .ACTUAL) rfl
    ⟨"cat".toList, by decide, by decide⟩ (fun w hw => by cases hw) rfl
  have hall : FindAllDocuments Real.log (Examples.ratingServer ℝ)
      ⟨["cat".toList, "city".toList, "in".toList, "the".toList], []⟩
      (statusPredicate .ACTUAL) = .ok (((FindAllDocuments Real.log (Examples.ratingServer ℝ)
        ⟨["cat".toList, "city".toList, "in".toList, "the".toList], []⟩
        (statusPredicate .ACTUAL)).toOption).getD []) := rfl
  have htop : FindTopDocuments Real.log (Examples.ratingServer ℝ) "cat in the city".toList
      (statusPredicate .ACTUAL) = .ok (sortAndTruncate
        (((FindAllDocuments Real.log (Examples.ratingServer ℝ)
        ⟨["cat".toList, "city".toList, "in".toList, "the".toList], []⟩
        (statusPredicate .ACTUAL)).toOption).getD [])) := rfl
  refine ⟨h1.1.trans (by decide), (h _ (by decide) (by decide) (by decide)).trans (by decide),
    by decide, (h _ (by decide) (by decide) (by decide)).trans (by decide),
    by decide, (h _ (by decide) (by decide) (by decide)).trans (by decide),
    by decide, (h _ (by decide) (by decide) (by decide)).trans (by decide),
    by decide, (h _ (by decide) (by decide) (by decide)).trans (by decide),
    by decide, (h _ (by decide) (by decide) (by decide)).trans (by decide),
    (h7.2.2 (by decide)).trans (by decide),
    (h _ (by decide) (by decide) (by decide)).trans (by decide),
    by decide, Examples.ratingServer_spec.1, ?_, ⟨_, _, hall, htop, rfl, ?_,
      hrep _ _ _ _ htop⟩, rfl, rfl, LiveReach.init ["in".toList, "the".toList] _ rfl,
    by decide, rfl, hadd⟩
  · rw [Examples.ratingServer_spec.2.2]
    rfl
  · have hlen : (((FindAllDocuments Real.log (Examples.ratingServer ℝ)
        ⟨["cat".toList, "city".toList, "in".toList, "the".toList], []⟩
        (statusPredicate .ACTUAL)).toOption).getD []).length = 5 := rfl
    have hperm : (sortAndTruncate (((FindAllDocuments Real.log (Examples.ratingServer ℝ)
        ⟨["cat".toList, "city".toList, "in".toList, "the".toList], []⟩
        (statusPredicate .ACTUAL)).toOption).getD [])).Perm
        (((FindAllDocuments Real.log (Examples.ratingServer ℝ)
        ⟨["cat".toList, "city".toList, "in".toList, "the".toList], []⟩
        (statusPredicate .ACTUAL)).toOption).getD []) := by
      rw [sortAndTruncate_eq, hlen]
      show List.Perm (List.take 5 _) _
      rw [← hlen, ← stdSort_length documentBefore, List.take_length]
      exact stdSort_perm _ _
    exact hperm.map _

end ViewIndex



namespace ViewIndex

open SearchServer

variable {F : Type} [LinearOrderedField F]

/-- C25, amended.  In every state reached with live keys by calls of `AddDocument` that
return and by calls of `RemoveDocument`, every term that is a key of an entry of the
forward index, and every key of the postings that points into a stored text, has no
space and no byte with a value in 0..31, and is no stop word.  The empty string is
never a stop word, and it is a term like any other: when the keys are live and
`AddDocument` returns for a text that has an empty slice (from a leading, a trailing or
two adjacent spaces, or from the empty text), the keys stay live, the empty string is
among the tokens that are counted, it is a key of the postings that points into a
stored text, and the forward entry of the document maps every token, the empty one
included, to its number of occurrences divided by the number of tokens that counts the
empty slices, in exact arithmetic. -/
theorem C25_index_terms (v : ViewIndex F) (hv : LiveReach v) :
    (∀ w, ((∃ owner, v.key_owner.find w = some owner ∧ v.ownerStored owner = true) ∨
        ∃ id freqs, v.server.document_to_word_freqs_.find id = some freqs ∧ w ∈ freqs.keys) →
      ' ' ∉ w ∧ (∀ c ∈ w, 32 ≤ c.toNat) ∧ w ∉ v.server.stop_words_) ∧
    ([] : Str) ∉ v.server.stop_words_ ∧
    (v.KeysLive → ∀ (id : Int) (text : Str) (status : DocumentStatus) (ratings : List Int),
      (v.AddDocument id text status ratings).1 = .ok () → [] ∈ SplitIntoWords text →
      (v.AddDocument id text status ratings).2.KeysLive ∧
      [] ∈ v.server.nonStopWords text ∧
      [] ∈ (v.AddDocument id text status ratings).2.server.word_to_document_freqs_.keys ∧
      ¬ (v.AddDocument id text status ratings).2.Dangling [] ∧
      ∀ w ∈ v.server.nonStopWords text,
        ((v.AddDocument id text status ratings).2.server.GetWordFrequencies id).find w =
          some (((v.server.nonStopWords text).count w : F) /
            ((v.server.nonStopWords text).length : F))) := by
  have hold := index_terms_of_reachable v.server hv.reachable
  refine ⟨fun w hw => ?_, hold.2.1, fun hlive id text status ratings hok hsl => ?_⟩
  · apply hold.1 w
    rcases hw with ⟨owner, ho, _⟩ | hw
    · left
      rw [← OrdMap.find_isSome_iff_mem_keys, ← hv.owner_isSome w, ho]
      rfl
    · exact Or.inr hw
  · have hlive1 := KeysLive.add hlive hv.owner_WF hok
    obtain ⟨h1, h2, h3⟩ := hold.2.2 id text status ratings _ (AddDocument_pair hok) hsl
    refine ⟨hlive1, h1, h2, ?_, h3⟩
    rintro ⟨owner, ho, hst⟩
    have := hlive1 ([], owner) (OrdMap.find_some_mem ho)
    rw [hst] at this
    cases this

/-- C25 as amended, on the server of `TestMinusWords` and on `AddDocument` of the
empty text on the server with the stop words `in the`: the keys of the postings of the
first point into stored texts and have no space, and the empty text is indexed as one
empty token with the term frequency 1, under a key that is live. -/
theorem C25_index_terms_witness :
    LiveReach (Examples.minusWordsIndex ℝ) ∧
    (Examples.minusWordsIndex ℝ).key_owner =
      [("cat".toList, some 0), ("city".toList, some 0), ("dog".toList, some 1),
        ("in".toList, some 0), ("the".toList, some 0), ("village".toList, some 1)] ∧
    (∀ e ∈ (Examples.minusWordsIndex ℝ).key_owner, ' ' ∉ e.1) ∧
    LiveReach (Examples.stopIndex ℝ) ∧ (Examples.stopIndex ℝ).KeysLive ∧
    ((Examples.stopIndex ℝ).AddDocument 7 [] .ACTUAL []).1 = .ok () ∧
    ([] : Str) ∈ SplitIntoWords [] ∧
    (((Examples.stopIndex ℝ).AddDocument 7 [] .ACTUAL []).2.server.GetWordFrequencies 7).find
      [] = some 1 ∧
    ((Examples.stopIndex ℝ).AddDocument 7 [] .ACTUAL []).2.key_owner = [([], some 7)] ∧
    ¬ ((Examples.stopIndex ℝ).AddDocument 7 [] .ACTUAL []).2.Dangling [] := by
  have hreach : LiveReach (Examples.minusWordsIndex ℝ) :=
    LiveReach.add _ 1 _ .ACTUAL [1, 2, 3]
      (LiveReach.add _ 0 _ .ACTUAL [1, 2, 3] (LiveReach.init [] _ rfl) (by decide) rfl)
      (by decide) rfl
  have hlive : (Examples.minusWordsIndex ℝ).KeysLive := by decide
  have hstop : LiveReach (Examples.stopIndex ℝ) :=
    LiveReach.init ["in".toList, "the".toList] _ rfl
  have a := (C25_index_terms (Examples.minusWordsIndex ℝ) hreach).1
  have b := (C25_index_terms (Examples.stopIndex ℝ) hstop).2.2 (by decide)
    7 [] .ACTUAL [] rfl (by decide)
  refine ⟨hreach, rfl, fun e he => ?_, hstop, by decide, rfl, by decide, ?_, rfl, b.2.2.2.1⟩
  · refine (a e.1 (Or.inl ⟨e.2, ?_, hlive e he⟩)).1
    exact (OrdMap.mem_iff_find hreach.owner_WF e.1 e.2).1 he
  · rw [b.2.2.2.2 [] b.2.1]
    have : (Examples.stopIndex ℝ).server.nonStopWords [] = [[]] := by rfl
    rw [this]
    norm_num

end ViewIndex



namespace ViewIndex

open SearchServer

variable {F : Type} [LinearOrderedField F]

/-- C33 fails in the program.  Let `S` be the server without stop words after
`AddDocument(0, "beta", ...)`, a state with live keys, and `S'` the state after
`AddDocument(1, "alpha beta gamma delta epsilon", ...)` and `RemoveDocument(1)`.  On `S`
the query `beta` finds document 0, and the claim requires the same of `S'`, as it is
when the keys are compared by the characters they were inserted with.  In `S'` the postings
have five keys: `beta` points into the text of document 0, and the four keys that
`AddDocument(1, ...)` inserted point into the text of document 1, which
`RemoveDocument(1)` has erased.  A lookup in the postings of `S'` compares its word
with keys that are read from storage that has been released, so `FindTopDocuments` and
`MatchDocument` on `S'` are not determined by `S`.  The metadata, the document id set
and the forward index of `S'` are those of `S`. -/
theorem C33_round_trip_leaves_dangling_keys :
    LiveReach (Examples.betaIndex ℝ) ∧ (Examples.betaIndex ℝ).KeysLive ∧
    (0 : Int) ≤ 1 ∧ (Examples.betaIndex ℝ).server.documents_.find 1 = none ∧
    ((Examples.betaIndex ℝ).AddDocument 1 "alpha beta gamma delta epsilon".toList .ACTUAL
      [2]).1 = .ok () ∧
    LiveReach (Examples.betaRoundTrip ℝ) ∧
    (FindTopDocuments Real.log (Examples.betaIndex ℝ).server "beta".toList
      (fun _ _ _ => true)).toOption.map (fun docs => docs.map (fun d => (d.id, d.rating))) =
        some [(0, 1)] ∧
    (FindTopDocuments Real.log (Examples.betaRoundTrip ℝ).server "beta".toList
      (fun _ _ _ => true)).toOption.map (fun docs => docs.map (fun d => (d.id, d.rating))) =
        some [(0, 1)] ∧
    (Examples.betaRoundTrip ℝ).key_owner =
      [("alpha".toList, none), ("beta".toList, some 0), ("delta".toList, none),
        ("epsilon".toList, none), ("gamma".toList, none)] ∧
    (Examples.betaRoundTrip ℝ).server.documents_ = (Examples.betaIndex ℝ).server.documents_ ∧
    (Examples.betaRoundTrip ℝ).server.document_ids_ =
      (Examples.betaIndex ℝ).server.document_ids_ ∧
    (Examples.betaRoundTrip ℝ).server.document_to_word_freqs_ =
      (Examples.betaIndex ℝ).server.document_to_word_freqs_ ∧
    (Examples.betaRoundTrip ℝ).server.documents_.keys = [0] ∧
    (Examples.betaRoundTrip ℝ).Dangling "alpha".toList ∧
    (Examples.betaRoundTrip ℝ).Dangling "gamma".toList ∧
    ¬ (Examples.betaRoundTrip ℝ).KeysLive := by
  have hbeta : LiveReach (Examples.betaIndex ℝ) :=
    LiveReach.add _ 0 _ .ACTUAL [1] (LiveReach.init [] _ rfl) (by decide) rfl
  refine ⟨hbeta, by decide, by decide, rfl, rfl, ?_, rfl, rfl, rfl, rfl, rfl, rfl, rfl,
    ⟨none, rfl, rfl⟩,
    ⟨none, rfl, rfl⟩, by decide⟩
  exact LiveReach.removePar _ 1 (LiveReach.add _ 1 _ .ACTUAL [2] hbeta (by decide) rfl)
    (by decide)

end ViewIndex



namespace ViewIndex

open SearchServer

variable {F : Type} [LinearOrderedField F]

/-- C35 fails in the program.  After `AddDocument(1, "cat", ...)`,
`AddDocument(2, "cat", ...)` and `RemoveDocument(1)` on a server without stop words,
every call having been made with live keys, one document is stored and the one posting
map has one document.  Its key points into the erased text of document 1.  The state
accepts `AddDocument(3, "dog", ...)`, and `RemoveDocument(2)` then has to find the
posting map of `cat` to take document 2 out of it.  With the keys compared by the
characters they were inserted with, the two calls leave an empty posting map under
`cat` and the posting map of document 3 under `dog`, one stored document, and the
relevance 0 for the query `dog`, so the bound of the claim holds.  In the program both
calls compare their word with the key that is read from storage that has been
released: when the key no longer reads `cat`, `RemoveDocument(2)` does not find it and
document 2 stays in a posting map although it is no longer stored. -/
theorem C35_posting_outlives_document :
    LiveReach (Examples.catRemoved ℝ) ∧
    (Examples.catRemoved ℝ).server.GetDocumentCount = 1 ∧
    (Examples.catRemoved ℝ).server.word_to_document_freqs_.map (fun e => (e.1, e.2.size)) =
      [("cat".toList, 1)] ∧
    (Examples.catRemoved ℝ).Dangling "cat".toList ∧
    ((Examples.catRemoved ℝ).AddDocument 3 "dog".toList .ACTUAL [3]).1 = .ok () ∧
    (((Examples.catRemoved ℝ).AddDocument 3 "dog".toList .ACTUAL
      [3]).2.server.GetWordFrequencies 2).keys = ["cat".toList] ∧
    (((Examples.catRemoved ℝ).AddDocument 3 "dog".toList .ACTUAL
      [3]).2.RemoveDocumentPar 2).server.word_to_document_freqs_.map
        (fun e => (e.1, e.2.keys)) = [("cat".toList, []), ("dog".toList, [3])] ∧
    (((Examples.catRemoved ℝ).AddDocument 3 "dog".toList .ACTUAL
      [3]).2.RemoveDocumentPar 2).server.GetDocumentCount = 1 ∧
    (((Examples.catRemoved ℝ).AddDocument 3 "dog".toList .ACTUAL
      [3]).2.RemoveDocumentPar 2).key_owner =
        [("cat".toList, none), ("dog".toList, some 3)] := by
  refine ⟨?_, rfl, rfl, ⟨none, rfl, rfl⟩, rfl, rfl, rfl, rfl, rfl⟩
  exact LiveReach.removePar _ 1
    (LiveReach.add _ 2 _ .ACTUAL [2]
      (LiveReach.add _ 1 _ .ACTUAL [1] (LiveReach.init [] _ rfl) (by decide) rfl)
      (by decide) rfl)
    (by decide)

end ViewIndex



namespace SearchServer

variable {F : Type} [LinearOrderedField F]

/-- C36 fails as stated.  In the arithmetic of `double`, `AddDocument(1, ...)` with a
text of nine words `a` on a server without stop words returns, and the term frequency
that `GetWordFrequencies(1)` holds for `a` is the sum of nine times the double nearest
to 1/9 with every step rounded: it is 1.0000000000000002, the double above 1.0, and so
outside of (0, 1]. -/
theorem C36_term_frequency_above_one :
    (AddDocumentWith Binary64.arith ⟨[], [], [], [], []⟩ 1 "a a a a a a a a a".toList
      .ACTUAL []).1 = .ok () ∧
    ((⟨[], [], [], [], []⟩ : SearchServer Binary64).nonStopWords
      "a a a a a a a a a".toList).length = 9 ∧
    Examples.nineWords.GetWordFrequencies 1 =
      [("a".toList, .finite (0x10000000000001 <<< 1022))] ∧
    Binary64.ofNat 1 = .finite (0x10000000000000 <<< 1022) ∧
    Binary64.lt (Binary64.ofNat 1) (.finite (0x10000000000001 <<< 1022)) = true := by
  refine ⟨rfl, by decide, by decide, by decide, by decide⟩

/-- C36, amended.  After a successful `AddDocument(id, text, ...)` on a reachable state,
for a text with at least one token that is not a stop word, `GetWordFrequencies(id)` is
not empty, and in the exact arithmetic of the field every term frequency in it is
greater than 0 and at most 1, and the term frequencies add up to exactly 1; the same
holds in every reachable state for every stored document whose text has a token that
is not a stop word.  In the arithmetic of `double` every term frequency that
`AddDocument` stores for a new id and a text of fewer than `2 ^ 64` words is greater
than 0. -/
theorem C36_term_frequencies_sum (s : SearchServer F) (hs : Reachable s) (id : Int)
    (text : Str) (status : DocumentStatus) (ratings : List Int) (s' : SearchServer F)
    (hadd : s.AddDocument id text status ratings = (.ok (), s'))
    (hne : ∃ w ∈ SplitIntoWords text, s.IsStopWord w = false) :
    s'.GetWordFrequencies id ≠ [] ∧
    (∀ e ∈ s'.GetWordFrequencies id, 0 < e.2 ∧ e.2 ≤ 1) ∧
    ((s'.GetWordFrequencies id).map Prod.snd).sum = 1 ∧
    (∀ t : SearchServer F, Reachable t → ∀ (document_id : Int) (data : DocumentData),
      t.documents_.find document_id = some data →
      (∃ w ∈ SplitIntoWords data.text, t.IsStopWord w = false) →
      t.GetWordFrequencies document_id ≠ [] ∧
      (∀ e ∈ t.GetWordFrequencies document_id, 0 < e.2 ∧ e.2 ≤ 1) ∧
      ((t.GetWordFrequencies document_id).map Prod.snd).sum = 1) ∧
    (∀ d : SearchServer Binary64, d.documents_.find id = none →
      d.document_to_word_freqs_.find id = none →
      (d.nonStopWords text).length < 1 <<< 64 →
      (AddDocumentWith Binary64.arith d id text status ratings).1 = .ok () ∧
      ∀ (w : Str) (x : Binary64),
        ((AddDocumentWith Binary64.arith d id text status ratings).2.GetWordFrequencies
          id).find w = some x →
        w ∈ d.nonStopWords text ∧ Binary64.lt (.finite 0) x = true) := by
  have hgen : ∀ t : SearchServer F, Reachable t → ∀ (document_id : Int) (data : DocumentData),
      t.documents_.find document_id = some data →
      (∃ w ∈ SplitIntoWords data.text, t.IsStopWord w = false) →
      t.GetWordFrequencies document_id ≠ [] ∧
      (∀ e ∈ t.GetWordFrequencies document_id, 0 < e.2 ∧ e.2 ≤ 1) ∧
      ((t.GetWordFrequencies document_id).map Prod.snd).sum = 1 := by
    intro t ht document_id data hd hw
    have hwords : t.nonStopWords data.text ≠ [] := by
      obtain ⟨w, hw1, hw2⟩ := hw
      exact List.ne_nil_of_mem ((mem_nonStopWords t data.text w).2 ⟨hw1, hw2⟩)
    exact sum_termFreq (GetWordFrequencies_WF ht.inv document_id) hwords
      (fun w => by rw [← find2_forward_eq, ht.inv.forward_some document_id data hd w])
  obtain ⟨hstop, hdocs, _, _⟩ := AddDocument_ok_state hadd
  have hfind : s'.documents_.find id = some ⟨ComputeAverageRating ratings, status, text⟩ := by
    rw [hdocs, OrdMap.find_assign, if_pos rfl]
  have h := hgen s' (Reachable.add s id text status ratings s' hs hadd) id _ hfind (by
    obtain ⟨w, hw1, hw2⟩ := hne
    exact ⟨w, hw1, by rw [IsStopWord_congr hstop]; exact hw2⟩)
  have hiff := (AddDocument_ok_iff s id text status ratings).1 (by rw [hadd])
  refine ⟨h.1, h.2.1, h.2.2, hgen, fun d hd1 hd2 hlen => ?_⟩
  obtain ⟨hret, hf, _⟩ := AddDocumentWith_frequencies Binary64.arith d id text status ratings
    hiff.1 hd1 hiff.2.2
  refine ⟨hret, fun w x hx => ?_⟩
  rw [← find2_forward_any, hf w, OrdMap.find2_eq_none_of_find hd2 w, Option.getD_none] at hx
  split_ifs at hx with hw
  refine ⟨hw, ?_⟩
  rw [← Option.some.inj hx]
  exact storedFrequency_pos (List.count_pos_iff.2 hw) (List.length_pos_of_mem hw) hlen

/-- C36 on `AddDocument(42, "cat in the city", ...)` with the stop words `in the`: the
call returns, `cat` is no stop word, the word frequencies are stored for `cat` and
`city`, each of them lies in (0, 1], and they add up to 1.  In the arithmetic of
`double` the call stores the double 0.5 for each, which is greater than 0. -/
theorem C36_term_frequencies_sum_witness :
    Reachable (Examples.stopServer ℝ) ∧
    (Examples.stopServer ℝ).AddDocument 42 "cat in the city".toList .ACTUAL [1, 2, 3] =
      (.ok (), Examples.catServer ℝ) ∧
    (∃ w ∈ SplitIntoWords "cat in the city".toList, (Examples.stopServer ℝ).IsStopWord w = false) ∧
    ((Examples.catServer ℝ).GetWordFrequencies 42).map Prod.fst =
      ["cat".toList, "city".toList] ∧
    (∀ e ∈ (Examples.catServer ℝ).GetWordFrequencies 42, 0 < e.2 ∧ e.2 ≤ 1) ∧
    (((Examples.catServer ℝ).GetWordFrequencies 42).map Prod.snd).sum = 1 ∧
    (AddDocumentWith Binary64.arith ⟨["in".toList, "the".toList], [], [], [], []⟩ 42
      "cat in the city".toList .ACTUAL [1, 2, 3]).2.GetWordFrequencies 42 =
      [("cat".toList, .finite (1 <<< 1073)), ("city".toList, .finite (1 <<< 1073))] ∧
    (∀ (w : Str) (x : Binary64),
      ((AddDocumentWith Binary64.arith ⟨["in".toList, "the".toList], [], [], [], []⟩ 42
        "cat in the city".toList .ACTUAL [1, 2, 3]).2.GetWordFrequencies 42).find w = some x →
      w ∈ (⟨["in".toList, "the".toList], [], [], [], []⟩ : SearchServer Binary64).nonStopWords
        "cat in the city".toList ∧ Binary64.lt (.finite 0) x = true) := by
  have hadd : (Examples.stopServer ℝ).AddDocument 42 "cat in the city".toList .ACTUAL [1, 2, 3] =
      (.ok (), Examples.catServer ℝ) := by rfl
  have hne : ∃ w ∈ SplitIntoWords "cat in the city".toList,
      (Examples.stopServer ℝ).IsStopWord w = false := ⟨"cat".toList, by decide, by decide⟩
  have h := C36_term_frequencies_sum _ Examples.stopServer_reachable 42 _ .ACTUAL [1, 2, 3] _
    hadd hne
  exact ⟨Examples.stopServer_reachable, hadd, hne, by rfl, h.2.1, h.2.2.1, by decide,
    (h.2.2.2.2 ⟨["in".toList, "the".toList], [], [], [], []⟩ rfl rfl (by decide)).2⟩

end SearchServer

